import Mathlib

/-!
# DHAT (exp-dhat/dh_main.c): live-block index and allocation-point statistics

A shallow embedding of the block/AP/histogram core of `dh_main.c`.

* Machine words.  The embedding is of the 64-bit build: `Addr`, `SizeT`,
  `UWord` and `ULong` are all 64-bit unsigned words, `Long` is the 64-bit
  two's-complement integer.  Unsigned values are `Nat`s below `2^64` and every
  C addition or subtraction is written with an explicit `% 2^64`.
* Assertions.  `tl_assert` aborts the tool.  Every function that can reach a
  `tl_assert` returns an `Option`; `none` means that an assertion failed.
* Pointers.  `Block*` and `APInfo*` are represented by the record they point
  to; a write through a pointer obtained from `VG_(lookupFM)` is a
  replacement of the record stored at that node (`modifyFM`).
* Host.  The results of `VG_(cli_malloc)` and `VG_(record_ExeContext)` are
  arguments of the operation that calls them (`0` is `NULL`).
-/

namespace Dhat

/-! ## Machine arithmetic -/

/-- The modulus of a 64-bit machine word (`UWord`, `Addr`, `SizeT`, `ULong`). -/
abbrev WORD : Nat := 18446744073709551616

/-- Unsigned 64-bit addition, `a + b` in C. -/
def addU (a b : Nat) : Nat := (a + b) % WORD

/-- Unsigned 64-bit subtraction, `a - b` in C: the difference modulo `2^64`,
that is `a - b` when `b <= a` and `2^64 - (b - a)` when the subtraction wraps. -/
def subU (a b : Nat) : Nat :=
  if b % WORD ≤ a % WORD then a % WORD - b % WORD else WORD - (b % WORD - a % WORD)

/-- The cast `(Long)x` of an unsigned word (also `(SSizeT)x`). -/
def toLong (x : Nat) : Int :=
  if x % WORD < 9223372036854775808 then ((x % WORD : Nat) : Int)
  else ((x % WORD : Nat) : Int) - (WORD : Int)

/-- The conversion of a `Long` to `ULong` (the usual arithmetic conversion). -/
def ofLong (i : Int) : Nat := (i % (WORD : Int)).toNat

/-- The two's-complement result of a `Long` computation. -/
def wrapLong (i : Int) : Int := toLong (ofLong i)

/-! ## Data model -/

/-- Tracks information about live blocks (`Block`).  `ap` is the
`ExeContext*` of the allocation, `histoB` is `none` for a `NULL` histogram. -/
structure Block where
  payload : Nat
  req_szB : Nat
  ap : Nat
  allocd_at : Nat
  n_reads : Nat
  n_writes : Nat
  histoB : Option (List Nat)
deriving DecidableEq, Repr

/-- The three states of `xsize_tag`. -/
inductive XSizeTag where
  | Unknown
  | Exactly
  | Mixed
deriving DecidableEq, Repr

/-- Per allocation point statistics (`APInfo`). -/
structure APInfo where
  ap : Nat
  shown : Bool
  cur_blocks_live : Nat
  cur_bytes_live : Nat
  max_blocks_live : Nat
  max_bytes_live : Nat
  tot_blocks : Nat
  tot_bytes : Nat
  death_ages_sum : Nat
  deaths : Nat
  n_reads : Nat
  n_writes : Nat
  xsize_tag : XSizeTag
  xsize : Nat
  histo : Option (List Nat)
deriving DecidableEq, Repr

/-! ## WordFM -/

/-- Modelled from the spec: `WordFM` (pub_tool_wordfm.h, m_wordfm.c) is not
among the sources.  The spec asks for "any ordered-map/balanced-tree/skip-list
structure" searched with the comparator; the model is the sequence of
bindings in comparator order. -/
abbrev WordFM (K V : Type) := List (K × V)

/-- Modelled from the spec: `VG_(lookupFM)`, a standard ordered-map search.
The outer `none` is an assertion failure inside the comparator, the inner
`none` is "not found".  The comparator is applied to the stored key first. -/
def lookupFM {K V : Type} (kCmp : K → K → Option Int) :
    WordFM K V → K → Option (Option (K × V))
  | [], _ => some none
  | (tk, tv) :: rest, k =>
    match kCmp tk k with
    | none => none
    | some c =>
      if c > 0 then some none
      else if c < 0 then lookupFM kCmp rest k
      else some (some (tk, tv))

/-- Modelled from the spec: `VG_(addToFM)`.  Returns the new map and whether
a binding comparing equal to `k` was already present (its value is then
overwritten). -/
def addToFM {K V : Type} (kCmp : K → K → Option Int) :
    WordFM K V → K → V → Option (WordFM K V × Bool)
  | [], k, v => some ([(k, v)], false)
  | (tk, tv) :: rest, k, v =>
    match kCmp tk k with
    | none => none
    | some c =>
      if c > 0 then some ((k, v) :: (tk, tv) :: rest, false)
      else if c < 0 then
        match addToFM kCmp rest k v with
        | none => none
        | some (r, present) => some ((tk, tv) :: r, present)
      else some ((tk, v) :: rest, true)

/-- Modelled from the spec: `VG_(delFromFM)`.  Returns the new map and
whether a binding comparing equal to `k` was found (and removed). -/
def delFromFM {K V : Type} (kCmp : K → K → Option Int) :
    WordFM K V → K → Option (WordFM K V × Bool)
  | [], _ => some ([], false)
  | (tk, tv) :: rest, k =>
    match kCmp tk k with
    | none => none
    | some c =>
      if c > 0 then some ((tk, tv) :: rest, false)
      else if c < 0 then
        match delFromFM kCmp rest k with
        | none => none
        | some (r, found) => some ((tk, tv) :: r, found)
      else some (rest, true)

/-- A write through the pointers that `VG_(lookupFM)` returned: the binding
at the node where the search for `k` stops is replaced by `f` of it.  The map
is unchanged when the search finds nothing. -/
def modifyFM {K V : Type} (kCmp : K → K → Option Int) :
    WordFM K V → K → (K × V → K × V) → WordFM K V
  | [], _, _ => []
  | (tk, tv) :: rest, k, f =>
    match kCmp tk k with
    | none => (tk, tv) :: rest
    | some c =>
      if c > 0 then (tk, tv) :: rest
      else if c < 0 then (tk, tv) :: modifyFM kCmp rest k f
      else f (tk, tv) :: rest

/-- Modelled from the spec: the unboxed comparison `WordFM` uses when it is
created with a `NULL` comparator (the `apinfo` map). -/
def cmp_unsigned_Words (w1 w2 : Nat) : Option Int :=
  if w1 < w2 then some (-1) else if w1 > w2 then some 1 else some 0

/-! ## The interval tree of live blocks -/

/-- The comparison function of the interval tree: any overlap is a match.
`none` when one of the two `tl_assert(req_szB > 0)` fails. -/
def interval_tree_Cmp (b1 b2 : Block) : Option Int :=
  if b1.req_szB = 0 then none
  else if b2.req_szB = 0 then none
  else if addU b1.payload b1.req_szB ≤ b2.payload then some (-1)
  else if addU b2.payload b2.req_szB ≤ b1.payload then some 1
  else some 0

/-- The local `Block fake` of `find_Block_containing` and
`delete_Block_starting_at`: only `payload` and `req_szB` are set (and read). -/
def fake_Block (a : Nat) : Block :=
  { payload := a, req_szB := 1, ap := 0, allocd_at := 0,
    n_reads := 0, n_writes := 0, histoB := none }

/-- The block found by `find_Block_containing`: outer `none` is an assertion
failure, inner `none` is `NULL`.  The tree stores no values (`Unit`), so
`tl_assert(foundval == 0)` holds by construction. -/
def find_Block_containing (tree : WordFM Block Unit) (a : Nat) :
    Option (Option Block) :=
  match lookupFM interval_tree_Cmp tree (fake_Block a) with
  | none => none
  | some none => some none
  | some (some (foundkey, _)) => some (some foundkey)

/-- Deletes the block found at `a`; `none` when an assertion fails, in
particular `tl_assert(found)`. -/
def delete_Block_starting_at (tree : WordFM Block Unit) (a : Nat) :
    Option (WordFM Block Unit) :=
  match delFromFM interval_tree_Cmp tree (fake_Block a) with
  | none => none
  | some (tree1, found) => if found then some tree1 else none

/-! ## Global state -/

/-- The globals of `dh_main.c`. -/
structure State where
  g_guest_instrs_executed : Nat
  g_tot_blocks : Nat
  g_tot_bytes : Nat
  g_cur_blocks_live : Nat
  g_cur_bytes_live : Nat
  g_max_blocks_live : Nat
  g_max_bytes_live : Nat
  interval_tree : WordFM Block Unit
  apinfo : WordFM Nat APInfo
deriving DecidableEq, Repr

/-- The state after `dh_pre_clo_init`: zeroed globals and two empty maps. -/
def init_State : State :=
  { g_guest_instrs_executed := 0, g_tot_blocks := 0, g_tot_bytes := 0,
    g_cur_blocks_live := 0, g_cur_bytes_live := 0,
    g_max_blocks_live := 0, g_max_bytes_live := 0,
    interval_tree := [], apinfo := [] }

/-! ## The map of allocation points -/

/-- The record `intro_Block` creates for an allocation point it has not seen:
`memset` to zero, then `ap`, `xsize_tag = Unknown`, `xsize = 0`. -/
def new_APInfo (ap : Nat) : APInfo :=
  { ap := ap, shown := false, cur_blocks_live := 0, cur_bytes_live := 0,
    max_blocks_live := 0, max_bytes_live := 0, tot_blocks := 0, tot_bytes := 0,
    death_ages_sum := 0, deaths := 0, n_reads := 0, n_writes := 0,
    xsize_tag := XSizeTag.Unknown, xsize := 0, histo := none }

/-- The part of `intro_Block` headed "update stats to reflect an allocation",
on the APInfo. -/
def intro_APInfo (api : APInfo) (req_szB : Nat) : APInfo :=
  let cur_blocks := addU api.cur_blocks_live 1
  let cur_bytes := addU api.cur_bytes_live req_szB
  { api with
    cur_blocks_live := cur_blocks
    cur_bytes_live := cur_bytes
    max_bytes_live := if cur_bytes > api.max_bytes_live then cur_bytes else api.max_bytes_live
    max_blocks_live := if cur_bytes > api.max_bytes_live then cur_blocks else api.max_blocks_live
    tot_blocks := addU api.tot_blocks 1
    tot_bytes := addU api.tot_bytes req_szB }

/-- The part of `intro_Block` headed "update summary globals". -/
def intro_globals (s : State) (req_szB : Nat) : State :=
  let cur_blocks := addU s.g_cur_blocks_live 1
  let cur_bytes := addU s.g_cur_bytes_live req_szB
  { s with
    g_tot_blocks := addU s.g_tot_blocks 1
    g_tot_bytes := addU s.g_tot_bytes req_szB
    g_cur_blocks_live := cur_blocks
    g_cur_bytes_live := cur_bytes
    g_max_bytes_live := if cur_bytes > s.g_max_bytes_live then cur_bytes else s.g_max_bytes_live
    g_max_blocks_live := if cur_bytes > s.g_max_bytes_live then cur_blocks else s.g_max_blocks_live }

/-- The lookup-or-create step of `intro_Block`: the APInfo for `ap` and the
map that holds it. -/
def intro_lookup (fm : WordFM Nat APInfo) (ap : Nat) :
    Option (APInfo × WordFM Nat APInfo) :=
  match lookupFM cmp_unsigned_Words fm ap with
  | none => none
  | some (some (keyW, api)) => if keyW = ap then some (api, fm) else none
  | some none =>
    match addToFM cmp_unsigned_Words fm ap (new_APInfo ap) with
    | none => none
    | some (fm1, present) => if present then none else some (new_APInfo ap, fm1)

/-- The block `bk` is being introduced (has just been allocated). -/
def intro_Block (s : State) (bk : Block) : Option State :=
  if bk.ap = 0 then none
  else
    match intro_lookup s.apinfo bk.ap with
    | none => none
    | some (api, fm) =>
      if api.ap ≠ bk.ap then none
      else
        some (intro_globals
          { s with apinfo := modifyFM cmp_unsigned_Words fm bk.ap
                     (fun kv => (kv.1, intro_APInfo api bk.req_szB)) }
          bk.req_szB)

/-- The loop `for (i = 0; i < xsize; i++) histo[i] += (UInt)histoB[i]` of
`retire_Block`, with `n` iterations left; `UInt` is 32 bits wide. -/
def fold_histo : Nat → Nat → List Nat → List Nat → List Nat
  | 0, _, histo, _ => histo
  | n + 1, i, histo, histoB =>
    fold_histo n (i + 1)
      (histo.set i ((histo.getD i 0 + histoB.getD i 0) % 4294967296)) histoB

/-- The counters part of `retire_Block` on the APInfo (the assertions are
in `retire_Block`). -/
def retire_APInfo_stats (api : APInfo) (bk : Block) (clock : Nat) : APInfo :=
  { api with
    cur_blocks_live := subU api.cur_blocks_live 1
    cur_bytes_live := subU api.cur_bytes_live bk.req_szB
    deaths := addU api.deaths 1
    death_ages_sum := addU api.death_ages_sum (subU clock bk.allocd_at)
    n_reads := addU api.n_reads bk.n_reads
    n_writes := addU api.n_writes bk.n_writes }

/-- The `switch (api->xsize_tag)` of `retire_Block`: the state transitions
for `xsize`/`xsize_tag`.  `none` when one of its assertions fails. -/
def retire_xsize (api : APInfo) (bk : Block) : Option APInfo :=
  match api.xsize_tag with
  | XSizeTag.Unknown =>
    if api.xsize ≠ 0 then none
    else if api.deaths ≠ 1 then none
    else if api.histo.isSome then none
    else
      some { api with
        xsize_tag := XSizeTag.Exactly
        xsize := bk.req_szB
        histo := if bk.histoB.isSome then some (List.replicate bk.req_szB 0) else none }
  | XSizeTag.Exactly =>
    if ¬ (api.deaths > 1) then none
    else if bk.req_szB ≠ api.xsize then
      some { api with xsize_tag := XSizeTag.Mixed, xsize := 0, histo := none }
    else some api
  | XSizeTag.Mixed =>
    if ¬ (api.deaths > 1) then none else some api

/-- The last part of `retire_Block`: fold the histogram of the block into
the one of the AP, when both exist and the tag is `Exactly`. -/
def retire_fold (api : APInfo) (bk : Block) : Option APInfo :=
  match api.xsize_tag, api.histo, bk.histoB with
  | XSizeTag.Exactly, some histo, some histoB =>
    if api.xsize ≠ bk.req_szB then none
    else some { api with histo := some (fold_histo api.xsize 0 histo histoB) }
  | _, _, _ => some api

/-- The block `bk` is retiring (being freed). -/
def retire_Block (s : State) (bk : Block) : Option State :=
  if bk.ap = 0 then none
  else
    match lookupFM cmp_unsigned_Words s.apinfo bk.ap with
    | none => none
    | some none => none
    | some (some (_, api)) =>
      if api.ap ≠ bk.ap then none
      else if ¬ (api.cur_blocks_live ≥ 1) then none
      else if ¬ (api.cur_bytes_live ≥ bk.req_szB) then none
      else if ¬ (bk.allocd_at ≤ s.g_guest_instrs_executed) then none
      else if ¬ (s.g_cur_blocks_live > 0) then none
      else if ¬ (s.g_cur_bytes_live ≥ bk.req_szB) then none
      else
        match retire_xsize (retire_APInfo_stats api bk s.g_guest_instrs_executed) bk with
        | none => none
        | some api1 =>
          match retire_fold api1 bk with
          | none => none
          | some api2 =>
            some { s with
              apinfo := modifyFM cmp_unsigned_Words s.apinfo bk.ap (fun kv => (kv.1, api2))
              g_cur_blocks_live := subU s.g_cur_blocks_live 1
              g_cur_bytes_live := subU s.g_cur_bytes_live bk.req_szB }

/-- The update of the APInfo in `apinfo_change_cur_bytes_live`. -/
def change_APInfo (api : APInfo) (delta : Int) : APInfo :=
  let cur_bytes := addU api.cur_bytes_live (ofLong delta)
  { api with
    cur_bytes_live := cur_bytes
    max_bytes_live :=
      if delta > 0 ∧ cur_bytes > api.max_bytes_live then cur_bytes else api.max_bytes_live
    max_blocks_live :=
      if delta > 0 ∧ cur_bytes > api.max_bytes_live then api.cur_blocks_live
      else api.max_blocks_live
    tot_bytes := if delta > 0 then addU api.tot_bytes (ofLong delta) else api.tot_bytes }

/-- This handles block resizing: a block with AP `ec` has a size change of
`delta` (a `Long`). -/
def apinfo_change_cur_bytes_live (s : State) (ec : Nat) (delta : Int) : Option State :=
  match lookupFM cmp_unsigned_Words s.apinfo ec with
  | none => none
  | some none => none
  | some (some (_, api)) =>
    if api.ap ≠ ec then none
    else if delta < 0 ∧ ¬ (api.cur_bytes_live ≥ ofLong (-delta)) then none
    else if delta < 0 ∧ ¬ (s.g_cur_bytes_live ≥ ofLong (-delta)) then none
    else
      let g_cur := addU s.g_cur_bytes_live (ofLong delta)
      some { s with
        apinfo := modifyFM cmp_unsigned_Words s.apinfo ec
                    (fun kv => (kv.1, change_APInfo api delta))
        g_cur_bytes_live := g_cur
        g_max_bytes_live :=
          if delta > 0 ∧ g_cur > s.g_max_bytes_live then g_cur else s.g_max_bytes_live
        g_max_blocks_live :=
          if delta > 0 ∧ g_cur > s.g_max_bytes_live then s.g_cur_blocks_live
          else s.g_max_blocks_live }

/-! ## Update both Block and APInfos after {m,re}alloc/free -/

/-- The constant `HISTOGRAM_SIZE_LIMIT`. -/
def HISTOGRAM_SIZE_LIMIT : Nat := 4096

/-- The Block that `new_block` builds for storage `p` of `req_szB` bytes,
allocated from context `ec` at time `clock`. -/
def mk_Block (p req_szB ec clock : Nat) : Block :=
  { payload := p, req_szB := req_szB, ap := ec, allocd_at := clock,
    n_reads := 0, n_writes := 0,
    histoB := if req_szB ≤ HISTOGRAM_SIZE_LIMIT then some (List.replicate req_szB 0)
              else none }

/-- The function `new_block`.  `ec` is what `VG_(record_ExeContext)` returns
for the calling thread and `host_p` what `VG_(cli_malloc)` returns (`0` for
`NULL`).  The result is the returned pointer and the new state.  The
alignment and the zeroing only concern the client memory, which is not
modelled; the usable size (`slop_szB`) is computed but never used. -/
def new_block (s : State) (ec host_p : Nat) (p req_szB : Nat) : Option (Nat × State) :=
  if p ≠ 0 then none
  else if toLong req_szB < 0 then some (0, s)
  else
    let req_szB := if req_szB = 0 then 1 else req_szB
    if host_p = 0 then some (0, s)
    else
      let bk := mk_Block host_p req_szB ec s.g_guest_instrs_executed
      match addToFM interval_tree_Cmp s.interval_tree bk () with
      | none => none
      | some (tree, present) =>
        if present then none
        else
          match intro_Block { s with interval_tree := tree } bk with
          | none => none
          | some s1 => some (host_p, s1)

/-- The function `die_block`. -/
def die_block (s : State) (p : Nat) (custom_free : Bool) : Option State :=
  if custom_free then none
  else
    match find_Block_containing s.interval_tree p with
    | none => none
    | some none => some s
    | some (some bk) =>
      if ¬ (bk.req_szB > 0) then none
      else if ¬ (bk.payload ≤ p) then none
      else if ¬ (p < addU bk.payload bk.req_szB) then none
      else if bk.payload ≠ p then some s
      else
        match retire_Block s bk with
        | none => none
        | some s1 =>
          match delete_Block_starting_at s1.interval_tree bk.payload with
          | none => none
          | some tree => some { s1 with interval_tree := tree }

/-- The function `renew_block`.  `host_p` is what `VG_(cli_malloc)` returns
if it is called (`0` for `NULL`).  The result is the returned pointer and
the new state. -/
def renew_block (s : State) (host_p : Nat) (p_old new_req_szB : Nat) :
    Option (Nat × State) :=
  if ¬ (new_req_szB > 0) then none
  else
    match find_Block_containing s.interval_tree p_old with
    | none => none
    | some none => some (0, s)
    | some (some bk) =>
      if ¬ (bk.req_szB > 0) then none
      else if ¬ (bk.payload ≤ p_old) then none
      else if ¬ (p_old < addU bk.payload bk.req_szB) then none
      else if bk.payload ≠ p_old then some (0, s)
      else
        -- throw the histogram away
        let bk1 : Block := { bk with histoB := none }
        let s1 : State :=
          { s with interval_tree :=
              (modifyFM interval_tree_Cmp s.interval_tree (fake_Block p_old)
                (fun _ => (bk1, ()))) }
        let delta := wrapLong (toLong new_req_szB - toLong bk1.req_szB)
        if new_req_szB ≤ bk1.req_szB then
          -- new size is smaller or same; block not moved
          match apinfo_change_cur_bytes_live s1 bk1.ap delta with
          | none => none
          | some s2 =>
            some (p_old,
              { s2 with interval_tree :=
                  (modifyFM interval_tree_Cmp s2.interval_tree (fake_Block p_old)
                    (fun _ => ({ bk1 with req_szB := new_req_szB }, ()))) })
        else
          -- new size is bigger; make new block, free old
          if host_p = 0 then some (0, s1)
          else if ¬ (host_p ≠ p_old) then none
          else
            match delete_Block_starting_at s1.interval_tree p_old with
            | none => none
            | some tree =>
              match apinfo_change_cur_bytes_live { s1 with interval_tree := tree }
                      bk1.ap delta with
              | none => none
              | some s2 =>
                let bk2 : Block := { bk1 with payload := host_p, req_szB := new_req_szB }
                match addToFM interval_tree_Cmp s2.interval_tree bk2 () with
                | none => none
                | some (tree2, present) =>
                  if present then none
                  else some (host_p, { s2 with interval_tree := tree2 })

/-! ## malloc() et al replacement wrappers -/

/-- The wrapper `dh_malloc` (and `dh___builtin_new`, `dh___builtin_vec_new`,
`dh_memalign`, which differ only in the alignment). -/
def dh_malloc (s : State) (ec host_p szB : Nat) : Option (Nat × State) :=
  new_block s ec host_p 0 szB

/-- The wrapper `dh_calloc`; `m*szB` is a `SizeT` product. -/
def dh_calloc (s : State) (ec host_p m szB : Nat) : Option (Nat × State) :=
  new_block s ec host_p 0 ((m * szB) % WORD)

/-- The wrapper `dh_free` (and `dh___builtin_delete`,
`dh___builtin_vec_delete`). -/
def dh_free (s : State) (p : Nat) : Option State :=
  die_block s p false

/-- The wrapper `dh_realloc`; the result is the returned pointer and the new
state. -/
def dh_realloc (s : State) (ec host_p p_old new_szB : Nat) : Option (Nat × State) :=
  if p_old = 0 then dh_malloc s ec host_p new_szB
  else if new_szB = 0 then
    match dh_free s p_old with
    | none => none
    | some s1 => some (0, s1)
  else renew_block s host_p p_old new_szB

/-! ## Memory references -/

/-- The loop `for (i = offMin; i < offMax1; i++)` of `inc_histo_for_block`
with `n` iterations left: each counter goes up by one and latches at 255. -/
def inc_histo_loop : Nat → Nat → List Nat → List Nat
  | 0, _, histoB => histoB
  | n + 1, i, histoB =>
    inc_histo_loop n (i + 1)
      (histoB.set i (if histoB.getD i 0 < 255 then histoB.getD i 0 + 1 else histoB.getD i 0))

/-- The function `inc_histo_for_block`; `none` when `tl_assert(offMin <
bk->req_szB)` fails (or a `NULL` histogram would be written). -/
def inc_histo_for_block (bk : Block) (addr szB : Nat) : Option Block :=
  let offMin := subU addr bk.payload
  if ¬ (offMin < bk.req_szB) then none
  else
    let offMax1 := addU offMin szB
    let offMax1 := if offMax1 > bk.req_szB then bk.req_szB else offMax1
    match bk.histoB with
    | none => if offMax1 - offMin = 0 then some bk else none
    | some histoB =>
      some { bk with histoB := some (inc_histo_loop (offMax1 - offMin) offMin histoB) }

/-- The function `dh_handle_write`. -/
def dh_handle_write (s : State) (addr szB : Nat) : Option State :=
  match find_Block_containing s.interval_tree addr with
  | none => none
  | some none => some s
  | some (some bk) =>
    let bk1 : Block := { bk with n_writes := addU bk.n_writes szB }
    match (if bk1.histoB.isSome then inc_histo_for_block bk1 addr szB else some bk1) with
    | none => none
    | some bk2 =>
      some { s with interval_tree :=
               (modifyFM interval_tree_Cmp s.interval_tree (fake_Block addr)
                 (fun _ => (bk2, ()))) }

/-- The function `dh_handle_read`. -/
def dh_handle_read (s : State) (addr szB : Nat) : Option State :=
  match find_Block_containing s.interval_tree addr with
  | none => none
  | some none => some s
  | some (some bk) =>
    let bk1 : Block := { bk with n_reads := addU bk.n_reads szB }
    match (if bk1.histoB.isSome then inc_histo_for_block bk1 addr szB else some bk1) with
    | none => none
    | some bk2 =>
      some { s with interval_tree :=
               (modifyFM interval_tree_Cmp s.interval_tree (fake_Block addr)
                 (fun _ => (bk2, ()))) }

/-! ## Event streams -/

/-- The enumeration `CorePart` of `include/tool.h`, with
`Vg_CoreSysCallArgInMem`, which `dh_main.c` names and that header does not
list. -/
inductive CorePart where
  | Vg_CoreStartup
  | Vg_CorePThread
  | Vg_CoreSignal
  | Vg_CoreSysCall
  | Vg_CoreSysCallArgInMem
  | Vg_CoreTranslate
  | Vg_CoreClientReq
deriving DecidableEq, Repr

/-- The hook `dh_handle_noninsn_read`: reads by syscalls; `none` is
`tl_assert(0)`. -/
def dh_handle_noninsn_read (part : CorePart) (s : State) (base size : Nat) : Option State :=
  match part with
  | CorePart.Vg_CoreSysCall => dh_handle_read s base size
  | CorePart.Vg_CoreSysCallArgInMem => some s
  | CorePart.Vg_CoreTranslate => some s
  | _ => none

/-- The hook `dh_handle_noninsn_write`: writes by syscalls; `none` is
`tl_assert(0)`. -/
def dh_handle_noninsn_write (part : CorePart) (s : State) (base size : Nat) : Option State :=
  match part with
  | CorePart.Vg_CoreSysCall => dh_handle_write s base size
  | CorePart.Vg_CoreSignal => some s
  | _ => none

/-! ## Results presentation -/

/-- The assertions of `show_APInfo` (what it prints is not modelled). -/
def show_APInfo (api : APInfo) : Option Unit :=
  if ¬ (api.tot_blocks ≥ api.max_blocks_live) then none
  else if ¬ (api.tot_bytes ≥ api.max_bytes_live) then none
  else some ()

/-- The metric `get_metric__max_bytes_live`. -/
def get_metric__max_bytes_live (api : APInfo) : Nat := api.max_bytes_live

/-- The metric `get_metric__tot_bytes`. -/
def get_metric__tot_bytes (api : APInfo) : Nat := api.tot_bytes

/-- The metric `get_metric__max_blocks_live`. -/
def get_metric__max_blocks_live (api : APInfo) : Nat := api.max_blocks_live

/-- The first loop of `show_topN_apinfos`, "Clear all .shown bits"; `none`
when `tl_assert(api && api->ap == (ExeContext*)keyW)` fails. -/
def clear_shown : WordFM Nat APInfo → Option (WordFM Nat APInfo)
  | [] => some []
  | (k, api) :: rest =>
    if api.ap ≠ k then none
    else
      match clear_shown rest with
      | none => none
      | some r => some ((k, { api with shown := false }) :: r)

/-- The inner loop of `show_topN_apinfos`, one complete scan of the map:
`i` is the position of the next binding, `best_metric` and `best_api` (a
position in the map) are the locals of the same name.  The result is the
final `best_api`. -/
def scan_best (get_metric : APInfo → Nat) (increasing : Bool) :
    WordFM Nat APInfo → Nat → Nat → Option Nat → Option Nat
  | [], _, _, best_api => best_api
  | (_, api) :: rest, i, best_metric, best_api =>
    if api.shown then scan_best get_metric increasing rest (i + 1) best_metric best_api
    else
      if (if increasing then get_metric api < best_metric else get_metric api > best_metric)
      then scan_best get_metric increasing rest (i + 1) (get_metric api) (some i)
      else scan_best get_metric increasing rest (i + 1) best_metric best_api

/-- The loop `for (i = 0; i < N; i++)` of `show_topN_apinfos`, with `n`
iterations left.  The result is the list of the positions (in the map) of
the records that were shown, in the order they were shown, and the map with
the `shown` bits that were set; `none` when an assertion of `show_APInfo`
fails. -/
def show_loop (get_metric : APInfo → Nat) (increasing : Bool) :
    Nat → WordFM Nat APInfo → Option (List Nat × WordFM Nat APInfo)
  | 0, fm => some ([], fm)
  | n + 1, fm =>
    match scan_best get_metric increasing fm 0
        (if increasing then WORD - 1 else 0) none with
    | none => some ([], fm)
    | some i =>
      match fm[i]? with
      | none => none
      | some (k, api) =>
        match show_APInfo api with
        | none => none
        | some _ =>
          match show_loop get_metric increasing n (fm.set i (k, { api with shown := true })) with
          | none => none
          | some (shown, fm1) => some (i :: shown, fm1)

/-- The function `show_topN_apinfos` on the map `apinfo`, with the number of
entries `N` as a parameter (the code has `const Int N = 50000`). -/
def show_topN_apinfos (get_metric : APInfo → Nat) (increasing : Bool) (N : Nat)
    (fm : WordFM Nat APInfo) : Option (List Nat × WordFM Nat APInfo) :=
  match clear_shown fm with
  | none => none
  | some fm1 => show_loop get_metric increasing N fm1

/-- The metric of the record at position `i` of the map (0 past the end). -/
def metric_at (get_metric : APInfo → Nat) (fm : WordFM Nat APInfo) (i : Nat) : Nat :=
  match fm[i]? with
  | some kv => get_metric kv.2
  | none => 0

/-- One call from the host into the tool.  `alloc ec host_p szB` is
`new_block` for `szB` bytes from call site `ec`, the host allocator
answering `host_p`; `free p` is `die_block`; `resize host_p p szB` is
`renew_block`; `tick n` is the generated code adding `n` to
`g_guest_instrs_executed`. -/
inductive Event where
  | alloc (ec host_p szB : Nat)
  | free (p : Nat)
  | resize (host_p p szB : Nat)
  | read (addr szB : Nat)
  | write (addr szB : Nat)
  | tick (n : Nat)
deriving DecidableEq, Repr

/-- The effect of one event on the state; `none` when an assertion fails. -/
def step (s : State) : Event → Option State
  | Event.alloc ec host_p szB => (new_block s ec host_p 0 szB).map Prod.snd
  | Event.free p => die_block s p false
  | Event.resize host_p p szB => (renew_block s host_p p szB).map Prod.snd
  | Event.read addr szB => dh_handle_read s addr szB
  | Event.write addr szB => dh_handle_write s addr szB
  | Event.tick n =>
    some { s with g_guest_instrs_executed := addU s.g_guest_instrs_executed n }

/-- The effect of a stream of events. -/
def run (s : State) : List Event → Option State
  | [] => some s
  | e :: es =>
    match step s e with
    | none => none
    | some s1 => run s1 es

/-- The APInfo that `VG_(lookupFM)` finds for `ap` in the map, if any. -/
def lookup_site (fm : WordFM Nat APInfo) (ap : Nat) : Option APInfo :=
  match lookupFM cmp_unsigned_Words fm ap with
  | some (some (_, api)) => some api
  | _ => none

/-- The APInfo recorded for allocation point `ap`, if there is one. -/
def site (s : State) (ap : Nat) : Option APInfo := lookup_site s.apinfo ap

/-- The blocks currently in the interval tree. -/
def live_blocks (s : State) : List Block := s.interval_tree.map Prod.fst

/-! ## Predicates used in the statements -/

/-- The search for `k` in `l1 ++ x :: l2` passes every binding of `l1`
(stored key below `k`) and stops at `x` (stored key matches `k`). -/
def FoundAt {K V : Type} (kCmp : K → K → Option Int) (l1 : WordFM K V) (x : K × V)
    (k : K) : Prop :=
  (∀ y ∈ l1, ∃ c, kCmp y.1 k = some c ∧ c < 0) ∧ kCmp x.1 k = some 0

/-- The address ranges `[payload, payload + req_szB)` of the two blocks
intersect. -/
def overlaps (b1 b2 : Block) : Prop :=
  b1.payload < b2.payload + b2.req_szB ∧ b2.payload < b1.payload + b1.req_szB

instance (b1 b2 : Block) : Decidable (overlaps b1 b2) :=
  inferInstanceAs (Decidable (_ ∧ _))

/-- No two blocks in the interval tree have overlapping address ranges. -/
def NoOverlap (t : WordFM Block Unit) : Prop :=
  t.Pairwise (fun x y => ¬ overlaps x.1 y.1)

instance (t : WordFM Block Unit) : Decidable (NoOverlap t) :=
  inferInstanceAs (Decidable (List.Pairwise _ t))

/-- The storage `[p, p + szB)` is disjoint from every block in the tree. -/
def host_disjoint (t : WordFM Block Unit) (p szB : Nat) : Prop :=
  ∀ x ∈ t, ¬ (p < x.1.payload + x.1.req_szB ∧ x.1.payload < p + szB)

instance (t : WordFM Block Unit) (p szB : Nat) : Decidable (host_disjoint t p szB) :=
  inferInstanceAs (Decidable (∀ x ∈ t, _))

/-- The assumption on the host allocator for one event: storage it returns
(`host_p` other than `NULL`) for the requested size (a request for 0 bytes is
a request for 1) is disjoint from every block that is live at the call. -/
def HostOK (s : State) : Event → Prop
  | Event.alloc _ host_p szB =>
    host_p ≠ 0 → host_disjoint s.interval_tree host_p (if szB = 0 then 1 else szB)
  | Event.resize host_p _ szB =>
    host_p ≠ 0 → host_disjoint s.interval_tree host_p szB
  | _ => True

/-- The assumption on the host allocator along a stream of events. -/
def HostOKrun : State → List Event → Prop
  | _, [] => True
  | s, e :: es =>
    HostOK s e ∧
      match step s e with
      | none => True
      | some s1 => HostOKrun s1 es

instance (s : State) (e : Event) : Decidable (HostOK s e) := by
  cases e <;> unfold HostOK <;> infer_instance

instance instDecidableHostOKrun : (s : State) → (evs : List Event) →
    Decidable (HostOKrun s evs)
  | _, [] => isTrue trivial
  | s, e :: es =>
    match h : step s e with
    | none => decidable_of_iff (HostOK s e) (by simp [HostOKrun, h])
    | some s1 =>
      have := instDecidableHostOKrun s1 es
      decidable_of_iff (HostOK s e ∧ HostOKrun s1 es) (by simp [HostOKrun, h])

/-- A second assumption on the host allocator for one event: the storage it
is asked for ends below the top of the address space (`host_p + szB` is a
machine word). -/
def HostBelowTop : Event → Prop
  | Event.alloc _ host_p szB => host_p + (if szB = 0 then 1 else szB) < WORD
  | Event.resize host_p _ szB => host_p + szB < WORD
  | _ => True

instance (e : Event) : Decidable (HostBelowTop e) := by
  cases e <;> unfold HostBelowTop <;> infer_instance

/-- A third assumption on the host allocator for one event: the storage it
returns (`host_p` other than `NULL`) lies within the address space
(`host_p + szB` is at most `2^64`; a request for 0 bytes is a request for
1). -/
def HostInSpace : Event → Prop
  | Event.alloc _ host_p szB => host_p ≠ 0 → host_p + (if szB = 0 then 1 else szB) ≤ WORD
  | Event.resize host_p _ szB => host_p ≠ 0 → host_p + szB ≤ WORD
  | _ => True

instance (e : Event) : Decidable (HostInSpace e) := by
  cases e <;> unfold HostInSpace <;> infer_instance

/-- The address `a` lies in the range `[payload, payload + req_szB)` of `b`. -/
def contains_addr (b : Block) (a : Nat) : Prop :=
  b.payload ≤ a ∧ a < b.payload + b.req_szB

instance (b : Block) (a : Nat) : Decidable (contains_addr b a) :=
  inferInstanceAs (Decidable (_ ∧ _))

/-- The bindings of the tree are in address order (the key order of the map). -/
def AddrOrdered (t : WordFM Block Unit) : Prop :=
  t.Pairwise (fun x y => x.1.payload < y.1.payload)

instance (t : WordFM Block Unit) : Decidable (AddrOrdered t) :=
  inferInstanceAs (Decidable (List.Pairwise _ t))

/-- Every block of the tree has a non-zero size. -/
def NonEmptyBlocks (t : WordFM Block Unit) : Prop :=
  ∀ x ∈ t, 0 < x.1.req_szB

instance (t : WordFM Block Unit) : Decidable (NonEmptyBlocks t) :=
  inferInstanceAs (Decidable (∀ x ∈ t, _))

/-- Every block of the tree ends below the top of the address space: the
end address `payload + req_szB` is a machine word. -/
def NoWrap (t : WordFM Block Unit) : Prop :=
  ∀ x ∈ t, x.1.payload + x.1.req_szB < WORD

instance (t : WordFM Block Unit) : Decidable (NoWrap t) :=
  inferInstanceAs (Decidable (∀ x ∈ t, _))

/-- The interval tree is well formed: its bindings are in address order, no
block is empty, no two blocks overlap and every block ends below the top of
the address space. -/
def WellFormed (t : WordFM Block Unit) : Prop :=
  AddrOrdered t ∧ NonEmptyBlocks t ∧ NoOverlap t ∧ NoWrap t

instance (t : WordFM Block Unit) : Decidable (WellFormed t) :=
  inferInstanceAs (Decidable (_ ∧ _ ∧ _ ∧ _))

/-- A block that occupies the last byte of the address space. -/
def top_byte_Block : Block :=
  { payload := 18446744073709551615, req_szB := 1, ap := 7, allocd_at := 0,
    n_reads := 0, n_writes := 0, histoB := none }

/-- A tree with two blocks, of 16 bytes at 1000 and of 8 bytes at 2000. -/
def two_block_tree : WordFM Block Unit :=
  [(mk_Block 1000 16 7 0, ()), (mk_Block 2000 8 7 0, ())]

/-- From `s` to `s1` no allocation point's `tot_bytes` went down: the step
has not wrapped the 64-bit counter around. -/
def tot_bytes_kept (s s1 : State) : Prop :=
  ∀ kv ∈ s.apinfo, ∀ api1 ∈ site s1 kv.1, kv.2.tot_bytes ≤ api1.tot_bytes

instance (s s1 : State) : Decidable (tot_bytes_kept s s1) :=
  inferInstanceAs (Decidable (∀ kv ∈ s.apinfo, _))

/-- Along the stream no event wraps the `tot_bytes` of an allocation point. -/
def NoTotWrap : State → List Event → Prop
  | _, [] => True
  | s, e :: es =>
    match step s e with
    | none => True
    | some s1 => tot_bytes_kept s s1 ∧ NoTotWrap s1 es

instance instDecidableNoTotWrap : (s : State) → (evs : List Event) →
    Decidable (NoTotWrap s evs)
  | _, [] => isTrue trivial
  | s, e :: es =>
    match h : step s e with
    | none => isTrue (by simp [NoTotWrap, h])
    | some s1 =>
      have := instDecidableNoTotWrap s1 es
      decidable_of_iff (tot_bytes_kept s s1 ∧ NoTotWrap s1 es) (by simp [NoTotWrap, h])

/-- The histogram-compatibility tag of the later record `a2` is the tag of
the earlier record `a1` or one further along `Unknown -> Exactly(n) -> Mixed`:
it has not gone back to `Unknown`; from `Exactly(n)` it is still `Exactly(n)`
(the same `n`) or it is `Mixed`; from `Mixed` it is `Mixed`; and a record
that is `Mixed` has no folded histogram. -/
def tag_forward (a1 a2 : APInfo) : Prop :=
  (a1.xsize_tag ≠ XSizeTag.Unknown → a2.xsize_tag ≠ XSizeTag.Unknown) ∧
  (a1.xsize_tag = XSizeTag.Exactly →
    (a2.xsize_tag = XSizeTag.Exactly ∧ a2.xsize = a1.xsize) ∨
      a2.xsize_tag = XSizeTag.Mixed) ∧
  (a1.xsize_tag = XSizeTag.Mixed → a2.xsize_tag = XSizeTag.Mixed) ∧
  (a2.xsize_tag = XSizeTag.Mixed → a2.histo = none)

instance (a1 a2 : APInfo) : Decidable (tag_forward a1 a2) :=
  inferInstanceAs (Decidable (_ ∧ _ ∧ _ ∧ _))

/-- The tag update in the words of the specification, as a function of the
old tag, the old recorded size and the size `sz` of the dying block: the
first death makes the tag `Exactly(sz)`; a later death of a block of another
size makes it `Mixed` (recorded size 0); otherwise the tag stays. -/
def spec_tag_update (tag : XSizeTag) (xsize sz : Nat) : XSizeTag × Nat :=
  match tag with
  | XSizeTag.Unknown => (XSizeTag.Exactly, sz)
  | XSizeTag.Exactly => if sz = xsize then (XSizeTag.Exactly, xsize) else (XSizeTag.Mixed, 0)
  | XSizeTag.Mixed => (XSizeTag.Mixed, xsize)

/-- The state after two blocks of 8 and 16 bytes were allocated at site 7 and
the first one was freed: the tag of site 7 is `Exactly(8)`. -/
def one_death_State : State :=
  (run init_State [Event.alloc 7 1000 8, Event.alloc 7 2000 16, Event.free 1000]).getD
    init_State

/-- The state after a block of 16 bytes was allocated at 1000 by site 7 and
4 bytes were written at 1004. -/
def touched_block_State : State :=
  (run init_State [Event.alloc 7 1000 16, Event.write 1004 4]).getD init_State

/-- The state after a block of 16 bytes was allocated at 1000 by site 7 at
clock 0, the clock advanced by 5, 4 bytes were written at 1004 and 2 bytes
were read at 1000. -/
def aged_block_State : State :=
  (run init_State [Event.alloc 7 1000 16, Event.tick 5, Event.write 1004 4,
    Event.read 1000 2]).getD init_State

/-- The block of `aged_block_State`. -/
def aged_Block : Block :=
  { payload := 1000, req_szB := 16, ap := 7, allocd_at := 0, n_reads := 2, n_writes := 4,
    histoB := some [1, 1, 0, 0, 1, 1, 1, 1, 0, 0, 0, 0, 0, 0, 0, 0] }

/-- The state after two blocks of 4 bytes were allocated at 1000 and 2000 by
site 7, 2 bytes were written at 1000 and 2 bytes at 2001, and the first block
was freed: site 7 has the tag `Exactly(4)` and the histogram `1 1 0 0`. -/
def folded_State : State :=
  (run init_State [Event.alloc 7 1000 4, Event.alloc 7 2000 4, Event.write 1000 2,
    Event.write 2001 2, Event.free 1000]).getD init_State

/-- The block of `folded_State`. -/
def folded_Block : Block :=
  { payload := 2000, req_szB := 4, ap := 7, allocd_at := 0, n_reads := 0, n_writes := 2,
    histoB := some [0, 1, 1, 0] }

/-- The state after two blocks of 8 bytes were allocated at 1000 and 2000 by
site 7, the first was resized to 8 bytes (which drops its histogram) and
freed, and 3 bytes were written at 2000: site 7 has the tag `Exactly(8)` and
no histogram. -/
def unfolded_State : State :=
  (run init_State [Event.alloc 7 1000 8, Event.alloc 7 2000 8, Event.resize 0 1000 8,
    Event.free 1000, Event.write 2000 3]).getD init_State

/-- The block of `unfolded_State`. -/
def unfolded_Block : Block :=
  { payload := 2000, req_szB := 8, ap := 7, allocd_at := 0, n_reads := 0, n_writes := 3,
    histoB := some [1, 1, 1, 0, 0, 0, 0, 0] }

/-- The state after blocks of 8 and 16 bytes were allocated by site 7 and
both freed, with a block of 4 bytes allocated by site 9 in between: site 7
has the tag `Mixed`, site 9 the tag `Unknown`. -/
def two_sites_State : State :=
  (run init_State [Event.alloc 7 1000 8, Event.alloc 7 2000 16, Event.free 1000,
    Event.alloc 9 3000 4, Event.free 2000]).getD init_State

/-- The state after a block of 16 bytes was allocated by site 7 at
`2^64 - 16`: the block occupies the last 16 bytes of the address space. -/
def top_block_State : State :=
  (run init_State [Event.alloc 7 18446744073709551600 16]).getD init_State

/-- The block of `touched_block_State`. -/
def touched_Block : Block :=
  { payload := 1000, req_szB := 16, ap := 7, allocd_at := 0, n_reads := 0, n_writes := 4,
    histoB := some [0, 0, 0, 0, 1, 1, 1, 1, 0, 0, 0, 0, 0, 0, 0, 0] }

/-- The state after site 9 allocated 50 bytes, site 7 allocated 100 and 20
bytes and site 11 allocated 8 bytes: the map holds the records of the sites
7, 9 and 11, in this order, with `max_bytes_live` 120, 50 and 8. -/
def three_sites_State : State :=
  (run init_State [Event.alloc 9 1000 50, Event.alloc 7 2000 100, Event.alloc 11 3000 8,
    Event.alloc 7 4000 20]).getD init_State

/-- The sum of `req_szB` over the blocks of the tree whose `ap` is `ap`. -/
def site_bytes (t : WordFM Block Unit) (ap : Nat) : Nat :=
  ((t.filter (fun x => decide (x.1.ap = ap))).map (fun x => x.1.req_szB)).sum

/-- The number of blocks of the tree whose `ap` is `ap`. -/
def site_blocks (t : WordFM Block Unit) (ap : Nat) : Nat :=
  (t.filter (fun x => decide (x.1.ap = ap))).length

/-- The sum of `req_szB` over all the blocks of the tree. -/
def all_bytes (t : WordFM Block Unit) : Nat :=
  (t.map (fun x => x.1.req_szB)).sum

/-- From `s` to `s1` no allocation point's `tot_bytes` or `tot_blocks` went
down: the step has wrapped neither 64-bit counter around. -/
def totals_kept (s s1 : State) : Prop :=
  ∀ kv ∈ s.apinfo, ∀ api1 ∈ site s1 kv.1,
    kv.2.tot_bytes ≤ api1.tot_bytes ∧ kv.2.tot_blocks ≤ api1.tot_blocks

instance (s s1 : State) : Decidable (totals_kept s s1) :=
  inferInstanceAs (Decidable (∀ kv ∈ s.apinfo, _))

/-- Along the stream no event wraps the `tot_bytes` or the `tot_blocks` of an
allocation point. -/
def NoTotalsWrap : State → List Event → Prop
  | _, [] => True
  | s, e :: es =>
    match step s e with
    | none => True
    | some s1 => totals_kept s s1 ∧ NoTotalsWrap s1 es

instance instDecidableNoTotalsWrap : (s : State) → (evs : List Event) →
    Decidable (NoTotalsWrap s evs)
  | _, [] => isTrue trivial
  | s, e :: es =>
    match h : step s e with
    | none => isTrue (by simp [NoTotalsWrap, h])
    | some s1 =>
      have := instDecidableNoTotalsWrap s1 es
      decidable_of_iff (totals_kept s s1 ∧ NoTotalsWrap s1 es) (by simp [NoTotalsWrap, h])

/-- The order between the counters of a site record that `show_APInfo`
asserts, with what it rests on: live bytes at most peak bytes at most lifetime
bytes, live blocks and the recorded peak blocks at most lifetime blocks, and
the lifetime counters are machine words. -/
def counters_chain (a : APInfo) : Prop :=
  a.cur_bytes_live ≤ a.max_bytes_live ∧ a.max_bytes_live ≤ a.tot_bytes ∧
  a.tot_bytes < WORD ∧ a.cur_blocks_live ≤ a.tot_blocks ∧
  a.max_blocks_live ≤ a.tot_blocks ∧ a.tot_blocks < WORD

instance (a : APInfo) : Decidable (counters_chain a) :=
  inferInstanceAs (Decidable (_ ∧ _ ∧ _ ∧ _ ∧ _ ∧ _))

/-- What the tool relies on in the arguments of one call: the call-site
context of an allocation (the `ExeContext*`) is not `NULL`, and the new size
of a resize is not zero and is below `2^63` (it is positive as a `Long`). -/
def EventOK : Event → Prop
  | Event.alloc ec _ _ => ec ≠ 0
  | Event.resize _ _ szB => 0 < szB ∧ szB < 9223372036854775808
  | _ => True

instance (e : Event) : Decidable (EventOK e) := by
  cases e <;> unfold EventOK <;> infer_instance

/-- The number of guest instructions that the stream executes: the sum of
the amounts of its `tick` events. -/
def ticks : List Event → Nat
  | [] => 0
  | Event.tick n :: es => n + ticks es
  | _ :: es => ticks es

/-! # Theorems -/

section WordFMLemmas
variable {K V : Type} (kCmp : K → K → Option Int)

theorem lookupFM_found_split (t : WordFM K V) (k : K) (x : K × V)
    (h : lookupFM kCmp t k = some (some x)) :
    ∃ l1 l2, t = l1 ++ x :: l2 ∧ FoundAt kCmp l1 x k := by
  induction t with
  | nil => simp [lookupFM] at h
  | cons hd tl ih =>
    obtain ⟨tk, tv⟩ := hd
    simp only [lookupFM] at h
    cases hc : kCmp tk k with
    | none => simp [hc] at h
    | some c =>
      simp only [hc] at h
      by_cases h1 : c > 0
      · simp [h1] at h
      · by_cases h2 : c < 0
        · simp only [h1, h2, if_true, if_false] at h
          obtain ⟨l1, l2, rfl, hf⟩ := ih h
          refine ⟨(tk, tv) :: l1, l2, rfl, ?_, hf.2⟩
          intro y hy
          rcases List.mem_cons.1 hy with rfl | hy
          · exact ⟨c, hc, h2⟩
          · exact hf.1 y hy
        · simp only [h1, h2, if_false] at h
          have hx : x = (tk, tv) := by
            have := Option.some.inj (Option.some.inj h)
            exact this.symm
          subst hx
          have hc0 : c = 0 := by omega
          subst hc0
          exact ⟨[], tl, rfl, by intro y hy; simp at hy, hc⟩

theorem lookupFM_of_found (l1 l2 : WordFM K V) (x : K × V) (k : K)
    (h : FoundAt kCmp l1 x k) : lookupFM kCmp (l1 ++ x :: l2) k = some (some x) := by
  induction l1 with
  | nil =>
    obtain ⟨xk, xv⟩ := x
    have := h.2
    simp only [List.nil_append, lookupFM]
    simp only [show kCmp xk k = some 0 from this]
    simp
  | cons hd tl ih =>
    obtain ⟨tk, tv⟩ := hd
    obtain ⟨c, hc, hlt⟩ := h.1 (tk, tv) (List.mem_cons_self _ _)
    have ih1 := ih ⟨fun y hy => h.1 y (List.mem_cons_of_mem _ hy), h.2⟩
    simp only [List.cons_append, lookupFM, hc]
    have : ¬ c > 0 := by omega
    simp [this, hlt, ih1]

end WordFMLemmas

section WordFMLemmas2
variable {K V : Type} (kCmp : K → K → Option Int)

theorem modifyFM_of_found (l1 l2 : WordFM K V) (x : K × V) (k : K) (f : K × V → K × V)
    (h : FoundAt kCmp l1 x k) : modifyFM kCmp (l1 ++ x :: l2) k f = l1 ++ f x :: l2 := by
  induction l1 with
  | nil =>
    obtain ⟨xk, xv⟩ := x
    simp only [List.nil_append, modifyFM, show kCmp xk k = some 0 from h.2]
    simp
  | cons hd tl ih =>
    obtain ⟨tk, tv⟩ := hd
    obtain ⟨c, hc, hlt⟩ := h.1 (tk, tv) (List.mem_cons_self _ _)
    have ih1 := ih ⟨fun y hy => h.1 y (List.mem_cons_of_mem _ hy), h.2⟩
    simp only [List.cons_append, modifyFM, hc]
    have : ¬ c > 0 := by omega
    simp [this, hlt, ih1]

theorem delFromFM_of_found (l1 l2 : WordFM K V) (x : K × V) (k : K)
    (h : FoundAt kCmp l1 x k) : delFromFM kCmp (l1 ++ x :: l2) k = some (l1 ++ l2, true) := by
  induction l1 with
  | nil =>
    obtain ⟨xk, xv⟩ := x
    simp only [List.nil_append, delFromFM, show kCmp xk k = some 0 from h.2]
    simp
  | cons hd tl ih =>
    obtain ⟨tk, tv⟩ := hd
    obtain ⟨c, hc, hlt⟩ := h.1 (tk, tv) (List.mem_cons_self _ _)
    have ih1 := ih ⟨fun y hy => h.1 y (List.mem_cons_of_mem _ hy), h.2⟩
    simp only [List.cons_append, delFromFM, hc]
    have : ¬ c > 0 := by omega
    simp [this, hlt, ih1]

theorem modifyFM_of_not_found (t : WordFM K V) (k : K) (f : K × V → K × V)
    (h : lookupFM kCmp t k = some none) : modifyFM kCmp t k f = t := by
  induction t with
  | nil => rfl
  | cons hd tl ih =>
    obtain ⟨tk, tv⟩ := hd
    simp only [lookupFM] at h
    simp only [modifyFM]
    cases hc : kCmp tk k with
    | none => rfl
    | some c =>
      simp only [hc] at h ⊢
      by_cases h1 : c > 0
      · simp [h1]
      · by_cases h2 : c < 0
        · simp only [h1, h2, if_true, if_false] at h ⊢
          rw [ih h]
        · simp [h1, h2] at h

theorem delFromFM_of_not_found (t : WordFM K V) (k : K)
    (h : lookupFM kCmp t k = some none) : delFromFM kCmp t k = some (t, false) := by
  induction t with
  | nil => rfl
  | cons hd tl ih =>
    obtain ⟨tk, tv⟩ := hd
    simp only [lookupFM] at h
    simp only [delFromFM]
    cases hc : kCmp tk k with
    | none => simp [hc] at h
    | some c =>
      simp only [hc] at h ⊢
      by_cases h1 : c > 0
      · simp [h1]
      · by_cases h2 : c < 0
        · simp only [h1, h2, if_true, if_false] at h ⊢
          rw [ih h]
        · simp [h1, h2] at h

theorem addToFM_fresh_split (t t1 : WordFM K V) (k : K) (v : V)
    (h : addToFM kCmp t k v = some (t1, false)) :
    ∃ l1 l2, t = l1 ++ l2 ∧ t1 = l1 ++ (k, v) :: l2 ∧ lookupFM kCmp t k = some none := by
  induction t generalizing t1 with
  | nil =>
    simp only [addToFM, Option.some.injEq, Prod.mk.injEq, and_true] at h
    exact ⟨[], [], rfl, h.symm, rfl⟩
  | cons hd tl ih =>
    obtain ⟨tk, tv⟩ := hd
    simp only [addToFM] at h
    simp only [lookupFM]
    cases hc : kCmp tk k with
    | none => simp [hc] at h
    | some c =>
      simp only [hc] at h ⊢
      by_cases h1 : c > 0
      · simp only [h1, if_true, Option.some.injEq, Prod.mk.injEq, and_true] at h
        exact ⟨[], (tk, tv) :: tl, rfl, h.symm, by simp [h1]⟩
      · by_cases h2 : c < 0
        · simp only [h1, h2, if_true, if_false] at h ⊢
          cases hr : addToFM kCmp tl k v with
          | none => simp [hr] at h
          | some rp =>
            obtain ⟨r, present⟩ := rp
            simp only [hr, Option.some.injEq, Prod.mk.injEq] at h
            obtain ⟨h3, h4⟩ := h
            subst h4
            obtain ⟨l1, l2, e1, e2, e3⟩ := ih r hr
            exact ⟨(tk, tv) :: l1, l2, by simp [e1], by simp [← h3, e2], e3⟩
        · simp [h1, h2] at h

theorem lookupFM_not_abort_of_add (t : WordFM K V) (k : K) (v : V) (r : WordFM K V × Bool)
    (h : addToFM kCmp t k v = some r) : ∃ o, lookupFM kCmp t k = some o := by
  induction t generalizing r with
  | nil => exact ⟨none, rfl⟩
  | cons hd tl ih =>
    obtain ⟨tk, tv⟩ := hd
    simp only [addToFM] at h
    simp only [lookupFM]
    cases hc : kCmp tk k with
    | none => simp [hc] at h
    | some c =>
      simp only [hc] at h ⊢
      by_cases h1 : c > 0
      · simp [h1]
      · by_cases h2 : c < 0
        · simp only [h1, h2, if_true, if_false] at h ⊢
          cases hr : addToFM kCmp tl k v with
          | none => simp [hr] at h
          | some rp => exact ih rp hr
        · simp [h1, h2]

end WordFMLemmas2

/-! ### Inversion lemmas: what a successful call has checked and done -/

theorem intro_Block_inv (s s1 : State) (bk : Block) (h : intro_Block s bk = some s1) :
    ∃ api fm, bk.ap ≠ 0 ∧ intro_lookup s.apinfo bk.ap = some (api, fm) ∧ api.ap = bk.ap ∧
      s1 = intro_globals
        { s with apinfo := modifyFM cmp_unsigned_Words fm bk.ap
                   (fun kv => (kv.1, intro_APInfo api bk.req_szB)) } bk.req_szB := by
  unfold intro_Block at h
  by_cases h0 : bk.ap = 0
  · simp [h0] at h
  · simp only [h0, if_false] at h
    cases hl : intro_lookup s.apinfo bk.ap with
    | none => simp [hl] at h
    | some r =>
      obtain ⟨api, fm⟩ := r
      simp only [hl] at h
      by_cases h2 : api.ap = bk.ap
      · simp only [h2, ne_eq, not_true_eq_false, if_false, Option.some.injEq] at h
        exact ⟨api, fm, h0, rfl, h2, h.symm⟩
      · simp [h2] at h

theorem retire_Block_inv (s s1 : State) (bk : Block) (h : retire_Block s bk = some s1) :
    ∃ k api api1 api2, bk.ap ≠ 0 ∧
      lookupFM cmp_unsigned_Words s.apinfo bk.ap = some (some (k, api)) ∧
      api.ap = bk.ap ∧ 1 ≤ api.cur_blocks_live ∧ bk.req_szB ≤ api.cur_bytes_live ∧
      bk.allocd_at ≤ s.g_guest_instrs_executed ∧ 0 < s.g_cur_blocks_live ∧
      bk.req_szB ≤ s.g_cur_bytes_live ∧
      retire_xsize (retire_APInfo_stats api bk s.g_guest_instrs_executed) bk = some api1 ∧
      retire_fold api1 bk = some api2 ∧
      s1 = { s with
              apinfo := modifyFM cmp_unsigned_Words s.apinfo bk.ap (fun kv => (kv.1, api2))
              g_cur_blocks_live := subU s.g_cur_blocks_live 1
              g_cur_bytes_live := subU s.g_cur_bytes_live bk.req_szB } := by
  unfold retire_Block at h
  by_cases h0 : bk.ap = 0
  · simp [h0] at h
  · simp only [h0, if_false] at h
    cases hl : lookupFM cmp_unsigned_Words s.apinfo bk.ap with
    | none => simp [hl] at h
    | some r =>
      cases r with
      | none => simp [hl] at h
      | some kv =>
        obtain ⟨k, api⟩ := kv
        simp only [hl] at h
        split_ifs at h with c1 c2 c3 c4 c5 c6
        cases hx : retire_xsize (retire_APInfo_stats api bk s.g_guest_instrs_executed) bk with
        | none => simp [hx] at h
        | some api1 =>
          simp only [hx] at h
          cases hf : retire_fold api1 bk with
          | none => simp [hf] at h
          | some api2 =>
            simp only [hf, Option.some.injEq] at h
            refine ⟨k, api, api1, api2, h0, rfl, ?_, ?_, ?_, ?_, ?_, ?_, hx, hf, h.symm⟩
            · simpa using c1
            · simpa using c2
            · simpa using c3
            · simpa using c4
            · simpa using c5
            · simpa using c6

theorem apinfo_change_inv (s s1 : State) (ec : Nat) (delta : Int)
    (h : apinfo_change_cur_bytes_live s ec delta = some s1) :
    ∃ k api, lookupFM cmp_unsigned_Words s.apinfo ec = some (some (k, api)) ∧ api.ap = ec ∧
      (delta < 0 → ofLong (-delta) ≤ api.cur_bytes_live) ∧
      (delta < 0 → ofLong (-delta) ≤ s.g_cur_bytes_live) ∧
      s1 = { s with
        apinfo := modifyFM cmp_unsigned_Words s.apinfo ec
                    (fun kv => (kv.1, change_APInfo api delta))
        g_cur_bytes_live := addU s.g_cur_bytes_live (ofLong delta)
        g_max_bytes_live :=
          if delta > 0 ∧ addU s.g_cur_bytes_live (ofLong delta) > s.g_max_bytes_live
          then addU s.g_cur_bytes_live (ofLong delta) else s.g_max_bytes_live
        g_max_blocks_live :=
          if delta > 0 ∧ addU s.g_cur_bytes_live (ofLong delta) > s.g_max_bytes_live
          then s.g_cur_blocks_live else s.g_max_blocks_live } := by
  unfold apinfo_change_cur_bytes_live at h
  cases hl : lookupFM cmp_unsigned_Words s.apinfo ec with
  | none => simp [hl] at h
  | some r =>
    cases r with
    | none => simp [hl] at h
    | some kv =>
      obtain ⟨k, api⟩ := kv
      simp only [hl] at h
      by_cases c1 : api.ap ≠ ec
      · simp [c1] at h
      by_cases c2 : delta < 0 ∧ ¬ (api.cur_bytes_live ≥ ofLong (-delta))
      · simp only [c1, c2, and_self, if_true, if_false] at h
        simp at h
      by_cases c3 : delta < 0 ∧ ¬ (s.g_cur_bytes_live ≥ ofLong (-delta))
      · simp only [c1, c2, c3, and_self, if_true, if_false] at h
        simp at h
      simp only [c1, c2, c3, if_false, Option.some.injEq] at h
      refine ⟨k, api, rfl, ?_, ?_, ?_, h.symm⟩
      · simpa using c1
      · intro hd
        by_contra hc
        exact c2 ⟨hd, by simpa using hc⟩
      · intro hd
        by_contra hc
        exact c3 ⟨hd, by simpa using hc⟩

theorem find_Block_split (t : WordFM Block Unit) (a : Nat) (bk : Block)
    (h : find_Block_containing t a = some (some bk)) :
    ∃ l1 l2, t = l1 ++ (bk, ()) :: l2 ∧ FoundAt interval_tree_Cmp l1 (bk, ()) (fake_Block a) := by
  unfold find_Block_containing at h
  cases hl : lookupFM interval_tree_Cmp t (fake_Block a) with
  | none => simp [hl] at h
  | some r =>
    cases r with
    | none => simp [hl] at h
    | some kv =>
      obtain ⟨k, u⟩ := kv
      simp only [hl, Option.some.injEq] at h
      subst h
      exact lookupFM_found_split interval_tree_Cmp t (fake_Block a) (k, ()) hl

theorem find_Block_of_found (l1 l2 : WordFM Block Unit) (a : Nat) (bk : Block)
    (h : FoundAt interval_tree_Cmp l1 (bk, ()) (fake_Block a)) :
    find_Block_containing (l1 ++ (bk, ()) :: l2) a = some (some bk) := by
  unfold find_Block_containing
  rw [lookupFM_of_found interval_tree_Cmp l1 l2 (bk, ()) (fake_Block a) h]

theorem find_Block_none_lookup (t : WordFM Block Unit) (a : Nat)
    (h : find_Block_containing t a = some none) :
    lookupFM interval_tree_Cmp t (fake_Block a) = some none := by
  unfold find_Block_containing at h
  cases hl : lookupFM interval_tree_Cmp t (fake_Block a) with
  | none => simp [hl] at h
  | some r =>
    cases r with
    | none => rfl
    | some kv => simp [hl] at h

theorem new_block_inv (s s1 : State) (ec host_p p req_szB r : Nat)
    (h : new_block s ec host_p p req_szB = some (r, s1)) :
    p = 0 ∧ ((r = 0 ∧ s1 = s ∧ (toLong req_szB < 0 ∨ host_p = 0)) ∨
      (r = host_p ∧ host_p ≠ 0 ∧ ¬ toLong req_szB < 0 ∧ ∃ tree,
        addToFM interval_tree_Cmp s.interval_tree
          (mk_Block host_p (if req_szB = 0 then 1 else req_szB) ec
            s.g_guest_instrs_executed) () = some (tree, false) ∧
        intro_Block { s with interval_tree := tree }
          (mk_Block host_p (if req_szB = 0 then 1 else req_szB) ec
            s.g_guest_instrs_executed) = some s1)) := by
  unfold new_block at h
  by_cases h0 : p ≠ 0
  · simp [h0] at h
  simp only [h0, if_false] at h
  refine ⟨by simpa using h0, ?_⟩
  by_cases h1 : toLong req_szB < 0
  · simp only [h1, if_true, Option.some.injEq, Prod.mk.injEq] at h
    exact Or.inl ⟨h.1.symm, h.2.symm, Or.inl h1⟩
  simp only [h1, if_false] at h
  by_cases h2 : host_p = 0
  · simp only [h2, if_true, Option.some.injEq, Prod.mk.injEq] at h
    exact Or.inl ⟨h.1.symm, h.2.symm, Or.inr h2⟩
  simp only [h2, if_false] at h
  cases ha : addToFM interval_tree_Cmp s.interval_tree
      (mk_Block host_p (if req_szB = 0 then 1 else req_szB) ec s.g_guest_instrs_executed) () with
  | none => simp [ha] at h
  | some tp =>
    obtain ⟨tree, present⟩ := tp
    simp only [ha] at h
    cases present with
    | true => simp at h
    | false =>
      simp only [Bool.false_eq_true, if_false] at h
      cases hi : intro_Block { s with interval_tree := tree }
          (mk_Block host_p (if req_szB = 0 then 1 else req_szB) ec s.g_guest_instrs_executed) with
      | none => simp [hi] at h
      | some s2 =>
        simp only [hi, Option.some.injEq, Prod.mk.injEq] at h
        refine Or.inr ⟨h.1.symm, h2, h1, tree, rfl, ?_⟩
        rw [← h.2]
        exact hi

theorem die_block_inv (s s1 : State) (p : Nat) (cf : Bool)
    (h : die_block s p cf = some s1) :
    (s1 = s ∧ (find_Block_containing s.interval_tree p = some none ∨
        ∃ bk, find_Block_containing s.interval_tree p = some (some bk) ∧ bk.payload ≠ p)) ∨
    ∃ bk s2 tree, find_Block_containing s.interval_tree p = some (some bk) ∧
      bk.payload = p ∧ 0 < bk.req_szB ∧ p < addU bk.payload bk.req_szB ∧
      retire_Block s bk = some s2 ∧
      delete_Block_starting_at s2.interval_tree bk.payload = some tree ∧
      s1 = { s2 with interval_tree := tree } := by
  unfold die_block at h
  cases cf with
  | true => simp at h
  | false =>
    simp only [Bool.false_eq_true, if_false] at h
    cases hf : find_Block_containing s.interval_tree p with
    | none => simp [hf] at h
    | some r =>
      cases r with
      | none =>
        simp only [hf, Option.some.injEq] at h
        exact Or.inl ⟨h.symm, Or.inl rfl⟩
      | some bk =>
        simp only [hf] at h
        by_cases c1 : ¬ (bk.req_szB > 0)
        · simp [c1] at h
        by_cases c2 : ¬ (bk.payload ≤ p)
        · simp only [c1, c2, if_true, if_false] at h
          simp at h
        by_cases c3 : ¬ (p < addU bk.payload bk.req_szB)
        · simp only [c1, c2, c3, if_true, if_false] at h
          simp at h
        by_cases c4 : bk.payload ≠ p
        · simp only [c1, c2, c3, c4, if_true, if_false, Option.some.injEq, ne_eq,
            not_false_eq_true] at h
          exact Or.inl ⟨h.symm, Or.inr ⟨bk, rfl, c4⟩⟩
        simp only [c1, c2, c3, c4, if_false] at h
        cases hr : retire_Block s bk with
        | none => simp [hr] at h
        | some s2 =>
          simp only [hr] at h
          cases hd : delete_Block_starting_at s2.interval_tree bk.payload with
          | none => simp [hd] at h
          | some tree =>
            simp only [hd, Option.some.injEq] at h
            refine Or.inr ⟨bk, s2, tree, rfl, by simpa using c4, by omega,
              by simpa using c3, hr, hd, h.symm⟩

theorem renew_block_inv (s s1 : State) (host_p p_old new_req_szB r : Nat)
    (h : renew_block s host_p p_old new_req_szB = some (r, s1)) :
    0 < new_req_szB ∧
    ((r = 0 ∧ s1 = s ∧ (find_Block_containing s.interval_tree p_old = some none ∨
        ∃ bk, find_Block_containing s.interval_tree p_old = some (some bk) ∧
          bk.payload ≠ p_old)) ∨
     ∃ bk, find_Block_containing s.interval_tree p_old = some (some bk) ∧
      bk.payload = p_old ∧ 0 < bk.req_szB ∧ p_old < addU bk.payload bk.req_szB ∧
      ((new_req_szB ≤ bk.req_szB ∧ r = p_old ∧ ∃ s2,
          apinfo_change_cur_bytes_live
            { s with interval_tree :=
                (modifyFM interval_tree_Cmp s.interval_tree (fake_Block p_old)
                  (fun _ => ({ bk with histoB := none }, ()))) }
            bk.ap (wrapLong (toLong new_req_szB - toLong bk.req_szB)) = some s2 ∧
          s1 = { s2 with interval_tree :=
                  (modifyFM interval_tree_Cmp s2.interval_tree (fake_Block p_old)
                    (fun _ => ({ bk with histoB := none, req_szB := new_req_szB }, ()))) }) ∨
       (bk.req_szB < new_req_szB ∧ host_p = 0 ∧ r = 0 ∧
          s1 = { s with interval_tree :=
                (modifyFM interval_tree_Cmp s.interval_tree (fake_Block p_old)
                  (fun _ => ({ bk with histoB := none }, ()))) }) ∨
       (bk.req_szB < new_req_szB ∧ host_p ≠ 0 ∧ host_p ≠ p_old ∧ r = host_p ∧
          ∃ tree s2 tree2,
            delete_Block_starting_at
              (modifyFM interval_tree_Cmp s.interval_tree (fake_Block p_old)
                  (fun _ => ({ bk with histoB := none }, ()))) p_old = some tree ∧
            apinfo_change_cur_bytes_live { s with interval_tree := tree }
              bk.ap (wrapLong (toLong new_req_szB - toLong bk.req_szB)) = some s2 ∧
            addToFM interval_tree_Cmp s2.interval_tree
              { bk with histoB := none, payload := host_p, req_szB := new_req_szB } ()
              = some (tree2, false) ∧
            s1 = { s2 with interval_tree := tree2 }))) := by
  unfold renew_block at h
  by_cases h0 : ¬ (new_req_szB > 0)
  · simp [h0] at h
  simp only [h0, if_false] at h
  refine ⟨by omega, ?_⟩
  cases hf : find_Block_containing s.interval_tree p_old with
  | none => simp [hf] at h
  | some o =>
    cases o with
    | none =>
      simp only [hf, Option.some.injEq, Prod.mk.injEq] at h
      exact Or.inl ⟨h.1.symm, h.2.symm, Or.inl rfl⟩
    | some bk =>
      simp only [hf] at h
      by_cases c1 : ¬ (bk.req_szB > 0)
      · simp [c1] at h
      by_cases c2 : ¬ (bk.payload ≤ p_old)
      · simp only [c1, c2, if_true, if_false] at h
        simp at h
      by_cases c3 : ¬ (p_old < addU bk.payload bk.req_szB)
      · simp only [c1, c2, c3, if_true, if_false] at h
        simp at h
      by_cases c4 : bk.payload ≠ p_old
      · simp only [c1, c2, c3, c4, if_true, if_false, Option.some.injEq, ne_eq,
          not_false_eq_true, Prod.mk.injEq] at h
        exact Or.inl ⟨h.1.symm, h.2.symm, Or.inr ⟨bk, rfl, c4⟩⟩
      simp only [c1, c2, c3, c4, if_false] at h
      refine Or.inr ⟨bk, rfl, by simpa using c4, by omega, by simpa using c3, ?_⟩
      by_cases c5 : new_req_szB ≤ bk.req_szB
      · simp only [c5, if_true] at h
        refine Or.inl ⟨c5, ?_⟩
        cases ha : apinfo_change_cur_bytes_live
            { s with interval_tree :=
                (modifyFM interval_tree_Cmp s.interval_tree (fake_Block p_old)
                  (fun _ => ({ bk with histoB := none }, ()))) }
            bk.ap (wrapLong (toLong new_req_szB - toLong bk.req_szB)) with
        | none => simp [ha] at h
        | some s2 =>
          simp only [ha, Option.some.injEq, Prod.mk.injEq] at h
          exact ⟨h.1.symm, s2, rfl, h.2.symm⟩
      · simp only [c5, if_false] at h
        refine Or.inr ?_
        by_cases c6 : host_p = 0
        · simp only [c6, if_true, Option.some.injEq, Prod.mk.injEq] at h
          exact Or.inl ⟨by omega, c6, h.1.symm, h.2.symm⟩
        simp only [c6, if_false] at h
        by_cases c7 : ¬ (host_p ≠ p_old)
        · simp only [c7, if_true] at h
          simp at h
        simp only [c7, if_false] at h
        refine Or.inr ⟨by omega, c6, by simpa using c7, ?_⟩
        cases hd : delete_Block_starting_at
              (modifyFM interval_tree_Cmp s.interval_tree (fake_Block p_old)
                  (fun _ => ({ bk with histoB := none }, ()))) p_old with
        | none => simp [hd] at h
        | some tree =>
          simp only [hd] at h
          cases ha : apinfo_change_cur_bytes_live { s with interval_tree := tree }
              bk.ap (wrapLong (toLong new_req_szB - toLong bk.req_szB)) with
          | none => simp [ha] at h
          | some s2 =>
            simp only [ha] at h
            cases hadd : addToFM interval_tree_Cmp s2.interval_tree
              { bk with histoB := none, payload := host_p, req_szB := new_req_szB } () with
            | none => simp [hadd] at h
            | some tp =>
              obtain ⟨tree2, present⟩ := tp
              simp only [hadd] at h
              cases present with
              | true => simp at h
              | false =>
                simp only [Bool.false_eq_true, if_false, Option.some.injEq, Prod.mk.injEq] at h
                exact ⟨h.1.symm, tree, s2, tree2, rfl, ha, hadd, h.2.symm⟩

theorem inc_histo_for_block_inv (bk bk2 : Block) (addr szB : Nat)
    (h : inc_histo_for_block bk addr szB = some bk2) :
    subU addr bk.payload < bk.req_szB ∧
    ((bk.histoB = none ∧ bk2 = bk) ∨
     ∃ histoB, bk.histoB = some histoB ∧
      bk2 = { bk with histoB := some (inc_histo_loop
        ((if addU (subU addr bk.payload) szB > bk.req_szB then bk.req_szB
          else addU (subU addr bk.payload) szB) - subU addr bk.payload)
        (subU addr bk.payload) histoB) }) := by
  unfold inc_histo_for_block at h
  by_cases c1 : ¬ (subU addr bk.payload < bk.req_szB)
  · simp [c1] at h
  simp only [c1, if_false] at h
  refine ⟨by simpa using c1, ?_⟩
  cases hh : bk.histoB with
  | none =>
    simp only [hh] at h
    split_ifs at h
    all_goals simp only [Option.some.injEq] at h
    all_goals exact Or.inl ⟨rfl, h.symm⟩
  | some histoB =>
    simp only [hh, Option.some.injEq] at h
    exact Or.inr ⟨histoB, rfl, h.symm⟩

theorem inc_histo_for_block_frame (bk bk2 : Block) (addr szB : Nat)
    (h : inc_histo_for_block bk addr szB = some bk2) :
    bk2.payload = bk.payload ∧ bk2.req_szB = bk.req_szB ∧ bk2.ap = bk.ap ∧
    bk2.allocd_at = bk.allocd_at ∧ bk2.n_reads = bk.n_reads ∧ bk2.n_writes = bk.n_writes := by
  obtain ⟨_, h1 | ⟨hb, _, h2⟩⟩ := inc_histo_for_block_inv bk bk2 addr szB h
  · rw [h1.2]; simp
  · rw [h2]; simp

theorem dh_handle_write_inv (s s1 : State) (addr szB : Nat)
    (h : dh_handle_write s addr szB = some s1) :
    (find_Block_containing s.interval_tree addr = some none ∧ s1 = s) ∨
    ∃ bk bk2, find_Block_containing s.interval_tree addr = some (some bk) ∧
      (if bk.histoB.isSome
        then inc_histo_for_block { bk with n_writes := addU bk.n_writes szB } addr szB
        else some { bk with n_writes := addU bk.n_writes szB }) = some bk2 ∧
      s1 = { s with interval_tree :=
               (modifyFM interval_tree_Cmp s.interval_tree (fake_Block addr)
                 (fun _ => (bk2, ()))) } := by
  unfold dh_handle_write at h
  cases hf : find_Block_containing s.interval_tree addr with
  | none => simp [hf] at h
  | some o =>
    cases o with
    | none =>
      simp only [hf, Option.some.injEq] at h
      exact Or.inl ⟨rfl, h.symm⟩
    | some bk =>
      simp only [hf] at h
      cases hi : (if bk.histoB.isSome
        then inc_histo_for_block { bk with n_writes := addU bk.n_writes szB } addr szB
        else some { bk with n_writes := addU bk.n_writes szB }) with
      | none => simp [hi] at h
      | some bk2 =>
        simp only [hi, Option.some.injEq] at h
        exact Or.inr ⟨bk, bk2, rfl, hi, h.symm⟩

theorem dh_handle_read_inv (s s1 : State) (addr szB : Nat)
    (h : dh_handle_read s addr szB = some s1) :
    (find_Block_containing s.interval_tree addr = some none ∧ s1 = s) ∨
    ∃ bk bk2, find_Block_containing s.interval_tree addr = some (some bk) ∧
      (if bk.histoB.isSome
        then inc_histo_for_block { bk with n_reads := addU bk.n_reads szB } addr szB
        else some { bk with n_reads := addU bk.n_reads szB }) = some bk2 ∧
      s1 = { s with interval_tree :=
               (modifyFM interval_tree_Cmp s.interval_tree (fake_Block addr)
                 (fun _ => (bk2, ()))) } := by
  unfold dh_handle_read at h
  cases hf : find_Block_containing s.interval_tree addr with
  | none => simp [hf] at h
  | some o =>
    cases o with
    | none =>
      simp only [hf, Option.some.injEq] at h
      exact Or.inl ⟨rfl, h.symm⟩
    | some bk =>
      simp only [hf] at h
      cases hi : (if bk.histoB.isSome
        then inc_histo_for_block { bk with n_reads := addU bk.n_reads szB } addr szB
        else some { bk with n_reads := addU bk.n_reads szB }) with
      | none => simp [hi] at h
      | some bk2 =>
        simp only [hi, Option.some.injEq] at h
        exact Or.inr ⟨bk, bk2, rfl, hi, h.symm⟩

/-- The block a touch leaves has the range of the block it found. -/
theorem touch_range_write (bk bk2 : Block) (addr szB : Nat)
    (h : (if bk.histoB.isSome
        then inc_histo_for_block { bk with n_writes := addU bk.n_writes szB } addr szB
        else some { bk with n_writes := addU bk.n_writes szB }) = some bk2) :
    bk2.payload = bk.payload ∧ bk2.req_szB = bk.req_szB ∧ bk2.ap = bk.ap ∧
    bk2.allocd_at = bk.allocd_at := by
  split_ifs at h
  · have := inc_histo_for_block_frame _ _ _ _ h
    simp at this
    exact ⟨this.1, this.2.1, this.2.2.1, this.2.2.2.1⟩
  · simp only [Option.some.injEq] at h
    subst h
    simp

theorem touch_range_read (bk bk2 : Block) (addr szB : Nat)
    (h : (if bk.histoB.isSome
        then inc_histo_for_block { bk with n_reads := addU bk.n_reads szB } addr szB
        else some { bk with n_reads := addU bk.n_reads szB }) = some bk2) :
    bk2.payload = bk.payload ∧ bk2.req_szB = bk.req_szB ∧ bk2.ap = bk.ap ∧
    bk2.allocd_at = bk.allocd_at := by
  split_ifs at h
  · have := inc_histo_for_block_frame _ _ _ _ h
    simp at this
    exact ⟨this.1, this.2.1, this.2.2.1, this.2.2.2.1⟩
  · simp only [Option.some.injEq] at h
    subst h
    simp

theorem apinfo_change_tree (s s1 : State) (ec : Nat) (delta : Int)
    (h : apinfo_change_cur_bytes_live s ec delta = some s1) :
    s1.interval_tree = s.interval_tree ∧
    s1.g_guest_instrs_executed = s.g_guest_instrs_executed := by
  obtain ⟨k, api, _, _, _, _, rfl⟩ := apinfo_change_inv s s1 ec delta h
  exact ⟨rfl, rfl⟩

theorem intro_Block_frame (s s1 : State) (bk : Block) (h : intro_Block s bk = some s1) :
    s1.interval_tree = s.interval_tree ∧
    s1.g_guest_instrs_executed = s.g_guest_instrs_executed := by
  obtain ⟨api, fm, _, _, _, rfl⟩ := intro_Block_inv s s1 bk h
  exact ⟨rfl, rfl⟩

theorem retire_Block_frame (s s1 : State) (bk : Block) (h : retire_Block s bk = some s1) :
    s1.interval_tree = s.interval_tree ∧
    s1.g_guest_instrs_executed = s.g_guest_instrs_executed := by
  obtain ⟨k, api, api1, api2, _, _, _, _, _, _, _, _, _, _, rfl⟩ := retire_Block_inv s s1 bk h
  exact ⟨rfl, rfl⟩

theorem interval_tree_Cmp_congr (b b1 k : Block) (hp : b1.payload = b.payload)
    (hs : b1.req_szB = b.req_szB) : interval_tree_Cmp b1 k = interval_tree_Cmp b k := by
  unfold interval_tree_Cmp
  rw [hp, hs]

theorem foundAt_congr (l1 : WordFM Block Unit) (b b1 k : Block) (hp : b1.payload = b.payload)
    (hs : b1.req_szB = b.req_szB) (h : FoundAt interval_tree_Cmp l1 (b, ()) k) :
    FoundAt interval_tree_Cmp l1 (b1, ()) k :=
  ⟨h.1, by
    have := h.2
    simp only at this ⊢
    rw [interval_tree_Cmp_congr b b1 k hp hs]; exact this⟩

/-! ### C1: the blocks of the interval tree never overlap -/

theorem overlaps_symm (a b : Block) : overlaps a b ↔ overlaps b a := by
  unfold overlaps; constructor <;> (intro h; exact ⟨h.2, h.1⟩)

theorem noOverlap_remove (l1 l2 : WordFM Block Unit) (x : Block × Unit)
    (h : NoOverlap (l1 ++ x :: l2)) : NoOverlap (l1 ++ l2) := by
  unfold NoOverlap at *
  exact h.sublist (by simp)

theorem noOverlap_insert (l1 l2 : WordFM Block Unit) (x : Block × Unit)
    (h : NoOverlap (l1 ++ l2)) (hx : ∀ y ∈ l1 ++ l2, ¬ overlaps y.1 x.1) :
    NoOverlap (l1 ++ x :: l2) := by
  unfold NoOverlap at *
  rw [List.pairwise_append] at h ⊢
  obtain ⟨h1, h2, h3⟩ := h
  refine ⟨h1, List.pairwise_cons.2 ⟨?_, h2⟩, ?_⟩
  · intro y hy
    rw [overlaps_symm]
    exact hx y (List.mem_append.2 (Or.inr hy))
  · intro a ha b hb
    rcases List.mem_cons.1 hb with rfl | hb
    · exact hx a (List.mem_append.2 (Or.inl ha))
    · exact h3 a ha b hb

theorem noOverlap_replace (l1 l2 : WordFM Block Unit) (x x1 : Block × Unit)
    (h : NoOverlap (l1 ++ x :: l2)) (hp : x1.1.payload = x.1.payload)
    (hs : x1.1.req_szB ≤ x.1.req_szB) : NoOverlap (l1 ++ x1 :: l2) := by
  have hrem := noOverlap_remove l1 l2 x h
  apply noOverlap_insert l1 l2 x1 hrem
  intro y hy
  unfold NoOverlap at h
  rw [List.pairwise_append] at h
  obtain ⟨_, h2, h3⟩ := h
  have key : ¬ overlaps y.1 x.1 := by
    rcases List.mem_append.1 hy with hy | hy
    · exact h3 y hy x (List.mem_cons_self _ _)
    · rw [overlaps_symm]
      exact (List.pairwise_cons.1 h2).1 y hy
  intro ho
  apply key
  unfold overlaps at *
  omega

theorem step_noOverlap (s s1 : State) (e : Event) (hinv : NoOverlap s.interval_tree)
    (hh : HostOK s e) (hs : step s e = some s1) : NoOverlap s1.interval_tree := by
  cases e with
  | alloc ec host_p szB =>
    simp only [step, Option.map_eq_some', Prod.exists, exists_eq_right] at hs
    obtain ⟨r, hs⟩ := hs
    obtain ⟨_, h1 | ⟨_, hne, _, tree, hadd, hintro⟩⟩ := new_block_inv s s1 ec host_p 0 szB r hs
    · rw [h1.2.1]; exact hinv
    · rw [(intro_Block_frame _ _ _ hintro).1]
      obtain ⟨l1, l2, e1, e2, _⟩ := addToFM_fresh_split interval_tree_Cmp _ _ _ _ hadd
      simp only
      rw [e2]
      rw [e1] at hinv
      apply noOverlap_insert l1 l2 _ hinv
      intro y hy
      have := hh hne y (by rw [e1]; exact hy)
      intro ho
      apply this
      unfold overlaps at ho
      simp only [mk_Block] at ho
      exact ⟨ho.2, ho.1⟩
  | free p =>
    simp only [step] at hs
    rcases die_block_inv s s1 p false hs with h1 | ⟨bk, s2, tree, hf, hp, _, _, hr, hd, rfl⟩
    · rw [h1.1]; exact hinv
    · simp only
      obtain ⟨l1, l2, e1, hfound⟩ := find_Block_split _ _ _ hf
      rw [(retire_Block_frame _ _ _ hr).1, e1, hp] at hd
      unfold delete_Block_starting_at at hd
      rw [delFromFM_of_found interval_tree_Cmp l1 l2 _ _ hfound] at hd
      simp only [if_true, Option.some.injEq] at hd
      rw [← hd]
      rw [e1] at hinv
      exact noOverlap_remove l1 l2 _ hinv
  | resize host_p p szB =>
    simp only [step, Option.map_eq_some', Prod.exists, exists_eq_right] at hs
    obtain ⟨r, hs⟩ := hs
    obtain ⟨hpos, h1 | ⟨bk, hf, hp, hsz, _, hcase⟩⟩ := renew_block_inv s s1 host_p p szB r hs
    · rw [h1.2.1]; exact hinv
    · obtain ⟨l1, l2, e1, hfound⟩ := find_Block_split _ _ _ hf
      have hmod : ∀ b1 : Block, modifyFM interval_tree_Cmp s.interval_tree (fake_Block p)
          (fun _ => (b1, ())) = l1 ++ (b1, ()) :: l2 := by
        intro b1
        rw [e1]
        exact modifyFM_of_found interval_tree_Cmp l1 l2 _ _ _ hfound
      have hfound1 : FoundAt interval_tree_Cmp l1 ({ bk with histoB := none }, ()) (fake_Block p) :=
        foundAt_congr l1 bk _ _ rfl rfl hfound
      rw [e1] at hinv
      rcases hcase with ⟨hle, _, s2, hch, rfl⟩ | ⟨_, _, _, rfl⟩ | ⟨_, hne, _, _, tree, s2, tree2, hd, hch, hadd, rfl⟩
      · simp only
        rw [(apinfo_change_tree _ _ _ _ hch).1]
        simp only
        rw [hmod, modifyFM_of_found interval_tree_Cmp l1 l2 _ _ _ hfound1]
        exact noOverlap_replace l1 l2 _ _ hinv rfl hle
      · simp only
        rw [hmod]
        exact noOverlap_replace l1 l2 _ _ hinv rfl (le_refl _)
      · simp only
        rw [hmod] at hd
        unfold delete_Block_starting_at at hd
        rw [delFromFM_of_found interval_tree_Cmp l1 l2 _ _ hfound1] at hd
        simp only [if_true, Option.some.injEq] at hd
        subst hd
        rw [(apinfo_change_tree _ _ _ _ hch).1] at hadd
        simp only at hadd
        obtain ⟨m1, m2, e3, e4, _⟩ := addToFM_fresh_split interval_tree_Cmp _ _ _ _ hadd
        rw [e4]
        have hrem := noOverlap_remove l1 l2 _ hinv
        rw [e3] at hrem
        apply noOverlap_insert m1 m2 _ hrem
        intro y hy
        have hy1 : y ∈ s.interval_tree := by
          rw [e1]
          rw [← e3] at hy
          rcases List.mem_append.1 hy with hy | hy
          · exact List.mem_append.2 (Or.inl hy)
          · exact List.mem_append.2 (Or.inr (List.mem_cons_of_mem _ hy))
        have := hh hne y hy1
        intro ho
        apply this
        unfold overlaps at ho
        simp only at ho
        exact ⟨ho.2, ho.1⟩
  | read addr szB =>
    simp only [step] at hs
    rcases dh_handle_read_inv s s1 addr szB hs with h1 | ⟨bk, bk2, hf, ht, rfl⟩
    · rw [h1.2]; exact hinv
    · obtain ⟨l1, l2, e1, hfound⟩ := find_Block_split _ _ _ hf
      obtain ⟨hp, hsz, _, _⟩ := touch_range_read bk bk2 addr szB ht
      simp only
      rw [e1, modifyFM_of_found interval_tree_Cmp l1 l2 _ _ _ hfound]
      rw [e1] at hinv
      exact noOverlap_replace l1 l2 _ _ hinv hp (le_of_eq hsz)
  | write addr szB =>
    simp only [step] at hs
    rcases dh_handle_write_inv s s1 addr szB hs with h1 | ⟨bk, bk2, hf, ht, rfl⟩
    · rw [h1.2]; exact hinv
    · obtain ⟨l1, l2, e1, hfound⟩ := find_Block_split _ _ _ hf
      obtain ⟨hp, hsz, _, _⟩ := touch_range_write bk bk2 addr szB ht
      simp only
      rw [e1, modifyFM_of_found interval_tree_Cmp l1 l2 _ _ _ hfound]
      rw [e1] at hinv
      exact noOverlap_replace l1 l2 _ _ hinv hp (le_of_eq hsz)
  | tick n =>
    simp only [step, Option.some.injEq] at hs
    rw [← hs]; exact hinv

theorem run_noOverlap (evs : List Event) (s s1 : State) (hinv : NoOverlap s.interval_tree)
    (hh : HostOKrun s evs) (hr : run s evs = some s1) : NoOverlap s1.interval_tree := by
  induction evs generalizing s with
  | nil =>
    simp only [run, Option.some.injEq] at hr
    rw [← hr]; exact hinv
  | cons e es ih =>
    simp only [run] at hr
    simp only [HostOKrun] at hh
    cases hs : step s e with
    | none => simp [hs] at hr
    | some s2 =>
      simp only [hs] at hr hh
      exact ih s2 (step_noOverlap s s2 e hinv hh.1 hs) hh.2 hr

/-- C1: starting from the empty index, after any sequence of alloc
(`new_block`), free (`die_block`) and resize (`renew_block`) events (reads,
writes and clock ticks may be interleaved) in which the host allocator only
returns storage disjoint from every block live at the call, no two blocks of
the interval tree have overlapping ranges `[payload, payload + req_szB)`. -/
theorem interval_tree_never_overlaps (evs : List Event) (s : State)
    (hhost : HostOKrun init_State evs) (hrun : run init_State evs = some s) :
    NoOverlap s.interval_tree :=
  run_noOverlap evs init_State s List.Pairwise.nil hhost hrun

theorem interval_tree_never_overlaps_witness :
    HostOKrun init_State
        [Event.alloc 7 1000 16, Event.alloc 7 2000 0, Event.resize 3000 1000 64,
         Event.write 3010 4, Event.resize 0 3000 8, Event.free 2000,
         Event.alloc 9 5000 5000] ∧
    ∃ s, run init_State
        [Event.alloc 7 1000 16, Event.alloc 7 2000 0, Event.resize 3000 1000 64,
         Event.write 3010 4, Event.resize 0 3000 8, Event.free 2000,
         Event.alloc 9 5000 5000] = some s ∧
      s.interval_tree.length = 2 ∧ NoOverlap s.interval_tree := by
  refine ⟨by decide, ?_⟩
  cases h : run init_State
        [Event.alloc 7 1000 16, Event.alloc 7 2000 0, Event.resize 3000 1000 64,
         Event.write 3010 4, Event.resize 0 3000 8, Event.free 2000,
         Event.alloc 9 5000 5000] with
  | none => exact absurd h (by decide)
  | some s =>
    refine ⟨s, rfl, ?_, interval_tree_never_overlaps _ s (by decide) h⟩
    have h2 : (run init_State
        [Event.alloc 7 1000 16, Event.alloc 7 2000 0, Event.resize 3000 1000 64,
         Event.write 3010 4, Event.resize 0 3000 8, Event.free 2000,
         Event.alloc 9 5000 5000]).map (fun s => s.interval_tree.length) = some 2 := by decide
    rw [h] at h2
    simpa using h2

/-! ### C2: point lookup in the interval tree -/

theorem find_Block_cons (b : Block) (u : Unit) (rest : WordFM Block Unit) (a : Nat) :
    find_Block_containing ((b, u) :: rest) a =
      match interval_tree_Cmp b (fake_Block a) with
      | none => none
      | some c =>
        if c > 0 then some none
        else if c < 0 then find_Block_containing rest a
        else some (some b) := by
  unfold find_Block_containing
  simp only [lookupFM]
  cases interval_tree_Cmp b (fake_Block a) with
  | none => rfl
  | some c =>
    simp only
    split_ifs <;> rfl

theorem addU_small (a b : Nat) (h : a + b < WORD) : addU a b = a + b := by
  unfold addU
  exact Nat.mod_eq_of_lt h

theorem find_Block_sound_complete (t : WordFM Block Unit) (a : Nat)
    (hord : AddrOrdered t) (hne : NonEmptyBlocks t) (hno : NoOverlap t) (hnw : NoWrap t) :
    (∀ b, find_Block_containing t a = some (some b) ↔ ((b, ()) ∈ t ∧ contains_addr b a)) ∧
    (find_Block_containing t a = some none ↔ ∀ x ∈ t, ¬ contains_addr x.1 a) := by
  induction t with
  | nil =>
    refine ⟨fun b => ?_, ?_⟩
    · simp [find_Block_containing, lookupFM]
    · simp [find_Block_containing, lookupFM]
  | cons hd tl ih =>
    obtain ⟨b0, u⟩ := hd
    have hord1 := List.pairwise_cons.1 hord
    have hno1 := List.pairwise_cons.1 hno
    have hne0 : 0 < b0.req_szB := hne (b0, u) (List.mem_cons_self _ _)
    have hnw0 : b0.payload + b0.req_szB < WORD := hnw (b0, u) (List.mem_cons_self _ _)
    obtain ⟨ih1, ih2⟩ := ih hord1.2 (fun x hx => hne x (List.mem_cons_of_mem _ hx)) hno1.2
      (fun x hx => hnw x (List.mem_cons_of_mem _ hx))
    -- every later block starts at or after the end of the first one
    have hlater : ∀ x ∈ tl, b0.payload + b0.req_szB ≤ x.1.payload := by
      intro x hx
      have h1 := hord1.1 x hx
      have h2 := hno1.1 x hx
      have h3 : 0 < x.1.req_szB := hne x (List.mem_cons_of_mem _ hx)
      unfold overlaps at h2
      simp only at h1 h2
      omega
    rw [find_Block_cons]
    have hcmp : interval_tree_Cmp b0 (fake_Block a) =
        if b0.payload + b0.req_szB ≤ a then some (-1)
        else if addU a 1 ≤ b0.payload then some 1 else some 0 := by
      unfold interval_tree_Cmp
      have : b0.req_szB ≠ 0 := by omega
      simp [this, fake_Block, addU_small _ _ hnw0]
    rw [hcmp]
    by_cases c1 : b0.payload + b0.req_szB ≤ a
    · -- the first block lies below `a`: the search goes on
      simp only [c1, if_true]
      have hnot0 : ¬ contains_addr b0 a := by unfold contains_addr; omega
      refine ⟨fun b => ?_, ?_⟩
      · simp only [show ¬ ((-1 : Int) > 0) by decide, show ((-1 : Int) < 0) by decide,
          if_true, if_false]
        rw [ih1 b]
        constructor
        · rintro ⟨hm, hc⟩
          exact ⟨List.mem_cons_of_mem _ hm, hc⟩
        · rintro ⟨hm, hc⟩
          rcases List.mem_cons.1 hm with heq | hm
          · have : b = b0 := by
              have := congrArg Prod.fst heq
              simpa using this
            subst this
            exact absurd hc hnot0
          · exact ⟨hm, hc⟩
      · simp only [show ¬ ((-1 : Int) > 0) by decide, show ((-1 : Int) < 0) by decide,
          if_true, if_false]
        rw [ih2]
        constructor
        · intro h x hx
          rcases List.mem_cons.1 hx with rfl | hx
          · exact hnot0
          · exact h x hx
        · intro h x hx
          exact h x (List.mem_cons_of_mem _ hx)
    · simp only [c1, if_false]
      by_cases c2 : addU a 1 ≤ b0.payload
      · -- the first block lies above `a`: nothing is found
        simp only [c2, if_true, show ((1 : Int) > 0) by decide]
        have hnone : ∀ x ∈ (b0, u) :: tl, ¬ contains_addr x.1 a := by
          intro x hx hc
          unfold contains_addr at hc
          have hxw : x.1.payload + x.1.req_szB < WORD := hnw x hx
          have ha : a + 1 < WORD := by omega
          rw [addU_small _ _ ha] at c2
          rcases List.mem_cons.1 hx with rfl | hx
          · simp only at hc; omega
          · have := hlater x hx
            omega
        refine ⟨fun b => ?_, ?_⟩
        · constructor
          · intro h; simp at h
          · rintro ⟨hm, hc⟩
            exact absurd hc (hnone (b, ()) hm)
        · constructor
          · intro _; exact hnone
          · intro _; trivial
      · -- the first block contains `a`
        simp only [c2, if_false, show ¬ ((0 : Int) > 0) by decide,
          show ¬ ((0 : Int) < 0) by decide]
        have ha : a + 1 < WORD := by omega
        rw [addU_small _ _ ha] at c2
        have hc0 : contains_addr b0 a := by unfold contains_addr; omega
        refine ⟨fun b => ?_, ?_⟩
        · constructor
          · intro h
            have : b0 = b := by simpa using h
            subst this
            exact ⟨List.mem_cons_self _ _, hc0⟩
          · rintro ⟨hm, hc⟩
            rcases List.mem_cons.1 hm with heq | hm
            · have : b = b0 := by
                have := congrArg Prod.fst heq
                simpa using this
              rw [this]
            · have := hlater (b, ()) hm
              unfold contains_addr at hc
              simp only at this
              omega
        · constructor
          · intro h; simp at h
          · intro h
            exact absurd hc0 (h (b0, u) (List.mem_cons_self _ _))

/-- C2 (amended): for every index kept in address order whose blocks are
non-empty, pairwise non-overlapping and end below the top of the address
space (`payload + req_szB < 2^64`), and for every address `a`,
`find_Block_containing a` returns block `b` exactly when `b` is in the index
and `b.payload <= a < b.payload + b.req_szB` (so also for an `a` strictly
inside the block), and returns `NULL` exactly when no block contains `a`; in
particular it never fails an assertion. -/
theorem find_Block_containing_correct (t : WordFM Block Unit) (a : Nat)
    (hord : AddrOrdered t) (hne : NonEmptyBlocks t) (hno : NoOverlap t) (hnw : NoWrap t) :
    (∀ b, find_Block_containing t a = some (some b) ↔ ((b, ()) ∈ t ∧ contains_addr b a)) ∧
    (find_Block_containing t a = some none ↔ ∀ x ∈ t, ¬ contains_addr x.1 a) :=
  find_Block_sound_complete t a hord hne hno hnw

theorem find_Block_containing_correct_witness :
    AddrOrdered two_block_tree ∧ NonEmptyBlocks two_block_tree ∧ NoOverlap two_block_tree ∧
    NoWrap two_block_tree ∧
    ((∀ b, find_Block_containing two_block_tree 2005 = some (some b) ↔
        ((b, ()) ∈ two_block_tree ∧ contains_addr b 2005)) ∧
     (find_Block_containing two_block_tree 2005 = some none ↔
        ∀ x ∈ two_block_tree, ¬ contains_addr x.1 2005)) :=
  ⟨by decide, by decide, by decide, by decide,
   find_Block_containing_correct two_block_tree 2005 (by decide)
     (by decide) (by decide) (by decide)⟩

/-- C2 (counterexample): the index that holds one block of one byte at the
last address `2^64 - 1` is ordered, its block is non-empty and overlaps no
other, and the block contains the address `2^64 - 1`; yet
`find_Block_containing` returns `NULL` for that address, because
`payload + req_szB` wraps to 0 in the comparison. -/
theorem find_Block_containing_misses_top_byte :
    AddrOrdered [(top_byte_Block, ())] ∧ NonEmptyBlocks [(top_byte_Block, ())] ∧
    NoOverlap [(top_byte_Block, ())] ∧
    (top_byte_Block, ()) ∈ [(top_byte_Block, ())] ∧
    contains_addr top_byte_Block 18446744073709551615 ∧
    find_Block_containing [(top_byte_Block, ())] 18446744073709551615 = some none :=
  ⟨by decide, by decide, by decide, by decide, by decide, by decide⟩

/-! ### The map of allocation points: lookups after updates -/

theorem cmp_unsigned_Words_eq (w1 w2 : Nat) :
    cmp_unsigned_Words w1 w2 =
      some (if w1 < w2 then -1 else if w1 > w2 then 1 else 0) := by
  unfold cmp_unsigned_Words
  split_ifs <;> rfl

theorem lookupFM_apinfo_cons (k : Nat) (v : APInfo) (rest : WordFM Nat APInfo) (ap : Nat) :
    lookupFM cmp_unsigned_Words ((k, v) :: rest) ap =
      if k > ap then some none
      else if k < ap then lookupFM cmp_unsigned_Words rest ap
      else some (some (k, v)) := by
  simp only [lookupFM, cmp_unsigned_Words_eq]
  by_cases h1 : k < ap
  · have : ¬ k > ap := by omega
    simp [h1, this]
  · by_cases h2 : k > ap
    · simp [h1, h2]
    · simp [h1, h2]

theorem lookup_site_cons (k : Nat) (v : APInfo) (rest : WordFM Nat APInfo) (ap : Nat) :
    lookup_site ((k, v) :: rest) ap =
      if k > ap then none
      else if k < ap then lookup_site rest ap
      else some v := by
  unfold lookup_site
  rw [lookupFM_apinfo_cons]
  split_ifs <;> rfl

theorem lookup_site_nil (ap : Nat) : lookup_site [] ap = none := rfl

theorem lookupFM_apinfo_total (fm : WordFM Nat APInfo) (ap : Nat) :
    lookupFM cmp_unsigned_Words fm ap = some ((lookup_site fm ap).map (fun v => (ap, v))) := by
  induction fm with
  | nil => rfl
  | cons hd tl ih =>
    obtain ⟨k, v⟩ := hd
    rw [lookupFM_apinfo_cons, lookup_site_cons]
    by_cases h1 : k > ap
    · simp [h1]
    · by_cases h2 : k < ap
      · simp [h1, h2, ih]
      · have : k = ap := by omega
        simp [h1, h2, this]

theorem modifyFM_apinfo_cons (k : Nat) (v : APInfo) (rest : WordFM Nat APInfo) (ap : Nat)
    (f : Nat × APInfo → Nat × APInfo) :
    modifyFM cmp_unsigned_Words ((k, v) :: rest) ap f =
      if k > ap then (k, v) :: rest
      else if k < ap then (k, v) :: modifyFM cmp_unsigned_Words rest ap f
      else f (k, v) :: rest := by
  simp only [modifyFM, cmp_unsigned_Words_eq]
  by_cases h1 : k < ap
  · have : ¬ k > ap := by omega
    simp [h1, this]
  · by_cases h2 : k > ap
    · simp [h1, h2]
    · simp [h1, h2]

theorem addToFM_apinfo_cons (k : Nat) (v : APInfo) (rest : WordFM Nat APInfo) (ap : Nat)
    (w : APInfo) :
    addToFM cmp_unsigned_Words ((k, v) :: rest) ap w =
      if k > ap then some ((ap, w) :: (k, v) :: rest, false)
      else if k < ap then
        match addToFM cmp_unsigned_Words rest ap w with
        | none => none
        | some (r, present) => some ((k, v) :: r, present)
      else some ((k, w) :: rest, true) := by
  simp only [addToFM, cmp_unsigned_Words_eq]
  by_cases h1 : k < ap
  · have : ¬ k > ap := by omega
    simp only [h1, this, if_true, if_false, show ¬ ((-1 : Int) > 0) by decide,
      show ((-1 : Int) < 0) by decide]
    cases addToFM cmp_unsigned_Words rest ap w <;> rfl
  · by_cases h2 : k > ap
    · simp [h1, h2]
    · simp [h1, h2]

theorem lookup_site_modify (fm : WordFM Nat APInfo) (ap ap1 : Nat) (w : APInfo) :
    lookup_site (modifyFM cmp_unsigned_Words fm ap (fun kv => (kv.1, w))) ap1 =
      if ap1 = ap then (lookup_site fm ap).map (fun _ => w) else lookup_site fm ap1 := by
  induction fm with
  | nil => simp [modifyFM, lookup_site_nil]
  | cons hd tl ih =>
    obtain ⟨k, v⟩ := hd
    rw [modifyFM_apinfo_cons]
    by_cases h1 : k > ap
    · simp only [h1, if_true]
      by_cases he : ap1 = ap
      · subst he
        simp [lookup_site_cons, h1]
      · simp [he]
    · by_cases h2 : k < ap
      · simp only [h1, h2, if_true, if_false, lookup_site_cons, ih]
        by_cases he : ap1 = ap
        · subst he
          simp [h1, h2]
        · simp [he]
      · have hk : k = ap := by omega
        subst hk
        simp only [h1, h2, if_false, lookup_site_cons]
        by_cases he : ap1 = k
        · subst he
          simp
        · have : ap1 < k ∨ k < ap1 := by omega
          rcases this with h3 | h3
          · have : k > ap1 := h3
            simp [he, this]
          · have : ¬ k > ap1 := by omega
            simp [he, this, h3]

theorem lookup_site_add (fm fm1 : WordFM Nat APInfo) (ap ap1 : Nat) (w : APInfo)
    (h : addToFM cmp_unsigned_Words fm ap w = some (fm1, false)) :
    lookup_site fm ap = none ∧
    lookup_site fm1 ap1 = if ap1 = ap then some w else lookup_site fm ap1 := by
  induction fm generalizing fm1 with
  | nil =>
    simp only [addToFM, Option.some.injEq, Prod.mk.injEq, and_true] at h
    subst h
    refine ⟨rfl, ?_⟩
    rw [lookup_site_cons]
    by_cases he : ap1 = ap
    · subst he; simp
    · simp only [he, if_false, lookup_site_nil]
      split_ifs <;> first | rfl | omega
  | cons hd tl ih =>
    obtain ⟨k, v⟩ := hd
    rw [addToFM_apinfo_cons] at h
    by_cases h1 : k > ap
    · simp only [h1, if_true, Option.some.injEq, Prod.mk.injEq, and_true] at h
      subst h
      refine ⟨by simp [lookup_site_cons, h1], ?_⟩
      rw [lookup_site_cons]
      by_cases he : ap1 = ap
      · subst he; simp
      · simp only [he, if_false]
        by_cases h3 : ap > ap1
        · have : k > ap1 := by omega
          simp [h3, lookup_site_cons, this]
        · have : ap < ap1 := by omega
          simp [h3, this]
    · by_cases h2 : k < ap
      · simp only [h1, h2, if_true, if_false] at h
        cases hr : addToFM cmp_unsigned_Words tl ap w with
        | none => simp [hr] at h
        | some rp =>
          obtain ⟨r, present⟩ := rp
          simp only [hr, Option.some.injEq, Prod.mk.injEq] at h
          obtain ⟨h3, h4⟩ := h
          subst h4
          subst h3
          obtain ⟨i1, i2⟩ := ih r hr
          refine ⟨by simp [lookup_site_cons, h1, h2, i1], ?_⟩
          rw [lookup_site_cons, lookup_site_cons, i2]
          by_cases he : ap1 = ap
          · subst he; simp [h1, h2]
          · simp [he]
      · simp [h1, h2] at h

theorem intro_lookup_site (fm fm1 : WordFM Nat APInfo) (ap : Nat) (api : APInfo)
    (h : intro_lookup fm ap = some (api, fm1)) :
    api = (lookup_site fm ap).getD (new_APInfo ap) ∧
    ∀ ap1, lookup_site fm1 ap1 = if ap1 = ap then some api else lookup_site fm ap1 := by
  unfold intro_lookup at h
  rw [lookupFM_apinfo_total] at h
  cases hl : lookup_site fm ap with
  | none =>
    simp only [hl, Option.map_none'] at h
    cases ha : addToFM cmp_unsigned_Words fm ap (new_APInfo ap) with
    | none => simp [ha] at h
    | some rp =>
      obtain ⟨r, present⟩ := rp
      simp only [ha] at h
      cases present with
      | true => simp at h
      | false =>
        simp only [Bool.false_eq_true, if_false, Option.some.injEq, Prod.mk.injEq] at h
        obtain ⟨h1, h2⟩ := h
        subst h1 h2
        refine ⟨rfl, fun ap1 => ?_⟩
        exact (lookup_site_add fm r ap ap1 _ ha).2
  | some v =>
    simp only [hl, Option.map_some', if_true, Option.some.injEq, Prod.mk.injEq] at h
    obtain ⟨h1, h2⟩ := h
    subst h1 h2
    refine ⟨rfl, fun ap1 => ?_⟩
    by_cases he : ap1 = ap
    · subst he; simp [hl]
    · simp [he]

/-! ### What each operation does to the record of an allocation point -/

theorem intro_Block_site (s s1 : State) (bk : Block) (h : intro_Block s bk = some s1)
    (ap1 : Nat) :
    site s1 ap1 =
      if ap1 = bk.ap
      then some (intro_APInfo ((site s bk.ap).getD (new_APInfo bk.ap)) bk.req_szB)
      else site s ap1 := by
  obtain ⟨api, fm, _, hl, _, rfl⟩ := intro_Block_inv s s1 bk h
  obtain ⟨e1, e2⟩ := intro_lookup_site _ _ _ _ hl
  unfold site
  simp only [intro_globals]
  rw [lookup_site_modify, e2 ap1, e2 bk.ap]
  by_cases he : ap1 = bk.ap
  · simp [he, e1]
  · simp [he]

theorem retire_Block_site (s s1 : State) (bk : Block) (h : retire_Block s bk = some s1) :
    ∃ api api1 api2, site s bk.ap = some api ∧
      1 ≤ api.cur_blocks_live ∧ bk.req_szB ≤ api.cur_bytes_live ∧
      bk.allocd_at ≤ s.g_guest_instrs_executed ∧
      retire_xsize (retire_APInfo_stats api bk s.g_guest_instrs_executed) bk = some api1 ∧
      retire_fold api1 bk = some api2 ∧
      ∀ ap1, site s1 ap1 = if ap1 = bk.ap then some api2 else site s ap1 := by
  obtain ⟨k, api, api1, api2, _, hl, _, h1, h2, h3, _, _, h4, h5, rfl⟩ :=
    retire_Block_inv s s1 bk h
  have hsite : site s bk.ap = some api := by
    unfold site lookup_site
    rw [hl]
  refine ⟨api, api1, api2, hsite, h1, h2, h3, h4, h5, fun ap1 => ?_⟩
  unfold site at hsite ⊢
  simp only
  rw [lookup_site_modify, hsite]
  rfl

theorem apinfo_change_site (s s1 : State) (ec : Nat) (delta : Int)
    (h : apinfo_change_cur_bytes_live s ec delta = some s1) :
    ∃ api, site s ec = some api ∧
      (delta < 0 → ofLong (-delta) ≤ api.cur_bytes_live) ∧
      (delta < 0 → ofLong (-delta) ≤ s.g_cur_bytes_live) ∧
      ∀ ap1, site s1 ap1 = if ap1 = ec then some (change_APInfo api delta) else site s ap1 := by
  obtain ⟨k, api, hl, _, h1, h2, rfl⟩ := apinfo_change_inv s s1 ec delta h
  have hsite : site s ec = some api := by
    unfold site lookup_site
    rw [hl]
  refine ⟨api, hsite, h1, h2, fun ap1 => ?_⟩
  unfold site at hsite ⊢
  simp only
  rw [lookup_site_modify, hsite]
  rfl

/-- What one event can do to the record of allocation point `ap`: nothing,
an `intro_Block`, a `retire_Block`, or an `apinfo_change_cur_bytes_live`. -/
theorem step_site_cases (s s1 : State) (e : Event) (hs : step s e = some s1) (ap : Nat) :
    site s1 ap = site s ap ∨
    (∃ sz, site s1 ap = some (intro_APInfo ((site s ap).getD (new_APInfo ap)) sz)) ∨
    (∃ api bk api1 api2, site s ap = some api ∧
      1 ≤ api.cur_blocks_live ∧ bk.req_szB ≤ api.cur_bytes_live ∧
      retire_xsize (retire_APInfo_stats api bk s.g_guest_instrs_executed) bk = some api1 ∧
      retire_fold api1 bk = some api2 ∧ site s1 ap = some api2) ∨
    (∃ api x, site s ap = some api ∧
      (wrapLong x < 0 → ofLong (-wrapLong x) ≤ api.cur_bytes_live) ∧
      site s1 ap = some (change_APInfo api (wrapLong x))) := by
  cases e with
  | alloc ec host_p szB =>
    simp only [step, Option.map_eq_some', Prod.exists, exists_eq_right] at hs
    obtain ⟨r, hs⟩ := hs
    obtain ⟨_, h1 | ⟨_, hne, _, tree, hadd, hintro⟩⟩ := new_block_inv s s1 ec host_p 0 szB r hs
    · rw [h1.2.1]; exact Or.inl rfl
    · have := intro_Block_site _ _ _ hintro ap
      by_cases he : ap = (mk_Block host_p (if szB = 0 then 1 else szB) ec
          s.g_guest_instrs_executed).ap
      · rw [if_pos he, ← he] at this
        exact Or.inr (Or.inl ⟨_, this⟩)
      · rw [if_neg he] at this
        exact Or.inl this
  | free p =>
    simp only [step] at hs
    rcases die_block_inv s s1 p false hs with h1 | ⟨bk, s2, tree, hf, hp, _, _, hr, hd, rfl⟩
    · rw [h1.1]; exact Or.inl rfl
    · obtain ⟨api, api1, api2, h1, h2, h3, _, h5, h6, h7⟩ := retire_Block_site _ _ _ hr
      have := h7 ap
      by_cases he : ap = bk.ap
      · rw [if_pos he] at this
        subst he
        exact Or.inr (Or.inr (Or.inl ⟨api, bk, api1, api2, h1, h2, h3, h5, h6, this⟩))
      · rw [if_neg he] at this
        exact Or.inl this
  | resize host_p p szB =>
    simp only [step, Option.map_eq_some', Prod.exists, exists_eq_right] at hs
    obtain ⟨r, hs⟩ := hs
    obtain ⟨hpos, h1 | ⟨bk, hf, hp, hsz, _, hcase⟩⟩ := renew_block_inv s s1 host_p p szB r hs
    · rw [h1.2.1]; exact Or.inl rfl
    · rcases hcase with ⟨hle, _, s2, hch, rfl⟩ | ⟨_, _, _, rfl⟩ |
        ⟨_, hne, _, _, tree, s2, tree2, hd, hch, hadd, rfl⟩
      · obtain ⟨api, h1, h2, _, h4⟩ := apinfo_change_site _ _ _ _ hch
        have := h4 ap
        by_cases he : ap = bk.ap
        · rw [if_pos he] at this
          subst he
          exact Or.inr (Or.inr (Or.inr ⟨api, _, h1, h2, this⟩))
        · rw [if_neg he] at this
          exact Or.inl this
      · exact Or.inl rfl
      · obtain ⟨api, h1, h2, _, h4⟩ := apinfo_change_site _ _ _ _ hch
        have := h4 ap
        by_cases he : ap = bk.ap
        · rw [if_pos he] at this
          subst he
          exact Or.inr (Or.inr (Or.inr ⟨api, _, h1, h2, this⟩))
        · rw [if_neg he] at this
          exact Or.inl this
  | read addr szB =>
    simp only [step] at hs
    rcases dh_handle_read_inv s s1 addr szB hs with h1 | ⟨bk, bk2, hf, ht, rfl⟩
    · rw [h1.2]; exact Or.inl rfl
    · exact Or.inl rfl
  | write addr szB =>
    simp only [step] at hs
    rcases dh_handle_write_inv s s1 addr szB hs with h1 | ⟨bk, bk2, hf, ht, rfl⟩
    · rw [h1.2]; exact Or.inl rfl
    · exact Or.inl rfl
  | tick n =>
    simp only [step, Option.some.injEq] at hs
    rw [← hs]; exact Or.inl rfl

/-! ### Arithmetic of the casts -/

theorem toLong_range (x : Nat) :
    -9223372036854775808 ≤ toLong x ∧ toLong x < 9223372036854775808 := by
  unfold toLong
  simp only [WORD]
  split_ifs <;> omega

theorem wrapLong_range (x : Int) :
    -9223372036854775808 ≤ wrapLong x ∧ wrapLong x < 9223372036854775808 :=
  toLong_range _

theorem ofLong_of_nonneg (i : Int) (h0 : 0 ≤ i) (h1 : i < 9223372036854775808) :
    (ofLong i : Int) = i := by
  unfold ofLong
  simp only [WORD]
  omega

theorem ofLong_of_neg (i : Int) (h0 : i < 0) (h1 : -9223372036854775808 ≤ i) :
    (ofLong i : Int) = i + 18446744073709551616 ∧ (ofLong (-i) : Int) = -i := by
  unfold ofLong
  simp only [WORD]
  omega

theorem subU_of_le (a b : Nat) (hb : b ≤ a) (ha : a < WORD) : subU a b = a - b := by
  unfold subU
  simp only [WORD] at ha ⊢
  split_ifs <;> omega

theorem addU_lt (a b : Nat) : addU a b < WORD := by
  unfold addU
  exact Nat.mod_lt _ (by decide)

theorem subU_lt (a b : Nat) : subU a b < WORD := by
  unfold subU
  simp only [WORD]
  split_ifs <;> omega

theorem retire_xsize_counters (a a1 : APInfo) (bk : Block) (h : retire_xsize a bk = some a1) :
    a1.ap = a.ap ∧ a1.cur_blocks_live = a.cur_blocks_live ∧
    a1.cur_bytes_live = a.cur_bytes_live ∧ a1.max_blocks_live = a.max_blocks_live ∧
    a1.max_bytes_live = a.max_bytes_live ∧ a1.tot_blocks = a.tot_blocks ∧
    a1.tot_bytes = a.tot_bytes ∧ a1.death_ages_sum = a.death_ages_sum ∧
    a1.deaths = a.deaths ∧ a1.n_reads = a.n_reads ∧ a1.n_writes = a.n_writes := by
  unfold retire_xsize at h
  split at h <;> split_ifs at h <;>
    (simp only [Option.some.injEq] at h; subst h; simp)

theorem retire_fold_counters (a a1 : APInfo) (bk : Block) (h : retire_fold a bk = some a1) :
    a1.ap = a.ap ∧ a1.cur_blocks_live = a.cur_blocks_live ∧
    a1.cur_bytes_live = a.cur_bytes_live ∧ a1.max_blocks_live = a.max_blocks_live ∧
    a1.max_bytes_live = a.max_bytes_live ∧ a1.tot_blocks = a.tot_blocks ∧
    a1.tot_bytes = a.tot_bytes ∧ a1.death_ages_sum = a.death_ages_sum ∧
    a1.deaths = a.deaths ∧ a1.n_reads = a.n_reads ∧ a1.n_writes = a.n_writes ∧
    a1.xsize_tag = a.xsize_tag ∧ a1.xsize = a.xsize := by
  unfold retire_fold at h
  split at h
  · split_ifs at h
    simp only [Option.some.injEq] at h
    subst h
    simp
  · simp only [Option.some.injEq] at h
    subst h
    simp

theorem retire_counters (api api1 api2 : APInfo) (bk : Block) (clock : Nat)
    (h1 : retire_xsize (retire_APInfo_stats api bk clock) bk = some api1)
    (h2 : retire_fold api1 bk = some api2) :
    api2.ap = api.ap ∧ api2.cur_blocks_live = subU api.cur_blocks_live 1 ∧
    api2.cur_bytes_live = subU api.cur_bytes_live bk.req_szB ∧
    api2.max_blocks_live = api.max_blocks_live ∧
    api2.max_bytes_live = api.max_bytes_live ∧ api2.tot_blocks = api.tot_blocks ∧
    api2.tot_bytes = api.tot_bytes ∧
    api2.death_ages_sum = addU api.death_ages_sum (subU clock bk.allocd_at) ∧
    api2.deaths = addU api.deaths 1 ∧ api2.n_reads = addU api.n_reads bk.n_reads ∧
    api2.n_writes = addU api.n_writes bk.n_writes := by
  obtain ⟨a1, a2, a3, a4, a5, a6, a7, a8, a9, a10, a11⟩ := retire_xsize_counters _ _ _ h1
  obtain ⟨b1, b2, b3, b4, b5, b6, b7, b8, b9, b10, b11, _, _⟩ := retire_fold_counters _ _ _ h2
  simp only [retire_APInfo_stats] at a1 a2 a3 a4 a5 a6 a7 a8 a9 a10 a11
  rw [b1, b2, b3, b4, b5, b6, b7, b8, b9, b10, b11]
  exact ⟨a1, a2, a3, a4, a5, a6, a7, a8, a9, a10, a11⟩

/-! ### C3: live bytes of an allocation point against its lifetime bytes -/

theorem lookup_site_mem (fm : WordFM Nat APInfo) (ap : Nat) (api : APInfo)
    (h : lookup_site fm ap = some api) : (ap, api) ∈ fm := by
  induction fm with
  | nil => simp [lookup_site_nil] at h
  | cons hd tl ih =>
    obtain ⟨k, v⟩ := hd
    rw [lookup_site_cons] at h
    split_ifs at h with h1 h2
    · exact List.mem_cons_of_mem _ (ih h)
    · have hk : k = ap := by omega
      simp only [Option.some.injEq] at h
      subst hk h
      exact List.mem_cons_self _ _

theorem tot_bytes_kept_site (s s1 : State) (h : tot_bytes_kept s s1) (ap : Nat)
    (api api1 : APInfo) (h1 : site s ap = some api) (h2 : site s1 ap = some api1) :
    api.tot_bytes ≤ api1.tot_bytes :=
  h (ap, api) (lookup_site_mem _ _ _ h1) api1 (by simpa using h2)

/-- The invariant behind C3: live bytes are at most lifetime bytes, and both
counters are machine words. -/
theorem step_cur_le_tot (s s1 : State) (e : Event) (hs : step s e = some s1)
    (hk : tot_bytes_kept s s1)
    (hinv : ∀ ap api, site s ap = some api →
      api.cur_bytes_live ≤ api.tot_bytes ∧ api.tot_bytes < WORD)
    (ap : Nat) (api1 : APInfo) (h1 : site s1 ap = some api1) :
    (api1.cur_bytes_live ≤ api1.tot_bytes ∧ api1.tot_bytes < WORD) ∧
    ∀ api, site s ap = some api →
      api1.cur_bytes_live + api.tot_bytes ≤ api1.tot_bytes + api.cur_bytes_live := by
  rcases step_site_cases s s1 e hs ap with h | ⟨sz, h⟩ | ⟨api, bk, a1, a2, h0, _, hle, hx, hf, h⟩ |
      ⟨api, x, h0, hle, h⟩
  · rw [h] at h1
    refine ⟨hinv ap api1 h1, fun api h0 => ?_⟩
    rw [h0] at h1
    simp only [Option.some.injEq] at h1
    subst h1
    omega
  · rw [h] at h1
    simp only [Option.some.injEq] at h1
    subst h1
    cases h0 : site s ap with
    | none =>
      simp only [Option.getD_none, intro_APInfo, new_APInfo, addU, WORD]
      refine ⟨⟨le_refl _, ?_⟩, fun api h => by simp at h⟩
      omega
    | some api =>
      have hkept := tot_bytes_kept_site s s1 hk ap api _ h0 h
      obtain ⟨i1, i2⟩ := hinv ap api h0
      simp only [h0, Option.getD_some, intro_APInfo, addU, WORD] at hkept i2 ⊢
      refine ⟨⟨?_, ?_⟩, fun api3 h3 => ?_⟩
      · omega
      · omega
      · simp only [Option.some.injEq] at h3
        subst h3
        omega
  · rw [h] at h1
    simp only [Option.some.injEq] at h1
    subst h1
    obtain ⟨i1, i2⟩ := hinv ap api h0
    obtain ⟨_, _, c3, _, _, _, c7, _⟩ := retire_counters api a1 a2 bk _ hx hf
    rw [c3, c7, subU_of_le _ _ hle (by omega)]
    refine ⟨⟨?_, i2⟩, fun api3 h3 => ?_⟩
    · omega
    · rw [h0] at h3
      simp only [Option.some.injEq] at h3
      subst h3
      omega
  · rw [h] at h1
    simp only [Option.some.injEq] at h1
    subst h1
    obtain ⟨i1, i2⟩ := hinv ap api h0
    have hkept := tot_bytes_kept_site s s1 hk ap api _ h0 h
    obtain ⟨r1, r2⟩ := wrapLong_range x
    simp only [change_APInfo, addU, WORD] at hkept i2 ⊢
    have key : (if wrapLong x > 0 then (api.tot_bytes + ofLong (wrapLong x)) % 18446744073709551616
                else api.tot_bytes) < 18446744073709551616 ∧
        (api.cur_bytes_live + ofLong (wrapLong x)) % 18446744073709551616 + api.tot_bytes ≤
          (if wrapLong x > 0 then (api.tot_bytes + ofLong (wrapLong x)) % 18446744073709551616
                else api.tot_bytes) + api.cur_bytes_live := by
      by_cases hpos : wrapLong x > 0
      · have e1 := ofLong_of_nonneg (wrapLong x) (by omega) r2
        simp only [hpos, if_true] at hkept ⊢
        omega
      · simp only [hpos, if_false]
        by_cases hneg : wrapLong x < 0
        · obtain ⟨e1, e2⟩ := ofLong_of_neg (wrapLong x) hneg r1
          have := hle hneg
          omega
        · have hz : wrapLong x = 0 := by omega
          have e1 := ofLong_of_nonneg (wrapLong x) (by omega) r2
          omega
    refine ⟨⟨by omega, key.1⟩, fun api3 h3 => ?_⟩
    rw [h0] at h3
    simp only [Option.some.injEq] at h3
    subst h3
    exact key.2

theorem run_cur_le_tot (evs : List Event) (s s1 : State)
    (hinv : ∀ ap api, site s ap = some api →
      api.cur_bytes_live ≤ api.tot_bytes ∧ api.tot_bytes < WORD)
    (hw : NoTotWrap s evs) (hr : run s evs = some s1) :
    ∀ ap api, site s1 ap = some api →
      api.cur_bytes_live ≤ api.tot_bytes ∧ api.tot_bytes < WORD := by
  induction evs generalizing s with
  | nil =>
    simp only [run, Option.some.injEq] at hr
    rw [← hr]; exact hinv
  | cons e es ih =>
    simp only [run] at hr
    simp only [NoTotWrap] at hw
    cases hs : step s e with
    | none => simp [hs] at hr
    | some s2 =>
      simp only [hs] at hr hw
      exact ih s2 (fun ap api h => (step_cur_le_tot s s2 e hs hw.1 hinv ap api h).1) hw.2 hr

/-- Along a stream on which no allocation point's 64-bit `tot_bytes` counter
has wrapped around, every site record has `cur_bytes_live <= tot_bytes`, and
from such a point every further event that does not wrap `tot_bytes` raises
a site's `cur_bytes_live` by at most what it raises the site's `tot_bytes`
by. -/
theorem site_cur_bytes_le_tot_bytes (evs : List Event) (s : State)
    (hwrap : NoTotWrap init_State evs) (hrun : run init_State evs = some s) :
    (∀ ap api, site s ap = some api → api.cur_bytes_live ≤ api.tot_bytes) ∧
    (∀ e s1, step s e = some s1 → tot_bytes_kept s s1 →
      ∀ ap api api1, site s ap = some api → site s1 ap = some api1 →
        api1.cur_bytes_live + api.tot_bytes ≤ api1.tot_bytes + api.cur_bytes_live) := by
  have hinv := run_cur_le_tot evs init_State s
    (fun ap api h => by simp [site, init_State, lookup_site_nil] at h) hwrap hrun
  refine ⟨fun ap api h => (hinv ap api h).1, ?_⟩
  intro e s1 hs hk ap api api1 h0 h1
  exact (step_cur_le_tot s s1 e hs hk hinv ap api1 h1).2 api h0

/-- C3 (the code at the failing input): two blocks of `2^63 - 1` bytes are
allocated and freed at site 7, then a block of 9000 bytes is allocated
there.  The third `tot_bytes += req_szB` of `intro_Block` wraps the 64-bit
counter (`2^64 - 2 + 9000`): the site is left with `cur_bytes_live = 9000`
and `tot_bytes = 8998`, its `max_bytes_live` is `2^63 - 1`, and the
assertion `tot_bytes >= max_bytes_live` of `show_APInfo` fails for the
record. -/
theorem site_cur_bytes_exceeds_wrapped_tot_bytes :
    (run init_State
      [Event.alloc 7 1 9223372036854775807, Event.free 1,
       Event.alloc 7 1 9223372036854775807, Event.free 1,
       Event.alloc 7 1 9000]).bind
      (fun s => (site s 7).map
        (fun a => (a.cur_bytes_live, a.tot_bytes, a.max_bytes_live, show_APInfo a))) =
      some (9000, 8998, 9223372036854775807, none) := by
  decide

/-- C4 (the code at the failing input): after a block of 100 bytes is
allocated and grown to 200 bytes by `renew_block`, the process-wide
`g_cur_bytes_live` is 200 while `g_tot_bytes` is still 100;
`apinfo_change_cur_bytes_live` credits the growth to the `tot_bytes` of the
site (200) but not to `g_tot_bytes`. -/
theorem grow_resize_leaves_g_tot_bytes_behind :
    (run init_State [Event.alloc 7 1000 100, Event.resize 2000 1000 200]).bind
      (fun s => (site s 7).map
        (fun a => (s.g_cur_bytes_live, s.g_tot_bytes, a.cur_bytes_live, a.tot_bytes))) =
      some (200, 100, 200, 200) := by
  decide

/-! ### C5: the maximum-liveness snapshot -/

theorem step_site_max (s s1 : State) (e : Event) (hs : step s e = some s1) (ap : Nat) :
    (∀ api, site s ap = some api →
      ∃ api1, site s1 ap = some api1 ∧ api.max_bytes_live ≤ api1.max_bytes_live) ∧
    (∀ api1, site s1 ap = some api1 →
      api1.max_bytes_live = api1.cur_bytes_live ∨
      ∃ api, site s ap = some api ∧ api1.max_bytes_live = api.max_bytes_live) := by
  rcases step_site_cases s s1 e hs ap with h | ⟨sz, h⟩ | ⟨api, bk, a1, a2, h0, _, hle, hx, hf, h⟩ |
      ⟨api, x, h0, hle, h⟩
  · rw [h]
    exact ⟨fun api h0 => ⟨api, h0, le_refl _⟩, fun api1 h1 => Or.inr ⟨api1, h1, rfl⟩⟩
  · rw [h]
    constructor
    · intro api h0
      refine ⟨_, rfl, ?_⟩
      simp only [h0, Option.getD_some, intro_APInfo]
      split_ifs <;> omega
    · intro api1 h1
      simp only [Option.some.injEq] at h1
      subst h1
      cases h0 : site s ap with
      | none =>
        left
        simp only [Option.getD_none, intro_APInfo, new_APInfo]
        split_ifs <;> omega
      | some api =>
        simp only [Option.getD_some, intro_APInfo]
        by_cases hc : addU api.cur_bytes_live sz > api.max_bytes_live
        · left; simp [hc]
        · right; exact ⟨api, rfl, by simp [hc]⟩
  · obtain ⟨_, _, _, _, c5, _⟩ := retire_counters api a1 a2 bk _ hx hf
    rw [h, h0]
    constructor
    · intro api3 h3
      simp only [Option.some.injEq] at h3
      subst h3
      exact ⟨a2, rfl, by omega⟩
    · intro api1 h1
      simp only [Option.some.injEq] at h1
      subst h1
      exact Or.inr ⟨api, rfl, c5⟩
  · rw [h, h0]
    constructor
    · intro api3 h3
      simp only [Option.some.injEq] at h3
      subst h3
      refine ⟨_, rfl, ?_⟩
      simp only [change_APInfo]
      split_ifs with hc
      · omega
      · exact le_refl _
    · intro api1 h1
      simp only [Option.some.injEq] at h1
      subst h1
      by_cases hc : wrapLong x > 0 ∧
          addU api.cur_bytes_live (ofLong (wrapLong x)) > api.max_bytes_live
      · left; simp [change_APInfo, hc]
      · right; exact ⟨api, rfl, by simp [change_APInfo, hc]⟩

theorem step_g_max (s s1 : State) (e : Event) (hs : step s e = some s1) :
    s.g_max_bytes_live ≤ s1.g_max_bytes_live ∧
    (s1.g_max_bytes_live = s.g_max_bytes_live ∨
      s1.g_max_bytes_live = s1.g_cur_bytes_live) := by
  have hintro : ∀ (t t1 : State) (bk : Block), intro_Block t bk = some t1 →
      t.g_max_bytes_live ≤ t1.g_max_bytes_live ∧
      (t1.g_max_bytes_live = t.g_max_bytes_live ∨
        t1.g_max_bytes_live = t1.g_cur_bytes_live) := by
    intro t t1 bk h
    obtain ⟨api, fm, _, _, _, rfl⟩ := intro_Block_inv t t1 bk h
    simp only [intro_globals]
    by_cases hc : addU t.g_cur_bytes_live bk.req_szB > t.g_max_bytes_live
    · rw [if_pos hc]
      exact ⟨by omega, Or.inr rfl⟩
    · rw [if_neg hc]
      exact ⟨le_refl _, Or.inl rfl⟩
  have hchange : ∀ (t t1 : State) (ec : Nat) (d : Int),
      apinfo_change_cur_bytes_live t ec d = some t1 →
      t.g_max_bytes_live ≤ t1.g_max_bytes_live ∧
      (t1.g_max_bytes_live = t.g_max_bytes_live ∨
        t1.g_max_bytes_live = t1.g_cur_bytes_live) := by
    intro t t1 ec d h
    obtain ⟨k, api, _, _, _, _, rfl⟩ := apinfo_change_inv t t1 ec d h
    simp only
    by_cases hc : d > 0 ∧ addU t.g_cur_bytes_live (ofLong d) > t.g_max_bytes_live
    · rw [if_pos hc]
      exact ⟨by omega, Or.inr rfl⟩
    · rw [if_neg hc]
      exact ⟨le_refl _, Or.inl rfl⟩
  cases e with
  | alloc ec host_p szB =>
    simp only [step, Option.map_eq_some', Prod.exists, exists_eq_right] at hs
    obtain ⟨r, hs⟩ := hs
    obtain ⟨_, h1 | ⟨_, hne, _, tree, hadd, hi⟩⟩ := new_block_inv s s1 ec host_p 0 szB r hs
    · rw [h1.2.1]; exact ⟨le_refl _, Or.inl rfl⟩
    · have h := hintro _ _ _ hi
      exact h
  | free p =>
    simp only [step] at hs
    rcases die_block_inv s s1 p false hs with h1 | ⟨bk, s2, tree, hf, hp, _, _, hr, hd, rfl⟩
    · rw [h1.1]; exact ⟨le_refl _, Or.inl rfl⟩
    · obtain ⟨k, api, api1, api2, _, _, _, _, _, _, _, _, _, _, rfl⟩ := retire_Block_inv s s2 bk hr
      exact ⟨le_refl _, Or.inl rfl⟩
  | resize host_p p szB =>
    simp only [step, Option.map_eq_some', Prod.exists, exists_eq_right] at hs
    obtain ⟨r, hs⟩ := hs
    obtain ⟨hpos, h1 | ⟨bk, hf, hp, hsz, _, hcase⟩⟩ := renew_block_inv s s1 host_p p szB r hs
    · rw [h1.2.1]; exact ⟨le_refl _, Or.inl rfl⟩
    · rcases hcase with ⟨hle, _, s2, hch, rfl⟩ | ⟨_, _, _, rfl⟩ |
        ⟨_, hne, _, _, tree, s2, tree2, hd, hch, hadd, rfl⟩
      · have h := hchange _ _ _ _ hch
        exact h
      · exact ⟨le_refl _, Or.inl rfl⟩
      · have h := hchange _ _ _ _ hch
        exact h
  | read addr szB =>
    simp only [step] at hs
    rcases dh_handle_read_inv s s1 addr szB hs with h1 | ⟨bk, bk2, hf, ht, rfl⟩
    · rw [h1.2]; exact ⟨le_refl _, Or.inl rfl⟩
    · exact ⟨le_refl _, Or.inl rfl⟩
  | write addr szB =>
    simp only [step] at hs
    rcases dh_handle_write_inv s s1 addr szB hs with h1 | ⟨bk, bk2, hf, ht, rfl⟩
    · rw [h1.2]; exact ⟨le_refl _, Or.inl rfl⟩
    · exact ⟨le_refl _, Or.inl rfl⟩
  | tick n =>
    simp only [step, Option.some.injEq] at hs
    rw [← hs]; exact ⟨le_refl _, Or.inl rfl⟩

theorem run_g_max_held (evs : List Event) (s0 s : State) (hr : run s0 evs = some s) :
    s.g_max_bytes_live = s0.g_max_bytes_live ∨
    ∃ pre t, pre <+: evs ∧ run s0 pre = some t ∧
      t.g_cur_bytes_live = s.g_max_bytes_live := by
  induction evs generalizing s0 with
  | nil =>
    simp only [run, Option.some.injEq] at hr
    left; rw [hr]
  | cons e es ih =>
    simp only [run] at hr
    cases hs : step s0 e with
    | none => simp [hs] at hr
    | some s1 =>
      simp only [hs] at hr
      have hrun1 : ∀ l, run s0 (e :: l) = run s1 l := by
        intro l; simp [run, hs]
      rcases ih s1 hr with h | ⟨pre, t, hp, ht, hc⟩
      · rcases (step_g_max s0 s1 e hs).2 with h2 | h2
        · left; rw [h, h2]
        · right
          refine ⟨[e], s1, ?_, ?_, ?_⟩
          · exact List.prefix_iff_eq_append.2 (by simp)
          · rw [hrun1]; rfl
          · rw [h, h2]
      · right
        refine ⟨e :: pre, t, ?_, ?_, hc⟩
        · exact (List.prefix_cons_inj e).2 hp
        · rw [hrun1]; exact ht

theorem run_site_max_held (evs : List Event) (s0 s : State) (hr : run s0 evs = some s)
    (ap : Nat) (api : APInfo) (h : site s ap = some api) :
    (∃ api0, site s0 ap = some api0 ∧ api.max_bytes_live = api0.max_bytes_live) ∨
    ∃ pre t apit, pre <+: evs ∧ run s0 pre = some t ∧ site t ap = some apit ∧
      apit.cur_bytes_live = api.max_bytes_live := by
  induction evs generalizing s0 with
  | nil =>
    simp only [run, Option.some.injEq] at hr
    left; rw [hr]; exact ⟨api, h, rfl⟩
  | cons e es ih =>
    simp only [run] at hr
    cases hs : step s0 e with
    | none => simp [hs] at hr
    | some s1 =>
      simp only [hs] at hr
      have hrun1 : ∀ l, run s0 (e :: l) = run s1 l := by
        intro l; simp [run, hs]
      rcases ih s1 hr with ⟨api1, h1, hm⟩ | ⟨pre, t, apit, hp, ht, hst, hc⟩
      · rcases (step_site_max s0 s1 e hs ap).2 api1 h1 with h2 | ⟨api0, h2, h3⟩
        · right
          refine ⟨[e], s1, api1, ?_, ?_, h1, ?_⟩
          · exact List.prefix_iff_eq_append.2 (by simp)
          · rw [hrun1]; rfl
          · rw [hm, h2]
        · left; exact ⟨api0, h2, by rw [hm, h3]⟩
      · right
        refine ⟨e :: pre, t, apit, ?_, ?_, hst, hc⟩
        · exact (List.prefix_cons_inj e).2 hp
        · rw [hrun1]; exact ht

/-- C5: over every event stream, (1) no event lowers the process-wide
`g_max_bytes_live` or the `max_bytes_live` of a site record (and a site
record, once made, stays), and (2) at every point `g_max_bytes_live` is a
value that `g_cur_bytes_live` held at that or an earlier point of the stream
(0, at the start, before any allocation), and the `max_bytes_live` of every
site record is a value that the `cur_bytes_live` of that site held at that or
an earlier point. -/
theorem max_bytes_live_monotone_and_held (evs : List Event) (s : State)
    (hrun : run init_State evs = some s) :
    (∀ e s1, step s e = some s1 →
      s.g_max_bytes_live ≤ s1.g_max_bytes_live ∧
      ∀ ap api, site s ap = some api →
        ∃ api1, site s1 ap = some api1 ∧ api.max_bytes_live ≤ api1.max_bytes_live) ∧
    (∃ pre t, pre <+: evs ∧ run init_State pre = some t ∧
      t.g_cur_bytes_live = s.g_max_bytes_live) ∧
    (∀ ap api, site s ap = some api →
      ∃ pre t apit, pre <+: evs ∧ run init_State pre = some t ∧ site t ap = some apit ∧
        apit.cur_bytes_live = api.max_bytes_live) := by
  refine ⟨?_, ?_, ?_⟩
  · intro e s1 hs
    exact ⟨(step_g_max s s1 e hs).1, fun ap api h => (step_site_max s s1 e hs ap).1 api h⟩
  · rcases run_g_max_held evs init_State s hrun with h | h
    · exact ⟨[], init_State, List.nil_prefix, rfl, by rw [h]; rfl⟩
    · exact h
  · intro ap api h
    rcases run_site_max_held evs init_State s hrun ap api h with ⟨api0, h0, _⟩ | h1
    · simp [site, init_State, lookup_site_nil] at h0
    · exact h1

theorem max_bytes_live_monotone_and_held_witness :
    ∃ s, run init_State
      [Event.alloc 7 1000 100, Event.alloc 7 2000 50, Event.free 1000,
       Event.resize 3000 2000 120] = some s ∧
      (s.g_max_bytes_live, (site s 7).map (fun a => a.max_bytes_live)) = (150, some 150) ∧
      ((∀ e s1, step s e = some s1 →
        s.g_max_bytes_live ≤ s1.g_max_bytes_live ∧
        ∀ ap api, site s ap = some api →
          ∃ api1, site s1 ap = some api1 ∧ api.max_bytes_live ≤ api1.max_bytes_live) ∧
      (∃ pre t, pre <+: [Event.alloc 7 1000 100, Event.alloc 7 2000 50, Event.free 1000,
          Event.resize 3000 2000 120] ∧ run init_State pre = some t ∧
        t.g_cur_bytes_live = s.g_max_bytes_live) ∧
      (∀ ap api, site s ap = some api →
        ∃ pre t apit, pre <+: [Event.alloc 7 1000 100, Event.alloc 7 2000 50,
            Event.free 1000, Event.resize 3000 2000 120] ∧
          run init_State pre = some t ∧ site t ap = some apit ∧
          apit.cur_bytes_live = api.max_bytes_live)) := by
  cases h : run init_State
      [Event.alloc 7 1000 100, Event.alloc 7 2000 50, Event.free 1000,
       Event.resize 3000 2000 120] with
  | none => exact absurd h (by decide)
  | some s =>
    refine ⟨s, rfl, ?_, max_bytes_live_monotone_and_held _ s h⟩
    have h2 : (run init_State
      [Event.alloc 7 1000 100, Event.alloc 7 2000 50, Event.free 1000,
       Event.resize 3000 2000 120]).map
        (fun s => (s.g_max_bytes_live, (site s 7).map (fun a => a.max_bytes_live))) =
        some (150, some 150) := by decide
    rw [h] at h2
    simpa using h2

/-! ### C6, C7: the histogram-compatibility tag -/

/-- What `retire_xsize` does to tag, recorded size and folded histogram. -/
theorem retire_xsize_tag (a a1 : APInfo) (bk : Block) (h : retire_xsize a bk = some a1) :
    (a.xsize_tag = XSizeTag.Unknown ∧ a.xsize = 0 ∧ a.histo = none ∧
      a1.xsize_tag = XSizeTag.Exactly ∧ a1.xsize = bk.req_szB ∧
      a1.histo = (if bk.histoB.isSome then some (List.replicate bk.req_szB 0) else none)) ∨
    (a.xsize_tag = XSizeTag.Exactly ∧ bk.req_szB ≠ a.xsize ∧
      a1.xsize_tag = XSizeTag.Mixed ∧ a1.xsize = 0 ∧ a1.histo = none) ∨
    (a.xsize_tag = XSizeTag.Exactly ∧ bk.req_szB = a.xsize ∧ a1 = a) ∨
    (a.xsize_tag = XSizeTag.Mixed ∧ a1 = a) := by
  unfold retire_xsize at h
  split at h
  · rename_i htag
    by_cases c1 : a.xsize ≠ 0
    · simp [c1] at h
    by_cases c2 : a.deaths ≠ 1
    · simp [c1, c2] at h
    by_cases c3 : a.histo.isSome
    · simp [c1, c2, c3] at h
    simp only [c1, c2, c3, if_false, Bool.false_eq_true, Option.some.injEq] at h
    left
    subst h
    refine ⟨htag, by simpa using c1, ?_, rfl, rfl, rfl⟩
    cases hh : a.histo with
    | none => rfl
    | some v => simp [hh] at c3
  · rename_i htag
    by_cases c1 : ¬ (a.deaths > 1)
    · simp [c1] at h
    by_cases c2 : bk.req_szB ≠ a.xsize
    · simp only [c1, c2, if_true, if_false, ne_eq, not_false_eq_true, Option.some.injEq] at h
      right; left
      subst h
      exact ⟨htag, c2, rfl, rfl, rfl⟩
    · simp only [c1, c2, if_false, Option.some.injEq] at h
      right; right; left
      exact ⟨htag, by simpa using c2, h.symm⟩
  · rename_i htag
    by_cases c1 : ¬ (a.deaths > 1)
    · simp [c1] at h
    simp only [c1, if_false, Option.some.injEq] at h
    right; right; right
    exact ⟨htag, h.symm⟩

theorem retire_fold_histo (a a1 : APInfo) (bk : Block) (h : retire_fold a bk = some a1)
    (hne : a.xsize_tag ≠ XSizeTag.Exactly ∨ a.histo = none) : a1 = a := by
  unfold retire_fold at h
  split at h
  · rename_i htag hhisto _
    rcases hne with h1 | h1
    · exact absurd htag h1
    · rw [h1] at hhisto
      simp at hhisto
  · simp only [Option.some.injEq] at h
    exact h.symm

/-- One event moves the tag of a site record at most one state forward. -/
theorem step_site_tag (s s1 : State) (e : Event) (hs : step s e = some s1) (ap : Nat) :
    (∀ a, site s ap = some a → ∃ a1, site s1 ap = some a1 ∧
      ((a1.xsize_tag = a.xsize_tag ∧ a1.xsize = a.xsize ∧
          (a.xsize_tag ≠ XSizeTag.Exactly → a1.histo = a.histo)) ∨
       (a.xsize_tag = XSizeTag.Unknown ∧ a1.xsize_tag = XSizeTag.Exactly) ∨
       (a.xsize_tag = XSizeTag.Exactly ∧ a1.xsize_tag = XSizeTag.Mixed ∧
          a1.histo = none))) ∧
    (site s ap = none → ∀ a1, site s1 ap = some a1 →
      a1.xsize_tag = XSizeTag.Unknown) := by
  rcases step_site_cases s s1 e hs ap with h | ⟨sz, h⟩ | ⟨api, bk, a1, a2, h0, _, hle, hx, hf, h⟩ |
      ⟨api, x, h0, hle, h⟩
  · rw [h]
    refine ⟨fun a ha => ⟨a, ha, Or.inl ⟨rfl, rfl, fun _ => rfl⟩⟩, fun hn a1 h1 => ?_⟩
    rw [hn] at h1
    simp at h1
  · rw [h]
    constructor
    · intro a ha
      refine ⟨_, rfl, Or.inl ?_⟩
      simp [ha, intro_APInfo]
    · intro hn a1 h1
      simp only [hn, Option.getD_none, Option.some.injEq] at h1
      subst h1
      rfl
  · rw [h, h0]
    refine ⟨fun a ha => ?_, fun hn => by simp at hn⟩
    simp only [Option.some.injEq] at ha
    subst ha
    refine ⟨a2, rfl, ?_⟩
    obtain ⟨_, _, _, _, _, _, _, _, _, _, _, f12, f13⟩ := retire_fold_counters _ _ _ hf
    rcases retire_xsize_tag _ _ _ hx with ⟨t1, _, _, t4, _, _⟩ | ⟨t1, _, t3, t4, t5⟩ |
        ⟨t1, _, t3⟩ | ⟨t1, t3⟩
    · right; left
      exact ⟨t1, by rw [f12, t4]⟩
    · right; right
      have := retire_fold_histo _ _ _ hf (Or.inr t5)
      subst this
      exact ⟨t1, t3, t5⟩
    · left
      subst t3
      exact ⟨f12, f13, fun hne => absurd t1 hne⟩
    · left
      subst t3
      have := retire_fold_histo _ _ _ hf (Or.inl (by
        show (retire_APInfo_stats api bk s.g_guest_instrs_executed).xsize_tag ≠ XSizeTag.Exactly
        rw [t1]; decide))
      subst this
      exact ⟨rfl, rfl, fun _ => rfl⟩
  · rw [h, h0]
    refine ⟨fun a ha => ?_, fun hn => by simp at hn⟩
    simp only [Option.some.injEq] at ha
    subst ha
    exact ⟨_, rfl, Or.inl ⟨rfl, rfl, fun _ => rfl⟩⟩

theorem step_mixed_inv (s s1 : State) (e : Event) (hs : step s e = some s1)
    (hinv : ∀ ap a, site s ap = some a → a.xsize_tag = XSizeTag.Mixed → a.histo = none) :
    ∀ ap a, site s1 ap = some a → a.xsize_tag = XSizeTag.Mixed → a.histo = none := by
  intro ap a1 h1 hm
  obtain ⟨st1, st2⟩ := step_site_tag s s1 e hs ap
  cases h0 : site s ap with
  | none =>
    have := st2 h0 a1 h1
    rw [hm] at this
    exact absurd this (by decide)
  | some a =>
    obtain ⟨a1x, h1x, hc⟩ := st1 a h0
    rw [h1] at h1x
    simp only [Option.some.injEq] at h1x
    subst h1x
    rcases hc with ⟨c1, _, c3⟩ | ⟨_, c2⟩ | ⟨_, _, c3⟩
    · have hma : a.xsize_tag = XSizeTag.Mixed := by rw [← c1]; exact hm
      rw [c3 (by rw [hma]; decide)]
      exact hinv ap a h0 hma
    · rw [hm] at c2
      exact absurd c2 (by decide)
    · exact c3

theorem run_mixed_inv (evs : List Event) (s s1 : State) (hr : run s evs = some s1)
    (hinv : ∀ ap a, site s ap = some a → a.xsize_tag = XSizeTag.Mixed → a.histo = none) :
    ∀ ap a, site s1 ap = some a → a.xsize_tag = XSizeTag.Mixed → a.histo = none := by
  induction evs generalizing s with
  | nil =>
    simp only [run, Option.some.injEq] at hr
    rw [← hr]; exact hinv
  | cons e es ih =>
    simp only [run] at hr
    cases hs : step s e with
    | none => simp [hs] at hr
    | some s2 =>
      simp only [hs] at hr
      exact ih s2 hr (step_mixed_inv s s2 e hs hinv)

theorem run_tag_forward (evs : List Event) (s s2 : State) (hr : run s evs = some s2)
    (ap : Nat) (a : APInfo) (ha : site s ap = some a)
    (hm : a.xsize_tag = XSizeTag.Mixed → a.histo = none) :
    ∃ a2, site s2 ap = some a2 ∧ tag_forward a a2 := by
  induction evs generalizing s a with
  | nil =>
    simp only [run, Option.some.injEq] at hr
    subst hr
    exact ⟨a, ha, fun h => h, fun h => Or.inl ⟨h, rfl⟩, fun h => h, hm⟩
  | cons e es ih =>
    simp only [run] at hr
    cases hs : step s e with
    | none => simp [hs] at hr
    | some s1 =>
      simp only [hs] at hr
      obtain ⟨a1, h1, hc⟩ := (step_site_tag s s1 e hs ap).1 a ha
      have hm1 : a1.xsize_tag = XSizeTag.Mixed → a1.histo = none := by
        intro hmx
        rcases hc with ⟨c1, _, c3⟩ | ⟨_, c2⟩ | ⟨_, _, c3⟩
        · have hma : a.xsize_tag = XSizeTag.Mixed := by rw [← c1]; exact hmx
          rw [c3 (by rw [hma]; decide)]
          exact hm hma
        · rw [hmx] at c2
          exact absurd c2 (by decide)
        · exact c3
      obtain ⟨a2, h2, f1, f2, f3, f4⟩ := ih s1 hr a1 h1 hm1
      refine ⟨a2, h2, ?_, ?_, ?_, f4⟩
      · intro hne
        apply f1
        rcases hc with ⟨c1, _, _⟩ | ⟨c1, _⟩ | ⟨_, c2, _⟩
        · rw [c1]; exact hne
        · exact absurd c1 hne
        · rw [c2]; decide
      · intro hex
        rcases hc with ⟨c1, c2, _⟩ | ⟨c1, _⟩ | ⟨_, c2, _⟩
        · rcases f2 (by rw [c1]; exact hex) with ⟨g1, g2⟩ | g
          · exact Or.inl ⟨g1, by rw [g2, c2]⟩
          · exact Or.inr g
        · rw [hex] at c1
          exact absurd c1 (by decide)
        · exact Or.inr (f3 c2)
      · intro hmx
        rcases hc with ⟨c1, _, _⟩ | ⟨c1, _⟩ | ⟨c1, _, _⟩
        · exact f3 (by rw [c1]; exact hmx)
        · rw [hmx] at c1
          exact absurd c1 (by decide)
        · rw [hmx] at c1
          exact absurd c1 (by decide)

/-- C6: for every site and every event stream, the histogram-compatibility
tag only moves forward `Unknown -> Exactly(n) -> Mixed`.  If a site record is
`a1` at some point of a stream and `a2` at any later point, then the record
is still there, the tag of `a2` is not `Unknown` unless that of `a1` is, a
tag `Exactly(n)` is later `Exactly(n)` with the same `n` or `Mixed`, a tag
`Mixed` stays `Mixed`, and a record whose tag is `Mixed` has no folded
histogram, whatever the sizes of the blocks that die later. -/
theorem xsize_tag_only_moves_forward (evs1 evs2 : List Event) (s1 s2 : State)
    (hrun1 : run init_State evs1 = some s1) (hrun2 : run s1 evs2 = some s2)
    (ap : Nat) (a1 : APInfo) (hsite : site s1 ap = some a1) :
    ∃ a2, site s2 ap = some a2 ∧ tag_forward a1 a2 :=
  run_tag_forward evs2 s1 s2 hrun2 ap a1 hsite
    (run_mixed_inv evs1 init_State s1 hrun1
      (fun ap a h => by simp [site, init_State, lookup_site_nil] at h) ap a1 hsite)

theorem xsize_tag_only_moves_forward_witness :
    ∃ s1 s2 a1,
      run init_State [Event.alloc 7 1000 8, Event.alloc 7 2000 16, Event.alloc 7 3000 8,
        Event.free 1000] = some s1 ∧
      run s1 [Event.free 2000, Event.free 3000] = some s2 ∧
      site s1 7 = some a1 ∧ (a1.xsize_tag, a1.xsize) = (XSizeTag.Exactly, 8) ∧
      ∃ a2, site s2 7 = some a2 ∧ tag_forward a1 a2 := by
  have h : (run init_State [Event.alloc 7 1000 8, Event.alloc 7 2000 16,
        Event.alloc 7 3000 8, Event.free 1000]).bind (fun s1 =>
      (site s1 7).bind (fun a1 =>
        (run s1 [Event.free 2000, Event.free 3000]).map (fun _ =>
          (a1.xsize_tag, a1.xsize)))) = some (XSizeTag.Exactly, 8) := by decide
  cases h1 : run init_State [Event.alloc 7 1000 8, Event.alloc 7 2000 16,
        Event.alloc 7 3000 8, Event.free 1000] with
  | none => rw [h1] at h; simp at h
  | some s1 =>
    rw [h1] at h
    simp only [Option.some_bind] at h
    cases h2 : site s1 7 with
    | none => rw [h2] at h; simp at h
    | some a1 =>
      rw [h2] at h
      simp only [Option.some_bind] at h
      cases h3 : run s1 [Event.free 2000, Event.free 3000] with
      | none => rw [h3] at h; simp at h
      | some s2 =>
        rw [h3] at h
        simp only [Option.map_some', Option.some.injEq] at h
        exact ⟨s1, s2, a1, rfl, h3, h2, h,
          xsize_tag_only_moves_forward _ _ s1 s2 h1 h3 7 a1 h2⟩

/-- C7: the tag update of `retire_Block` is the function `spec_tag_update`
of the old tag and the size `s` of the dying block: `Unknown` becomes
`Exactly(s)`; `Exactly(n)` stays `Exactly(n)` when `s = n` and becomes `Mixed`
with `xsize` reset to 0 and the folded histogram freed when `s != n`; `Mixed`
stays `Mixed`. -/
theorem retire_Block_tag_update (s s1 : State) (bk : Block)
    (h : retire_Block s bk = some s1) :
    ∃ api api1, site s bk.ap = some api ∧ site s1 bk.ap = some api1 ∧
      (api1.xsize_tag, api1.xsize) = spec_tag_update api.xsize_tag api.xsize bk.req_szB ∧
      (api.xsize_tag = XSizeTag.Exactly → bk.req_szB ≠ api.xsize →
        api1.xsize_tag = XSizeTag.Mixed ∧ api1.xsize = 0 ∧ api1.histo = none) := by
  obtain ⟨api, a1, a2, h0, _, _, _, hx, hf, hsite⟩ := retire_Block_site s s1 bk h
  have h1 := hsite bk.ap
  rw [if_pos rfl] at h1
  refine ⟨api, a2, h0, h1, ?_, ?_⟩
  · obtain ⟨_, _, _, _, _, _, _, _, _, _, _, f12, f13⟩ := retire_fold_counters _ _ _ hf
    rw [f12, f13]
    have e1 : (retire_APInfo_stats api bk s.g_guest_instrs_executed).xsize_tag
        = api.xsize_tag := rfl
    have e2 : (retire_APInfo_stats api bk s.g_guest_instrs_executed).xsize = api.xsize := rfl
    rcases retire_xsize_tag _ _ _ hx with ⟨t1, _, _, t4, t5, _⟩ | ⟨t1, t2, t3, t4, _⟩ |
        ⟨t1, t2, t3⟩ | ⟨t1, t3⟩
    · rw [e1] at t1
      rw [t4, t5, t1]
      rfl
    · rw [e1] at t1
      rw [e2] at t2
      rw [t3, t4, t1]
      simp [spec_tag_update, t2]
    · rw [e1] at t1
      rw [e2] at t2
      rw [t3, e1, e2, t1]
      simp [spec_tag_update, t2]
    · rw [e1] at t1
      rw [t3, e1, e2, t1]
      rfl
  · intro hex hne
    have e1 : (retire_APInfo_stats api bk s.g_guest_instrs_executed).xsize_tag
        = api.xsize_tag := rfl
    have e2 : (retire_APInfo_stats api bk s.g_guest_instrs_executed).xsize = api.xsize := rfl
    rcases retire_xsize_tag _ _ _ hx with ⟨t1, _⟩ | ⟨t1, t2, t3, t4, t5⟩ |
        ⟨t1, t2, t3⟩ | ⟨t1, t3⟩
    · rw [e1, hex] at t1
      exact absurd t1 (by decide)
    · have := retire_fold_histo _ _ _ hf (Or.inr t5)
      subst this
      exact ⟨t3, t4, t5⟩
    · rw [e2] at t2
      exact absurd t2 hne
    · rw [e1, hex] at t1
      exact absurd t1 (by decide)

theorem retire_Block_tag_update_witness :
    (site one_death_State 7).map (fun a => (a.xsize_tag, a.xsize)) =
      some (XSizeTag.Exactly, 8) ∧
    ∃ s1, retire_Block one_death_State (mk_Block 2000 16 7 0) = some s1 ∧
      (site s1 7).map (fun a => (a.xsize_tag, a.xsize, a.histo)) =
        some (XSizeTag.Mixed, 0, none) ∧
      ∃ api api1, site one_death_State (mk_Block 2000 16 7 0).ap = some api ∧
        site s1 (mk_Block 2000 16 7 0).ap = some api1 ∧
        (api1.xsize_tag, api1.xsize) =
          spec_tag_update api.xsize_tag api.xsize (mk_Block 2000 16 7 0).req_szB ∧
        (api.xsize_tag = XSizeTag.Exactly → (mk_Block 2000 16 7 0).req_szB ≠ api.xsize →
          api1.xsize_tag = XSizeTag.Mixed ∧ api1.xsize = 0 ∧ api1.histo = none) := by
  refine ⟨by decide, ?_⟩
  have h : (retire_Block one_death_State (mk_Block 2000 16 7 0)).bind
      (fun s1 => (site s1 7).map (fun a => (a.xsize_tag, a.xsize, a.histo))) =
        some (XSizeTag.Mixed, 0, none) := by decide
  cases h1 : retire_Block one_death_State (mk_Block 2000 16 7 0) with
  | none => rw [h1] at h; simp at h
  | some s1 =>
    rw [h1] at h
    exact ⟨s1, rfl, h, retire_Block_tag_update one_death_State s1 _ h1⟩

/-! ### C8, C9: the per-byte histogram of a block -/

theorem inc_histo_loop_length (n i : Nat) (h : List Nat) :
    (inc_histo_loop n i h).length = h.length := by
  induction n generalizing i h with
  | zero => rfl
  | succ n ih =>
    simp only [inc_histo_loop]
    rw [ih, List.length_set]

/-- The loop of `inc_histo_for_block`: the counters at the `n` offsets from
`i` on go up by one unless they are at 255 (or above); the others are kept. -/
theorem inc_histo_loop_getElem (n i : Nat) (h : List Nat) (j : Nat) :
    (inc_histo_loop n i h)[j]? =
      if i ≤ j ∧ j < i + n then (h[j]?).map (fun v => if v < 255 then v + 1 else v)
      else h[j]? := by
  induction n generalizing i h with
  | zero =>
    simp only [inc_histo_loop]
    have : ¬ (i ≤ j ∧ j < i + 0) := by omega
    rw [if_neg this]
  | succ n ih =>
    simp only [inc_histo_loop]
    rw [ih, List.getElem?_set, List.getD_eq_getElem?_getD]
    by_cases h1 : i = j
    · subst h1
      have c1 : ¬ (i + 1 ≤ i ∧ i < i + 1 + n) := by omega
      have c2 : i ≤ i ∧ i < i + (n + 1) := by omega
      rw [if_neg c1, if_pos c2, if_pos rfl]
      by_cases h2 : i < h.length
      · rw [if_pos h2]
        have : h[i]? = some h[i] := List.getElem?_eq_getElem h2
        rw [this]
        rfl
      · rw [if_neg h2]
        have : h[i]? = none := List.getElem?_eq_none (by omega)
        rw [this]
        rfl
    · rw [if_neg h1]
      by_cases h3 : i + 1 ≤ j ∧ j < i + 1 + n
      · have c2 : i ≤ j ∧ j < i + (n + 1) := by omega
        rw [if_pos h3, if_pos c2]
      · have c2 : ¬ (i ≤ j ∧ j < i + (n + 1)) := by omega
        rw [if_neg h3, if_neg c2]

theorem inc_histo_loop_le (n i : Nat) (h : List Nat) (hb : ∀ v ∈ h, v ≤ 255) :
    ∀ v ∈ inc_histo_loop n i h, v ≤ 255 := by
  intro v hv
  obtain ⟨j, hj⟩ := List.mem_iff_getElem?.1 hv
  rw [inc_histo_loop_getElem] at hj
  split_ifs at hj with hc
  · cases hh : h[j]? with
    | none => rw [hh] at hj; simp at hj
    | some w =>
      rw [hh] at hj
      simp only [Option.map_some', Option.some.injEq] at hj
      have hw : w ≤ 255 := hb w (List.mem_iff_getElem?.2 ⟨j, hh⟩)
      split_ifs at hj <;> omega
  · exact hb v (List.mem_iff_getElem?.2 ⟨j, hj⟩)

theorem inc_histo_loop_saturates (n i0 : Nat) (h : List Nat) (i v : Nat)
    (hv : h[i]? = some v) :
    ∃ v1, (inc_histo_loop n i0 h)[i]? = some v1 ∧ v ≤ v1 ∧ (v ≤ 255 → v1 ≤ 255) ∧
      (v = 255 → v1 = 255) := by
  rw [inc_histo_loop_getElem, hv]
  by_cases hc : i0 ≤ i ∧ i < i0 + n
  · rw [if_pos hc]
    simp only [Option.map_some']
    by_cases hlt : v < 255
    · rw [if_pos hlt]
      exact ⟨v + 1, rfl, by omega, by omega, by omega⟩
    · rw [if_neg hlt]
      exact ⟨v, rfl, le_refl _, fun h => h, fun h => h⟩
  · rw [if_neg hc]
    exact ⟨v, rfl, le_refl _, fun h => h, fun h => h⟩

/-- One call of `inc_histo_for_block`: no counter goes down, a counter that
is at most 255 stays so, a counter at 255 stays at 255. -/
theorem inc_histo_for_block_saturates (bk bk1 : Block) (addr szB : Nat) (h : List Nat)
    (hh : bk.histoB = some h) (hi : inc_histo_for_block bk addr szB = some bk1) :
    ∃ h1 : List Nat, bk1.histoB = some h1 ∧ h1.length = h.length ∧
      ∀ (i v : Nat), h[i]? = some v →
        ∃ v1, h1[i]? = some v1 ∧ v ≤ v1 ∧ (v ≤ 255 → v1 ≤ 255) ∧ (v = 255 → v1 = 255) := by
  obtain ⟨_, ⟨hn, _⟩ | ⟨h0, hh0, rfl⟩⟩ := inc_histo_for_block_inv bk bk1 addr szB hi
  · rw [hn] at hh; simp at hh
  · rw [hh] at hh0
    simp only [Option.some.injEq] at hh0
    subst hh0
    exact ⟨_, rfl, inc_histo_loop_length _ _ _,
      fun i v hv => inc_histo_loop_saturates _ _ _ i v hv⟩

/-! ### Invariants of the blocks in the interval tree -/

theorem touch_histo_write (bk bk2 : Block) (addr szB : Nat)
    (h : (if bk.histoB.isSome
        then inc_histo_for_block { bk with n_writes := addU bk.n_writes szB } addr szB
        else some { bk with n_writes := addU bk.n_writes szB }) = some bk2) :
    bk2.histoB = bk.histoB ∨
    ∃ hb n i, bk.histoB = some hb ∧ bk2.histoB = some (inc_histo_loop n i hb) := by
  split_ifs at h
  · obtain ⟨_, ⟨_, h1⟩ | ⟨hb, h1, h2⟩⟩ := inc_histo_for_block_inv _ _ _ _ h
    · left; rw [h1]
    · right
      simp only at h1
      exact ⟨hb, _, _, h1, by rw [h2]⟩
  · simp only [Option.some.injEq] at h
    subst h
    left; rfl

theorem touch_histo_read (bk bk2 : Block) (addr szB : Nat)
    (h : (if bk.histoB.isSome
        then inc_histo_for_block { bk with n_reads := addU bk.n_reads szB } addr szB
        else some { bk with n_reads := addU bk.n_reads szB }) = some bk2) :
    bk2.histoB = bk.histoB ∨
    ∃ hb n i, bk.histoB = some hb ∧ bk2.histoB = some (inc_histo_loop n i hb) := by
  split_ifs at h
  · obtain ⟨_, ⟨_, h1⟩ | ⟨hb, h1, h2⟩⟩ := inc_histo_for_block_inv _ _ _ _ h
    · left; rw [h1]
    · right
      simp only at h1
      exact ⟨hb, _, _, h1, by rw [h2]⟩
  · simp only [Option.some.injEq] at h
    subst h
    left; rfl

/-- A property of blocks that holds for the blocks `new_block` makes and is
kept by a resize and by a touch holds for every block of the tree after
every event. -/
theorem step_blocks_invariant (P : Block → Prop)
    (hnew : ∀ p sz ec clk, p ≠ 0 → 0 < sz → ¬ toLong sz < 0 → ec ≠ 0 →
      P (mk_Block p sz ec clk))
    (hshrink : ∀ b sz, P b → 0 < sz → sz ≤ b.req_szB →
      P { b with histoB := none, req_szB := sz })
    (hmove : ∀ b p sz, P b → p ≠ 0 → b.req_szB < sz →
      P { b with histoB := none, payload := p, req_szB := sz })
    (htouch : ∀ b b2 : Block, P b → b2.payload = b.payload → b2.req_szB = b.req_szB →
      b2.ap = b.ap → b2.allocd_at = b.allocd_at →
      (b2.histoB = b.histoB ∨
        ∃ hb n i, b.histoB = some hb ∧ b2.histoB = some (inc_histo_loop n i hb)) → P b2)
    (s s1 : State) (e : Event) (hs : step s e = some s1)
    (hinv : ∀ x ∈ s.interval_tree, P x.1) : ∀ x ∈ s1.interval_tree, P x.1 := by
  have hins : ∀ (l1 l2 : WordFM Block Unit) (b : Block),
      (∀ x ∈ l1 ++ l2, P x.1) → P b → ∀ x ∈ l1 ++ (b, ()) :: l2, P x.1 := by
    intro l1 l2 b h1 h2 x hx
    rcases List.mem_append.1 hx with hx | hx
    · exact h1 x (List.mem_append.2 (Or.inl hx))
    · rcases List.mem_cons.1 hx with rfl | hx
      · exact h2
      · exact h1 x (List.mem_append.2 (Or.inr hx))
  have hrem : ∀ (l1 l2 : WordFM Block Unit) (y : Block × Unit),
      (∀ x ∈ l1 ++ y :: l2, P x.1) → ∀ x ∈ l1 ++ l2, P x.1 := by
    intro l1 l2 y h1 x hx
    rcases List.mem_append.1 hx with hx | hx
    · exact h1 x (List.mem_append.2 (Or.inl hx))
    · exact h1 x (List.mem_append.2 (Or.inr (List.mem_cons_of_mem _ hx)))
  cases e with
  | alloc ec host_p szB =>
    simp only [step, Option.map_eq_some', Prod.exists, exists_eq_right] at hs
    obtain ⟨r, hs⟩ := hs
    obtain ⟨_, h1 | ⟨_, hne, hlong, tree, hadd, hintro⟩⟩ := new_block_inv s s1 ec host_p 0 szB r hs
    · rw [h1.2.1]; exact hinv
    · rw [(intro_Block_frame _ _ _ hintro).1]
      obtain ⟨api, fm, hec, _⟩ := intro_Block_inv _ _ _ hintro
      obtain ⟨l1, l2, e1, e2, _⟩ := addToFM_fresh_split interval_tree_Cmp _ _ _ _ hadd
      simp only
      rw [e2]
      rw [e1] at hinv
      apply hins l1 l2 _ hinv
      apply hnew _ _ _ _ hne
      · split_ifs <;> omega
      · by_cases hz : szB = 0
        · rw [if_pos hz]; decide
        · rw [if_neg hz]; exact hlong
      · exact hec
  | free p =>
    simp only [step] at hs
    rcases die_block_inv s s1 p false hs with h1 | ⟨bk, s2, tree, hf, hp, _, _, hr, hd, rfl⟩
    · rw [h1.1]; exact hinv
    · simp only
      obtain ⟨l1, l2, e1, hfound⟩ := find_Block_split _ _ _ hf
      rw [(retire_Block_frame _ _ _ hr).1, e1, hp] at hd
      unfold delete_Block_starting_at at hd
      rw [delFromFM_of_found interval_tree_Cmp l1 l2 _ _ hfound] at hd
      simp only [if_true, Option.some.injEq] at hd
      rw [← hd]
      rw [e1] at hinv
      exact hrem l1 l2 _ hinv
  | resize host_p p szB =>
    simp only [step, Option.map_eq_some', Prod.exists, exists_eq_right] at hs
    obtain ⟨r, hs⟩ := hs
    obtain ⟨hpos, h1 | ⟨bk, hf, hp, hsz, _, hcase⟩⟩ := renew_block_inv s s1 host_p p szB r hs
    · rw [h1.2.1]; exact hinv
    · obtain ⟨l1, l2, e1, hfound⟩ := find_Block_split _ _ _ hf
      have hmod : ∀ b1 : Block, modifyFM interval_tree_Cmp s.interval_tree (fake_Block p)
          (fun _ => (b1, ())) = l1 ++ (b1, ()) :: l2 := by
        intro b1
        rw [e1]
        exact modifyFM_of_found interval_tree_Cmp l1 l2 _ _ _ hfound
      have hfound1 : FoundAt interval_tree_Cmp l1 ({ bk with histoB := none }, ()) (fake_Block p) :=
        foundAt_congr l1 bk _ _ rfl rfl hfound
      rw [e1] at hinv
      have hPbk : P bk := hinv (bk, ()) (List.mem_append.2 (Or.inr (List.mem_cons_self _ _)))
      rcases hcase with ⟨hle, _, s2, hch, rfl⟩ | ⟨_, _, _, rfl⟩ |
        ⟨hlt, hne, _, _, tree, s2, tree2, hd, hch, hadd, rfl⟩
      · simp only
        rw [(apinfo_change_tree _ _ _ _ hch).1]
        simp only
        rw [hmod, modifyFM_of_found interval_tree_Cmp l1 l2 _ _ _ hfound1]
        exact hins l1 l2 _ (hrem l1 l2 _ hinv) (hshrink bk szB hPbk hpos hle)
      · simp only
        rw [hmod]
        exact hins l1 l2 _ (hrem l1 l2 _ hinv) (hshrink bk bk.req_szB hPbk hsz (le_refl _))
      · simp only
        rw [hmod] at hd
        unfold delete_Block_starting_at at hd
        rw [delFromFM_of_found interval_tree_Cmp l1 l2 _ _ hfound1] at hd
        simp only [if_true, Option.some.injEq] at hd
        subst hd
        rw [(apinfo_change_tree _ _ _ _ hch).1] at hadd
        simp only at hadd
        obtain ⟨m1, m2, e3, e4, _⟩ := addToFM_fresh_split interval_tree_Cmp _ _ _ _ hadd
        rw [e4]
        have hr2 := hrem l1 l2 _ hinv
        rw [e3] at hr2
        exact hins m1 m2 _ hr2 (hmove bk host_p szB hPbk hne hlt)
  | read addr szB =>
    simp only [step] at hs
    rcases dh_handle_read_inv s s1 addr szB hs with h1 | ⟨bk, bk2, hf, ht, rfl⟩
    · rw [h1.2]; exact hinv
    · obtain ⟨l1, l2, e1, hfound⟩ := find_Block_split _ _ _ hf
      obtain ⟨hp, hsz, hap, hat⟩ := touch_range_read bk bk2 addr szB ht
      simp only
      rw [e1, modifyFM_of_found interval_tree_Cmp l1 l2 _ _ _ hfound]
      rw [e1] at hinv
      have hPbk : P bk := hinv (bk, ()) (List.mem_append.2 (Or.inr (List.mem_cons_self _ _)))
      exact hins l1 l2 _ (hrem l1 l2 _ hinv)
        (htouch bk bk2 hPbk hp hsz hap hat (touch_histo_read bk bk2 addr szB ht))
  | write addr szB =>
    simp only [step] at hs
    rcases dh_handle_write_inv s s1 addr szB hs with h1 | ⟨bk, bk2, hf, ht, rfl⟩
    · rw [h1.2]; exact hinv
    · obtain ⟨l1, l2, e1, hfound⟩ := find_Block_split _ _ _ hf
      obtain ⟨hp, hsz, hap, hat⟩ := touch_range_write bk bk2 addr szB ht
      simp only
      rw [e1, modifyFM_of_found interval_tree_Cmp l1 l2 _ _ _ hfound]
      rw [e1] at hinv
      have hPbk : P bk := hinv (bk, ()) (List.mem_append.2 (Or.inr (List.mem_cons_self _ _)))
      exact hins l1 l2 _ (hrem l1 l2 _ hinv)
        (htouch bk bk2 hPbk hp hsz hap hat (touch_histo_write bk bk2 addr szB ht))
  | tick n =>
    simp only [step, Option.some.injEq] at hs
    rw [← hs]; exact hinv

theorem run_blocks_invariant (P : Block → Prop)
    (hnew : ∀ p sz ec clk, p ≠ 0 → 0 < sz → ¬ toLong sz < 0 → ec ≠ 0 →
      P (mk_Block p sz ec clk))
    (hshrink : ∀ b sz, P b → 0 < sz → sz ≤ b.req_szB →
      P { b with histoB := none, req_szB := sz })
    (hmove : ∀ b p sz, P b → p ≠ 0 → b.req_szB < sz →
      P { b with histoB := none, payload := p, req_szB := sz })
    (htouch : ∀ b b2 : Block, P b → b2.payload = b.payload → b2.req_szB = b.req_szB →
      b2.ap = b.ap → b2.allocd_at = b.allocd_at →
      (b2.histoB = b.histoB ∨
        ∃ hb n i, b.histoB = some hb ∧ b2.histoB = some (inc_histo_loop n i hb)) → P b2)
    (evs : List Event) (s s1 : State) (hr : run s evs = some s1)
    (hinv : ∀ x ∈ s.interval_tree, P x.1) : ∀ x ∈ s1.interval_tree, P x.1 := by
  induction evs generalizing s with
  | nil =>
    simp only [run, Option.some.injEq] at hr
    rw [← hr]; exact hinv
  | cons e es ih =>
    simp only [run] at hr
    cases hs : step s e with
    | none => simp [hs] at hr
    | some s2 =>
      simp only [hs] at hr
      exact ih s2 hr (step_blocks_invariant P hnew hshrink hmove htouch s s2 e hs hinv)

/-- C8: after any stream of events (so after any number of read and write
touches of a block), every counter of every per-byte histogram of a live
block is at most 255; and a further touch (`inc_histo_for_block`) of such a
block lowers no counter, keeps every counter at most 255 and leaves a counter
that is at 255 at 255. -/
theorem histogram_counters_latch_at_255 (evs : List Event) (s : State)
    (hrun : run init_State evs = some s) :
    ∀ b ∈ live_blocks s, ∀ h : List Nat, b.histoB = some h →
      (∀ v ∈ h, v ≤ 255) ∧
      ∀ addr szB b1, inc_histo_for_block b addr szB = some b1 →
        ∃ h1 : List Nat, b1.histoB = some h1 ∧ h1.length = h.length ∧
          ∀ (i v : Nat), h[i]? = some v →
            ∃ v1, h1[i]? = some v1 ∧ v ≤ v1 ∧ v1 ≤ 255 ∧ (v = 255 → v1 = 255) := by
  have hinv := run_blocks_invariant
    (fun b => ∀ h : List Nat, b.histoB = some h → ∀ v ∈ h, v ≤ 255)
    (by
      intro p sz ec clk _ _ _ _ h hh v hv
      simp only [mk_Block] at hh
      split_ifs at hh
      simp only [Option.some.injEq] at hh
      subst hh
      have := (List.mem_replicate.1 hv).2
      omega)
    (by intro b sz _ _ _ h hh; simp at hh)
    (by intro b p sz _ _ _ h hh; simp at hh)
    (by
      intro b b2 hP _ _ _ _ hc h hh
      rcases hc with hc | ⟨hb, n, i, h1, h2⟩
      · rw [hc] at hh
        exact hP h hh
      · rw [h2] at hh
        simp only [Option.some.injEq] at hh
        subst hh
        exact inc_histo_loop_le n i hb (hP hb h1))
    evs init_State s hrun (by intro x hx; simp [init_State] at hx)
  intro b hb h hh
  obtain ⟨x, hx, rfl⟩ := List.mem_map.1 hb
  have hle := hinv x hx h hh
  refine ⟨hle, fun addr szB b1 hi => ?_⟩
  obtain ⟨h1, e1, e2, e3⟩ := inc_histo_for_block_saturates x.1 b1 addr szB h hh hi
  refine ⟨h1, e1, e2, fun i v hv => ?_⟩
  obtain ⟨v1, f1, f2, f3, f4⟩ := e3 i v hv
  exact ⟨v1, f1, f2, f3 (hle v (List.mem_iff_getElem?.2 ⟨i, hv⟩)), f4⟩

set_option maxRecDepth 100000

theorem histogram_counters_latch_at_255_witness :
    ∃ s, run init_State
      (Event.alloc 7 1000 4 :: List.replicate 300 (Event.write 1001 2)) = some s ∧
      (live_blocks s).map (fun b => b.histoB) = [some [0, 255, 255, 0]] ∧
      ∀ b ∈ live_blocks s, ∀ h : List Nat, b.histoB = some h →
        (∀ v ∈ h, v ≤ 255) ∧
        ∀ addr szB b1, inc_histo_for_block b addr szB = some b1 →
          ∃ h1 : List Nat, b1.histoB = some h1 ∧ h1.length = h.length ∧
            ∀ (i v : Nat), h[i]? = some v →
              ∃ v1, h1[i]? = some v1 ∧ v ≤ v1 ∧ v1 ≤ 255 ∧ (v = 255 → v1 = 255) := by
  have h : (run init_State
      (Event.alloc 7 1000 4 :: List.replicate 300 (Event.write 1001 2))).map
        (fun s => (live_blocks s).map (fun b => b.histoB)) =
      some [some [0, 255, 255, 0]] := by decide
  cases h1 : run init_State
      (Event.alloc 7 1000 4 :: List.replicate 300 (Event.write 1001 2)) with
  | none => rw [h1] at h; simp at h
  | some s =>
    rw [h1] at h
    simp only [Option.map_some', Option.some.injEq] at h
    exact ⟨s, rfl, h, histogram_counters_latch_at_255 _ s h1⟩

set_option maxRecDepth 512

/-- C9 (amended): for a block with a histogram (of byte counters) and an
access `(addr, szB)` with `addr` inside the block and
`addr - payload + szB < 2^64`, `inc_histo_for_block` sets the counter at
every offset `i` with `addr - payload <= i < min(addr - payload + szB,
req_szB)` to `min(old + 1, 255)` and leaves the counter at every other
offset unchanged; the length of the histogram is unchanged, so no offset
beyond the bounds of the block is written. -/
theorem inc_histo_for_block_effect (bk : Block) (h : List Nat) (addr szB : Nat)
    (hh : bk.histoB = some h) (hbyte : ∀ v ∈ h, v ≤ 255)
    (hin : contains_addr bk addr) (haddr : addr < WORD)
    (hnw : addr - bk.payload + szB < WORD) :
    ∃ h1 : List Nat,
      inc_histo_for_block bk addr szB = some { bk with histoB := some h1 } ∧
      h1.length = h.length ∧
      ∀ i : Nat, h1[i]? =
        if addr - bk.payload ≤ i ∧ i < min (addr - bk.payload + szB) bk.req_szB
        then (h[i]?).map (fun old => min (old + 1) 255) else h[i]? := by
  obtain ⟨hin1, hin2⟩ := hin
  have e1 : subU addr bk.payload = addr - bk.payload := subU_of_le _ _ hin1 haddr
  have e2 : addU (addr - bk.payload) szB = addr - bk.payload + szB := addU_small _ _ hnw
  have hoff : addr - bk.payload < bk.req_szB := by omega
  refine ⟨inc_histo_loop
      ((if addr - bk.payload + szB > bk.req_szB then bk.req_szB
        else addr - bk.payload + szB) - (addr - bk.payload)) (addr - bk.payload) h, ?_,
      inc_histo_loop_length _ _ _, fun i => ?_⟩
  · unfold inc_histo_for_block
    simp only [e1, e2, hh]
    rw [if_neg (by omega)]
  · rw [inc_histo_loop_getElem]
    by_cases hc : addr - bk.payload ≤ i ∧ i < min (addr - bk.payload + szB) bk.req_szB
    · have hc2 : addr - bk.payload ≤ i ∧ i < addr - bk.payload +
          ((if addr - bk.payload + szB > bk.req_szB then bk.req_szB
            else addr - bk.payload + szB) - (addr - bk.payload)) := by
        split_ifs <;> omega
      rw [if_pos hc, if_pos hc2]
      cases hv : h[i]? with
      | none => rfl
      | some v =>
        have hle : v ≤ 255 := hbyte v (List.mem_iff_getElem?.2 ⟨i, hv⟩)
        simp only [Option.map_some', Option.some.injEq]
        split_ifs <;> omega
    · have hc2 : ¬ (addr - bk.payload ≤ i ∧ i < addr - bk.payload +
          ((if addr - bk.payload + szB > bk.req_szB then bk.req_szB
            else addr - bk.payload + szB) - (addr - bk.payload))) := by
        split_ifs <;> omega
      rw [if_neg hc, if_neg hc2]

theorem inc_histo_for_block_effect_witness :
    (mk_Block 1000 4 7 0).histoB = some [0, 0, 0, 0] ∧
    (∀ v ∈ [0, 0, 0, 0], v ≤ 255) ∧ contains_addr (mk_Block 1000 4 7 0) 1002 ∧
    1002 < WORD ∧ 1002 - (mk_Block 1000 4 7 0).payload + 8 < WORD ∧
    ∃ h1 : List Nat,
      inc_histo_for_block (mk_Block 1000 4 7 0) 1002 8 =
        some { mk_Block 1000 4 7 0 with histoB := some h1 } ∧
      h1.length = [0, 0, 0, 0].length ∧
      ∀ i : Nat, h1[i]? =
        if 1002 - (mk_Block 1000 4 7 0).payload ≤ i ∧
            i < min (1002 - (mk_Block 1000 4 7 0).payload + 8) (mk_Block 1000 4 7 0).req_szB
        then ([0, 0, 0, 0][i]?).map (fun old => min (old + 1) 255) else [0, 0, 0, 0][i]? :=
  ⟨by decide, by decide, by decide, by decide, by decide,
    inc_histo_for_block_effect (mk_Block 1000 4 7 0) [0, 0, 0, 0] 1002 8
      (by decide) (by decide) (by decide) (by decide) (by decide)⟩

/-- C9 (counterexample): a block of 4 bytes at 1000 with a zeroed histogram
is accessed at 1002 with `szB = 2^64 - 1`.  The address is inside the block
and offset 2 lies in `[addr - payload, min(addr - payload + szB, req_szB))`,
but `offMin + szB` wraps to 1, the loop does not run and the block (the
counter at offset 2 included) is unchanged. -/
theorem inc_histo_for_block_skips_wrapped_range :
    (mk_Block 1000 4 7 0).histoB = some [0, 0, 0, 0] ∧
    contains_addr (mk_Block 1000 4 7 0) 1002 ∧
    (1002 - 1000 ≤ 2 ∧ 2 < min (1002 - 1000 + 18446744073709551615) 4) ∧
    inc_histo_for_block (mk_Block 1000 4 7 0) 1002 18446744073709551615 =
      some (mk_Block 1000 4 7 0) := by
  decide

/-! ### C10: the read and write byte totals of a block -/

/-- A block that compares equal to the probe for address `a` contains `a`. -/
theorem cmp_zero_contains (bk : Block) (a : Nat)
    (h : interval_tree_Cmp bk (fake_Block a) = some 0) :
    contains_addr bk a ∧ a < WORD ∧ 0 < bk.req_szB ∧ subU a bk.payload < bk.req_szB ∧
      a < addU bk.payload bk.req_szB := by
  unfold interval_tree_Cmp at h
  simp only [fake_Block] at h
  by_cases c1 : bk.req_szB = 0
  · simp [c1] at h
  by_cases c3 : addU bk.payload bk.req_szB ≤ a
  · simp [c1, c3] at h
  by_cases c4 : addU a 1 ≤ bk.payload
  · simp [c1, c3, c4] at h
  have hsub : subU a bk.payload < bk.req_szB := by
    unfold subU
    unfold addU at c3 c4
    simp only [WORD] at c3 c4 ⊢
    split_ifs <;> omega
  unfold contains_addr
  unfold addU at c3 c4 ⊢
  simp only [WORD] at c3 c4 ⊢
  refine ⟨⟨?_, ?_⟩, ?_, ?_, hsub, ?_⟩ <;> omega

theorem found_contains (l1 : WordFM Block Unit) (bk : Block) (a : Nat)
    (h : FoundAt interval_tree_Cmp l1 (bk, ()) (fake_Block a)) :
    contains_addr bk a ∧ a < WORD ∧ 0 < bk.req_szB ∧ subU a bk.payload < bk.req_szB ∧
      a < addU bk.payload bk.req_szB :=
  cmp_zero_contains bk a h.2

theorem inc_histo_for_block_some (bk : Block) (h : List Nat) (addr szB : Nat)
    (hh : bk.histoB = some h) (hoff : subU addr bk.payload < bk.req_szB) :
    ∃ h1, inc_histo_for_block bk addr szB = some { bk with histoB := some h1 } := by
  unfold inc_histo_for_block
  simp only [hh]
  rw [if_neg (by omega)]
  exact ⟨_, rfl⟩

/-- When `find_Block_containing` finds block `bk` for `addr`,
`dh_handle_write` returns and puts in the place of `bk` a block with
`n_writes = n_writes + szB` (64-bit addition of the full `szB`), and
`dh_handle_read` one with `n_reads = n_reads + szB`; the base and the size
of the block stay, and so does the other counter. -/
theorem handlers_add_full_size_found (s : State) (addr szB : Nat) (bk : Block)
    (hfind : find_Block_containing s.interval_tree addr = some (some bk)) :
    (∃ s1 bk1, dh_handle_write s addr szB = some s1 ∧
      find_Block_containing s1.interval_tree addr = some (some bk1) ∧
      bk1.n_writes = addU bk.n_writes szB ∧ bk1.n_reads = bk.n_reads ∧
      bk1.payload = bk.payload ∧ bk1.req_szB = bk.req_szB) ∧
    (∃ s1 bk1, dh_handle_read s addr szB = some s1 ∧
      find_Block_containing s1.interval_tree addr = some (some bk1) ∧
      bk1.n_reads = addU bk.n_reads szB ∧ bk1.n_writes = bk.n_writes ∧
      bk1.payload = bk.payload ∧ bk1.req_szB = bk.req_szB) := by
  obtain ⟨l1, l2, e1, hfound⟩ := find_Block_split _ _ _ hfind
  obtain ⟨_, _, _, hoff, _⟩ := found_contains l1 bk addr hfound
  have hafter : ∀ b2 : Block, b2.payload = bk.payload → b2.req_szB = bk.req_szB →
      find_Block_containing (modifyFM interval_tree_Cmp s.interval_tree (fake_Block addr)
        (fun _ => (b2, ()))) addr = some (some b2) := by
    intro b2 hp hsz
    rw [e1, modifyFM_of_found interval_tree_Cmp l1 l2 _ _ _ hfound]
    exact find_Block_of_found l1 l2 addr b2 (foundAt_congr l1 bk b2 _ hp hsz hfound)
  constructor
  · unfold dh_handle_write
    rw [hfind]
    simp only
    cases hh : bk.histoB with
    | none =>
      simp only [hh, Option.isSome_none, Bool.false_eq_true, if_false]
      exact ⟨_, _, rfl, hafter _ rfl rfl, rfl, rfl, rfl, rfl⟩
    | some h =>
      simp only [hh, Option.isSome_some, if_true]
      obtain ⟨h1, e2⟩ := inc_histo_for_block_some
        { bk with n_writes := addU bk.n_writes szB, histoB := some h } h addr szB rfl hoff
      rw [e2]
      exact ⟨_, _, rfl, hafter _ rfl rfl, rfl, rfl, rfl, rfl⟩
  · unfold dh_handle_read
    rw [hfind]
    simp only
    cases hh : bk.histoB with
    | none =>
      simp only [hh, Option.isSome_none, Bool.false_eq_true, if_false]
      exact ⟨_, _, rfl, hafter _ rfl rfl, rfl, rfl, rfl, rfl⟩
    | some h =>
      simp only [hh, Option.isSome_some, if_true]
      obtain ⟨h1, e2⟩ := inc_histo_for_block_some
        { bk with n_reads := addU bk.n_reads szB, histoB := some h } h addr szB rfl hoff
      rw [e2]
      exact ⟨_, _, rfl, hafter _ rfl rfl, rfl, rfl, rfl, rfl⟩

/-! ### C11, C12, C13: requests that match no block -/

/-- In a state reached from the initial one every block in the tree has a
non-zero size. -/
theorem run_nonEmptyBlocks (evs : List Event) (s : State)
    (hrun : run init_State evs = some s) : NonEmptyBlocks s.interval_tree :=
  run_blocks_invariant (fun b => 0 < b.req_szB)
    (by intro p sz ec clk _ hsz _ _; exact hsz)
    (by intro b sz _ hsz _; exact hsz)
    (by intro b p sz _ _ hlt; exact Nat.lt_of_le_of_lt (Nat.zero_le _) hlt)
    (by intro b b2 hP _ hsz _ _ _; rw [hsz]; exact hP)
    evs init_State s hrun (by intro x hx; simp [init_State] at hx)

theorem interval_tree_Cmp_fake_some (b : Block) (a : Nat) (h : 0 < b.req_szB) :
    ∃ c, interval_tree_Cmp b (fake_Block a) = some c := by
  unfold interval_tree_Cmp
  have h0 : b.req_szB ≠ 0 := by omega
  have h1 : (fake_Block a).req_szB ≠ 0 := by simp [fake_Block]
  rw [if_neg h0, if_neg h1]
  by_cases c1 : addU b.payload b.req_szB ≤ (fake_Block a).payload
  · rw [if_pos c1]; exact ⟨_, rfl⟩
  · rw [if_neg c1]
    by_cases c2 : addU (fake_Block a).payload (fake_Block a).req_szB ≤ b.payload
    · rw [if_pos c2]; exact ⟨_, rfl⟩
    · rw [if_neg c2]; exact ⟨_, rfl⟩

/-- The search does not fail an assertion when no block has size zero. -/
theorem find_Block_total (t : WordFM Block Unit) (a : Nat) (hne : NonEmptyBlocks t) :
    ∃ r, find_Block_containing t a = some r := by
  induction t with
  | nil => exact ⟨none, rfl⟩
  | cons hd tl ih =>
    obtain ⟨b, u⟩ := hd
    rw [find_Block_cons]
    obtain ⟨c, hc⟩ := interval_tree_Cmp_fake_some b a (hne (b, u) (List.mem_cons_self _ _))
    rw [hc]
    simp only
    split_ifs
    · exact ⟨_, rfl⟩
    · exact ih (fun x hx => hne x (List.mem_cons_of_mem _ hx))
    · exact ⟨_, rfl⟩

/-- The block that the search returns is in the tree and contains the
address. -/
theorem find_Block_mem (t : WordFM Block Unit) (a : Nat) (bk : Block)
    (h : find_Block_containing t a = some (some bk)) :
    (bk, ()) ∈ t ∧ contains_addr bk a ∧ a < WORD ∧ 0 < bk.req_szB ∧
      subU a bk.payload < bk.req_szB ∧ a < addU bk.payload bk.req_szB := by
  obtain ⟨l1, l2, e1, hfound⟩ := find_Block_split t a bk h
  refine ⟨?_, found_contains l1 bk a hfound⟩
  rw [e1]
  exact List.mem_append.2 (Or.inr (List.mem_cons_self _ _))

theorem die_block_bogus (s : State) (p : Nat) (hne : NonEmptyBlocks s.interval_tree)
    (hp : ∀ b ∈ live_blocks s, b.payload ≠ p) : die_block s p false = some s := by
  unfold die_block
  simp only [Bool.false_eq_true, if_false]
  obtain ⟨r, hr⟩ := find_Block_total s.interval_tree p hne
  rw [hr]
  cases r with
  | none => rfl
  | some bk =>
    obtain ⟨hm, hc, _, hsz, _, hlt⟩ := find_Block_mem _ _ _ hr
    have hbase : bk.payload ≠ p := hp bk (List.mem_map.2 ⟨(bk, ()), hm, rfl⟩)
    simp only
    rw [if_neg (by omega), if_neg (by have := hc.1; omega), if_neg (by omega), if_pos hbase]

theorem renew_block_bogus (s : State) (host_p p new_req_szB : Nat) (hpos : 0 < new_req_szB)
    (hne : NonEmptyBlocks s.interval_tree)
    (hp : ∀ b ∈ live_blocks s, b.payload ≠ p) :
    renew_block s host_p p new_req_szB = some (0, s) := by
  unfold renew_block
  rw [if_neg (by omega)]
  obtain ⟨r, hr⟩ := find_Block_total s.interval_tree p hne
  rw [hr]
  cases r with
  | none => rfl
  | some bk =>
    obtain ⟨hm, hc, _, hsz, _, hlt⟩ := find_Block_mem _ _ _ hr
    have hbase : bk.payload ≠ p := hp bk (List.mem_map.2 ⟨(bk, ()), hm, rfl⟩)
    simp only
    rw [if_neg (by omega), if_neg (by have := hc.1; omega), if_neg (by omega), if_pos hbase]

theorem find_Block_outside (s : State) (addr : Nat) (hne : NonEmptyBlocks s.interval_tree)
    (hout : ∀ b ∈ live_blocks s, ¬ contains_addr b addr) :
    find_Block_containing s.interval_tree addr = some none := by
  obtain ⟨r, hr⟩ := find_Block_total s.interval_tree addr hne
  cases r with
  | none => exact hr
  | some bk =>
    obtain ⟨hm, hc, _⟩ := find_Block_mem _ _ _ hr
    exact absurd hc (hout bk (List.mem_map.2 ⟨(bk, ()), hm, rfl⟩))

/-- C11: in every state (reached from the initial one by any events) and
for every address `p` that is not the base of a live block, whether `p` lies
in no block or strictly inside one, `die_block(p)` returns and leaves the
whole state as it was: the interval tree with every block and histogram, the
site records and the process-wide counters; so does applying it again. -/
theorem die_block_not_a_base_is_noop (evs : List Event) (s : State) (p : Nat)
    (hrun : run init_State evs = some s)
    (hp : ∀ b ∈ live_blocks s, b.payload ≠ p) :
    die_block s p false = some s ∧
    (die_block s p false).bind (fun s1 => die_block s1 p false) = some s := by
  have h := die_block_bogus s p (run_nonEmptyBlocks evs s hrun) hp
  refine ⟨h, ?_⟩
  rw [h]
  exact h

theorem die_block_not_a_base_is_noop_witness :
    run init_State [Event.alloc 7 1000 8, Event.alloc 7 2000 16, Event.free 1000]
      = some one_death_State ∧
    (live_blocks one_death_State).map (fun b => (b.payload, b.req_szB)) = [(2000, 16)] ∧
    die_block one_death_State 2004 false = some one_death_State ∧
    (die_block one_death_State 2004 false).bind (fun s1 => die_block s1 2004 false)
      = some one_death_State :=
  ⟨by decide, by decide,
    die_block_not_a_base_is_noop
      [Event.alloc 7 1000 8, Event.alloc 7 2000 16, Event.free 1000] one_death_State 2004
      (by decide) (by decide)⟩

/-- C12: in every state (reached from the initial one), for every new size
above 0 and every address `p` that is not the base of a live block,
`renew_block(p, new_size)` returns `NULL` and leaves the whole state as it
was (the tree with every block and its histogram, also of a block that
contains `p`, the site records, the process-wide counters), whatever the
host allocator would answer. -/
theorem renew_block_not_a_base_is_noop (evs : List Event) (s : State)
    (host_p p new_req_szB : Nat) (hrun : run init_State evs = some s)
    (hpos : 0 < new_req_szB) (hp : ∀ b ∈ live_blocks s, b.payload ≠ p) :
    renew_block s host_p p new_req_szB = some (0, s) :=
  renew_block_bogus s host_p p new_req_szB hpos (run_nonEmptyBlocks evs s hrun) hp

theorem renew_block_not_a_base_is_noop_witness :
    (live_blocks one_death_State).map (fun b => (b.payload, b.req_szB, b.histoB.isSome))
      = [(2000, 16, true)] ∧
    renew_block one_death_State 3000 2004 64 = some (0, one_death_State) :=
  ⟨by decide,
    renew_block_not_a_base_is_noop
      [Event.alloc 7 1000 8, Event.alloc 7 2000 16, Event.free 1000] one_death_State
      3000 2004 64 (by decide) (by decide) (by decide)⟩

/-- C13: in every state (reached from the initial one) and for every access
`(addr, szB)` whose address lies in no live block, `dh_handle_read` and
`dh_handle_write` return (no assertion fails) and leave the entire state as
it was. -/
theorem handlers_outside_blocks_are_noops (evs : List Event) (s : State) (addr szB : Nat)
    (hrun : run init_State evs = some s)
    (hout : ∀ b ∈ live_blocks s, ¬ contains_addr b addr) :
    dh_handle_read s addr szB = some s ∧ dh_handle_write s addr szB = some s := by
  have h := find_Block_outside s addr (run_nonEmptyBlocks evs s hrun) hout
  constructor
  · unfold dh_handle_read
    rw [h]
  · unfold dh_handle_write
    rw [h]

theorem handlers_outside_blocks_are_noops_witness :
    (live_blocks one_death_State).map (fun b => (b.payload, b.req_szB)) = [(2000, 16)] ∧
    dh_handle_read one_death_State 2016 8 = some one_death_State ∧
    dh_handle_write one_death_State 2016 8 = some one_death_State :=
  ⟨by decide,
    handlers_outside_blocks_are_noops
      [Event.alloc 7 1000 8, Event.alloc 7 2000 16, Event.free 1000] one_death_State 2016 8
      (by decide) (by decide)⟩

/-! ### C14: a failed allocation -/

/-- C14: `new_block` (called with `p = NULL`, as `dh_malloc` and its siblings
do) returns the failure value `NULL` exactly when the request is rejected
(its size is negative as a signed word) or the host allocator supplied no
storage (`host_p = NULL`), and the state it returns with is then the state it
was called in: the interval tree, every site record (none is created) and
the process-wide counters are as before. -/
theorem new_block_failure_mutates_nothing (s s1 : State) (ec host_p req_szB : Nat) :
    new_block s ec host_p 0 req_szB = some (0, s1) ↔
      (s1 = s ∧ (toLong req_szB < 0 ∨ host_p = 0)) := by
  constructor
  · intro h
    rcases (new_block_inv s s1 ec host_p 0 req_szB 0 h).2 with ⟨_, h1, h2⟩ | ⟨h1, h2, _⟩
    · exact ⟨h1, h2⟩
    · exact absurd h1.symm h2
  · rintro ⟨rfl, h⟩
    unfold new_block
    simp only [ne_eq, not_true_eq_false, if_false]
    by_cases h1 : toLong req_szB < 0
    · rw [if_pos h1]
    · rw [if_neg h1]
      have h2 : host_p = 0 := by
        rcases h with h | h
        · exact absurd h h1
        · exact h
      simp only [h2, if_true]

/-! ### C15: a grow request that the host allocator cannot serve -/

/-- C15 (failing input): a block of 16 bytes is allocated at 1000 by site 7
and 4 bytes are written at 1004, so the block carries the histogram
`0 0 0 0 1 1 1 1 0 ...`.  `renew_block(1000, 64)` with a host allocator that
returns `NULL` returns `NULL` and leaves the address, the size, the
read/write counts, the site records and the process-wide counters as they
were, but the histogram of the block is gone. -/
theorem failed_grow_discards_histogram :
    (live_blocks touched_block_State).map
        (fun b => (b.payload, b.req_szB, b.n_reads, b.n_writes, b.histoB)) =
      [(1000, 16, 0, 4, some [0, 0, 0, 0, 1, 1, 1, 1, 0, 0, 0, 0, 0, 0, 0, 0])] ∧
    ∃ s1, renew_block touched_block_State 0 1000 64 = some (0, s1) ∧
      (live_blocks s1).map
          (fun b => (b.payload, b.req_szB, b.n_reads, b.n_writes, b.histoB)) =
        [(1000, 16, 0, 4, none)] ∧
      s1 ≠ touched_block_State ∧
      s1.apinfo = touched_block_State.apinfo ∧
      s1.g_cur_bytes_live = touched_block_State.g_cur_bytes_live ∧
      s1.g_max_bytes_live = touched_block_State.g_max_bytes_live ∧
      s1.g_tot_bytes = touched_block_State.g_tot_bytes := by
  exact ⟨by decide, ((renew_block touched_block_State 0 1000 64).getD (0, init_State)).2,
    by decide, by decide, by decide, by decide, by decide, by decide, by decide⟩

/-! ### C16: the effect of `intro_Block` -/

theorem addToFM_apinfo_fresh (fm : WordFM Nat APInfo) (ap : Nat) (w : APInfo)
    (h : lookup_site fm ap = none) :
    ∃ fm1, addToFM cmp_unsigned_Words fm ap w = some (fm1, false) := by
  induction fm with
  | nil => exact ⟨_, rfl⟩
  | cons hd tl ih =>
    obtain ⟨k, v⟩ := hd
    rw [lookup_site_cons] at h
    rw [addToFM_apinfo_cons]
    by_cases h1 : k > ap
    · rw [if_pos h1]; exact ⟨_, rfl⟩
    · rw [if_neg h1] at h ⊢
      by_cases h2 : k < ap
      · rw [if_pos h2] at h ⊢
        obtain ⟨r, hr⟩ := ih h
        rw [hr]
        exact ⟨_, rfl⟩
      · rw [if_neg h2] at h
        exact absurd h (by simp)

/-- The lookup-or-create step of `intro_Block` returns. -/
theorem intro_lookup_total (fm : WordFM Nat APInfo) (ap : Nat) :
    ∃ fm1, intro_lookup fm ap = some ((lookup_site fm ap).getD (new_APInfo ap), fm1) := by
  unfold intro_lookup
  rw [lookupFM_apinfo_total]
  cases hl : lookup_site fm ap with
  | none =>
    obtain ⟨r, hr⟩ := addToFM_apinfo_fresh fm ap (new_APInfo ap) hl
    simp only [Option.map_none', hr, Bool.false_eq_true, if_false, Option.getD_none]
    exact ⟨_, rfl⟩
  | some v =>
    simp only [Option.map_some', if_true, Option.getD_some]
    exact ⟨_, rfl⟩

/-- `intro_Block` returns when the allocation point of the block is not
`NULL` and the record stored for it, if any, names it. -/
theorem intro_Block_total (s : State) (bk : Block) (hap : bk.ap ≠ 0)
    (hkey : ∀ api, site s bk.ap = some api → api.ap = bk.ap) :
    ∃ s1, intro_Block s bk = some s1 := by
  unfold intro_Block
  rw [if_neg hap]
  obtain ⟨fm1, h1⟩ := intro_lookup_total s.apinfo bk.ap
  rw [h1]
  have h2 : ((lookup_site s.apinfo bk.ap).getD (new_APInfo bk.ap)).ap = bk.ap := by
    cases hl : lookup_site s.apinfo bk.ap with
    | none => rfl
    | some v => exact hkey v hl
  simp only [h2, ne_eq, not_true_eq_false, if_false]
  exact ⟨_, rfl⟩

/-- C16: `intro_Block` for a block of size `bk.req_szB` allocated at `bk.ap`
(not `NULL`; a record stored under `bk.ap` names `bk.ap`) returns.  With
`api0` the record found for the allocation point, or the record created for
it if there was none (all counters zero, tag `Unknown`), the record `api1`
afterwards has `cur_blocks_live` and `tot_blocks` one higher and
`cur_bytes_live` and `tot_bytes` higher by the size (64-bit additions); its
pair `(max_bytes_live, max_blocks_live)` is the new
`(cur_bytes_live, cur_blocks_live)` exactly when the new `cur_bytes_live` is
above the old `max_bytes_live`, and is the old pair otherwise; the deaths,
death ages, read and write counts, the tag, the size and the histogram of
the record are those of `api0`.  The process-wide counters get the same
updates, no other allocation point's record changes, and neither do the
interval tree and the clock. -/
theorem intro_Block_effect (s : State) (bk : Block) (hap : bk.ap ≠ 0)
    (hkey : ∀ api, site s bk.ap = some api → api.ap = bk.ap) :
    ∃ s1 api0 api1, intro_Block s bk = some s1 ∧
      api0 = (match site s bk.ap with
              | some api => api
              | none => new_APInfo bk.ap) ∧
      site s1 bk.ap = some api1 ∧
      api1.cur_blocks_live = addU api0.cur_blocks_live 1 ∧
      api1.tot_blocks = addU api0.tot_blocks 1 ∧
      api1.cur_bytes_live = addU api0.cur_bytes_live bk.req_szB ∧
      api1.tot_bytes = addU api0.tot_bytes bk.req_szB ∧
      (api0.max_bytes_live < api1.cur_bytes_live →
        api1.max_bytes_live = api1.cur_bytes_live ∧
        api1.max_blocks_live = api1.cur_blocks_live) ∧
      (¬ api0.max_bytes_live < api1.cur_bytes_live →
        api1.max_bytes_live = api0.max_bytes_live ∧
        api1.max_blocks_live = api0.max_blocks_live) ∧
      (api1.ap = api0.ap ∧ api1.shown = api0.shown ∧
        api1.deaths = api0.deaths ∧ api1.death_ages_sum = api0.death_ages_sum ∧
        api1.n_reads = api0.n_reads ∧ api1.n_writes = api0.n_writes ∧
        api1.xsize_tag = api0.xsize_tag ∧ api1.xsize = api0.xsize ∧
        api1.histo = api0.histo) ∧
      (s1.g_cur_blocks_live = addU s.g_cur_blocks_live 1 ∧
        s1.g_tot_blocks = addU s.g_tot_blocks 1 ∧
        s1.g_cur_bytes_live = addU s.g_cur_bytes_live bk.req_szB ∧
        s1.g_tot_bytes = addU s.g_tot_bytes bk.req_szB ∧
        (s.g_max_bytes_live < s1.g_cur_bytes_live →
          s1.g_max_bytes_live = s1.g_cur_bytes_live ∧
          s1.g_max_blocks_live = s1.g_cur_blocks_live) ∧
        (¬ s.g_max_bytes_live < s1.g_cur_bytes_live →
          s1.g_max_bytes_live = s.g_max_bytes_live ∧
          s1.g_max_blocks_live = s.g_max_blocks_live)) ∧
      (∀ ap1, ap1 ≠ bk.ap → site s1 ap1 = site s ap1) ∧
      s1.interval_tree = s.interval_tree ∧
      s1.g_guest_instrs_executed = s.g_guest_instrs_executed := by
  obtain ⟨s1, h⟩ := intro_Block_total s bk hap hkey
  have hsite := intro_Block_site s s1 bk h
  obtain ⟨api, fm, _, _, _, hs1⟩ := intro_Block_inv s s1 bk h
  have e0 : (match site s bk.ap with
              | some api => api
              | none => new_APInfo bk.ap) = (site s bk.ap).getD (new_APInfo bk.ap) := by
    cases site s bk.ap <;> rfl
  refine ⟨s1, (site s bk.ap).getD (new_APInfo bk.ap),
    intro_APInfo ((site s bk.ap).getD (new_APInfo bk.ap)) bk.req_szB, h, e0.symm, ?_, ?_⟩
  · rw [hsite bk.ap, if_pos rfl]
  refine ⟨rfl, rfl, rfl, rfl, ?_, ?_, ⟨rfl, rfl, rfl, rfl, rfl, rfl, rfl, rfl, rfl⟩, ?_, ?_, ?_, ?_⟩
  · intro hlt
    simp only [intro_APInfo] at hlt ⊢
    simp only [gt_iff_lt, hlt, if_true, and_self]
  · intro hlt
    simp only [intro_APInfo] at hlt ⊢
    simp only [gt_iff_lt, hlt, if_false, and_self]
  · subst hs1
    refine ⟨rfl, rfl, rfl, rfl, ?_, ?_⟩
    · intro hlt
      simp only [intro_globals] at hlt ⊢
      simp only [gt_iff_lt, hlt, if_true, and_self]
    · intro hlt
      simp only [intro_globals] at hlt ⊢
      simp only [gt_iff_lt, hlt, if_false, and_self]
  · intro ap1 hne
    rw [hsite ap1, if_neg hne]
  · exact (intro_Block_frame s s1 bk h).1
  · exact (intro_Block_frame s s1 bk h).2

theorem intro_Block_effect_witness :
    (mk_Block 3000 32 7 0).ap ≠ 0 ∧
    (site one_death_State 7).map (fun a => (a.cur_blocks_live, a.cur_bytes_live,
      a.max_blocks_live, a.max_bytes_live)) = some (1, 16, 2, 24) ∧
    (site one_death_State 7).map (fun a => (a.tot_blocks, a.tot_bytes, a.deaths))
      = some (2, 24, 1) ∧
    ∃ s1 api1, intro_Block one_death_State (mk_Block 3000 32 7 0) = some s1 ∧
      site s1 7 = some api1 ∧
      api1.cur_blocks_live = 2 ∧ api1.cur_bytes_live = 48 ∧
      api1.max_blocks_live = 2 ∧ api1.max_bytes_live = 48 ∧
      api1.tot_blocks = 3 ∧ api1.tot_bytes = 56 ∧ api1.deaths = 1 := by
  refine ⟨by decide, by decide, by decide, ?_⟩
  obtain ⟨s1, api0, api1, h, e0, hs, h1, h2, h3, h4, h5, _, h7, _⟩ :=
    intro_Block_effect one_death_State (mk_Block 3000 32 7 0) (by decide)
      (fun api ha => by
        have h2 : (site one_death_State (mk_Block 3000 32 7 0).ap).map (fun a => a.ap)
            = some (mk_Block 3000 32 7 0).ap := by decide
        rw [ha] at h2
        simpa using h2)
  subst e0
  have c1 := h1.trans (by decide : _ = 2)
  have c3 := h3.trans (by decide : _ = 48)
  have hm := h5 (by rw [c3]; decide)
  exact ⟨s1, api1, h, hs, c1, c3, hm.2.trans c1, hm.1.trans c3,
    h2.trans (by decide), h4.trans (by decide), h7.2.2.1.trans (by decide)⟩

/-! ### C17: the effect of `retire_Block` -/

theorem retire_xsize_total (a : APInfo) (bk : Block)
    (h0 : a.xsize_tag = XSizeTag.Unknown → a.xsize = 0 ∧ a.deaths = 1 ∧ a.histo = none)
    (h1 : a.xsize_tag ≠ XSizeTag.Unknown → 1 < a.deaths) :
    ∃ a1, retire_xsize a bk = some a1 ∧
      (a1.xsize_tag = XSizeTag.Exactly → a1.xsize = bk.req_szB) := by
  unfold retire_xsize
  cases ht : a.xsize_tag with
  | Unknown =>
    obtain ⟨e1, e2, e3⟩ := h0 ht
    simp only [e1, e2, e3, ne_eq, not_true_eq_false, if_false, Option.isSome_none,
      Bool.false_eq_true]
    exact ⟨_, rfl, fun _ => rfl⟩
  | Exactly =>
    have hd : a.deaths > 1 := h1 (by rw [ht]; exact fun h => XSizeTag.noConfusion h)
    simp only [hd, not_true_eq_false, if_false]
    by_cases hs : bk.req_szB ≠ a.xsize
    · rw [if_pos hs]
      exact ⟨_, rfl, fun h => XSizeTag.noConfusion h⟩
    · rw [if_neg hs]
      exact ⟨_, rfl, fun _ => (not_not.1 hs).symm⟩
  | Mixed =>
    have hd : a.deaths > 1 := h1 (by rw [ht]; exact fun h => XSizeTag.noConfusion h)
    simp only [hd, not_true_eq_false, if_false]
    exact ⟨_, rfl, fun h => absurd (ht.symm.trans h) (fun h => XSizeTag.noConfusion h)⟩

theorem retire_fold_total (a : APInfo) (bk : Block)
    (h : a.xsize_tag = XSizeTag.Exactly → a.xsize = bk.req_szB) :
    ∃ a2, retire_fold a bk = some a2 := by
  unfold retire_fold
  split
  · next ht _ _ =>
    rw [if_neg (not_not.2 (h ht))]
    exact ⟨_, rfl⟩
  · exact ⟨_, rfl⟩

/-- `retire_Block` returns when none of its assertions fails. -/
theorem retire_Block_total (s : State) (bk : Block) (api : APInfo)
    (hap : bk.ap ≠ 0) (hsite : site s bk.ap = some api) (hkey : api.ap = bk.ap)
    (hblocks : 1 ≤ api.cur_blocks_live) (hbytes : bk.req_szB ≤ api.cur_bytes_live)
    (hclock : bk.allocd_at ≤ s.g_guest_instrs_executed)
    (hgblocks : 0 < s.g_cur_blocks_live) (hgbytes : bk.req_szB ≤ s.g_cur_bytes_live)
    (hdeaths : api.deaths + 1 < WORD)
    (hfirst : api.xsize_tag = XSizeTag.Unknown →
      api.xsize = 0 ∧ api.deaths = 0 ∧ api.histo = none)
    (hlater : api.xsize_tag ≠ XSizeTag.Unknown → 1 ≤ api.deaths) :
    ∃ s1, retire_Block s bk = some s1 := by
  unfold retire_Block
  rw [if_neg hap, lookupFM_apinfo_total]
  have hsite1 : lookup_site s.apinfo bk.ap = some api := hsite
  simp only [hsite1, Option.map_some']
  rw [if_neg (not_not.2 hkey), if_neg (not_not.2 hblocks), if_neg (not_not.2 hbytes),
    if_neg (not_not.2 hclock), if_neg (not_not.2 hgblocks), if_neg (not_not.2 hgbytes)]
  have hd : (retire_APInfo_stats api bk s.g_guest_instrs_executed).deaths = api.deaths + 1 := by
    simp only [retire_APInfo_stats, addU]
    exact Nat.mod_eq_of_lt hdeaths
  obtain ⟨a1, e1, p1⟩ := retire_xsize_total
    (retire_APInfo_stats api bk s.g_guest_instrs_executed) bk
    (fun ht => by
      obtain ⟨c1, c2, c3⟩ := hfirst ht
      refine ⟨c1, ?_, c3⟩
      rw [hd, c2])
    (fun ht => by
      have := hlater ht
      rw [hd]
      omega)
  rw [e1]
  obtain ⟨a2, e2⟩ := retire_fold_total a1 bk p1
  simp only [e2]
  exact ⟨_, rfl⟩

/-- C17: `retire_Block` for a block of size `bk.req_szB`, born at
`bk.allocd_at`, with counts `(bk.n_reads, bk.n_writes)`, at clock
`s.g_guest_instrs_executed`.  It fails when the allocation point of the block
has no record.  When it returns, the record `api` of the allocation point
had at least one live block and at least `bk.req_szB` live bytes and the
birth of the block is not after the clock, and the record `api1` afterwards
has `cur_blocks_live` one lower, `cur_bytes_live` lower by the size, `deaths`
one higher, `death_ages_sum` higher by clock minus birth, `n_reads` and
`n_writes` higher by the counts of the block (64-bit arithmetic), and the
same `tot_blocks`, `tot_bytes`, `max_blocks_live` and `max_bytes_live`; the
process-wide live counters are one block and `bk.req_szB` bytes lower and the
process-wide totals and maxima are the same.  It does return when none of
its assertions fails: the record exists and names the allocation point, the
live counts of the record and of the process cover the block, the birth is
not after the clock, and the deaths counter agrees with the tag (no death
yet, no size and no histogram under `Unknown`; at least one death
otherwise). -/
theorem retire_Block_effect (s : State) (bk : Block) :
    (site s bk.ap = none → retire_Block s bk = none) ∧
    (∀ s1, retire_Block s bk = some s1 →
      ∃ api api1, site s bk.ap = some api ∧ site s1 bk.ap = some api1 ∧
        1 ≤ api.cur_blocks_live ∧ bk.req_szB ≤ api.cur_bytes_live ∧
        bk.allocd_at ≤ s.g_guest_instrs_executed ∧
        api1.cur_blocks_live = subU api.cur_blocks_live 1 ∧
        api1.cur_bytes_live = subU api.cur_bytes_live bk.req_szB ∧
        api1.deaths = addU api.deaths 1 ∧
        api1.death_ages_sum =
          addU api.death_ages_sum (subU s.g_guest_instrs_executed bk.allocd_at) ∧
        api1.n_reads = addU api.n_reads bk.n_reads ∧
        api1.n_writes = addU api.n_writes bk.n_writes ∧
        api1.tot_blocks = api.tot_blocks ∧ api1.tot_bytes = api.tot_bytes ∧
        api1.max_blocks_live = api.max_blocks_live ∧
        api1.max_bytes_live = api.max_bytes_live ∧
        s1.g_cur_blocks_live = subU s.g_cur_blocks_live 1 ∧
        s1.g_cur_bytes_live = subU s.g_cur_bytes_live bk.req_szB ∧
        s1.g_tot_blocks = s.g_tot_blocks ∧ s1.g_tot_bytes = s.g_tot_bytes ∧
        s1.g_max_blocks_live = s.g_max_blocks_live ∧
        s1.g_max_bytes_live = s.g_max_bytes_live) ∧
    (∀ api, bk.ap ≠ 0 → site s bk.ap = some api → api.ap = bk.ap →
      1 ≤ api.cur_blocks_live → bk.req_szB ≤ api.cur_bytes_live →
      bk.allocd_at ≤ s.g_guest_instrs_executed →
      0 < s.g_cur_blocks_live → bk.req_szB ≤ s.g_cur_bytes_live →
      api.deaths + 1 < WORD →
      (api.xsize_tag = XSizeTag.Unknown →
        api.xsize = 0 ∧ api.deaths = 0 ∧ api.histo = none) →
      (api.xsize_tag ≠ XSizeTag.Unknown → 1 ≤ api.deaths) →
      ∃ s1, retire_Block s bk = some s1) := by
  refine ⟨?_, ?_, ?_⟩
  · intro hnone
    have hnone1 : lookup_site s.apinfo bk.ap = none := hnone
    unfold retire_Block
    by_cases hap : bk.ap = 0
    · rw [if_pos hap]
    · rw [if_neg hap, lookupFM_apinfo_total, hnone1]
      rfl
  · intro s1 h
    obtain ⟨api, a1, a2, hsite, c1, c2, c3, e1, e2, hall⟩ := retire_Block_site s s1 bk h
    obtain ⟨_, k1, k2, _, _, k5, k6, k7, k8, k9, k10⟩ :=
      retire_counters api a1 a2 bk s.g_guest_instrs_executed e1 e2
    obtain ⟨_, _, _, _, _, _, _, _, _, _, _, _, _, _, hs1⟩ := retire_Block_inv s s1 bk h
    refine ⟨api, a2, hsite, ?_, c1, c2, c3, k1, k2, k8, k7, k9, k10, k5, k6,
      by assumption, by assumption, ?_⟩
    · rw [hall bk.ap, if_pos rfl]
    · subst hs1
      exact ⟨rfl, rfl, rfl, rfl, rfl, rfl⟩
  · intro api hap hsite hkey h1 h2 h3 h4 h5 h6 h7 h8
    exact retire_Block_total s bk api hap hsite hkey h1 h2 h3 h4 h5 h6 h7 h8

theorem retire_Block_effect_witness :
    live_blocks aged_block_State = [aged_Block] ∧
    aged_block_State.g_guest_instrs_executed = 5 ∧
    (site aged_block_State 7).map (fun a => (a.cur_blocks_live, a.cur_bytes_live,
      a.deaths, a.death_ages_sum)) = some (1, 16, 0, 0) ∧
    ∃ s1 api1, retire_Block aged_block_State aged_Block = some s1 ∧
      site s1 7 = some api1 ∧
      api1.cur_blocks_live = 0 ∧ api1.cur_bytes_live = 0 ∧ api1.deaths = 1 ∧
      api1.death_ages_sum = 5 ∧ api1.n_reads = 2 ∧ api1.n_writes = 4 ∧
      api1.tot_blocks = 1 ∧ api1.tot_bytes = 16 ∧
      s1.g_cur_blocks_live = 0 ∧ s1.g_cur_bytes_live = 0 := by
  refine ⟨by decide, by decide, by decide, ?_⟩
  have hsite : site aged_block_State aged_Block.ap =
      some ((site aged_block_State aged_Block.ap).getD (new_APInfo 0)) := by decide
  obtain ⟨s1, h⟩ := (retire_Block_effect aged_block_State aged_Block).2.2 _
    (by decide) hsite (by decide) (by decide) (by decide) (by decide) (by decide) (by decide)
    (by decide) (by decide) (by decide)
  obtain ⟨api, api1, e0, e1, _, _, _, k1, k2, k3, k4, k5, k6, k7, k8, _, _, g1, g2, _⟩ :=
    (retire_Block_effect aged_block_State aged_Block).2.1 s1 h
  rw [hsite] at e0
  have e0 := (Option.some.inj e0).symm
  subst e0
  exact ⟨s1, api1, h, e1, k1.trans (by decide), k2.trans (by decide), k3.trans (by decide),
    k4.trans (by decide), k5.trans (by decide), k6.trans (by decide), k7.trans (by decide),
    k8.trans (by decide), g1.trans (by decide), g2.trans (by decide)⟩

/-! ### C18: the effect of `apinfo_change_cur_bytes_live` -/

/-- Adding the word of a `Long` is adding the signed number, modulo `2^64`. -/
theorem addU_ofLong (a : Nat) (d : Int) :
    ((addU a (ofLong d) : Nat) : Int) = ((a : Int) + d) % 18446744073709551616 := by
  unfold addU ofLong
  simp only [WORD]
  omega

/-- C18: `apinfo_change_cur_bytes_live(ec, delta)`, in a state where a
record stored under `ec` names `ec`.  It fails exactly when `ec` has no
record, or `delta < 0` and `-delta` is above the `cur_bytes_live` of the
record or of the process.  When it returns, the `cur_bytes_live` of the
record and of the process are the old ones plus the signed `delta` (modulo
`2^64`); the pair `(max_bytes_live, max_blocks_live)` of the record (of the
process) becomes the current bytes and the current block count exactly when
`delta > 0` and the new `cur_bytes_live` is above the old `max_bytes_live`,
and stays otherwise; `tot_bytes` of the record grows by `delta` exactly when
`delta > 0`; the block counts, the deaths, the death ages and the read and
write counts stay, and so do the other records, the process-wide totals, the
interval tree and the clock. -/
theorem apinfo_change_cur_bytes_live_effect (s : State) (ec : Nat) (delta : Int)
    (hkey : ∀ api, site s ec = some api → api.ap = ec) :
    (apinfo_change_cur_bytes_live s ec delta = none ↔
      (site s ec = none ∨
       ∃ api, site s ec = some api ∧ delta < 0 ∧
        (api.cur_bytes_live < ofLong (-delta) ∨ s.g_cur_bytes_live < ofLong (-delta)))) ∧
    (∀ s1, apinfo_change_cur_bytes_live s ec delta = some s1 →
      ∃ api api1, site s ec = some api ∧ site s1 ec = some api1 ∧
        (api1.cur_bytes_live : Int) =
          ((api.cur_bytes_live : Int) + delta) % 18446744073709551616 ∧
        (s1.g_cur_bytes_live : Int) =
          ((s.g_cur_bytes_live : Int) + delta) % 18446744073709551616 ∧
        (0 < delta ∧ api.max_bytes_live < api1.cur_bytes_live →
          api1.max_bytes_live = api1.cur_bytes_live ∧
          api1.max_blocks_live = api1.cur_blocks_live) ∧
        (¬ (0 < delta ∧ api.max_bytes_live < api1.cur_bytes_live) →
          api1.max_bytes_live = api.max_bytes_live ∧
          api1.max_blocks_live = api.max_blocks_live) ∧
        (0 < delta ∧ s.g_max_bytes_live < s1.g_cur_bytes_live →
          s1.g_max_bytes_live = s1.g_cur_bytes_live ∧
          s1.g_max_blocks_live = s1.g_cur_blocks_live) ∧
        (¬ (0 < delta ∧ s.g_max_bytes_live < s1.g_cur_bytes_live) →
          s1.g_max_bytes_live = s.g_max_bytes_live ∧
          s1.g_max_blocks_live = s.g_max_blocks_live) ∧
        (0 < delta → (api1.tot_bytes : Int) =
          ((api.tot_bytes : Int) + delta) % 18446744073709551616) ∧
        (¬ 0 < delta → api1.tot_bytes = api.tot_bytes) ∧
        (api1.cur_blocks_live = api.cur_blocks_live ∧ api1.tot_blocks = api.tot_blocks ∧
          s1.g_cur_blocks_live = s.g_cur_blocks_live ∧ s1.g_tot_blocks = s.g_tot_blocks ∧
          s1.g_tot_bytes = s.g_tot_bytes) ∧
        (api1.deaths = api.deaths ∧ api1.death_ages_sum = api.death_ages_sum ∧
          api1.n_reads = api.n_reads ∧ api1.n_writes = api.n_writes ∧
          api1.xsize_tag = api.xsize_tag ∧ api1.xsize = api.xsize ∧
          api1.histo = api.histo) ∧
        (∀ ap1, ap1 ≠ ec → site s1 ap1 = site s ap1) ∧
        s1.interval_tree = s.interval_tree ∧
        s1.g_guest_instrs_executed = s.g_guest_instrs_executed) := by
  constructor
  · unfold apinfo_change_cur_bytes_live
    rw [lookupFM_apinfo_total]
    cases hl : lookup_site s.apinfo ec with
    | none =>
      have hs : site s ec = none := hl
      simp only [Option.map_none', hs, true_or]
    | some api =>
      have hs : site s ec = some api := hl
      have hk : api.ap = ec := hkey api hs
      simp only [Option.map_some', hs, hk, ne_eq, not_true_eq_false, if_false, ge_iff_le,
        not_le, false_or, Option.some.injEq, exists_eq_left', reduceCtorEq]
      by_cases c1 : delta < 0 ∧ api.cur_bytes_live < ofLong (-delta)
      · rw [if_pos c1]
        simp only [true_iff]
        exact ⟨c1.1, Or.inl c1.2⟩
      · rw [if_neg c1]
        by_cases c2 : delta < 0 ∧ s.g_cur_bytes_live < ofLong (-delta)
        · rw [if_pos c2]
          simp only [true_iff]
          exact ⟨c2.1, Or.inr c2.2⟩
        · rw [if_neg c2]
          simp only [reduceCtorEq, false_iff]
          rintro ⟨h1, h2 | h2⟩
          · exact c1 ⟨h1, h2⟩
          · exact c2 ⟨h1, h2⟩
  · intro s1 h
    obtain ⟨api, hsite, _, _, hall⟩ := apinfo_change_site s s1 ec delta h
    obtain ⟨_, _, _, _, _, _, hs1⟩ := apinfo_change_inv s s1 ec delta h
    refine ⟨api, change_APInfo api delta, hsite, ?_, ?_, ?_, ?_, ?_, ?_, ?_, ?_, ?_, ?_, ?_,
      ?_, ?_, ?_⟩
    · rw [hall ec, if_pos rfl]
    · exact addU_ofLong _ _
    · subst hs1
      exact addU_ofLong _ _
    · intro hc
      simp only [change_APInfo] at hc ⊢
      simp only [gt_iff_lt, hc, and_self, if_true]
    · intro hc
      simp only [change_APInfo] at hc ⊢
      simp only [gt_iff_lt, hc, if_false, and_self]
    · intro hc
      subst hs1
      simp only at hc ⊢
      simp only [gt_iff_lt, hc, and_self, if_true]
    · intro hc
      subst hs1
      simp only at hc ⊢
      simp only [gt_iff_lt, hc, if_false, and_self]
    · intro hc
      simp only [change_APInfo, gt_iff_lt, hc, if_true]
      exact addU_ofLong _ _
    · intro hc
      simp only [change_APInfo, gt_iff_lt, hc, if_false]
    · subst hs1
      exact ⟨rfl, rfl, rfl, rfl, rfl⟩
    · exact ⟨rfl, rfl, rfl, rfl, rfl, rfl, rfl⟩
    · intro ap1 hne
      rw [hall ap1, if_neg hne]
    · subst hs1
      rfl
    · subst hs1
      rfl

theorem apinfo_change_cur_bytes_live_effect_witness :
    (site one_death_State 7).map (fun a => (a.cur_blocks_live, a.cur_bytes_live,
      a.max_blocks_live, a.max_bytes_live, a.tot_bytes)) = some (1, 16, 2, 24, 24) ∧
    apinfo_change_cur_bytes_live one_death_State 7 (-17) = none ∧
    ∃ s1 api1, apinfo_change_cur_bytes_live one_death_State 7 20 = some s1 ∧
      site s1 7 = some api1 ∧
      api1.cur_bytes_live = 36 ∧ api1.max_bytes_live = 36 ∧ api1.max_blocks_live = 1 ∧
      api1.tot_bytes = 44 ∧ api1.cur_blocks_live = 1 := by
  have hsite : site one_death_State 7 =
      some ((site one_death_State 7).getD (new_APInfo 0)) := by decide
  have hkey : ∀ api, site one_death_State 7 = some api → api.ap = 7 := by
    intro api ha
    rw [hsite] at ha
    rw [← Option.some.inj ha]
    decide
  refine ⟨by decide, ?_, ?_⟩
  · exact (apinfo_change_cur_bytes_live_effect one_death_State 7 (-17) hkey).1.2
      (Or.inr ⟨_, hsite, by decide, Or.inl (by decide)⟩)
  · cases h : apinfo_change_cur_bytes_live one_death_State 7 20 with
    | none => exact absurd h (by decide)
    | some s1 =>
      obtain ⟨api, api1, e0, e1, k1, _, k3, _, _, _, k7, _, k9, _⟩ :=
        (apinfo_change_cur_bytes_live_effect one_death_State 7 20 hkey).2 s1 h
      rw [hsite] at e0
      have e0 := (Option.some.inj e0).symm
      subst e0
      have c1 : api1.cur_bytes_live = 36 := by
        have := k1.trans (by decide : _ = (36 : Int))
        exact_mod_cast this
      have c2 : api1.tot_bytes = 44 := by
        have := (k7 (by decide)).trans (by decide : _ = (44 : Int))
        exact_mod_cast this
      have hm := k3 ⟨by decide, by rw [c1]; decide⟩
      exact ⟨s1, api1, rfl, e1, c1, hm.1.trans c1, hm.2.trans (k9.1.trans (by decide)), c2,
        k9.1.trans (by decide)⟩

/-! ### C19: folding the histogram of a dying block -/

theorem fold_histo_length (n i : Nat) (f h : List Nat) :
    (fold_histo n i f h).length = f.length := by
  induction n generalizing i f with
  | zero => rfl
  | succ n ih =>
    simp only [fold_histo]
    rw [ih, List.length_set]

/-- The loop of `retire_Block`: the counters at the `n` offsets from `i` on
grow by the counter of the block at that offset (32-bit addition); the
others are kept. -/
theorem fold_histo_getElem (n i : Nat) (f h : List Nat) (j : Nat) :
    (fold_histo n i f h)[j]? =
      if i ≤ j ∧ j < i + n then (f[j]?).map (fun v => (v + h.getD j 0) % 4294967296)
      else f[j]? := by
  induction n generalizing i f with
  | zero =>
    simp only [fold_histo]
    have : ¬ (i ≤ j ∧ j < i + 0) := by omega
    rw [if_neg this]
  | succ n ih =>
    simp only [fold_histo]
    rw [ih, List.getElem?_set]
    by_cases h1 : i = j
    · subst h1
      have c1 : ¬ (i + 1 ≤ i ∧ i < i + 1 + n) := by omega
      have c2 : i ≤ i ∧ i < i + (n + 1) := by omega
      rw [if_neg c1, if_pos c2, if_pos rfl]
      by_cases h2 : i < f.length
      · rw [if_pos h2]
        have e1 : f[i]? = some f[i] := List.getElem?_eq_getElem h2
        have e2 : f.getD i 0 = f[i] := by
          rw [List.getD_eq_getElem?_getD, e1]
          rfl
        rw [e1, e2]
        rfl
      · rw [if_neg h2]
        have : f[i]? = none := List.getElem?_eq_none (by omega)
        rw [this]
        rfl
    · rw [if_neg h1]
      by_cases h3 : i + 1 ≤ j ∧ j < i + 1 + n
      · have c2 : i ≤ j ∧ j < i + (n + 1) := by omega
        rw [if_pos h3, if_pos c2]
      · have c2 : ¬ (i ≤ j ∧ j < i + (n + 1)) := by omega
        rw [if_neg h3, if_neg c2]

/-- What `retire_fold` does when the tag is `Exactly` and both histograms
exist. -/
theorem retire_fold_some (a a1 : APInfo) (bk : Block) (f0 h : List Nat)
    (hr : retire_fold a bk = some a1) (ht : a.xsize_tag = XSizeTag.Exactly)
    (hf : a.histo = some f0) (hh : bk.histoB = some h) :
    a.xsize = bk.req_szB ∧ a1.xsize_tag = XSizeTag.Exactly ∧ a1.xsize = a.xsize ∧
      a1.histo = some (fold_histo a.xsize 0 f0 h) := by
  unfold retire_fold at hr
  rw [ht, hf, hh] at hr
  simp only at hr
  by_cases c : a.xsize ≠ bk.req_szB
  · rw [if_pos c] at hr
    exact absurd hr (by simp)
  · rw [if_neg c] at hr
    have e := (Option.some.inj hr).symm
    subst e
    exact ⟨not_not.1 c, rfl, rfl, rfl⟩

/-- C19 (amended): a death of a block that carries a histogram `h` and
leaves the tag of its site at `Exactly(n)`; `n` is then the size of the
block.  If it is the first death of the site (the tag was `Unknown`), the
site has afterwards a folded histogram of length `n` whose entry `i` is
`0 + h[i]` for every `i < n`.  If the tag was `Exactly` already and the site
had a folded histogram `f0`, the site has afterwards a folded histogram of
the same length whose entry `i` is `f0[i] + h[i]` for every `i < n` (32-bit
additions).  If the tag was `Exactly` already and the site had no folded
histogram, it has none afterwards. -/
theorem retire_Block_folds_histogram (s s1 : State) (bk : Block) (h : List Nat)
    (hret : retire_Block s bk = some s1) (hh : bk.histoB = some h) :
    ∃ api api1, site s bk.ap = some api ∧ site s1 bk.ap = some api1 ∧
      (api1.xsize_tag = XSizeTag.Exactly →
        api1.xsize = bk.req_szB ∧
        (api.xsize_tag = XSizeTag.Unknown →
          ∃ f, api1.histo = some f ∧ f.length = bk.req_szB ∧
            ∀ i, i < bk.req_szB → f[i]? = some ((0 + h.getD i 0) % 4294967296)) ∧
        (api.xsize_tag = XSizeTag.Exactly → ∀ f0, api.histo = some f0 →
          ∃ f, api1.histo = some f ∧ f.length = f0.length ∧
            ∀ i, i < bk.req_szB → i < f0.length →
              f[i]? = some ((f0.getD i 0 + h.getD i 0) % 4294967296)) ∧
        (api.xsize_tag = XSizeTag.Exactly → api.histo = none → api1.histo = none)) := by
  obtain ⟨api, a1, a2, hsite, _, _, _, e1, e2, hall⟩ := retire_Block_site s s1 bk hret
  refine ⟨api, a2, hsite, by rw [hall bk.ap, if_pos rfl], fun htag => ?_⟩
  have hstag : (retire_APInfo_stats api bk s.g_guest_instrs_executed).xsize_tag
      = api.xsize_tag := rfl
  have hshisto : (retire_APInfo_stats api bk s.g_guest_instrs_executed).histo
      = api.histo := rfl
  rcases retire_xsize_tag _ _ _ e1 with ⟨t1, _, _, t4, t5, t6⟩ | ⟨t1, _, t3, t4, t5⟩ |
      ⟨t1, t2, t3⟩ | ⟨t1, t3⟩
  · -- first death
    rw [hh] at t6
    simp only [Option.isSome_some, if_true] at t6
    obtain ⟨_, _, k3, k4⟩ := retire_fold_some a1 a2 bk _ h e2 t4 t6 hh
    rw [hstag] at t1
    refine ⟨k3.trans t5, fun _ => ?_, fun hc => ?_, fun hc => ?_⟩
    · refine ⟨_, k4, ?_, fun i hi => ?_⟩
      · rw [fold_histo_length, List.length_replicate]
      · rw [fold_histo_getElem, if_pos (by rw [t5]; omega)]
        have : (List.replicate bk.req_szB 0)[i]? = some 0 := by
          rw [List.getElem?_eq_getElem (by rw [List.length_replicate]; exact hi)]
          simp
        rw [this]
        rfl
    · rw [t1] at hc
      exact XSizeTag.noConfusion hc
    · rw [t1] at hc
      exact XSizeTag.noConfusion hc
  · -- the sizes differ: the tag becomes Mixed
    have := retire_fold_histo a1 a2 bk e2 (Or.inr t5)
    rw [this, t3] at htag
    exact XSizeTag.noConfusion htag
  · -- the tag stays Exactly
    subst t3
    rw [hstag] at t1
    obtain ⟨_, _, _, _, _, _, _, _, _, _, _, _, f13⟩ := retire_fold_counters _ _ _ e2
    refine ⟨f13.trans t2.symm, fun hc => ?_, fun _ f0 hf0 => ?_, fun _ hnone => ?_⟩
    · rw [t1] at hc
      exact XSizeTag.noConfusion hc
    · obtain ⟨_, _, _, k4⟩ := retire_fold_some _ a2 bk f0 h e2 (hstag.trans t1)
        (hshisto.trans hf0) hh
      refine ⟨_, k4, fold_histo_length _ _ _ _, fun i hi hlt => ?_⟩
      have hx : (retire_APInfo_stats api bk s.g_guest_instrs_executed).xsize
          = bk.req_szB := t2.symm
      rw [fold_histo_getElem, if_pos (by rw [hx]; omega)]
      have e1 : f0[i]? = some f0[i] := List.getElem?_eq_getElem hlt
      have e2 : f0.getD i 0 = f0[i] := by
        rw [List.getD_eq_getElem?_getD, e1]
        rfl
      rw [e1, e2]
      rfl
    · have := retire_fold_histo _ a2 bk e2 (Or.inr (hshisto.trans hnone))
      rw [this]
      exact hnone
  · -- the tag is Mixed
    subst t3
    have := retire_fold_histo _ a2 bk e2
      (Or.inl (by rw [t1]; exact fun hc => XSizeTag.noConfusion hc))
    rw [this, t1] at htag
    exact XSizeTag.noConfusion htag

theorem retire_Block_folds_histogram_witness :
    live_blocks folded_State = [folded_Block] ∧
    (site folded_State 7).map (fun a => (a.xsize_tag, a.xsize, a.histo))
      = some (XSizeTag.Exactly, 4, some [1, 1, 0, 0]) ∧
    ∃ s1 api1, retire_Block folded_State folded_Block = some s1 ∧
      site s1 7 = some api1 ∧ api1.xsize_tag = XSizeTag.Exactly ∧ api1.xsize = 4 ∧
      ∃ f, api1.histo = some f ∧ f.length = 4 ∧
        ∀ i, i < 4 → f[i]? =
          some (([1, 1, 0, 0].getD i 0 + [0, 1, 1, 0].getD i 0) % 4294967296) := by
  refine ⟨by decide, by decide, ?_⟩
  have hsite : site folded_State folded_Block.ap =
      some ((site folded_State folded_Block.ap).getD (new_APInfo 0)) := by decide
  cases h : retire_Block folded_State folded_Block with
  | none => exact absurd h (by decide)
  | some s1 =>
    obtain ⟨api, api1, e0, e1, k⟩ :=
      retire_Block_folds_histogram folded_State s1 folded_Block [0, 1, 1, 0] h rfl
    have ht : ((retire_Block folded_State folded_Block).bind
        (fun s => site s folded_Block.ap)).map (fun a => a.xsize_tag)
        = some XSizeTag.Exactly := by decide
    rw [h] at ht
    simp only [Option.some_bind] at ht
    rw [e1] at ht
    have ht1 : api1.xsize_tag = XSizeTag.Exactly := Option.some.inj ht
    rw [hsite] at e0
    have e0 := (Option.some.inj e0).symm
    subst e0
    obtain ⟨k1, _, k3, _⟩ := k ht1
    obtain ⟨f, f1, f2, f3⟩ := k3 (by decide) [1, 1, 0, 0] (by decide)
    exact ⟨s1, api1, rfl, e1, ht1, k1, f, f1, f2, fun i hi => f3 i hi hi⟩

/-- C19 (counterexample): two blocks of 8 bytes are allocated by site 7; the
first is resized to 8 bytes, which drops its histogram, and freed, so the
site gets the tag `Exactly(8)` and no folded histogram.  The second block
carries the histogram `1 1 1 0 0 0 0 0`; its death leaves the tag at
`Exactly(8)` and the site still has no folded histogram. -/
theorem retire_Block_folds_nothing_without_site_histogram :
    run init_State [Event.alloc 7 1000 8, Event.alloc 7 2000 8, Event.resize 0 1000 8,
      Event.free 1000, Event.write 2000 3] = some unfolded_State ∧
    live_blocks unfolded_State = [unfolded_Block] ∧
    unfolded_Block.histoB = some [1, 1, 1, 0, 0, 0, 0, 0] ∧
    (site unfolded_State 7).map (fun a => (a.xsize_tag, a.xsize, a.histo))
      = some (XSizeTag.Exactly, 8, none) ∧
    ((retire_Block unfolded_State unfolded_Block).bind (fun s1 => site s1 7)).map
        (fun a => (a.xsize_tag, a.xsize, a.histo, a.deaths))
      = some (XSizeTag.Exactly, 8, none, 2) ∧
    ((run unfolded_State [Event.free 2000]).bind (fun s1 => site s1 7)).map
        (fun a => (a.xsize_tag, a.xsize, a.histo, a.deaths))
      = some (XSizeTag.Exactly, 8, none, 2) := by
  exact ⟨by decide, by decide, by decide, by decide, by decide, by decide⟩

/-! ### C20: the folded histogram under the tag `Exactly` -/

theorem retire_fold_none (a : APInfo) (bk : Block) (hb : bk.histoB = none) :
    retire_fold a bk = some a := by
  unfold retire_fold
  rw [hb]
  cases a.xsize_tag <;> cases a.histo <;> rfl

/-- A property of site records that the four updates of a record keep holds
after one event. -/
theorem step_site_invariant (Q : APInfo → Prop)
    (hnew : ∀ ap, Q (new_APInfo ap))
    (hintro : ∀ a sz, Q a → Q (intro_APInfo a sz))
    (hretire : ∀ a bk clock a1 a2, Q a → 1 ≤ a.cur_blocks_live →
      bk.req_szB ≤ a.cur_bytes_live →
      retire_xsize (retire_APInfo_stats a bk clock) bk = some a1 →
      retire_fold a1 bk = some a2 → Q a2)
    (hchange : ∀ a d, Q a → (d < 0 → ofLong (-d) ≤ a.cur_bytes_live) →
      Q (change_APInfo a d))
    (s s1 : State) (e : Event) (hs : step s e = some s1)
    (hinv : ∀ ap a, site s ap = some a → Q a) :
    ∀ ap a, site s1 ap = some a → Q a := by
  intro ap a1 h1
  rcases step_site_cases s s1 e hs ap with c | ⟨sz, c⟩ | ⟨a, bk, x1, x2, c0, c1, c2, c3, c4, c5⟩ |
      ⟨a, x, c0, c1, c2⟩
  · rw [c] at h1
    exact hinv ap a1 h1
  · rw [c] at h1
    rw [← Option.some.inj h1]
    apply hintro
    cases h0 : site s ap with
    | none => exact hnew ap
    | some a => exact hinv ap a h0
  · rw [c5] at h1
    rw [← Option.some.inj h1]
    exact hretire a bk _ x1 x2 (hinv ap a c0) c1 c2 c3 c4
  · rw [c2] at h1
    rw [← Option.some.inj h1]
    exact hchange a _ (hinv ap a c0) c1

theorem run_site_invariant (Q : APInfo → Prop)
    (hnew : ∀ ap, Q (new_APInfo ap))
    (hintro : ∀ a sz, Q a → Q (intro_APInfo a sz))
    (hretire : ∀ a bk clock a1 a2, Q a → 1 ≤ a.cur_blocks_live →
      bk.req_szB ≤ a.cur_bytes_live →
      retire_xsize (retire_APInfo_stats a bk clock) bk = some a1 →
      retire_fold a1 bk = some a2 → Q a2)
    (hchange : ∀ a d, Q a → (d < 0 → ofLong (-d) ≤ a.cur_bytes_live) →
      Q (change_APInfo a d))
    (evs : List Event) (s s1 : State) (hr : run s evs = some s1)
    (hinv : ∀ ap a, site s ap = some a → Q a) :
    ∀ ap a, site s1 ap = some a → Q a := by
  induction evs generalizing s with
  | nil =>
    simp only [run, Option.some.injEq] at hr
    rw [← hr]; exact hinv
  | cons e es ih =>
    simp only [run] at hr
    cases hs : step s e with
    | none => simp [hs] at hr
    | some s2 =>
      simp only [hs] at hr
      exact ih s2 hr (step_site_invariant Q hnew hintro hretire hchange s s2 e hs hinv)

/-- In a state reached from the initial one, a site record that has a
folded histogram has the tag `Exactly` and the histogram has `xsize`
entries. -/
theorem run_histo_shape (evs : List Event) (s : State) (hrun : run init_State evs = some s)
    (ap : Nat) (a : APInfo) (hsite : site s ap = some a) (f : List Nat)
    (hf : a.histo = some f) : a.xsize_tag = XSizeTag.Exactly ∧ f.length = a.xsize := by
  refine run_site_invariant
    (fun a => ∀ f, a.histo = some f → a.xsize_tag = XSizeTag.Exactly ∧ f.length = a.xsize)
    ?_ ?_ ?_ ?_ evs init_State s hrun ?_ ap a hsite f hf
  · intro ap f hf
    simp [new_APInfo] at hf
  · intro a sz hq f hf
    exact hq f hf
  · intro a bk clock a1 a2 hq _ _ e1 e2 f hf
    have hstag : (retire_APInfo_stats a bk clock).xsize_tag = a.xsize_tag := rfl
    have hshisto : (retire_APInfo_stats a bk clock).histo = a.histo := rfl
    have hsx : (retire_APInfo_stats a bk clock).xsize = a.xsize := rfl
    obtain ⟨_, _, _, _, _, _, _, _, _, _, _, f12, f13⟩ := retire_fold_counters _ _ _ e2
    rcases retire_xsize_tag _ _ _ e1 with ⟨t1, _, _, t4, t5, t6⟩ | ⟨t1, _, t3, t4, t5⟩ |
        ⟨t1, t2, t3⟩ | ⟨t1, t3⟩
    · refine ⟨f12.trans t4, ?_⟩
      cases hb : bk.histoB with
      | none =>
        rw [hb] at t6
        have := retire_fold_histo a1 a2 bk e2 (Or.inr t6)
        rw [this, t6] at hf
        exact absurd hf (by simp)
      | some h =>
        rw [hb] at t6
        simp only [Option.isSome_some, if_true] at t6
        obtain ⟨_, _, k3, k4⟩ := retire_fold_some a1 a2 bk _ h e2 t4 t6 hb
        rw [k4] at hf
        rw [← Option.some.inj hf, fold_histo_length, List.length_replicate, k3, t5]
    · have := retire_fold_histo a1 a2 bk e2 (Or.inr t5)
      rw [this, t5] at hf
      exact absurd hf (by simp)
    · subst t3
      refine ⟨f12.trans t1, ?_⟩
      cases hh : a.histo with
      | none =>
        have := retire_fold_histo _ a2 bk e2 (Or.inr (hshisto.trans hh))
        rw [this, hshisto, hh] at hf
        exact absurd hf (by simp)
      | some f0 =>
        obtain ⟨_, hlen⟩ := hq f0 hh
        cases hb : bk.histoB with
        | none =>
          have hx : a2 = retire_APInfo_stats a bk clock := by
            rw [retire_fold_none _ bk hb] at e2
            exact (Option.some.inj e2).symm
          rw [hx, hshisto, hh] at hf
          rw [← Option.some.inj hf, hx, hsx]
          exact hlen
        | some h =>
          obtain ⟨_, _, k3, k4⟩ := retire_fold_some _ a2 bk f0 h e2 t1 (hshisto.trans hh) hb
          rw [k4] at hf
          rw [← Option.some.inj hf, fold_histo_length, k3, hsx]
          exact hlen
    · subst t3
      have := retire_fold_histo _ a2 bk e2
        (Or.inl (by rw [t1]; exact fun hc => XSizeTag.noConfusion hc))
      rw [this, hshisto] at hf
      have := (hq f hf).1
      rw [hstag] at t1
      rw [t1] at this
      exact XSizeTag.noConfusion this
  · intro a d hq _ f hf
    exact hq f hf
  · intro ap a h
    simp [site, init_State, lookup_site_nil] at h

/-- C20 (counterexample): a block of 5000 bytes (above the limit of 4096, so
it carries no histogram) is allocated by site 7 and freed.  The tag of the
site is `Exactly(5000)` and the site has no folded histogram. -/
theorem exactly_tag_without_histogram :
    ((run init_State [Event.alloc 7 1000 5000, Event.free 1000]).bind
        (fun s => site s 7)).map (fun a => (a.xsize_tag, a.xsize, a.histo, a.deaths))
      = some (XSizeTag.Exactly, 5000, none, 1) := by
  decide

/-! ### C21: the folded histogram and the tag -/

/-- In a state reached from the initial one, a site record whose tag is not
`Exactly` has `xsize = 0`. -/
theorem run_xsize_zero (evs : List Event) (s : State) (hrun : run init_State evs = some s)
    (ap : Nat) (a : APInfo) (hsite : site s ap = some a)
    (htag : a.xsize_tag ≠ XSizeTag.Exactly) : a.xsize = 0 := by
  refine run_site_invariant
    (fun a => a.xsize_tag ≠ XSizeTag.Exactly → a.xsize = 0)
    ?_ ?_ ?_ ?_ evs init_State s hrun ?_ ap a hsite htag
  · intro ap _
    rfl
  · intro a sz hq ht
    exact hq ht
  · intro a bk clock a1 a2 hq _ _ e1 e2 ht
    have hstag : (retire_APInfo_stats a bk clock).xsize_tag = a.xsize_tag := rfl
    have hsx : (retire_APInfo_stats a bk clock).xsize = a.xsize := rfl
    obtain ⟨_, _, _, _, _, _, _, _, _, _, _, f12, f13⟩ := retire_fold_counters _ _ _ e2
    rw [f12] at ht
    rw [f13]
    rcases retire_xsize_tag _ _ _ e1 with ⟨_, _, _, t4, _, _⟩ | ⟨_, _, _, t4, _⟩ |
        ⟨t1, _, t3⟩ | ⟨t1, t3⟩
    · exact absurd t4 ht
    · exact t4
    · subst t3
      exact absurd t1 ht
    · subst t3
      rw [hsx]
      apply hq
      rw [← hstag, t1]
      exact fun hc => XSizeTag.noConfusion hc
  · intro a d hq _ ht
    exact hq ht
  · intro ap a h
    simp [site, init_State, lookup_site_nil] at h

/-- C21: in every state reached from the initial one, a folded histogram
of a site is there only while the tag of the site is `Exactly`, and it has
`xsize` entries; a site whose tag is `Unknown` or `Mixed` has no folded
histogram and `xsize = 0`. -/
theorem folded_histogram_only_under_exactly (evs : List Event) (s : State)
    (hrun : run init_State evs = some s) (ap : Nat) (a : APInfo)
    (hsite : site s ap = some a) :
    (∀ f, a.histo = some f → a.xsize_tag = XSizeTag.Exactly ∧ f.length = a.xsize) ∧
    (a.xsize_tag = XSizeTag.Unknown ∨ a.xsize_tag = XSizeTag.Mixed →
      a.histo = none ∧ a.xsize = 0) := by
  refine ⟨fun f hf => run_histo_shape evs s hrun ap a hsite f hf, fun ht => ?_⟩
  have hne : a.xsize_tag ≠ XSizeTag.Exactly := by
    rcases ht with ht | ht <;> rw [ht] <;> exact fun hc => XSizeTag.noConfusion hc
  refine ⟨?_, run_xsize_zero evs s hrun ap a hsite hne⟩
  cases hh : a.histo with
  | none => rfl
  | some f => exact absurd (run_histo_shape evs s hrun ap a hsite f hh).1 hne

theorem folded_histogram_only_under_exactly_witness :
    run init_State [Event.alloc 7 1000 8, Event.alloc 7 2000 16, Event.free 1000,
      Event.alloc 9 3000 4, Event.free 2000] = some two_sites_State ∧
    (site two_sites_State 7).map (fun a => (a.xsize_tag, a.xsize, a.histo))
      = some (XSizeTag.Mixed, 0, none) ∧
    (site two_sites_State 9).map (fun a => (a.xsize_tag, a.xsize, a.histo))
      = some (XSizeTag.Unknown, 0, none) ∧
    ∃ a, site two_sites_State 7 = some a ∧
      (∀ f, a.histo = some f → a.xsize_tag = XSizeTag.Exactly ∧ f.length = a.xsize) ∧
      (a.xsize_tag = XSizeTag.Unknown ∨ a.xsize_tag = XSizeTag.Mixed →
        a.histo = none ∧ a.xsize = 0) :=
  ⟨by decide, by decide, by decide, (site two_sites_State 7).getD (new_APInfo 0), by decide,
    folded_histogram_only_under_exactly
      [Event.alloc 7 1000 8, Event.alloc 7 2000 16, Event.free 1000,
        Event.alloc 9 3000 4, Event.free 2000] two_sites_State (by decide) 7 _ (by decide)⟩

/-! ### C22: the block that `new_block` creates -/

theorem mk_Block_histo (p sz ec clk : Nat) :
    ((mk_Block p sz ec clk).histoB.isSome ↔ sz ≤ HISTOGRAM_SIZE_LIMIT) ∧
    ∀ hb, (mk_Block p sz ec clk).histoB = some hb → hb.length = sz ∧ ∀ v ∈ hb, v = 0 := by
  by_cases hc : sz ≤ HISTOGRAM_SIZE_LIMIT
  · have e : (mk_Block p sz ec clk).histoB = some (List.replicate sz 0) := by
      simp only [mk_Block, hc, if_true]
    rw [e]
    refine ⟨by simp [hc], fun hb hhb => ?_⟩
    rw [← Option.some.inj hhb]
    exact ⟨List.length_replicate _ _, fun v hv => List.eq_of_mem_replicate hv⟩
  · have e : (mk_Block p sz ec clk).histoB = none := by
      simp only [mk_Block, hc, if_false]
    rw [e]
    exact ⟨by simp [hc], fun hb hhb => absurd hhb (by simp)⟩

/-- C22: when `new_block` returns storage (not `NULL`), the interval tree
afterwards is the one before with one block `bk` inserted.  Its base is the
returned address, its size `s` is the requested size (1 for a request of 0),
its site is the calling context, and it carries a histogram if and only if
`s <= HISTOGRAM_SIZE_LIMIT = 4096`; the histogram then has `s` entries, all
0; the read and write counts of the block are 0. -/
theorem new_block_creates_histogram (s s1 : State) (ec host_p req_szB r : Nat)
    (h : new_block s ec host_p 0 req_szB = some (r, s1)) (hr : r ≠ 0) :
    ∃ bk l1 l2, s.interval_tree = l1 ++ l2 ∧ s1.interval_tree = l1 ++ (bk, ()) :: l2 ∧
      bk.payload = r ∧ bk.req_szB = (if req_szB = 0 then 1 else req_szB) ∧ bk.ap = ec ∧
      bk.allocd_at = s.g_guest_instrs_executed ∧
      HISTOGRAM_SIZE_LIMIT = 4096 ∧
      (bk.histoB.isSome ↔ bk.req_szB ≤ HISTOGRAM_SIZE_LIMIT) ∧
      (∀ hb, bk.histoB = some hb → hb.length = bk.req_szB ∧ ∀ v ∈ hb, v = 0) ∧
      bk.n_reads = 0 ∧ bk.n_writes = 0 := by
  rcases (new_block_inv s s1 ec host_p 0 req_szB r h).2 with ⟨h0, _⟩ |
      ⟨h1, _, _, tree, hadd, hintro⟩
  · exact absurd h0 hr
  · obtain ⟨l1, l2, e1, e2, _⟩ := addToFM_fresh_split interval_tree_Cmp _ _ _ _ hadd
    have e3 := (intro_Block_frame _ _ _ hintro).1
    exact ⟨_, l1, l2, e1, e3.trans e2, h1.symm, rfl, rfl, rfl, rfl,
      (mk_Block_histo _ _ _ _).1, (mk_Block_histo _ _ _ _).2, rfl, rfl⟩

theorem new_block_creates_histogram_witness :
    (∃ s1, new_block init_State 7 1000 0 16 = some (1000, s1) ∧
      (live_blocks s1).map (fun b => (b.payload, b.req_szB, b.histoB.map List.length))
        = [(1000, 16, some 16)]) ∧
    (∃ s1, new_block init_State 7 1000 0 4097 = some (1000, s1) ∧
      (live_blocks s1).map (fun b => (b.payload, b.req_szB, b.histoB.map List.length))
        = [(1000, 4097, none)]) ∧
    ∃ bk l1 l2, init_State.interval_tree = l1 ++ l2 ∧
      ((new_block init_State 7 1000 0 8).getD (0, init_State)).2.interval_tree
        = l1 ++ (bk, ()) :: l2 ∧
      bk.payload = 1000 ∧ bk.req_szB = (if 8 = 0 then 1 else 8) ∧ bk.ap = 7 ∧
      bk.allocd_at = init_State.g_guest_instrs_executed ∧
      HISTOGRAM_SIZE_LIMIT = 4096 ∧
      (bk.histoB.isSome ↔ bk.req_szB ≤ HISTOGRAM_SIZE_LIMIT) ∧
      (∀ hb, bk.histoB = some hb → hb.length = bk.req_szB ∧ ∀ v ∈ hb, v = 0) ∧
      bk.n_reads = 0 ∧ bk.n_writes = 0 :=
  ⟨⟨((new_block init_State 7 1000 0 16).getD (0, init_State)).2, by decide, by decide⟩,
    ⟨((new_block init_State 7 1000 0 4097).getD (0, init_State)).2, by decide, by decide⟩,
    new_block_creates_histogram init_State _ 7 1000 8 1000 (by decide) (by decide)⟩

/-! ### C27: `dh_realloc` with a `NULL` pointer or a size of 0 -/

/-- C27: for every state, calling context, host answer and size `n`,
`dh_realloc(NULL, n)` gives the result and the final state of `dh_malloc(n)`;
and for every `p` other than `NULL`, `dh_realloc(p, 0)` ends in the final
state of `dh_free(p)` and returns `NULL` (and fails an assertion exactly when
`dh_free(p)` does). -/
theorem dh_realloc_null_and_zero (s : State) (ec host_p n p : Nat) (hp : p ≠ 0) :
    dh_realloc s ec host_p 0 n = dh_malloc s ec host_p n ∧
    dh_realloc s ec host_p p 0 = (dh_free s p).map (fun s1 => (0, s1)) := by
  constructor
  · unfold dh_realloc
    rw [if_pos rfl]
  · unfold dh_realloc
    rw [if_neg hp, if_pos rfl]
    cases dh_free s p <;> rfl

theorem dh_realloc_null_and_zero_witness :
    (dh_malloc one_death_State 7 3000 64).map
        (fun r => (r.1, (live_blocks r.2).map (fun b => (b.payload, b.req_szB))))
      = some (3000, [(2000, 16), (3000, 64)]) ∧
    (dh_free one_death_State 2000).map
        (fun s1 => (live_blocks s1).map (fun b => (b.payload, b.req_szB)))
      = some [] ∧
    dh_realloc one_death_State 7 3000 0 64 = dh_malloc one_death_State 7 3000 64 ∧
    dh_realloc one_death_State 7 3000 2000 0
      = (dh_free one_death_State 2000).map (fun s1 => (0, s1)) :=
  ⟨by decide, by decide, dh_realloc_null_and_zero one_death_State 7 3000 64 2000 (by decide)⟩

/-! ### Where the blocks of the tree come from -/

theorem mem_insert_cases {α : Type} (l1 l2 : List α) (b x : α) (hx : x ∈ l1 ++ b :: l2) :
    x = b ∨ x ∈ l1 ++ l2 := by
  rcases List.mem_append.1 hx with hx | hx
  · exact Or.inr (List.mem_append.2 (Or.inl hx))
  · rcases List.mem_cons.1 hx with rfl | hx
    · exact Or.inl rfl
    · exact Or.inr (List.mem_append.2 (Or.inr hx))

theorem mem_of_mem_remove {α : Type} (l1 l2 : List α) (b x : α) (hx : x ∈ l1 ++ l2) :
    x ∈ l1 ++ b :: l2 := by
  rcases List.mem_append.1 hx with hx | hx
  · exact List.mem_append.2 (Or.inl hx)
  · exact List.mem_append.2 (Or.inr (List.mem_cons_of_mem _ hx))

/-- What one event can do to the interval tree: every block of the tree
afterwards was in the tree before, or was created by this `alloc`, or is the
block this `resize` was called on (with its histogram thrown away), or is
the block this access falls into (same base, size, site and birth). -/
theorem step_block_cases (s s1 : State) (e : Event) (hs : step s e = some s1)
    (b1 : Block) (hb1 : b1 ∈ live_blocks s1) :
    b1 ∈ live_blocks s ∨
    (∃ ec host_p szB, e = Event.alloc ec host_p szB ∧ host_p ≠ 0 ∧
      b1 = mk_Block host_p (if szB = 0 then 1 else szB) ec s.g_guest_instrs_executed) ∨
    (∃ b host_p szB, e = Event.resize host_p b.payload szB ∧ b ∈ live_blocks s ∧ 0 < szB ∧
      ((szB ≤ b.req_szB ∧ b1 = { b with histoB := none, req_szB := szB }) ∨
       (b.req_szB < szB ∧ host_p = 0 ∧ b1 = { b with histoB := none }) ∨
       (b.req_szB < szB ∧ host_p ≠ 0 ∧
        b1 = { b with histoB := none, payload := host_p, req_szB := szB }))) ∨
    (∃ b addr szB, (e = Event.read addr szB ∨ e = Event.write addr szB) ∧
      b ∈ live_blocks s ∧ b1.payload = b.payload ∧ b1.req_szB = b.req_szB ∧
      b1.ap = b.ap ∧ b1.allocd_at = b.allocd_at ∧
      (b1.histoB = b.histoB ∨
        ∃ hb n i, b.histoB = some hb ∧ b1.histoB = some (inc_histo_loop n i hb))) := by
  obtain ⟨x, hx, rfl⟩ := List.mem_map.1 hb1
  obtain ⟨b1, u⟩ := x
  have hmem : ∀ (y : Block × Unit), y ∈ s.interval_tree → y.1 ∈ live_blocks s :=
    fun y hy => List.mem_map.2 ⟨y, hy, rfl⟩
  cases e with
  | alloc ec host_p szB =>
    simp only [step, Option.map_eq_some', Prod.exists, exists_eq_right] at hs
    obtain ⟨r, hs⟩ := hs
    obtain ⟨_, h1 | ⟨_, hne, hlong, tree, hadd, hintro⟩⟩ := new_block_inv s s1 ec host_p 0 szB r hs
    · rw [h1.2.1] at hx; exact Or.inl (hmem _ hx)
    · rw [(intro_Block_frame _ _ _ hintro).1] at hx
      obtain ⟨l1, l2, e1, e2, _⟩ := addToFM_fresh_split interval_tree_Cmp _ _ _ _ hadd
      simp only at hx
      rw [e2] at hx
      rcases mem_insert_cases l1 l2 _ _ hx with h | h
      · exact Or.inr (Or.inl ⟨ec, host_p, szB, rfl, hne, congrArg Prod.fst h⟩)
      · rw [← e1] at h
        exact Or.inl (hmem _ h)
  | free p =>
    simp only [step] at hs
    rcases die_block_inv s s1 p false hs with h1 | ⟨bk, s2, tree, hf, hp, _, _, hr, hd, rfl⟩
    · rw [h1.1] at hx; exact Or.inl (hmem _ hx)
    · simp only at hx
      obtain ⟨l1, l2, e1, hfound⟩ := find_Block_split _ _ _ hf
      rw [(retire_Block_frame _ _ _ hr).1, e1, hp] at hd
      unfold delete_Block_starting_at at hd
      rw [delFromFM_of_found interval_tree_Cmp l1 l2 _ _ hfound] at hd
      simp only [if_true, Option.some.injEq] at hd
      rw [← hd] at hx
      left
      apply hmem
      rw [e1]
      exact mem_of_mem_remove l1 l2 _ _ hx
  | resize host_p p szB =>
    simp only [step, Option.map_eq_some', Prod.exists, exists_eq_right] at hs
    obtain ⟨r, hs⟩ := hs
    obtain ⟨hpos, h1 | ⟨bk, hf, hp, hsz, _, hcase⟩⟩ := renew_block_inv s s1 host_p p szB r hs
    · rw [h1.2.1] at hx; exact Or.inl (hmem _ hx)
    · obtain ⟨l1, l2, e1, hfound⟩ := find_Block_split _ _ _ hf
      have hmod : ∀ b1 : Block, modifyFM interval_tree_Cmp s.interval_tree (fake_Block p)
          (fun _ => (b1, ())) = l1 ++ (b1, ()) :: l2 := by
        intro b1
        rw [e1]
        exact modifyFM_of_found interval_tree_Cmp l1 l2 _ _ _ hfound
      have hfound1 : FoundAt interval_tree_Cmp l1 ({ bk with histoB := none }, ()) (fake_Block p) :=
        foundAt_congr l1 bk _ _ rfl rfl hfound
      have hbk : bk ∈ live_blocks s := by
        apply hmem (bk, ())
        rw [e1]
        exact List.mem_append.2 (Or.inr (List.mem_cons_self _ _))
      have hold : ∀ y, y ∈ l1 ++ l2 → y.1 ∈ live_blocks s := by
        intro y hy
        apply hmem
        rw [e1]
        exact mem_of_mem_remove l1 l2 _ _ hy
      subst hp
      rcases hcase with ⟨hle, _, s2, hch, rfl⟩ | ⟨hlt, h0, _, rfl⟩ |
        ⟨hlt, hne, _, _, tree, s2, tree2, hd, hch, hadd, rfl⟩
      · simp only at hx
        rw [(apinfo_change_tree _ _ _ _ hch).1] at hx
        simp only at hx
        rw [hmod, modifyFM_of_found interval_tree_Cmp l1 l2 _ _ _ hfound1] at hx
        rcases mem_insert_cases l1 l2 _ _ hx with h | h
        · exact Or.inr (Or.inr (Or.inl ⟨bk, host_p, szB, rfl, hbk, hpos,
            Or.inl ⟨hle, congrArg Prod.fst h⟩⟩))
        · exact Or.inl (hold _ h)
      · simp only at hx
        rw [hmod] at hx
        rcases mem_insert_cases l1 l2 _ _ hx with h | h
        · exact Or.inr (Or.inr (Or.inl ⟨bk, host_p, szB, rfl, hbk, hpos,
            Or.inr (Or.inl ⟨hlt, h0, congrArg Prod.fst h⟩)⟩))
        · exact Or.inl (hold _ h)
      · simp only at hx
        rw [hmod] at hd
        unfold delete_Block_starting_at at hd
        rw [delFromFM_of_found interval_tree_Cmp l1 l2 _ _ hfound1] at hd
        simp only [if_true, Option.some.injEq] at hd
        subst hd
        rw [(apinfo_change_tree _ _ _ _ hch).1] at hadd
        simp only at hadd
        obtain ⟨m1, m2, e3, e4, _⟩ := addToFM_fresh_split interval_tree_Cmp _ _ _ _ hadd
        rw [e4] at hx
        rcases mem_insert_cases m1 m2 _ _ hx with h | h
        · exact Or.inr (Or.inr (Or.inl ⟨bk, host_p, szB, rfl, hbk, hpos,
            Or.inr (Or.inr ⟨hlt, hne, congrArg Prod.fst h⟩)⟩))
        · rw [← e3] at h
          exact Or.inl (hold _ h)
  | read addr szB =>
    simp only [step] at hs
    rcases dh_handle_read_inv s s1 addr szB hs with h1 | ⟨bk, bk2, hf, ht, rfl⟩
    · rw [h1.2] at hx; exact Or.inl (hmem _ hx)
    · obtain ⟨l1, l2, e1, hfound⟩ := find_Block_split _ _ _ hf
      obtain ⟨hp, hsz, hap, hat⟩ := touch_range_read bk bk2 addr szB ht
      simp only at hx
      rw [e1, modifyFM_of_found interval_tree_Cmp l1 l2 _ _ _ hfound] at hx
      rcases mem_insert_cases l1 l2 _ _ hx with h | h
      · have hb : b1 = bk2 := congrArg Prod.fst h
        subst hb
        refine Or.inr (Or.inr (Or.inr ⟨bk, addr, szB, Or.inl rfl, ?_, hp, hsz, hap, hat,
          touch_histo_read bk _ addr szB ht⟩))
        apply hmem (bk, ())
        rw [e1]
        exact List.mem_append.2 (Or.inr (List.mem_cons_self _ _))
      · left
        apply hmem
        rw [e1]
        exact mem_of_mem_remove l1 l2 _ _ h
  | write addr szB =>
    simp only [step] at hs
    rcases dh_handle_write_inv s s1 addr szB hs with h1 | ⟨bk, bk2, hf, ht, rfl⟩
    · rw [h1.2] at hx; exact Or.inl (hmem _ hx)
    · obtain ⟨l1, l2, e1, hfound⟩ := find_Block_split _ _ _ hf
      obtain ⟨hp, hsz, hap, hat⟩ := touch_range_write bk bk2 addr szB ht
      simp only at hx
      rw [e1, modifyFM_of_found interval_tree_Cmp l1 l2 _ _ _ hfound] at hx
      rcases mem_insert_cases l1 l2 _ _ hx with h | h
      · have hb : b1 = bk2 := congrArg Prod.fst h
        subst hb
        refine Or.inr (Or.inr (Or.inr ⟨bk, addr, szB, Or.inr rfl, ?_, hp, hsz, hap, hat,
          touch_histo_write bk _ addr szB ht⟩))
        apply hmem (bk, ())
        rw [e1]
        exact List.mem_append.2 (Or.inr (List.mem_cons_self _ _))
      · left
        apply hmem
        rw [e1]
        exact mem_of_mem_remove l1 l2 _ _ h
  | tick n =>
    simp only [step, Option.some.injEq] at hs
    rw [← hs] at hx; exact Or.inl (hmem _ hx)

/-! ### The effect of a resize that succeeds -/

/-- A `renew_block` that returns storage: the block `bk` found at `p_old`
is replaced in the tree by the same block without histogram, with the new
size and the returned base (in place when it shrinks, re-inserted when it
grows), and the record of its site went through
`apinfo_change_cur_bytes_live` with the difference of the sizes. -/
theorem renew_block_success (s s1 : State) (host_p p n r : Nat)
    (h : renew_block s host_p p n = some (r, s1)) (hr : r ≠ 0) :
    ∃ bk l1 l2 m1 m2 api, find_Block_containing s.interval_tree p = some (some bk) ∧
      bk.payload = p ∧ 0 < n ∧
      s.interval_tree = l1 ++ (bk, ()) :: l2 ∧ l1 ++ l2 = m1 ++ m2 ∧
      s1.interval_tree =
        m1 ++ ({ bk with histoB := none, payload := r, req_szB := n }, ()) :: m2 ∧
      ((n ≤ bk.req_szB ∧ r = p ∧ m1 = l1 ∧ m2 = l2) ∨
       (bk.req_szB < n ∧ r = host_p ∧ host_p ≠ p)) ∧
      site s bk.ap = some api ∧
      (∀ ap1, site s1 ap1 =
        if ap1 = bk.ap
        then some (change_APInfo api (wrapLong (toLong n - toLong bk.req_szB)))
        else site s ap1) ∧
      s1.g_guest_instrs_executed = s.g_guest_instrs_executed := by
  obtain ⟨hpos, h1 | ⟨bk, hf, hp, hsz, _, hcase⟩⟩ := renew_block_inv s s1 host_p p n r h
  · exact absurd h1.1 hr
  · obtain ⟨l1, l2, e1, hfound⟩ := find_Block_split _ _ _ hf
    have hmod : ∀ b1 : Block, modifyFM interval_tree_Cmp s.interval_tree (fake_Block p)
        (fun _ => (b1, ())) = l1 ++ (b1, ()) :: l2 := by
      intro b1
      rw [e1]
      exact modifyFM_of_found interval_tree_Cmp l1 l2 _ _ _ hfound
    have hfound1 : FoundAt interval_tree_Cmp l1 ({ bk with histoB := none }, ()) (fake_Block p) :=
      foundAt_congr l1 bk _ _ rfl rfl hfound
    rcases hcase with ⟨hle, hrp, s2, hch, rfl⟩ | ⟨_, _, h0, _⟩ |
      ⟨hlt, hne, hne2, hrh, tree, s2, tree2, hd, hch, hadd, rfl⟩
    · obtain ⟨api, a1, _, _, a4⟩ := apinfo_change_site _ _ _ _ hch
      refine ⟨bk, l1, l2, l1, l2, api, hf, hp, hpos, e1, rfl, ?_, Or.inl ⟨hle, hrp, rfl, rfl⟩,
        a1, a4, (apinfo_change_tree _ _ _ _ hch).2⟩
      simp only
      rw [(apinfo_change_tree _ _ _ _ hch).1]
      simp only
      rw [hmod, modifyFM_of_found interval_tree_Cmp l1 l2 _ _ _ hfound1, hrp, ← hp]
    · exact absurd h0 hr
    · rw [hmod] at hd
      unfold delete_Block_starting_at at hd
      rw [delFromFM_of_found interval_tree_Cmp l1 l2 _ _ hfound1] at hd
      simp only [if_true, Option.some.injEq] at hd
      subst hd
      obtain ⟨api, a1, _, _, a4⟩ := apinfo_change_site _ _ _ _ hch
      rw [(apinfo_change_tree _ _ _ _ hch).1] at hadd
      simp only at hadd
      obtain ⟨m1, m2, e3, e4, _⟩ := addToFM_fresh_split interval_tree_Cmp _ _ _ _ hadd
      refine ⟨bk, l1, l2, m1, m2, api, hf, hp, hpos, e1, e3, ?_, Or.inr ⟨hlt, hrh, hne2⟩,
        a1, a4, (apinfo_change_tree _ _ _ _ hch).2⟩
      simp only
      rw [e4, hrh]

/-! ### C23: a resized block has no histogram -/

/-- C23: after a `renew_block` on the base `p` of a live block `bk` that
returns storage `r` (the block shrinks, grows or keeps its size), the tree
holds in place of `bk` a block with base `r` and the new size, the site and
birth of `bk`, and no histogram.  And it never regains one: after any event,
a block of the tree that has a histogram was created by this very `alloc`,
or was in the tree before the event with the same base, size, site and
birth and had a histogram then; so reads, writes and further resizes leave a
block without histogram without one. -/
theorem resized_block_has_no_histogram (s s1 : State) (host_p p n r : Nat)
    (h : renew_block s host_p p n = some (r, s1)) (hr : r ≠ 0) :
    (∃ bk l1 l2 m1 m2 b1, find_Block_containing s.interval_tree p = some (some bk) ∧
      bk.payload = p ∧ s.interval_tree = l1 ++ (bk, ()) :: l2 ∧ l1 ++ l2 = m1 ++ m2 ∧
      s1.interval_tree = m1 ++ (b1, ()) :: m2 ∧
      b1.payload = r ∧ b1.req_szB = n ∧ b1.ap = bk.ap ∧ b1.allocd_at = bk.allocd_at ∧
      b1.histoB = none) ∧
    (∀ (t t1 : State) (e : Event), step t e = some t1 →
      ∀ b1, b1 ∈ live_blocks t1 → b1.histoB ≠ none →
        (∃ ec q szB, e = Event.alloc ec q szB ∧
          b1 = mk_Block q (if szB = 0 then 1 else szB) ec t.g_guest_instrs_executed) ∨
        (∃ b, b ∈ live_blocks t ∧ b.histoB ≠ none ∧ b.payload = b1.payload ∧
          b.req_szB = b1.req_szB ∧ b.ap = b1.ap ∧ b.allocd_at = b1.allocd_at)) := by
  constructor
  · obtain ⟨bk, l1, l2, m1, m2, _, hf, hp, _, e1, e2, e3, _⟩ :=
      renew_block_success s s1 host_p p n r h hr
    exact ⟨bk, l1, l2, m1, m2, _, hf, hp, e1, e2, e3, rfl, rfl, rfl, rfl, rfl⟩
  · intro t t1 e hs b1 hb1 hh
    rcases step_block_cases t t1 e hs b1 hb1 with c | ⟨ec, q, szB, he, _, hb⟩ |
        ⟨b, q, szB, _, _, _, c | c | c⟩ | ⟨b, addr, szB, _, hb, c1, c2, c3, c4, c5⟩
    · exact Or.inr ⟨b1, c, hh, rfl, rfl, rfl, rfl⟩
    · exact Or.inl ⟨ec, q, szB, he, hb⟩
    · rw [c.2] at hh
      exact absurd rfl hh
    · rw [c.2.2] at hh
      exact absurd rfl hh
    · rw [c.2.2] at hh
      exact absurd rfl hh
    · refine Or.inr ⟨b, hb, ?_, c1.symm, c2.symm, c3.symm, c4.symm⟩
      rcases c5 with c5 | ⟨hb0, _, _, c5, _⟩
      · rw [← c5]; exact hh
      · rw [c5]; simp

theorem resized_block_has_no_histogram_witness :
    (live_blocks touched_block_State).map (fun b => (b.payload, b.req_szB, b.histoB.isSome))
      = [(1000, 16, true)] ∧
    ∃ s1, renew_block touched_block_State 2000 1000 64 = some (2000, s1) ∧
      ∃ b1, b1 ∈ live_blocks s1 ∧ b1.payload = 2000 ∧ b1.req_szB = 64 ∧ b1.histoB = none := by
  refine ⟨by decide, ((renew_block touched_block_State 2000 1000 64).getD (0, init_State)).2,
    by decide, ?_⟩
  obtain ⟨bk, l1, l2, m1, m2, b1, _, _, _, _, e3, c1, c2, _, _, c5⟩ :=
    (resized_block_has_no_histogram touched_block_State _ 2000 1000 64 2000
      (by decide : renew_block touched_block_State 2000 1000 64 = some (2000,
        ((renew_block touched_block_State 2000 1000 64).getD (0, init_State)).2))
      (by decide)).1
  refine ⟨b1, ?_, c1, c2, c5⟩
  unfold live_blocks
  rw [e3]
  simp

/-! ### Reachable states: the records name their key; insertion succeeds -/

/-- In a state reached from the initial one, the record stored under `ap`
has `ap` in its field `ap`. -/
theorem run_site_key (evs : List Event) (s : State) (hrun : run init_State evs = some s)
    (ap : Nat) (a : APInfo) (hsite : site s ap = some a) : a.ap = ap := by
  induction evs using List.reverseRecOn generalizing s ap a with
  | nil =>
    simp only [run, Option.some.injEq] at hrun
    subst hrun
    simp [site, init_State, lookup_site_nil] at hsite
  | append_singleton es e ih =>
    have hsplit : ∃ s0, run init_State es = some s0 ∧ step s0 e = some s := by
      clear ih hsite
      generalize init_State = t at hrun ⊢
      induction es generalizing t with
      | nil =>
        simp only [List.nil_append, run] at hrun ⊢
        cases hs : step t e with
        | none => simp [hs] at hrun
        | some s2 =>
          simp only [hs, Option.some.injEq] at hrun
          subst hrun
          exact ⟨t, rfl, hs⟩
      | cons x xs ih2 =>
        simp only [List.cons_append, run] at hrun ⊢
        cases hs : step t x with
        | none => simp [hs] at hrun
        | some s2 =>
          simp only [hs] at hrun ⊢
          exact ih2 s2 hrun
    obtain ⟨s0, hr0, hs0⟩ := hsplit
    rcases step_site_cases s0 s e hs0 ap with c | ⟨sz, c⟩ |
        ⟨a0, bk, x1, x2, c0, _, _, c3, c4, c5⟩ | ⟨a0, x, c0, _, c2⟩
    · rw [c] at hsite
      exact ih s0 hr0 ap a hsite
    · rw [c] at hsite
      rw [← Option.some.inj hsite]
      cases h0 : site s0 ap with
      | none => rfl
      | some a0 => exact ih s0 hr0 ap a0 h0
    · rw [c5] at hsite
      rw [← Option.some.inj hsite]
      exact (retire_counters a0 x1 x2 bk _ c3 c4).1.trans (ih s0 hr0 ap a0 c0)
    · rw [c2] at hsite
      rw [← Option.some.inj hsite]
      exact ih s0 hr0 ap a0 c0

/-- Storage that is disjoint from a block compares below or above it. -/
theorem interval_tree_Cmp_disjoint (tk bk : Block) (h1 : 0 < tk.req_szB) (h2 : 0 < bk.req_szB)
    (hd : ¬ (bk.payload < tk.payload + tk.req_szB ∧ tk.payload < bk.payload + bk.req_szB)) :
    interval_tree_Cmp tk bk = some (-1) ∨ interval_tree_Cmp tk bk = some 1 := by
  unfold interval_tree_Cmp
  rw [if_neg (by omega), if_neg (by omega)]
  have m1 : addU tk.payload tk.req_szB ≤ tk.payload + tk.req_szB := Nat.mod_le _ _
  have m2 : addU bk.payload bk.req_szB ≤ bk.payload + bk.req_szB := Nat.mod_le _ _
  by_cases c1 : addU tk.payload tk.req_szB ≤ bk.payload
  · rw [if_pos c1]; exact Or.inl rfl
  · rw [if_neg c1]
    have c2 : addU bk.payload bk.req_szB ≤ tk.payload := by omega
    rw [if_pos c2]; exact Or.inr rfl

/-- Inserting a non-empty block that is disjoint from every block of a tree
without empty blocks succeeds. -/
theorem addToFM_disjoint (t : WordFM Block Unit) (bk : Block) (hne : NonEmptyBlocks t)
    (hsz : 0 < bk.req_szB) (hd : host_disjoint t bk.payload bk.req_szB) :
    ∃ t1, addToFM interval_tree_Cmp t bk () = some (t1, false) := by
  induction t with
  | nil => exact ⟨_, rfl⟩
  | cons hd1 tl ih =>
    obtain ⟨tk, u⟩ := hd1
    have h1 : 0 < tk.req_szB := hne (tk, u) (List.mem_cons_self _ _)
    have h2 := hd (tk, u) (List.mem_cons_self _ _)
    simp only [addToFM]
    rcases interval_tree_Cmp_disjoint tk bk h1 hsz h2 with c | c
    · rw [c]
      simp only [show ¬ ((-1 : Int) > 0) by decide, show ((-1 : Int) < 0) by decide, if_true,
        if_false]
      obtain ⟨t1, e1⟩ := ih (fun x hx => hne x (List.mem_cons_of_mem _ hx))
        (fun x hx => hd x (List.mem_cons_of_mem _ hx))
      rw [e1]
      exact ⟨_, rfl⟩
    · rw [c]
      simp only [show ((1 : Int) > 0) by decide, if_true]
      exact ⟨_, rfl⟩

/-! ### C26: no block of size 0 -/

/-- `new_block` returns the storage of the host when the request is not
negative, the storage is disjoint from the blocks of the tree, the tree has
no empty block, and `intro_Block` cannot fail (the calling context is not
`NULL` and a record stored under it names it). -/
theorem new_block_total (s : State) (ec host_p req_szB : Nat)
    (hne : NonEmptyBlocks s.interval_tree) (hlong : ¬ toLong req_szB < 0)
    (hhost : host_p ≠ 0)
    (hd : host_disjoint s.interval_tree host_p (if req_szB = 0 then 1 else req_szB))
    (hec : ec ≠ 0) (hkey : ∀ api, site s ec = some api → api.ap = ec) :
    ∃ s1 l1 l2, new_block s ec host_p 0 req_szB = some (host_p, s1) ∧
      s.interval_tree = l1 ++ l2 ∧
      s1.interval_tree =
        l1 ++ (mk_Block host_p (if req_szB = 0 then 1 else req_szB) ec
          s.g_guest_instrs_executed, ()) :: l2 ∧
      intro_Block
        { s with interval_tree :=
            l1 ++ (mk_Block host_p (if req_szB = 0 then 1 else req_szB) ec
              s.g_guest_instrs_executed, ()) :: l2 }
        (mk_Block host_p (if req_szB = 0 then 1 else req_szB) ec s.g_guest_instrs_executed)
        = some s1 := by
  have hsz : 0 < (mk_Block host_p (if req_szB = 0 then 1 else req_szB) ec
      s.g_guest_instrs_executed).req_szB := by
    simp only [mk_Block]
    split_ifs <;> omega
  obtain ⟨t1, hadd⟩ := addToFM_disjoint s.interval_tree
    (mk_Block host_p (if req_szB = 0 then 1 else req_szB) ec s.g_guest_instrs_executed)
    hne hsz hd
  obtain ⟨l1, l2, e1, e2, _⟩ := addToFM_fresh_split interval_tree_Cmp _ _ _ _ hadd
  obtain ⟨s1, hintro⟩ := intro_Block_total { s with interval_tree := t1 }
    (mk_Block host_p (if req_szB = 0 then 1 else req_szB) ec s.g_guest_instrs_executed)
    hec hkey
  refine ⟨s1, l1, l2, ?_, e1, ?_, ?_⟩
  · unfold new_block
    simp only [ne_eq, not_true_eq_false, if_false, hlong, hhost, hadd, Bool.false_eq_true,
      hintro]
  · rw [(intro_Block_frame _ _ _ hintro).1]
    exact e2
  · rw [← e2]
    exact hintro

/-- C26: in every state reached from the initial one, every block of the
interval tree has a size above 0.  An allocation of 0 bytes there, for which
the host supplies storage (not `NULL`, disjoint from the live blocks; the
calling context is not `NULL`), succeeds: it returns the storage and inserts
one block, of size 1, and the `cur_bytes_live` and `tot_bytes` of the site
and of the process go up by 1.  And `renew_block` with a new size of 0 fails
its first assertion, and `dh_realloc` with a new size of 0 frees the block
instead of calling it, so no resize sets a size to 0. -/
theorem blocks_never_empty (evs : List Event) (s : State)
    (hrun : run init_State evs = some s) :
    NonEmptyBlocks s.interval_tree ∧
    (∀ ec host_p, ec ≠ 0 → host_p ≠ 0 → host_disjoint s.interval_tree host_p 1 →
      ∃ s1 l1 l2 bk a1, new_block s ec host_p 0 0 = some (host_p, s1) ∧
        s.interval_tree = l1 ++ l2 ∧ s1.interval_tree = l1 ++ (bk, ()) :: l2 ∧
        bk.payload = host_p ∧ bk.req_szB = 1 ∧ bk.ap = ec ∧
        site s1 ec = some a1 ∧
        a1.cur_bytes_live = addU ((site s ec).getD (new_APInfo ec)).cur_bytes_live 1 ∧
        a1.tot_bytes = addU ((site s ec).getD (new_APInfo ec)).tot_bytes 1 ∧
        s1.g_cur_bytes_live = addU s.g_cur_bytes_live 1 ∧
        s1.g_tot_bytes = addU s.g_tot_bytes 1) ∧
    (∀ host_p p, renew_block s host_p p 0 = none) ∧
    (∀ ec host_p p, p ≠ 0 →
      dh_realloc s ec host_p p 0 = (dh_free s p).map (fun s1 => (0, s1))) := by
  refine ⟨run_nonEmptyBlocks evs s hrun, ?_, ?_, ?_⟩
  · intro ec host_p hec hhost hd
    obtain ⟨s1, l1, l2, h1, e1, e2, hintro⟩ := new_block_total s ec host_p 0
      (run_nonEmptyBlocks evs s hrun) (by decide) hhost hd hec
      (fun api ha => run_site_key evs s hrun ec api ha)
    have hsite := intro_Block_site _ _ _ hintro ec
    obtain ⟨_, _, _, _, _, hs1⟩ := intro_Block_inv _ _ _ hintro
    refine ⟨s1, l1, l2, _, intro_APInfo ((site s ec).getD (new_APInfo ec)) 1, h1, e1, e2,
      rfl, rfl, rfl, ?_, rfl, rfl, ?_, ?_⟩
    · rw [hsite]
      simp only [mk_Block, if_true]
      rfl
    · subst hs1
      rfl
    · subst hs1
      rfl
  · intro host_p p
    unfold renew_block
    rw [if_pos (by omega)]
  · intro ec host_p p hp
    unfold dh_realloc
    rw [if_neg hp, if_pos rfl]
    cases dh_free s p <;> rfl

theorem blocks_never_empty_witness :
    run init_State [Event.alloc 7 1000 8, Event.alloc 7 2000 16, Event.free 1000]
      = some one_death_State ∧
    (site one_death_State 7).map (fun a => (a.cur_bytes_live, a.tot_bytes)) = some (16, 24) ∧
    (one_death_State.g_cur_bytes_live, one_death_State.g_tot_bytes) = (16, 24) ∧
    NonEmptyBlocks one_death_State.interval_tree ∧
    (∃ s1 a1, new_block one_death_State 7 3000 0 0 = some (3000, s1) ∧
      (live_blocks s1).map (fun b => (b.payload, b.req_szB)) = [(2000, 16), (3000, 1)] ∧
      site s1 7 = some a1 ∧ a1.cur_bytes_live = 17 ∧ a1.tot_bytes = 25 ∧
      s1.g_cur_bytes_live = 17 ∧ s1.g_tot_bytes = 25) ∧
    renew_block one_death_State 3000 2000 0 = none := by
  have h := blocks_never_empty
    [Event.alloc 7 1000 8, Event.alloc 7 2000 16, Event.free 1000] one_death_State (by decide)
  refine ⟨by decide, by decide, by decide, h.1, ?_, h.2.2.1 3000 2000⟩
  obtain ⟨s1, l1, l2, bk, a1, h1, _, _, _, _, _, c1, c2, c3, c4, c5⟩ :=
    h.2.1 7 3000 (by decide) (by decide) (by decide)
  have hb : (new_block one_death_State 7 3000 0 0).map
      (fun r => (live_blocks r.2).map (fun b => (b.payload, b.req_szB)))
      = some [(2000, 16), (3000, 1)] := by decide
  rw [h1] at hb
  exact ⟨s1, a1, h1, Option.some.inj hb, c1, c2.trans (by decide), c3.trans (by decide),
    c4.trans (by decide), c5.trans (by decide)⟩

/-! ### How one event changes the interval tree -/

/-- The change of the interval tree by one event: none, an insertion (by an
`alloc`, or by a growing `resize` after the removal of the old block), a
removal, or the replacement of a block by one with the same base and a size
that is not larger. -/
theorem step_tree_cases (s s1 : State) (e : Event) (hs : step s e = some s1) :
    s1.interval_tree = s.interval_tree ∨
    (∃ b t0, (t0 = s.interval_tree ∨
        ∃ l1 l2 b0, s.interval_tree = l1 ++ (b0, ()) :: l2 ∧ t0 = l1 ++ l2) ∧
      addToFM interval_tree_Cmp t0 b () = some (s1.interval_tree, false) ∧
      0 < b.req_szB ∧
      ((∃ ec host_p szB, e = Event.alloc ec host_p szB ∧ b.payload = host_p ∧
          b.req_szB = (if szB = 0 then 1 else szB)) ∨
       (∃ host_p p szB, e = Event.resize host_p p szB ∧ b.payload = host_p ∧
          b.req_szB = szB))) ∨
    (∃ l1 l2 b0, s.interval_tree = l1 ++ (b0, ()) :: l2 ∧ s1.interval_tree = l1 ++ l2) ∨
    (∃ l1 l2 b0 b1, s.interval_tree = l1 ++ (b0, ()) :: l2 ∧
      s1.interval_tree = l1 ++ (b1, ()) :: l2 ∧ b1.payload = b0.payload ∧
      b1.req_szB ≤ b0.req_szB ∧ 0 < b1.req_szB) := by
  cases e with
  | alloc ec host_p szB =>
    simp only [step, Option.map_eq_some', Prod.exists, exists_eq_right] at hs
    obtain ⟨r, hs⟩ := hs
    obtain ⟨_, h1 | ⟨_, hne, hlong, tree, hadd, hintro⟩⟩ := new_block_inv s s1 ec host_p 0 szB r hs
    · rw [h1.2.1]; exact Or.inl rfl
    · right; left
      refine ⟨mk_Block host_p (if szB = 0 then 1 else szB) ec s.g_guest_instrs_executed,
        s.interval_tree, Or.inl rfl, ?_, ?_, Or.inl ⟨ec, host_p, szB, rfl, rfl, rfl⟩⟩
      · rw [(intro_Block_frame _ _ _ hintro).1]
        exact hadd
      · simp only [mk_Block]
        split_ifs <;> omega
  | free p =>
    simp only [step] at hs
    rcases die_block_inv s s1 p false hs with h1 | ⟨bk, s2, tree, hf, hp, _, _, hr, hd, rfl⟩
    · rw [h1.1]; exact Or.inl rfl
    · obtain ⟨l1, l2, e1, hfound⟩ := find_Block_split _ _ _ hf
      rw [(retire_Block_frame _ _ _ hr).1, e1, hp] at hd
      unfold delete_Block_starting_at at hd
      rw [delFromFM_of_found interval_tree_Cmp l1 l2 _ _ hfound] at hd
      simp only [if_true, Option.some.injEq] at hd
      exact Or.inr (Or.inr (Or.inl ⟨l1, l2, bk, e1, hd.symm⟩))
  | resize host_p p szB =>
    simp only [step, Option.map_eq_some', Prod.exists, exists_eq_right] at hs
    obtain ⟨r, hs⟩ := hs
    obtain ⟨hpos, h1 | ⟨bk, hf, hp, hsz, _, hcase⟩⟩ := renew_block_inv s s1 host_p p szB r hs
    · rw [h1.2.1]; exact Or.inl rfl
    · obtain ⟨l1, l2, e1, hfound⟩ := find_Block_split _ _ _ hf
      have hmod : ∀ b1 : Block, modifyFM interval_tree_Cmp s.interval_tree (fake_Block p)
          (fun _ => (b1, ())) = l1 ++ (b1, ()) :: l2 := by
        intro b1
        rw [e1]
        exact modifyFM_of_found interval_tree_Cmp l1 l2 _ _ _ hfound
      have hfound1 : FoundAt interval_tree_Cmp l1 ({ bk with histoB := none }, ()) (fake_Block p) :=
        foundAt_congr l1 bk _ _ rfl rfl hfound
      rcases hcase with ⟨hle, _, s2, hch, rfl⟩ | ⟨hlt, h0, _, rfl⟩ |
        ⟨hlt, hne, _, _, tree, s2, tree2, hd, hch, hadd, rfl⟩
      · right; right; right
        refine ⟨l1, l2, bk, { bk with histoB := none, req_szB := szB }, e1, ?_, rfl, hle, hpos⟩
        simp only
        rw [(apinfo_change_tree _ _ _ _ hch).1]
        simp only
        rw [hmod, modifyFM_of_found interval_tree_Cmp l1 l2 _ _ _ hfound1]
      · right; right; right
        refine ⟨l1, l2, bk, { bk with histoB := none }, e1, ?_, rfl, le_refl _, hsz⟩
        simp only
        rw [hmod]
      · rw [hmod] at hd
        unfold delete_Block_starting_at at hd
        rw [delFromFM_of_found interval_tree_Cmp l1 l2 _ _ hfound1] at hd
        simp only [if_true, Option.some.injEq] at hd
        subst hd
        rw [(apinfo_change_tree _ _ _ _ hch).1] at hadd
        simp only at hadd
        right; left
        exact ⟨{ bk with histoB := none, payload := host_p, req_szB := szB }, l1 ++ l2,
          Or.inr ⟨l1, l2, bk, e1, rfl⟩, hadd, hpos,
          Or.inr ⟨host_p, p, szB, rfl, rfl, rfl⟩⟩
  | read addr szB =>
    simp only [step] at hs
    rcases dh_handle_read_inv s s1 addr szB hs with h1 | ⟨bk, bk2, hf, ht, rfl⟩
    · rw [h1.2]; exact Or.inl rfl
    · obtain ⟨l1, l2, e1, hfound⟩ := find_Block_split _ _ _ hf
      obtain ⟨hp, hsz, hap, hat⟩ := touch_range_read bk bk2 addr szB ht
      right; right; right
      refine ⟨l1, l2, bk, bk2, e1, ?_, hp, le_of_eq hsz, ?_⟩
      · simp only
        rw [e1, modifyFM_of_found interval_tree_Cmp l1 l2 _ _ _ hfound]
      · rw [hsz]
        exact (found_contains l1 bk addr hfound).2.2.1
  | write addr szB =>
    simp only [step] at hs
    rcases dh_handle_write_inv s s1 addr szB hs with h1 | ⟨bk, bk2, hf, ht, rfl⟩
    · rw [h1.2]; exact Or.inl rfl
    · obtain ⟨l1, l2, e1, hfound⟩ := find_Block_split _ _ _ hf
      obtain ⟨hp, hsz, hap, hat⟩ := touch_range_write bk bk2 addr szB ht
      right; right; right
      refine ⟨l1, l2, bk, bk2, e1, ?_, hp, le_of_eq hsz, ?_⟩
      · simp only
        rw [e1, modifyFM_of_found interval_tree_Cmp l1 l2 _ _ _ hfound]
      · rw [hsz]
        exact (found_contains l1 bk addr hfound).2.2.1
  | tick n =>
    simp only [step, Option.some.injEq] at hs
    rw [← hs]; exact Or.inl rfl

/-! ### The interval tree stays well formed -/

/-- Where `addToFM` puts a new block: after the blocks that end at or below
its base, and before a block that starts at or above its end. -/
theorem addToFM_interval_split (t t1 : WordFM Block Unit) (b : Block)
    (h : addToFM interval_tree_Cmp t b () = some (t1, false)) :
    ∃ l1 l2, t = l1 ++ l2 ∧ t1 = l1 ++ (b, ()) :: l2 ∧
      (∀ y ∈ l1, addU y.1.payload y.1.req_szB ≤ b.payload) ∧
      (∀ y ∈ l2.head?, addU b.payload b.req_szB ≤ y.1.payload) := by
  induction t generalizing t1 with
  | nil =>
    simp only [addToFM, Option.some.injEq, Prod.mk.injEq, and_true] at h
    subst h
    exact ⟨[], [], rfl, rfl, by simp, by simp⟩
  | cons hd tl ih =>
    obtain ⟨tk, u⟩ := hd
    simp only [addToFM] at h
    cases hc : interval_tree_Cmp tk b with
    | none => simp [hc] at h
    | some c =>
      simp only [hc] at h
      have hcases : (c = -1 ∧ addU tk.payload tk.req_szB ≤ b.payload) ∨
          (c = 1 ∧ addU b.payload b.req_szB ≤ tk.payload) ∨ c = 0 := by
        unfold interval_tree_Cmp at hc
        by_cases c0 : tk.req_szB = 0
        · simp [c0] at hc
        by_cases c1 : b.req_szB = 0
        · simp [c0, c1] at hc
        rw [if_neg c0, if_neg c1] at hc
        by_cases c2 : addU tk.payload tk.req_szB ≤ b.payload
        · rw [if_pos c2] at hc
          exact Or.inl ⟨(Option.some.inj hc).symm, c2⟩
        · rw [if_neg c2] at hc
          by_cases c3 : addU b.payload b.req_szB ≤ tk.payload
          · rw [if_pos c3] at hc
            exact Or.inr (Or.inl ⟨(Option.some.inj hc).symm, c3⟩)
          · rw [if_neg c3] at hc
            exact Or.inr (Or.inr (Option.some.inj hc).symm)
      rcases hcases with ⟨rfl, hle⟩ | ⟨rfl, hle⟩ | rfl
      · simp only [show ¬ ((-1 : Int) > 0) by decide, show ((-1 : Int) < 0) by decide, if_true,
          if_false] at h
        cases hr : addToFM interval_tree_Cmp tl b () with
        | none => simp [hr] at h
        | some rp =>
          obtain ⟨r, present⟩ := rp
          simp only [hr, Option.some.injEq, Prod.mk.injEq] at h
          obtain ⟨h1, h2⟩ := h
          subst h2
          obtain ⟨l1, l2, e1, e2, p1, p2⟩ := ih r hr
          refine ⟨(tk, u) :: l1, l2, by rw [e1]; rfl, by rw [← h1, e2]; rfl, ?_, p2⟩
          intro y hy
          rcases List.mem_cons.1 hy with rfl | hy
          · exact hle
          · exact p1 y hy
      · simp only [show ((1 : Int) > 0) by decide, if_true, Option.some.injEq,
          Prod.mk.injEq, and_true] at h
        refine ⟨[], (tk, u) :: tl, rfl, h.symm, by simp, ?_⟩
        intro y hy
        simp only [List.head?_cons, Option.mem_def, Option.some.injEq] at hy
        rw [← hy]
        exact hle
      · simp at h

theorem addrOrdered_replace (l1 l2 : WordFM Block Unit) (x x1 : Block × Unit)
    (h : AddrOrdered (l1 ++ x :: l2)) (hp : x1.1.payload = x.1.payload) :
    AddrOrdered (l1 ++ x1 :: l2) := by
  unfold AddrOrdered at *
  rw [List.pairwise_append] at h ⊢
  obtain ⟨h1, h2, h3⟩ := h
  rw [List.pairwise_cons] at h2 ⊢
  refine ⟨h1, ⟨fun y hy => ?_, h2.2⟩, fun y hy z hz => ?_⟩
  · rw [hp]; exact h2.1 y hy
  · rcases List.mem_cons.1 hz with rfl | hz
    · rw [hp]; exact h3 y hy x (List.mem_cons_self _ _)
    · exact h3 y hy z (List.mem_cons_of_mem _ hz)

theorem wellFormed_remove (l1 l2 : WordFM Block Unit) (x : Block × Unit)
    (h : WellFormed (l1 ++ x :: l2)) : WellFormed (l1 ++ l2) := by
  obtain ⟨h1, h2, h3, h4⟩ := h
  refine ⟨?_, fun y hy => h2 y (mem_of_mem_remove l1 l2 x y hy), noOverlap_remove l1 l2 x h3,
    fun y hy => h4 y (mem_of_mem_remove l1 l2 x y hy)⟩
  unfold AddrOrdered at *
  exact h1.sublist (by simp)

theorem wellFormed_replace (l1 l2 : WordFM Block Unit) (b b1 : Block)
    (h : WellFormed (l1 ++ (b, ()) :: l2)) (hp : b1.payload = b.payload)
    (hs : b1.req_szB ≤ b.req_szB) (hpos : 0 < b1.req_szB) :
    WellFormed (l1 ++ (b1, ()) :: l2) := by
  obtain ⟨h1, h2, h3, h4⟩ := h
  refine ⟨addrOrdered_replace l1 l2 _ (b1, ()) h1 hp, ?_,
    noOverlap_replace l1 l2 _ (b1, ()) h3 hp hs, ?_⟩
  · intro y hy
    rcases mem_insert_cases l1 l2 _ _ hy with rfl | hy
    · exact hpos
    · exact h2 y (mem_of_mem_remove l1 l2 _ y hy)
  · intro y hy
    rcases mem_insert_cases l1 l2 _ _ hy with rfl | hy
    · have := h4 (b, ()) (List.mem_append.2 (Or.inr (List.mem_cons_self _ _)))
      simp only at this ⊢
      omega
    · exact h4 y (mem_of_mem_remove l1 l2 _ y hy)

/-- Inserting a non-empty block that ends below the top of the address
space keeps the tree well formed. -/
theorem wellFormed_insert (t t1 : WordFM Block Unit) (b : Block) (h : WellFormed t)
    (hadd : addToFM interval_tree_Cmp t b () = some (t1, false))
    (hpos : 0 < b.req_szB) (htop : b.payload + b.req_szB < WORD) : WellFormed t1 := by
  obtain ⟨l1, l2, e1, e2, p1, p2⟩ := addToFM_interval_split t t1 b hadd
  subst e1 e2
  obtain ⟨h1, h2, h3, h4⟩ := h
  have hb : addU b.payload b.req_szB = b.payload + b.req_szB := addU_small _ _ htop
  have hbelow : ∀ y ∈ l1, y.1.payload + y.1.req_szB ≤ b.payload := by
    intro y hy
    have := p1 y hy
    rw [addU_small _ _ (h4 y (List.mem_append.2 (Or.inl hy)))] at this
    exact this
  have habove : ∀ y ∈ l2, b.payload + b.req_szB ≤ y.1.payload := by
    intro y hy
    cases l2 with
    | nil => simp at hy
    | cons z zs =>
      have hz := p2 z (by simp)
      rw [hb] at hz
      rcases List.mem_cons.1 hy with rfl | hy
      · exact hz
      · unfold AddrOrdered at h1
        rw [List.pairwise_append] at h1
        have := (List.pairwise_cons.1 h1.2.1).1 y hy
        omega
  refine ⟨?_, ?_, ?_, ?_⟩
  · unfold AddrOrdered at *
    rw [List.pairwise_append] at h1 ⊢
    obtain ⟨q1, q2, q3⟩ := h1
    refine ⟨q1, List.pairwise_cons.2 ⟨fun y hy => ?_, q2⟩, fun y hy z hz => ?_⟩
    · have := habove y hy
      simp only
      omega
    · rcases List.mem_cons.1 hz with rfl | hz
      · have := hbelow y hy
        have := h2 y (List.mem_append.2 (Or.inl hy))
        simp only
        omega
      · exact q3 y hy z hz
  · intro y hy
    rcases mem_insert_cases l1 l2 _ _ hy with rfl | hy
    · exact hpos
    · exact h2 y hy
  · apply noOverlap_insert l1 l2 _ h3
    intro y hy
    unfold overlaps
    rcases List.mem_append.1 hy with hy | hy
    · have := hbelow y hy
      simp only
      omega
    · have := habove y hy
      simp only
      omega
  · intro y hy
    rcases mem_insert_cases l1 l2 _ _ hy with rfl | hy
    · exact htop
    · exact h4 y hy

theorem step_wellFormed (s s1 : State) (e : Event) (hs : step s e = some s1)
    (htop : HostBelowTop e) (h : WellFormed s.interval_tree) :
    WellFormed s1.interval_tree := by
  rcases step_tree_cases s s1 e hs with c | ⟨b, t0, ht0, hadd, hpos, horigin⟩ |
      ⟨l1, l2, b0, e1, e2⟩ | ⟨l1, l2, b0, b1, e1, e2, hp, hsz, hpos⟩
  · rw [c]; exact h
  · have hwf0 : WellFormed t0 := by
      rcases ht0 with rfl | ⟨l1, l2, b0, e1, rfl⟩
      · exact h
      · rw [e1] at h
        exact wellFormed_remove l1 l2 _ h
    apply wellFormed_insert t0 _ b hwf0 hadd hpos
    rcases horigin with ⟨ec, host_p, szB, rfl, hp, hsz⟩ | ⟨host_p, p, szB, rfl, hp, hsz⟩
    · rw [hp, hsz]
      exact htop
    · rw [hp, hsz]
      exact htop
  · rw [e2]
    rw [e1] at h
    exact wellFormed_remove l1 l2 _ h
  · rw [e2]
    rw [e1] at h
    exact wellFormed_replace l1 l2 b0 b1 h hp hsz hpos

theorem run_wellFormed (evs : List Event) (s s1 : State) (hr : run s evs = some s1)
    (htop : ∀ e ∈ evs, HostBelowTop e) (h : WellFormed s.interval_tree) :
    WellFormed s1.interval_tree := by
  induction evs generalizing s with
  | nil =>
    simp only [run, Option.some.injEq] at hr
    rw [← hr]; exact h
  | cons e es ih =>
    simp only [run] at hr
    cases hs : step s e with
    | none => simp [hs] at hr
    | some s2 =>
      simp only [hs] at hr
      exact ih s2 hr (fun x hx => htop x (List.mem_cons_of_mem _ hx))
        (step_wellFormed s s2 e hs (htop e (List.mem_cons_self _ _)) h)

theorem wellFormed_init : WellFormed init_State.interval_tree := by
  decide

/-! ### C25: `die_block` removes the block from the tree -/

/-- In a well-formed tree a block is found at its base. -/
theorem find_Block_at_base (t : WordFM Block Unit) (bk : Block) (hwf : WellFormed t)
    (hbk : (bk, ()) ∈ t) : find_Block_containing t bk.payload = some (some bk) := by
  obtain ⟨h1, h2, h3, h4⟩ := hwf
  apply ((find_Block_sound_complete t bk.payload h1 h2 h3 h4).1 bk).2
  refine ⟨hbk, le_refl _, ?_⟩
  have := h2 (bk, ()) hbk
  simp only at this
  omega

/-- What `die_block` does at the base of a block that is found there. -/
theorem die_block_found (s : State) (bk : Block)
    (hf : find_Block_containing s.interval_tree bk.payload = some (some bk)) :
    ∃ l1 l2, s.interval_tree = l1 ++ (bk, ()) :: l2 ∧
      die_block s bk.payload false =
        (retire_Block s bk).map (fun s2 => { s2 with interval_tree := l1 ++ l2 }) := by
  obtain ⟨l1, l2, e1, hfound⟩ := find_Block_split _ _ _ hf
  obtain ⟨hc, _, hsz, _, hlt⟩ := found_contains l1 bk bk.payload hfound
  refine ⟨l1, l2, e1, ?_⟩
  unfold die_block
  simp only [Bool.false_eq_true, if_false, hf]
  rw [if_neg (by omega), if_neg (by omega), if_neg (by omega), if_neg (by simp)]
  cases hr : retire_Block s bk with
  | none => rfl
  | some s2 =>
    simp only [Option.map_some']
    unfold delete_Block_starting_at
    rw [(retire_Block_frame _ _ _ hr).1, e1,
      delFromFM_of_found interval_tree_Cmp l1 l2 _ _ hfound]
    simp only [if_true]

theorem mem_live_blocks (s : State) (b : Block) :
    b ∈ live_blocks s ↔ (b, ()) ∈ s.interval_tree := by
  unfold live_blocks
  constructor
  · intro h
    obtain ⟨x, hx, rfl⟩ := List.mem_map.1 h
    exact hx
  · intro h
    exact List.mem_map.2 ⟨(b, ()), h, rfl⟩

/-- C25 (amended): in every state reached from the initial one by events
whose storage ends below the top of the address space, for every live block
`bk` with base `p` and size `s`: the block is found at `p`; `die_block(p)`
returns whenever `retire_Block` does on the block; and after it
`find_Block_containing(a)` returns nothing for every `a` in `[p, p+s)`, the
blocks of the tree are the other blocks of the tree before, with their
fields, and there is one block less. -/
theorem die_block_removes_block (evs : List Event) (s : State)
    (hrun : run init_State evs = some s) (htop : ∀ e ∈ evs, HostBelowTop e)
    (bk : Block) (hbk : bk ∈ live_blocks s) :
    find_Block_containing s.interval_tree bk.payload = some (some bk) ∧
    ((∃ s2, retire_Block s bk = some s2) → ∃ s1, die_block s bk.payload false = some s1) ∧
    (∀ s1, die_block s bk.payload false = some s1 →
      (∀ a, bk.payload ≤ a → a < bk.payload + bk.req_szB →
        find_Block_containing s1.interval_tree a = some none) ∧
      (∀ b, b ∈ live_blocks s1 ↔ (b ∈ live_blocks s ∧ b ≠ bk)) ∧
      (live_blocks s1).length + 1 = (live_blocks s).length) := by
  have hwf : WellFormed s.interval_tree :=
    run_wellFormed evs init_State s hrun htop wellFormed_init
  have hmem : (bk, ()) ∈ s.interval_tree := (mem_live_blocks s bk).1 hbk
  have hf := find_Block_at_base s.interval_tree bk hwf hmem
  obtain ⟨l1, l2, e1, hdie⟩ := die_block_found s bk hf
  refine ⟨hf, ?_, ?_⟩
  · rintro ⟨s2, h2⟩
    rw [hdie, h2]
    exact ⟨_, rfl⟩
  · intro s1 h1
    rw [hdie] at h1
    cases hr : retire_Block s bk with
    | none => rw [hr] at h1; simp at h1
    | some s2 =>
      rw [hr] at h1
      simp only [Option.map_some', Option.some.injEq] at h1
      subst h1
      rw [e1] at hwf
      have hwf1 := wellFormed_remove l1 l2 _ hwf
      obtain ⟨o1, o2, o3, o4⟩ := hwf
      have hsz : 0 < bk.req_szB := o2 (bk, ()) (List.mem_append.2 (Or.inr (List.mem_cons_self _ _)))
      have hother : ∀ y ∈ l1 ++ l2, ¬ overlaps y.1 bk ∧ y.1.payload ≠ bk.payload := by
        intro y hy
        unfold NoOverlap at o3
        unfold AddrOrdered at o1
        rw [List.pairwise_append] at o3 o1
        rcases List.mem_append.1 hy with hy | hy
        · exact ⟨o3.2.2 y hy _ (List.mem_cons_self _ _),
            Nat.ne_of_lt (o1.2.2 y hy _ (List.mem_cons_self _ _))⟩
        · refine ⟨?_, Nat.ne_of_gt ((List.pairwise_cons.1 o1.2.1).1 y hy)⟩
          rw [overlaps_symm]
          exact (List.pairwise_cons.1 o3.2.1).1 y hy
      refine ⟨fun a ha1 ha2 => ?_, fun b => ?_, ?_⟩
      · obtain ⟨r, hr1⟩ := find_Block_total (l1 ++ l2) a hwf1.2.1
        cases r with
        | none => exact hr1
        | some b =>
          obtain ⟨hm, hc, _⟩ := find_Block_mem _ _ _ hr1
          have := (hother (b, ()) hm).1
          unfold overlaps at this
          unfold contains_addr at hc
          simp only at this
          omega
      · rw [mem_live_blocks, mem_live_blocks, e1]
        simp only
        constructor
        · intro hb
          refine ⟨mem_of_mem_remove l1 l2 _ _ hb, fun hbb => ?_⟩
          subst hbb
          exact (hother (b, ()) hb).2 rfl
        · rintro ⟨hb, hne⟩
          rcases mem_insert_cases l1 l2 _ _ hb with h | h
          · exact absurd (congrArg Prod.fst h) hne
          · exact h
      · unfold live_blocks
        rw [e1]
        simp only [List.length_map, List.length_append, List.length_cons]
        omega

theorem die_block_removes_block_witness :
    run init_State [Event.alloc 7 1000 8, Event.alloc 7 2000 16, Event.free 1000]
      = some one_death_State ∧
    live_blocks one_death_State = [mk_Block 2000 16 7 0] ∧
    ∃ s1, die_block one_death_State 2000 false = some s1 ∧
      find_Block_containing s1.interval_tree 2015 = some none ∧
      (live_blocks s1).length + 1 = (live_blocks one_death_State).length := by
  have h := die_block_removes_block
    [Event.alloc 7 1000 8, Event.alloc 7 2000 16, Event.free 1000] one_death_State
    (by decide) (by decide) (mk_Block 2000 16 7 0) (by decide)
  refine ⟨by decide, by decide, ?_⟩
  obtain ⟨s1, h1⟩ := h.2.1
    ⟨(retire_Block one_death_State (mk_Block 2000 16 7 0)).getD init_State, by decide⟩
  obtain ⟨k1, _, k3⟩ := h.2.2 s1 h1
  exact ⟨s1, h1, k1 2015 (by decide) (by decide), k3⟩

/-- C25 (counterexample): a block of 16 bytes is allocated at `2^64 - 16`,
so that it ends at the top of the address space.  `die_block` at its base
does not find it (the end address wraps to 0 in the comparison) and returns
with the state as it was: the block is still in the tree. -/
theorem die_block_keeps_top_block :
    run init_State [Event.alloc 7 18446744073709551600 16] = some top_block_State ∧
    (live_blocks top_block_State).map (fun b => (b.payload, b.req_szB))
      = [(18446744073709551600, 16)] ∧
    find_Block_containing top_block_State.interval_tree 18446744073709551600 = some none ∧
    die_block top_block_State 18446744073709551600 false = some top_block_State := by
  exact ⟨by decide, by decide, by decide, by decide⟩

/-! ### What `renew_block` does at the base of a block -/

/-- `apinfo_change_cur_bytes_live` neither reads nor writes the interval
tree. -/
theorem apinfo_change_with_tree (s : State) (t : WordFM Block Unit) (ec : Nat) (delta : Int) :
    apinfo_change_cur_bytes_live { s with interval_tree := t } ec delta =
      (apinfo_change_cur_bytes_live s ec delta).map
        (fun s2 => { s2 with interval_tree := t }) := by
  unfold apinfo_change_cur_bytes_live
  simp only
  cases lookupFM cmp_unsigned_Words s.apinfo ec with
  | none => rfl
  | some o =>
    cases o with
    | none => rfl
    | some kv =>
      obtain ⟨k, api⟩ := kv
      simp only
      split_ifs <;> rfl

/-- The word of the `Long` difference of two sizes is their difference
modulo `2^64`. -/
theorem ofLong_wrapLong_sub (n m : Nat) (hn : n < WORD) (hm : m < WORD) :
    ((ofLong (wrapLong (toLong n - toLong m)) : Nat) : Int) =
      ((n : Int) - (m : Int)) % 18446744073709551616 := by
  unfold wrapLong toLong ofLong
  simp only [WORD] at hn hm ⊢
  rw [Nat.mod_eq_of_lt hn, Nat.mod_eq_of_lt hm]
  split_ifs <;> omega

/-- A `renew_block` at the base of a block that is found there, to a size
that is not larger: the histogram goes, the size is set, and the site goes
through `apinfo_change_cur_bytes_live`. -/
theorem renew_block_found_shrink (s : State) (bk : Block) (host_p n : Nat)
    (hf : find_Block_containing s.interval_tree bk.payload = some (some bk))
    (hpos : 0 < n) (hle : n ≤ bk.req_szB) :
    ∃ l1 l2, s.interval_tree = l1 ++ (bk, ()) :: l2 ∧
      renew_block s host_p bk.payload n =
        (apinfo_change_cur_bytes_live s bk.ap (wrapLong (toLong n - toLong bk.req_szB))).map
          (fun s2 => (bk.payload, { s2 with interval_tree :=
            l1 ++ ({ bk with histoB := none, req_szB := n }, ()) :: l2 })) := by
  obtain ⟨l1, l2, e1, hfound⟩ := find_Block_split _ _ _ hf
  obtain ⟨hc, _, hsz, _, hlt⟩ := found_contains l1 bk bk.payload hfound
  have hfound1 : FoundAt interval_tree_Cmp l1 ({ bk with histoB := none }, ())
      (fake_Block bk.payload) := foundAt_congr l1 bk _ _ rfl rfl hfound
  refine ⟨l1, l2, e1, ?_⟩
  unfold renew_block
  rw [if_neg (by omega)]
  simp only [hf]
  rw [if_neg (by omega), if_neg (by omega), if_neg (by omega), if_neg (by simp), if_pos hle]
  rw [apinfo_change_with_tree]
  cases hch : apinfo_change_cur_bytes_live s bk.ap (wrapLong (toLong n - toLong bk.req_szB)) with
  | none => rfl
  | some s2 =>
    simp only [Option.map_some']
    rw [e1, modifyFM_of_found interval_tree_Cmp l1 l2 _ _ _ hfound,
      modifyFM_of_found interval_tree_Cmp l1 l2 _ _ _ hfound1]

/-- A `renew_block` at the base of a block that is found there, to a larger
size, with storage from the host: the block is removed, the site goes
through `apinfo_change_cur_bytes_live`, and the block is inserted again
without histogram, at the new base and with the new size. -/
theorem renew_block_found_grow (s : State) (bk : Block) (host_p n : Nat)
    (hf : find_Block_containing s.interval_tree bk.payload = some (some bk))
    (hlt : bk.req_szB < n) (hhost : host_p ≠ 0) (hne : host_p ≠ bk.payload) :
    ∃ l1 l2, s.interval_tree = l1 ++ (bk, ()) :: l2 ∧
      renew_block s host_p bk.payload n =
        match apinfo_change_cur_bytes_live s bk.ap
            (wrapLong (toLong n - toLong bk.req_szB)) with
        | none => none
        | some s2 =>
          match addToFM interval_tree_Cmp (l1 ++ l2)
              { bk with histoB := none, payload := host_p, req_szB := n } () with
          | none => none
          | some (t2, present) =>
            if present then none else some (host_p, { s2 with interval_tree := t2 }) := by
  obtain ⟨l1, l2, e1, hfound⟩ := find_Block_split _ _ _ hf
  obtain ⟨hc, _, hsz, _, hlt2⟩ := found_contains l1 bk bk.payload hfound
  have hfound1 : FoundAt interval_tree_Cmp l1 ({ bk with histoB := none }, ())
      (fake_Block bk.payload) := foundAt_congr l1 bk _ _ rfl rfl hfound
  refine ⟨l1, l2, e1, ?_⟩
  unfold renew_block
  rw [if_neg (by omega)]
  simp only [hf]
  rw [if_neg (by omega), if_neg (by omega), if_neg (by omega), if_neg (by simp),
    if_neg (by omega), if_neg hhost, if_neg (by simpa using hne)]
  unfold delete_Block_starting_at
  rw [e1, modifyFM_of_found interval_tree_Cmp l1 l2 _ _ _ hfound,
    delFromFM_of_found interval_tree_Cmp l1 l2 _ _ hfound1]
  simp only [if_true]
  rw [apinfo_change_with_tree]
  cases hch : apinfo_change_cur_bytes_live s bk.ap (wrapLong (toLong n - toLong bk.req_szB)) with
  | none => rfl
  | some s2 => rfl

/-! ### C24: the effect of a resize on the tree and on the site -/

theorem wellFormed_others (l1 l2 : WordFM Block Unit) (bk : Block)
    (hwf : WellFormed (l1 ++ (bk, ()) :: l2)) :
    ∀ y ∈ l1 ++ l2, ¬ overlaps y.1 bk ∧ y.1.payload ≠ bk.payload := by
  obtain ⟨o1, _, o3, _⟩ := hwf
  intro y hy
  unfold NoOverlap at o3
  unfold AddrOrdered at o1
  rw [List.pairwise_append] at o3 o1
  rcases List.mem_append.1 hy with hy | hy
  · exact ⟨o3.2.2 y hy _ (List.mem_cons_self _ _),
      Nat.ne_of_lt (o1.2.2 y hy _ (List.mem_cons_self _ _))⟩
  · refine ⟨?_, Nat.ne_of_gt ((List.pairwise_cons.1 o1.2.1).1 y hy)⟩
    rw [overlaps_symm]
    exact (List.pairwise_cons.1 o3.2.1).1 y hy

/-- The new `cur_bytes_live` after a change by the `Long` difference of two
sizes is the old one plus the difference, modulo `2^64`. -/
theorem change_cur_bytes_int (a n m : Nat) (hn : n < WORD) (hm : m < WORD) :
    ((addU a (ofLong (wrapLong (toLong n - toLong m))) : Nat) : Int) =
      ((a : Int) + ((n : Int) - (m : Int))) % 18446744073709551616 := by
  unfold addU wrapLong toLong ofLong
  simp only [WORD] at hn hm ⊢
  rw [Nat.mod_eq_of_lt hn, Nat.mod_eq_of_lt hm]
  split_ifs <;> omega

/-- C24 (amended): in a state reached from the initial one by events whose
storage ends below the top of the address space, for a live block `bk` with
base `p` and size `s` and a new size `n > 0` (if `n > s`, the host supplies
storage `host_p` for `n` bytes, disjoint from the live blocks and ending
below the top of the address space).  `renew_block(p, n)` returns whenever
`apinfo_change_cur_bytes_live` does for the site of the block.  When it
returns: if `n <= s` it returns `p` and the block found at `p` is `bk` with
size `n` and no histogram; if `n > s` it returns `host_p`, nothing is found
at `p`, and the block found at `host_p` is `bk` with base `host_p`, size `n`
and no histogram (site, birth and read/write counts are those of `bk`).  In
both cases the `cur_bytes_live` of the site is the old one plus `n - s`
(modulo `2^64`). -/
theorem renew_block_moves_block (evs : List Event) (s : State)
    (hrun : run init_State evs = some s) (htop : ∀ e ∈ evs, HostBelowTop e)
    (bk : Block) (hbk : bk ∈ live_blocks s) (host_p n : Nat) (hpos : 0 < n)
    (hhost : bk.req_szB < n →
      host_p ≠ 0 ∧ host_p + n < WORD ∧ host_disjoint s.interval_tree host_p n) :
    ((∃ s2, apinfo_change_cur_bytes_live s bk.ap
        (wrapLong (toLong n - toLong bk.req_szB)) = some s2) →
      ∃ r s1, renew_block s host_p bk.payload n = some (r, s1)) ∧
    (∀ r s1, renew_block s host_p bk.payload n = some (r, s1) →
      (n ≤ bk.req_szB → r = bk.payload ∧
        find_Block_containing s1.interval_tree bk.payload =
          some (some { bk with histoB := none, req_szB := n })) ∧
      (bk.req_szB < n → r = host_p ∧
        find_Block_containing s1.interval_tree bk.payload = some none ∧
        find_Block_containing s1.interval_tree host_p =
          some (some { bk with histoB := none, payload := host_p, req_szB := n })) ∧
      ∃ api api1, site s bk.ap = some api ∧ site s1 bk.ap = some api1 ∧
        (api1.cur_bytes_live : Int) =
          ((api.cur_bytes_live : Int) + ((n : Int) - (bk.req_szB : Int)))
            % 18446744073709551616) := by
  have hwf : WellFormed s.interval_tree :=
    run_wellFormed evs init_State s hrun htop wellFormed_init
  have hmem : (bk, ()) ∈ s.interval_tree := (mem_live_blocks s bk).1 hbk
  have hf := find_Block_at_base s.interval_tree bk hwf hmem
  have hbsz : 0 < bk.req_szB := hwf.2.1 (bk, ()) hmem
  have hbtop : bk.payload + bk.req_szB < WORD := hwf.2.2.2 (bk, ()) hmem
  have hsite : ∀ s2, apinfo_change_cur_bytes_live s bk.ap
      (wrapLong (toLong n - toLong bk.req_szB)) = some s2 → n < WORD →
      ∃ api api1, site s bk.ap = some api ∧ site s2 bk.ap = some api1 ∧
        (api1.cur_bytes_live : Int) =
          ((api.cur_bytes_live : Int) + ((n : Int) - (bk.req_szB : Int)))
            % 18446744073709551616 := by
    intro s2 hch hn
    obtain ⟨api, a1, _, _, a4⟩ := apinfo_change_site _ _ _ _ hch
    refine ⟨api, _, a1, by rw [a4 bk.ap, if_pos rfl], ?_⟩
    exact change_cur_bytes_int _ _ _ hn (by omega)
  by_cases hle : n ≤ bk.req_szB
  · obtain ⟨l1, l2, e1, hren⟩ := renew_block_found_shrink s bk host_p n hf hpos hle
    constructor
    · rintro ⟨s2, h2⟩
      rw [hren, h2]
      exact ⟨_, _, rfl⟩
    · intro r s1 h
      rw [hren] at h
      cases hch : apinfo_change_cur_bytes_live s bk.ap
          (wrapLong (toLong n - toLong bk.req_szB)) with
      | none => rw [hch] at h; simp at h
      | some s2 =>
        rw [hch] at h
        simp only [Option.map_some', Option.some.injEq, Prod.mk.injEq] at h
        obtain ⟨hr, hs1⟩ := h
        subst hs1
        refine ⟨fun _ => ⟨hr.symm, ?_⟩, fun hlt => absurd hle (by omega), ?_⟩
        · rw [e1] at hwf
          have hwf1 := wellFormed_replace l1 l2 bk { bk with histoB := none, req_szB := n }
            hwf rfl hle hpos
          exact find_Block_at_base _ _ hwf1
            (List.mem_append.2 (Or.inr (List.mem_cons_self _ _)))
        · exact hsite s2 hch (by omega)
  · have hlt : bk.req_szB < n := by omega
    obtain ⟨hh0, hhtop, hhd⟩ := hhost hlt
    have hne : host_p ≠ bk.payload := by
      intro he
      have := hhd (bk, ()) hmem
      simp only at this
      omega
    obtain ⟨l1, l2, e1, hren⟩ := renew_block_found_grow s bk host_p n hf hlt hh0 hne
    rw [e1] at hwf
    have hwf0 := wellFormed_remove l1 l2 _ hwf
    have hd0 : host_disjoint (l1 ++ l2) host_p n := by
      intro y hy
      apply hhd y
      rw [e1]
      exact mem_of_mem_remove l1 l2 _ _ hy
    obtain ⟨t2, hadd⟩ := addToFM_disjoint (l1 ++ l2)
      { bk with histoB := none, payload := host_p, req_szB := n } hwf0.2.1 hpos hd0
    constructor
    · rintro ⟨s2, h2⟩
      rw [hren, h2]
      simp only [hadd, Bool.false_eq_true, if_false]
      exact ⟨_, _, rfl⟩
    · intro r s1 h
      rw [hren] at h
      cases hch : apinfo_change_cur_bytes_live s bk.ap
          (wrapLong (toLong n - toLong bk.req_szB)) with
      | none => rw [hch] at h; simp at h
      | some s2 =>
        rw [hch] at h
        simp only [hadd, Bool.false_eq_true, if_false, Option.some.injEq, Prod.mk.injEq] at h
        obtain ⟨hr, hs1⟩ := h
        subst hs1
        have hwf2 := wellFormed_insert (l1 ++ l2) t2 _ hwf0 hadd hpos hhtop
        obtain ⟨m1, m2, e3, e4, _⟩ := addToFM_fresh_split interval_tree_Cmp _ _ _ _ hadd
        have hmem2 : (({ bk with histoB := none, payload := host_p, req_szB := n } : Block), ())
            ∈ t2 := by
          rw [e4]
          exact List.mem_append.2 (Or.inr (List.mem_cons_self _ _))
        refine ⟨fun hle2 => absurd hle2 hle, fun _ => ⟨hr.symm, ?_, ?_⟩, ?_⟩
        · obtain ⟨o, ho⟩ := find_Block_total t2 bk.payload hwf2.2.1
          cases o with
          | none => exact ho
          | some b =>
            obtain ⟨hm, hc, _⟩ := find_Block_mem _ _ _ ho
            rw [e4] at hm
            unfold contains_addr at hc
            rcases mem_insert_cases m1 m2 _ _ hm with hb | hb
            · have hb1 : b = { bk with histoB := none, payload := host_p, req_szB := n } :=
                congrArg Prod.fst hb
              rw [hb1] at hc
              have := hhd (bk, ()) hmem
              simp only at this hc
              omega
            · rw [← e3] at hb
              have := (wellFormed_others l1 l2 bk hwf (b, ()) hb).1
              unfold overlaps at this
              simp only at this
              omega
        · exact find_Block_at_base t2 _ hwf2 hmem2
        · exact hsite s2 hch (by omega)

theorem renew_block_moves_block_witness :
    run init_State [Event.alloc 7 1000 16, Event.write 1004 4] = some touched_block_State ∧
    live_blocks touched_block_State = [touched_Block] ∧
    (site touched_block_State 7).map (fun a => a.cur_bytes_live) = some 16 ∧
    ∃ s1, renew_block touched_block_State 2000 1000 64 = some (2000, s1) ∧
      find_Block_containing s1.interval_tree 1000 = some none ∧
      find_Block_containing s1.interval_tree 2000 =
        some (some { touched_Block with histoB := none, payload := 2000, req_szB := 64 }) ∧
      ∃ api1, site s1 7 = some api1 ∧ api1.cur_bytes_live = 64 := by
  have h := renew_block_moves_block [Event.alloc 7 1000 16, Event.write 1004 4]
    touched_block_State (by decide) (by decide) touched_Block (by decide) 2000 64 (by decide)
    (fun _ => ⟨by decide, by decide, by decide⟩)
  have hsite : site touched_block_State touched_Block.ap =
      some ((site touched_block_State touched_Block.ap).getD (new_APInfo 0)) := by decide
  refine ⟨by decide, by decide, by decide, ?_⟩
  obtain ⟨r, s1, h1⟩ := h.1
    ⟨(apinfo_change_cur_bytes_live touched_block_State touched_Block.ap
        (wrapLong (toLong 64 - toLong touched_Block.req_szB))).getD init_State, by decide⟩
  obtain ⟨_, k2, api, api1, e0, e1, k3⟩ := h.2 r s1 h1
  obtain ⟨hr, f1, f2⟩ := k2 (by decide)
  subst hr
  rw [hsite] at e0
  have e0 := (Option.some.inj e0).symm
  subst e0
  have c : api1.cur_bytes_live = 64 := by
    have := k3.trans (by decide : _ = (64 : Int))
    exact_mod_cast this
  exact ⟨s1, h1, f1, f2, api1, e1, c⟩

/-- C24 (counterexample): the 16-byte block at 1000 is resized to 64 bytes
and the host supplies the last 64 bytes of the address space (`2^64 - 64`).
`renew_block` returns that address and the tree holds the block there with
size 64, but `find_Block_containing` at the returned address finds nothing:
the end address of the block wraps to 0 in the comparison. -/
theorem renew_block_to_top_is_not_found :
    live_blocks touched_block_State = [touched_Block] ∧
    (renew_block touched_block_State 18446744073709551552 1000 64).map
        (fun r => (r.1, (live_blocks r.2).map (fun b => (b.payload, b.req_szB)),
          find_Block_containing r.2.interval_tree 18446744073709551552))
      = some (18446744073709551552, [(18446744073709551552, 64)], some none) := by
  exact ⟨by decide, by decide⟩

/-! ### C28, C29, C30: three scenarios from the initial state -/

/-- C28: from the initial state, with no clock advance: a block of 16
bytes is allocated by site `A` (not `NULL`) at `addr` (not `NULL`, the block
ends below the top of the address space), 16 bytes are written at `addr`,
and the block is freed.  No assertion fails and site `A` ends with
`cur_blocks_live = 0`, `cur_bytes_live = 0`, `tot_blocks = 1`,
`tot_bytes = 16`, `deaths = 1`, `death_ages_sum = 0`, `n_writes = 16` and the
tag `Exactly(16)`. -/
theorem scenario_alloc_write_free (A addr : Nat) (hA : A ≠ 0) (haddr : addr ≠ 0)
    (htop : addr + 16 < WORD) :
    ∃ s a, run init_State [Event.alloc A addr 16, Event.write addr 16, Event.free addr]
        = some s ∧
      site s A = some a ∧ a.cur_blocks_live = 0 ∧ a.cur_bytes_live = 0 ∧
      a.tot_blocks = 1 ∧ a.tot_bytes = 16 ∧ a.deaths = 1 ∧ a.death_ages_sum = 0 ∧
      a.n_writes = 16 ∧ a.xsize_tag = XSizeTag.Exactly ∧ a.xsize = 16 := by
  have e16 : (addr + 16) % 18446744073709551616 = addr + 16 := Nat.mod_eq_of_lt htop
  have e1 : (addr + 1) % 18446744073709551616 = addr + 1 :=
    Nat.mod_eq_of_lt (by simp only [WORD] at htop; omega)
  have ea : addr % 18446744073709551616 = addr :=
    Nat.mod_eq_of_lt (by simp only [WORD] at htop; omega)
  simp [run, step, new_block, toLong, WORD, mk_Block, HISTOGRAM_SIZE_LIMIT, addToFM, init_State,
    intro_Block, intro_lookup, lookupFM, cmp_unsigned_Words, modifyFM, intro_globals,
    intro_APInfo, new_APInfo, addU, hA, haddr, dh_handle_write, find_Block_containing,
    fake_Block, interval_tree_Cmp, inc_histo_for_block, subU, inc_histo_loop, die_block,
    retire_Block, retire_APInfo_stats, retire_xsize, retire_fold, fold_histo,
    delete_Block_starting_at, delFromFM, site, lookup_site, e16, e1, ea, List.replicate]

theorem scenario_alloc_write_free_witness :
    ∃ s a, run init_State [Event.alloc 7 1000 16, Event.write 1000 16, Event.free 1000]
        = some s ∧
      site s 7 = some a ∧ a.cur_blocks_live = 0 ∧ a.cur_bytes_live = 0 ∧
      a.tot_blocks = 1 ∧ a.tot_bytes = 16 ∧ a.deaths = 1 ∧ a.death_ages_sum = 0 ∧
      a.n_writes = 16 ∧ a.xsize_tag = XSizeTag.Exactly ∧ a.xsize = 16 :=
  scenario_alloc_write_free 7 1000 (by decide) (by decide) (by decide)

/-- C29: from the initial state, two blocks of 8 and 16 bytes are allocated
by the same site `B` (at `p1` and `p2`, disjoint, below the top of the
address space) and freed, the 8-byte block first.  No assertion fails; the
tag of site `B` is `Unknown` before the first free, `Exactly(8)` after it
and `Mixed` after the second, and the site then has no folded histogram. -/
theorem scenario_two_sizes (B p1 p2 : Nat) (hB : B ≠ 0) (h1 : p1 ≠ 0) (h2 : p2 ≠ 0)
    (htop1 : p1 + 8 < WORD) (htop2 : p2 + 16 < WORD)
    (hd : p1 + 8 ≤ p2 ∨ p2 + 16 ≤ p1) :
    ∃ s0 s1 s2 a0 a1 a2,
      run init_State [Event.alloc B p1 8, Event.alloc B p2 16] = some s0 ∧
      step s0 (Event.free p1) = some s1 ∧ step s1 (Event.free p2) = some s2 ∧
      site s0 B = some a0 ∧ a0.xsize_tag = XSizeTag.Unknown ∧
      site s1 B = some a1 ∧ a1.xsize_tag = XSizeTag.Exactly ∧ a1.xsize = 8 ∧
      site s2 B = some a2 ∧ a2.xsize_tag = XSizeTag.Mixed ∧ a2.histo = none := by
  have e8 : (p1 + 8) % 18446744073709551616 = p1 + 8 := Nat.mod_eq_of_lt htop1
  have e16 : (p2 + 16) % 18446744073709551616 = p2 + 16 := Nat.mod_eq_of_lt htop2
  have e1 : (p1 + 1) % 18446744073709551616 = p1 + 1 :=
    Nat.mod_eq_of_lt (by simp only [WORD] at htop1; omega)
  have e2 : (p2 + 1) % 18446744073709551616 = p2 + 1 :=
    Nat.mod_eq_of_lt (by simp only [WORD] at htop2; omega)
  rcases hd with hd | hd
  · have f1 : ¬ (p2 + 16 ≤ p1) := by omega
    have f2 : ¬ (p2 + 1 ≤ p1) := by omega
    have f3 : ¬ (p2 ≤ p1) := by omega
    simp [run, step, new_block, toLong, WORD, mk_Block, HISTOGRAM_SIZE_LIMIT, addToFM,
      init_State, intro_Block, intro_lookup, lookupFM, cmp_unsigned_Words, modifyFM,
      intro_globals, intro_APInfo, new_APInfo, addU, hB, h1, h2, find_Block_containing,
      fake_Block, interval_tree_Cmp, subU, die_block,
      retire_Block, retire_APInfo_stats, retire_xsize, retire_fold, fold_histo,
      delete_Block_starting_at, delFromFM, site, lookup_site, e8, e16, e1, e2, hd, f1, f2, f3]
  · have f1 : ¬ (p1 + 8 ≤ p2) := by omega
    have f2 : ¬ (p1 + 1 ≤ p2) := by omega
    have f3 : ¬ (p1 ≤ p2) := by omega
    simp [run, step, new_block, toLong, WORD, mk_Block, HISTOGRAM_SIZE_LIMIT, addToFM,
      init_State, intro_Block, intro_lookup, lookupFM, cmp_unsigned_Words, modifyFM,
      intro_globals, intro_APInfo, new_APInfo, addU, hB, h1, h2, find_Block_containing,
      fake_Block, interval_tree_Cmp, subU, die_block,
      retire_Block, retire_APInfo_stats, retire_xsize, retire_fold, fold_histo,
      delete_Block_starting_at, delFromFM, site, lookup_site, e8, e16, e1, e2, hd, f1, f2, f3]

theorem scenario_two_sizes_witness :
    ∃ s0 s1 s2 a0 a1 a2,
      run init_State [Event.alloc 7 1000 8, Event.alloc 7 2000 16] = some s0 ∧
      step s0 (Event.free 1000) = some s1 ∧ step s1 (Event.free 2000) = some s2 ∧
      site s0 7 = some a0 ∧ a0.xsize_tag = XSizeTag.Unknown ∧
      site s1 7 = some a1 ∧ a1.xsize_tag = XSizeTag.Exactly ∧ a1.xsize = 8 ∧
      site s2 7 = some a2 ∧ a2.xsize_tag = XSizeTag.Mixed ∧ a2.histo = none :=
  scenario_two_sizes 7 1000 2000 (by decide) (by decide) (by decide) (by decide) (by decide)
    (by decide)

/-- C30: from the initial state, a block of 100 bytes is allocated by a site
`A` (not `NULL`) at `p` (not `NULL`, ending below the top of the address
space), resized to 50 bytes and then to 200 bytes, for which the host
supplies storage `q` (not `NULL`, not `p`).  No assertion fails and the site
ends with `cur_bytes_live = 200` and `tot_bytes = 250`. -/
theorem scenario_shrink_then_grow (A p q h : Nat) (hA : A ≠ 0) (hp : p ≠ 0)
    (htop : p + 100 < WORD) (hq : q ≠ 0) (hqp : q ≠ p) :
    ∃ s a, run init_State [Event.alloc A p 100, Event.resize h p 50, Event.resize q p 200]
        = some s ∧
      site s A = some a ∧ a.cur_bytes_live = 200 ∧ a.tot_bytes = 250 ∧
      a.cur_blocks_live = 1 ∧ a.tot_blocks = 1 := by
  have e100 : (p + 100) % 18446744073709551616 = p + 100 := Nat.mod_eq_of_lt htop
  have e50 : (p + 50) % 18446744073709551616 = p + 50 :=
    Nat.mod_eq_of_lt (by simp only [WORD] at htop; omega)
  have e1 : (p + 1) % 18446744073709551616 = p + 1 :=
    Nat.mod_eq_of_lt (by simp only [WORD] at htop; omega)
  have t1 : wrapLong (toLong 50 - toLong 100) = -50 := by decide
  have t2 : wrapLong (toLong 200 - toLong 50) = 150 := by decide
  have t3 : ofLong (-50) = 18446744073709551566 := by decide
  have t4 : ofLong 50 = 50 := by decide
  have t5 : ofLong 150 = 150 := by decide
  have t6 : ¬ toLong 100 < 0 := by decide
  simp [run, step, new_block, t1, t2, t3, t4, t5, t6, mk_Block, HISTOGRAM_SIZE_LIMIT,
    addToFM, init_State, intro_Block, intro_lookup, lookupFM, cmp_unsigned_Words, modifyFM,
    intro_globals, intro_APInfo, new_APInfo, addU, hA, hp, hq, hqp, find_Block_containing,
    fake_Block, interval_tree_Cmp, renew_block, apinfo_change_cur_bytes_live, change_APInfo,
    delete_Block_starting_at, delFromFM, site, lookup_site, e100, e50, e1, WORD]

theorem scenario_shrink_then_grow_witness :
    ∃ s a, run init_State [Event.alloc 7 1000 100, Event.resize 0 1000 50,
        Event.resize 2000 1000 200] = some s ∧
      site s 7 = some a ∧ a.cur_bytes_live = 200 ∧ a.tot_bytes = 250 ∧
      a.cur_blocks_live = 1 ∧ a.tot_blocks = 1 :=
  scenario_shrink_then_grow 7 1000 2000 0 (by decide) (by decide) (by decide) (by decide)
    (by decide)

/-! ### C34: reads and writes by syscalls -/

/-- C34: for every state, address and size, the hooks
`dh_handle_noninsn_read` and `dh_handle_noninsn_write` called for a syscall
(`Vg_CoreSysCall`) end in the state of `dh_handle_read(base, size)` and of
`dh_handle_write(base, size)`: the whole access is one touch of the block
that contains `base`.  (For the other parts they accept, the hooks leave the
state as it is.) -/
theorem noninsn_hooks_are_the_handlers (s : State) (base size : Nat) :
    dh_handle_noninsn_read CorePart.Vg_CoreSysCall s base size = dh_handle_read s base size ∧
    dh_handle_noninsn_write CorePart.Vg_CoreSysCall s base size
      = dh_handle_write s base size ∧
    dh_handle_noninsn_read CorePart.Vg_CoreSysCallArgInMem s base size = some s ∧
    dh_handle_noninsn_read CorePart.Vg_CoreTranslate s base size = some s ∧
    dh_handle_noninsn_write CorePart.Vg_CoreSignal s base size = some s :=
  ⟨rfl, rfl, rfl, rfl, rfl⟩

/-! ### C39: the size recorded by `dh_calloc` -/

/-- C39: `dh_calloc(m, szB)` is `new_block` with the product `m*szB`
reduced modulo `2^64`; when it returns storage, the tree has one block more,
whose size is that reduced product, or 1 if it is 0.  There is no overflow
check: `dh_calloc(2^32, 2^32 + 1)`, whose true product is `2^64 + 2^32`,
succeeds and records a block of `2^32` bytes, and `dh_calloc(2^32, 2^32)`
records a block of 1 byte. -/
theorem dh_calloc_size_wraps :
    (∀ (s : State) (ec host_p m szB : Nat),
      dh_calloc s ec host_p m szB = new_block s ec host_p 0 ((m * szB) % WORD)) ∧
    (∀ (s s1 : State) (ec host_p m szB r : Nat),
      dh_calloc s ec host_p m szB = some (r, s1) → r ≠ 0 →
      ∃ bk l1 l2, s.interval_tree = l1 ++ l2 ∧ s1.interval_tree = l1 ++ (bk, ()) :: l2 ∧
        bk.payload = r ∧
        bk.req_szB = (if (m * szB) % WORD = 0 then 1 else (m * szB) % WORD)) ∧
    (WORD < 4294967296 * 4294967297 ∧
      (dh_calloc init_State 7 1000 4294967296 4294967297).map
          (fun r => (r.1, (live_blocks r.2).map (fun b => (b.payload, b.req_szB))))
        = some (1000, [(1000, 4294967296)])) ∧
    (dh_calloc init_State 7 1000 4294967296 4294967296).map
        (fun r => (r.1, (live_blocks r.2).map (fun b => (b.payload, b.req_szB))))
      = some (1000, [(1000, 1)]) := by
  refine ⟨fun s ec host_p m szB => rfl, ?_, ⟨by decide, by decide⟩, by decide⟩
  intro s s1 ec host_p m szB r h hr
  rcases (new_block_inv s s1 ec host_p 0 _ r h).2 with ⟨h0, _⟩ | ⟨h1, _, _, tree, hadd, hintro⟩
  · exact absurd h0 hr
  · obtain ⟨l1, l2, e1, e2, _⟩ := addToFM_fresh_split interval_tree_Cmp _ _ _ _ hadd
    exact ⟨_, l1, l2, e1, ((intro_Block_frame _ _ _ hintro).1).trans e2, h1.symm, rfl⟩

theorem dh_calloc_size_wraps_witness :
    dh_calloc one_death_State 7 3000 3 5 = new_block one_death_State 7 3000 0 ((3 * 5) % WORD) ∧
    ∃ bk l1 l2, one_death_State.interval_tree = l1 ++ l2 ∧
      ((dh_calloc one_death_State 7 3000 3 5).getD (0, init_State)).2.interval_tree
        = l1 ++ (bk, ()) :: l2 ∧
      bk.payload = 3000 ∧ bk.req_szB = (if (3 * 5) % WORD = 0 then 1 else (3 * 5) % WORD) :=
  ⟨dh_calloc_size_wraps.1 one_death_State 7 3000 3 5,
    dh_calloc_size_wraps.2.1 one_death_State _ 7 3000 3 5 3000 (by decide) (by decide)⟩

/-! ### C40: the comparison function of the interval tree -/

/-- C40: for blocks `b1`, `b2` of non-zero size that end below the top of
the address space, `interval_tree_Cmp(b1, b2)` is 0 exactly when the ranges
`[payload, payload + req_szB)` intersect, -1 exactly when `b1` ends at or
below the base of `b2`, and 1 exactly when `b2` ends at or below the base of
`b1`; `Cmp(b2, b1) = -Cmp(b1, b2)`; "below" is transitive, and two blocks
that do not overlap compare as -1 or 1, so on pairwise non-overlapping blocks
it is a strict total order; and the probe of size 1 at an address `a`
compares equal to `b1` exactly when `b1` contains `a`. -/
theorem interval_tree_Cmp_order (b1 b2 : Block) (h1 : 0 < b1.req_szB) (h2 : 0 < b2.req_szB)
    (w1 : b1.payload + b1.req_szB < WORD) (w2 : b2.payload + b2.req_szB < WORD) :
    (interval_tree_Cmp b1 b2 = some 0 ↔ overlaps b1 b2) ∧
    (interval_tree_Cmp b1 b2 = some (-1) ↔ b1.payload + b1.req_szB ≤ b2.payload) ∧
    (interval_tree_Cmp b1 b2 = some 1 ↔ b2.payload + b2.req_szB ≤ b1.payload) ∧
    (∃ c, interval_tree_Cmp b1 b2 = some c ∧ interval_tree_Cmp b2 b1 = some (-c)) ∧
    (∀ b3 : Block, 0 < b3.req_szB → b3.payload + b3.req_szB < WORD →
      interval_tree_Cmp b1 b2 = some (-1) → interval_tree_Cmp b2 b3 = some (-1) →
      interval_tree_Cmp b1 b3 = some (-1)) ∧
    (¬ overlaps b1 b2 →
      interval_tree_Cmp b1 b2 = some (-1) ∨ interval_tree_Cmp b1 b2 = some 1) ∧
    (∀ a, a < WORD → (interval_tree_Cmp b1 (fake_Block a) = some 0 ↔ contains_addr b1 a)) := by
  have key : ∀ (x y : Block), 0 < x.req_szB → 0 < y.req_szB →
      x.payload + x.req_szB < WORD → y.payload + y.req_szB < WORD →
      interval_tree_Cmp x y =
        some (if x.payload + x.req_szB ≤ y.payload then -1
          else if y.payload + y.req_szB ≤ x.payload then 1 else 0) := by
    intro x y hx hy wx wy
    unfold interval_tree_Cmp
    rw [if_neg (by omega), if_neg (by omega), addU_small _ _ wx, addU_small _ _ wy]
    split_ifs <;> rfl
  refine ⟨?_, ?_, ?_, ?_, ?_, ?_, ?_⟩
  · rw [key b1 b2 h1 h2 w1 w2]
    unfold overlaps
    split_ifs <;> simp <;> omega
  · rw [key b1 b2 h1 h2 w1 w2]
    split_ifs <;> simp <;> omega
  · rw [key b1 b2 h1 h2 w1 w2]
    split_ifs <;> simp <;> omega
  · rw [key b1 b2 h1 h2 w1 w2, key b2 b1 h2 h1 w2 w1]
    refine ⟨_, rfl, ?_⟩
    split_ifs <;> first | rfl | omega
  · intro b3 h3 w3
    rw [key b1 b2 h1 h2 w1 w2, key b2 b3 h2 h3 w2 w3, key b1 b3 h1 h3 w1 w3]
    intro c1 c2
    have d1 : b1.payload + b1.req_szB ≤ b2.payload := by
      by_contra hc
      rw [if_neg hc] at c1
      split_ifs at c1 <;> simp at c1
    have d2 : b2.payload + b2.req_szB ≤ b3.payload := by
      by_contra hc
      rw [if_neg hc] at c2
      split_ifs at c2 <;> simp at c2
    rw [if_pos (by omega)]
  · intro hno
    rw [key b1 b2 h1 h2 w1 w2]
    unfold overlaps at hno
    by_cases c : b1.payload + b1.req_szB ≤ b2.payload
    · rw [if_pos c]; exact Or.inl rfl
    · rw [if_neg c, if_pos (by omega)]; exact Or.inr rfl
  · intro a ha
    unfold interval_tree_Cmp contains_addr
    simp only [fake_Block]
    rw [if_neg (by omega), if_neg (by omega), addU_small _ _ w1]
    by_cases ht : a + 1 < WORD
    · simp only [addU_small _ _ ht]
      split_ifs <;> simp <;> omega
    · have e : addU a 1 = 0 := by
        unfold addU
        simp only [WORD] at ha ht ⊢
        omega
      simp only [e]
      simp only [WORD] at ha ht w1
      split_ifs <;> simp <;> omega

theorem interval_tree_Cmp_order_witness :
    interval_tree_Cmp (mk_Block 1000 16 7 0) (mk_Block 2000 8 7 0) = some (-1) ∧
    interval_tree_Cmp (mk_Block 2000 8 7 0) (mk_Block 1000 16 7 0) = some 1 ∧
    interval_tree_Cmp (mk_Block 1000 16 7 0) (fake_Block 1015) = some 0 ∧
    ((interval_tree_Cmp (mk_Block 1000 16 7 0) (mk_Block 2000 8 7 0) = some 0 ↔
        overlaps (mk_Block 1000 16 7 0) (mk_Block 2000 8 7 0)) ∧
      (interval_tree_Cmp (mk_Block 1000 16 7 0) (mk_Block 2000 8 7 0) = some (-1) ↔
        (mk_Block 1000 16 7 0).payload + (mk_Block 1000 16 7 0).req_szB
          ≤ (mk_Block 2000 8 7 0).payload)) := by
  have h := interval_tree_Cmp_order (mk_Block 1000 16 7 0) (mk_Block 2000 8 7 0)
    (by decide) (by decide) (by decide) (by decide)
  exact ⟨by decide, by decide, by decide, h.1, h.2.1⟩

/-! ### C31: `max_blocks_live` is a snapshot -/

/-- One event either leaves the pair `(max_bytes_live, max_blocks_live)` of
a site record as it is, or raises `max_bytes_live` and sets the pair to the
current `(cur_bytes_live, cur_blocks_live)`. -/
theorem step_site_snapshot (s s1 : State) (e : Event) (hs : step s e = some s1) (ap : Nat)
    (a a1 : APInfo) (h0 : site s ap = some a) (h1 : site s1 ap = some a1) :
    (a1.max_bytes_live = a.max_bytes_live ∧ a1.max_blocks_live = a.max_blocks_live) ∨
    (a.max_bytes_live < a1.max_bytes_live ∧ a1.max_bytes_live = a1.cur_bytes_live ∧
      a1.max_blocks_live = a1.cur_blocks_live) := by
  rcases step_site_cases s s1 e hs ap with c | ⟨sz, c⟩ |
      ⟨a0, bk, x1, x2, c0, _, _, c3, c4, c5⟩ | ⟨a0, x, c0, _, c2⟩
  · rw [c, h0] at h1
    rw [← Option.some.inj h1]
    exact Or.inl ⟨rfl, rfl⟩
  · rw [c, h0] at h1
    rw [← Option.some.inj h1]
    by_cases hc : addU a.cur_bytes_live sz > a.max_bytes_live
    · right
      simp [intro_APInfo, hc]
    · left
      simp [intro_APInfo, hc]
  · rw [c5] at h1
    rw [c0] at h0
    rw [← Option.some.inj h1, ← Option.some.inj h0]
    obtain ⟨_, _, _, k4, k5, _⟩ := retire_counters a0 x1 x2 bk _ c3 c4
    exact Or.inl ⟨k5, k4⟩
  · rw [c2] at h1
    rw [c0] at h0
    rw [← Option.some.inj h1, ← Option.some.inj h0]
    by_cases hc : wrapLong x > 0 ∧ addU a0.cur_bytes_live (ofLong (wrapLong x)) > a0.max_bytes_live
    · right
      have hc1 := hc.1
      have hc2 := hc.2
      simp [change_APInfo, hc1, hc2]
    · left
      simp only [change_APInfo, if_neg hc, and_self]

/-- C31: the `max_blocks_live` of a site is the number of live blocks at
the event that last raised its `max_bytes_live`: an event either leaves both
as they are or raises `max_bytes_live` and sets the pair to the current
bytes and blocks.  It is not the largest number of blocks that were live
together: after a block of 100 bytes is allocated and freed and two blocks
of 1 byte are allocated by the same site, `cur_blocks_live` is 2 while
`max_blocks_live` is 1 (and `max_bytes_live` 100). -/
theorem max_blocks_live_is_a_snapshot :
    (∀ (s s1 : State) (e : Event) (ap : Nat) (a a1 : APInfo), step s e = some s1 →
      site s ap = some a → site s1 ap = some a1 →
      (a1.max_bytes_live = a.max_bytes_live ∧ a1.max_blocks_live = a.max_blocks_live) ∨
      (a.max_bytes_live < a1.max_bytes_live ∧ a1.max_bytes_live = a1.cur_bytes_live ∧
        a1.max_blocks_live = a1.cur_blocks_live)) ∧
    ((run init_State [Event.alloc 7 1000 100]).bind (fun s => site s 7)).map
        (fun a => (a.cur_blocks_live, a.max_blocks_live, a.max_bytes_live))
      = some (1, 1, 100) ∧
    ((run init_State [Event.alloc 7 1000 100, Event.free 1000, Event.alloc 7 2000 1,
        Event.alloc 7 3000 1]).bind (fun s => site s 7)).map
        (fun a => (a.cur_blocks_live, a.max_blocks_live, a.max_bytes_live))
      = some (2, 1, 100) :=
  ⟨fun s s1 e ap a a1 hs h0 h1 => step_site_snapshot s s1 e hs ap a a1 h0 h1,
    by decide, by decide⟩

theorem max_blocks_live_is_a_snapshot_witness :
    step one_death_State (Event.alloc 7 3000 4)
      = some ((step one_death_State (Event.alloc 7 3000 4)).getD init_State) ∧
    ∃ a a1, site one_death_State 7 = some a ∧
      site ((step one_death_State (Event.alloc 7 3000 4)).getD init_State) 7 = some a1 ∧
      ((a1.max_bytes_live = a.max_bytes_live ∧ a1.max_blocks_live = a.max_blocks_live) ∨
       (a.max_bytes_live < a1.max_bytes_live ∧ a1.max_bytes_live = a1.cur_bytes_live ∧
        a1.max_blocks_live = a1.cur_blocks_live)) :=
  ⟨by decide, (site one_death_State 7).getD (new_APInfo 0),
    (site ((step one_death_State (Event.alloc 7 3000 4)).getD init_State) 7).getD
      (new_APInfo 0),
    by decide, by decide,
    max_blocks_live_is_a_snapshot.1 one_death_State
      ((step one_death_State (Event.alloc 7 3000 4)).getD init_State)
      (Event.alloc 7 3000 4) 7 ((site one_death_State 7).getD (new_APInfo 0))
      ((site ((step one_death_State (Event.alloc 7 3000 4)).getD init_State) 7).getD
        (new_APInfo 0))
      (by decide) (by decide) (by decide)⟩

/-! ### C32: `delete_Block_starting_at` -/

/-- C32 (amended): in a well-formed tree, `delete_Block_starting_at(a)`
deletes the block that contains `a` (in particular the block whose base is
`a`) and leaves every other block in place, and it fails its assertion
whenever no block contains `a`. -/
theorem delete_Block_starting_at_effect (t : WordFM Block Unit) (a : Nat)
    (hwf : WellFormed t) :
    (∀ bk, (bk, ()) ∈ t → contains_addr bk a →
      ∃ l1 l2, t = l1 ++ (bk, ()) :: l2 ∧ delete_Block_starting_at t a = some (l1 ++ l2)) ∧
    ((∀ x ∈ t, ¬ contains_addr x.1 a) → delete_Block_starting_at t a = none) := by
  obtain ⟨h1, h2, h3, h4⟩ := hwf
  have hsc := find_Block_sound_complete t a h1 h2 h3 h4
  constructor
  · intro bk hbk hc
    have hf := (hsc.1 bk).2 ⟨hbk, hc⟩
    obtain ⟨l1, l2, e1, hfound⟩ := find_Block_split _ _ _ hf
    refine ⟨l1, l2, e1, ?_⟩
    unfold delete_Block_starting_at
    rw [e1, delFromFM_of_found interval_tree_Cmp l1 l2 _ _ hfound]
    rfl
  · intro hnone
    have hf := hsc.2.2 hnone
    unfold delete_Block_starting_at
    rw [delFromFM_of_not_found interval_tree_Cmp t _ (find_Block_none_lookup t a hf)]
    rfl

theorem delete_Block_starting_at_effect_witness :
    WellFormed two_block_tree ∧
    delete_Block_starting_at two_block_tree 2000 = some [(mk_Block 1000 16 7 0, ())] ∧
    delete_Block_starting_at two_block_tree 3000 = none ∧
    ((∀ bk, (bk, ()) ∈ two_block_tree → contains_addr bk 2000 →
      ∃ l1 l2, two_block_tree = l1 ++ (bk, ()) :: l2 ∧
        delete_Block_starting_at two_block_tree 2000 = some (l1 ++ l2)) ∧
    ((∀ x ∈ two_block_tree, ¬ contains_addr x.1 2000) →
      delete_Block_starting_at two_block_tree 2000 = none)) :=
  ⟨by decide, by decide, by decide,
    delete_Block_starting_at_effect two_block_tree 2000 (by decide)⟩

/-- C32 (counterexample): the tree holds a block of 16 bytes at 1000 and a
block of 8 bytes at 2000.  `delete_Block_starting_at(1005)`, an address
strictly inside the first block and the base of none, does not fail: it
deletes the first block. -/
theorem delete_Block_starting_at_inside_deletes :
    two_block_tree = [(mk_Block 1000 16 7 0, ()), (mk_Block 2000 8 7 0, ())] ∧
    (∀ x ∈ two_block_tree, x.1.payload ≠ 1005) ∧
    delete_Block_starting_at two_block_tree 1005 = some [(mk_Block 2000 8 7 0, ())] := by
  exact ⟨rfl, by decide, by decide⟩

/-! ### The listing of `show_topN_apinfos` -/

/-- One scan in decreasing mode: either no unshown record has a metric above
`best_metric` and `best_api` is returned as it was, or the result is the
position of an unshown record whose metric is above `best_metric` and is the
largest among the unshown records. -/
theorem scan_best_desc (gm : APInfo → Nat) (l : WordFM Nat APInfo) (idx bm : Nat)
    (best : Option Nat) :
    (scan_best gm false l idx bm best = best ∧
      ∀ (j : Nat) (x : Nat × APInfo), l[j]? = some x → x.2.shown = false → gm x.2 ≤ bm) ∨
    (∃ (j : Nat) (x : Nat × APInfo), l[j]? = some x ∧
      scan_best gm false l idx bm best = some (idx + j) ∧
      x.2.shown = false ∧ bm < gm x.2 ∧
      ∀ (k : Nat) (y : Nat × APInfo), l[k]? = some y → y.2.shown = false →
        gm y.2 ≤ gm x.2) := by
  induction l generalizing idx bm best with
  | nil =>
    left
    exact ⟨rfl, fun j x h => by simp at h⟩
  | cons hd tl ih =>
    obtain ⟨k0, api⟩ := hd
    simp only [scan_best, Bool.false_eq_true, if_false]
    have hcons : ∀ (P : Nat × APInfo → Prop), P (k0, api) →
        (∀ (j : Nat) (x : Nat × APInfo), tl[j]? = some x → P x) →
        ∀ (j : Nat) (x : Nat × APInfo), ((k0, api) :: tl)[j]? = some x → P x := by
      intro P h0 hr j x hx
      cases j with
      | zero =>
        simp only [List.getElem?_cons_zero, Option.some.injEq] at hx
        rw [← hx]; exact h0
      | succ j =>
        simp only [List.getElem?_cons_succ] at hx
        exact hr j x hx
    by_cases hs : api.shown = true
    · rw [if_pos hs]
      rcases ih (idx + 1) bm best with ⟨e, hall⟩ | ⟨j, x, hx, e, h1, h2, h3⟩
      · left
        refine ⟨e, hcons (fun x => x.2.shown = false → gm x.2 ≤ bm) ?_ hall⟩
        intro hf
        simp only at hf
        rw [hs] at hf
        exact absurd hf (by simp)
      · right
        refine ⟨j + 1, x, by simpa using hx, by rw [e]; congr 1; omega, h1, h2,
          hcons (fun y => y.2.shown = false → gm y.2 ≤ gm x.2) ?_ h3⟩
        intro hf
        simp only at hf
        rw [hs] at hf
        exact absurd hf (by simp)
    · rw [if_neg hs]
      have hs0 : api.shown = false := by simpa using hs
      by_cases hm : gm api > bm
      · rw [if_pos hm]
        rcases ih (idx + 1) (gm api) (some idx) with ⟨e, hall⟩ | ⟨j, x, hx, e, h1, h2, h3⟩
        · right
          refine ⟨0, (k0, api), by simp, by rw [e]; rfl, hs0, hm,
            hcons (fun y => y.2.shown = false → gm y.2 ≤ gm api) (fun _ => le_refl _) hall⟩
        · right
          refine ⟨j + 1, x, by simpa using hx, by rw [e]; congr 1; omega, h1, by omega,
            hcons (fun y => y.2.shown = false → gm y.2 ≤ gm x.2) (fun _ => ?_) h3⟩
          simp only
          omega
      · rw [if_neg hm]
        rcases ih (idx + 1) bm best with ⟨e, hall⟩ | ⟨j, x, hx, e, h1, h2, h3⟩
        · left
          refine ⟨e, hcons (fun x => x.2.shown = false → gm x.2 ≤ bm) (fun _ => ?_) hall⟩
          simp only
          omega
        · right
          refine ⟨j + 1, x, by simpa using hx, by rw [e]; congr 1; omega, h1, h2,
            hcons (fun y => y.2.shown = false → gm y.2 ≤ gm x.2) (fun _ => ?_) h3⟩
          simp only
          omega

theorem getElem?_set_shown (fm : WordFM Nat APInfo) (i : Nat) (k : Nat) (api : APInfo)
    (hi : fm[i]? = some (k, api)) (j : Nat) :
    (fm.set i (k, { api with shown := true }))[j]? =
      if j = i then some (k, { api with shown := true }) else fm[j]? := by
  rw [List.getElem?_set]
  by_cases h : i = j
  · subst h
    rw [if_pos rfl, if_pos rfl]
    have : i < fm.length := by
      by_contra hc
      rw [List.getElem?_eq_none (by omega)] at hi
      exact absurd hi (by simp)
    rw [if_pos this]
  · rw [if_neg h, if_neg (fun hc => h hc.symm)]

theorem metric_at_set_shown (gm : APInfo → Nat)
    (hm : ∀ (api : APInfo) (b : Bool), gm { api with shown := b } = gm api)
    (fm : WordFM Nat APInfo) (i : Nat) (k : Nat) (api : APInfo)
    (hi : fm[i]? = some (k, api)) (j : Nat) :
    metric_at gm (fm.set i (k, { api with shown := true })) j = metric_at gm fm j := by
  unfold metric_at
  rw [getElem?_set_shown fm i k api hi j]
  by_cases h : j = i
  · subst h
    rw [if_pos rfl, hi]
    exact hm api true
  · rw [if_neg h]

/-- The loop of `show_topN_apinfos` in decreasing mode. -/
theorem show_loop_desc (gm : APInfo → Nat)
    (hm : ∀ (api : APInfo) (b : Bool), gm { api with shown := b } = gm api)
    (n : Nat) (fm fm1 : WordFM Nat APInfo) (em : List Nat)
    (h : show_loop gm false n fm = some (em, fm1)) :
    em.length ≤ n ∧
    (∀ i ∈ em, ∃ x : Nat × APInfo, fm[i]? = some x ∧ x.2.shown = false ∧ 0 < gm x.2) ∧
    em.Nodup ∧
    em.Pairwise (fun i j => metric_at gm fm j ≤ metric_at gm fm i) ∧
    (∀ i ∈ em, ∀ (j : Nat) (x : Nat × APInfo), fm[j]? = some x → x.2.shown = false →
      j ∉ em → gm x.2 ≤ metric_at gm fm i) ∧
    (em.length < n → ∀ (j : Nat) (x : Nat × APInfo), fm[j]? = some x → x.2.shown = false →
      j ∉ em → gm x.2 = 0) := by
  induction n generalizing fm fm1 em with
  | zero =>
    simp only [show_loop, Option.some.injEq, Prod.mk.injEq] at h
    obtain ⟨rfl, _⟩ := h
    simp
  | succ n ih =>
    simp only [show_loop, Bool.false_eq_true, if_false] at h
    rcases scan_best_desc gm fm 0 0 none with ⟨e, hall⟩ | ⟨j, x, hx, e, h1, h2, h3⟩
    · rw [e] at h
      simp only [Option.some.injEq, Prod.mk.injEq] at h
      obtain ⟨rfl, _⟩ := h
      refine ⟨by simp, by simp, by simp, by simp, by simp, fun _ j x hj hs _ => ?_⟩
      have := hall j x hj hs
      omega
    · rw [e] at h
      simp only [Nat.zero_add] at h
      rw [hx] at h
      obtain ⟨k, api⟩ := x
      simp only at h h1 h2 h3
      cases hsh : show_APInfo api with
      | none => simp [hsh] at h
      | some u =>
        simp only [hsh] at h
        cases hrec : show_loop gm false n (fm.set j (k, { api with shown := true })) with
        | none => simp [hrec] at h
        | some r =>
          obtain ⟨em', fm2⟩ := r
          simp only [hrec, Option.some.injEq, Prod.mk.injEq] at h
          obtain ⟨rfl, _⟩ := h
          obtain ⟨i1, i2, i3, i4, i5, i6⟩ := ih _ _ _ hrec
          have hget := getElem?_set_shown fm j k api hx
          have hmet := metric_at_set_shown gm hm fm j k api hx
          have hmj : metric_at gm fm j = gm api := by
            unfold metric_at
            rw [hx]
          -- the records shown later are unshown in `fm` and are not `j`
          have hlater : ∀ i ∈ em', i ≠ j ∧
              ∃ x : Nat × APInfo, fm[i]? = some x ∧ x.2.shown = false ∧ 0 < gm x.2 := by
            intro i hi
            obtain ⟨x, q1, q2, q3⟩ := i2 i hi
            rw [hget i] at q1
            by_cases hij : i = j
            · rw [if_pos hij] at q1
              rw [← Option.some.inj q1] at q2
              exact absurd q2 (by simp)
            · rw [if_neg hij] at q1
              exact ⟨hij, x, q1, q2, q3⟩
          have hnotin : j ∉ em' := fun hc => (hlater j hc).1 rfl
          refine ⟨by simp only [List.length_cons]; omega, ?_, ?_, ?_, ?_, ?_⟩
          · intro i hi
            rcases List.mem_cons.1 hi with rfl | hi
            · exact ⟨(k, api), hx, h1, h2⟩
            · exact (hlater i hi).2
          · exact List.nodup_cons.2 ⟨hnotin, i3⟩
          · refine List.pairwise_cons.2 ⟨fun i hi => ?_, ?_⟩
            · obtain ⟨_, x, q1, q2, _⟩ := hlater i hi
              rw [hmj]
              unfold metric_at
              rw [q1]
              exact h3 i x q1 q2
            · refine i4.imp ?_
              intro a b hab
              rw [hmet a, hmet b] at hab
              exact hab
          · intro i hi p x hp hs hnot
            have hpj : p ≠ j := fun hc => hnot (by rw [hc]; exact List.mem_cons_self _ _)
            rcases List.mem_cons.1 hi with rfl | hi
            · rw [hmj]
              exact h3 p x hp hs
            · have := i5 i hi p x (by rw [hget p, if_neg hpj]; exact hp) hs
                (fun hc => hnot (List.mem_cons_of_mem _ hc))
              rw [hmet i] at this
              exact this
          · intro hlen p x hp hs hnot
            have hpj : p ≠ j := fun hc => hnot (by rw [hc]; exact List.mem_cons_self _ _)
            simp only [List.length_cons] at hlen
            exact i6 (by omega) p x (by rw [hget p, if_neg hpj]; exact hp) hs
              (fun hc => hnot (List.mem_cons_of_mem _ hc))

/-! ### C33: the listing in decreasing order -/

theorem clear_shown_spec (fm fm1 : WordFM Nat APInfo) (h : clear_shown fm = some fm1) :
    fm1.length = fm.length ∧
    ∀ j : Nat, fm1[j]? = (fm[j]?).map (fun kv => (kv.1, { kv.2 with shown := false })) := by
  induction fm generalizing fm1 with
  | nil =>
    simp only [clear_shown, Option.some.injEq] at h
    subst h
    exact ⟨rfl, fun j => by simp⟩
  | cons hd tl ih =>
    obtain ⟨k, api⟩ := hd
    simp only [clear_shown] at h
    by_cases hk : api.ap ≠ k
    · rw [if_pos hk] at h
      exact absurd h (by simp)
    · rw [if_neg hk] at h
      cases hr : clear_shown tl with
      | none => simp [hr] at h
      | some r =>
        simp only [hr, Option.some.injEq] at h
        subst h
        obtain ⟨i1, i2⟩ := ih r hr
        refine ⟨by simp [i1], fun j => ?_⟩
        cases j with
        | zero => simp
        | succ j => simpa using i2 j

theorem clear_shown_total (fm : WordFM Nat APInfo) (hk : ∀ kv ∈ fm, kv.2.ap = kv.1) :
    ∃ fm1, clear_shown fm = some fm1 := by
  induction fm with
  | nil => exact ⟨[], rfl⟩
  | cons hd tl ih =>
    obtain ⟨k, api⟩ := hd
    obtain ⟨r, hr⟩ := ih (fun kv hkv => hk kv (List.mem_cons_of_mem _ hkv))
    have h0 : api.ap = k := hk (k, api) (List.mem_cons_self _ _)
    simp only [clear_shown, h0, ne_eq, not_true_eq_false, if_false, hr]
    exact ⟨_, rfl⟩

theorem clear_shown_metric (gm : APInfo → Nat)
    (hm : ∀ (api : APInfo) (b : Bool), gm { api with shown := b } = gm api)
    (fm fm1 : WordFM Nat APInfo) (h : clear_shown fm = some fm1) (j : Nat) :
    metric_at gm fm1 j = metric_at gm fm j := by
  unfold metric_at
  rw [(clear_shown_spec fm fm1 h).2 j]
  cases fm[j]? with
  | none => rfl
  | some kv => exact hm kv.2 false

/-- The loop of `show_topN_apinfos` returns when no assertion of
`show_APInfo` can fail on a record of the map. -/
theorem show_loop_total (gm : APInfo → Nat) (n : Nat) (fm : WordFM Nat APInfo)
    (hok : ∀ (j : Nat) (x : Nat × APInfo), fm[j]? = some x → show_APInfo x.2 = some ()) :
    ∃ r, show_loop gm false n fm = some r := by
  induction n generalizing fm with
  | zero => exact ⟨_, rfl⟩
  | succ n ih =>
    simp only [show_loop, Bool.false_eq_true, if_false]
    rcases scan_best_desc gm fm 0 0 none with ⟨e, _⟩ | ⟨j, x, hx, e, _, _, _⟩
    · rw [e]
      exact ⟨_, rfl⟩
    · rw [e]
      simp only [Nat.zero_add]
      rw [hx]
      obtain ⟨k, api⟩ := x
      have h1 := hok j (k, api) hx
      simp only at h1 ⊢
      rw [h1]
      simp only
      obtain ⟨r, hr⟩ := ih (fm.set j (k, { api with shown := true })) (by
        intro p y hy
        rw [getElem?_set_shown fm j k api hx p] at hy
        by_cases hp : p = j
        · rw [if_pos hp] at hy
          rw [← Option.some.inj hy]
          exact h1
        · rw [if_neg hp] at hy
          exact hok p y hy)
      rw [hr]
      exact ⟨_, rfl⟩

/-- C33: for every map of site records, every metric (a function of the
record that does not read its `shown` bit) and every `N`, the listing of
`show_topN_apinfos` in decreasing mode, when no assertion fails, shows at
most `N` records, shows no record twice, shows them in non-increasing order
of the metric, and the metric of every record shown is at least the metric
of every record that is not shown.  No assertion fails when every record
names its key and passes the two assertions of `show_APInfo`. -/
theorem show_topN_apinfos_descending (gm : APInfo → Nat)
    (hm : ∀ (api : APInfo) (b : Bool), gm { api with shown := b } = gm api)
    (N : Nat) (fm : WordFM Nat APInfo) :
    ((∀ kv ∈ fm, kv.2.ap = kv.1 ∧ show_APInfo kv.2 = some ()) →
      ∃ r, show_topN_apinfos gm false N fm = some r) ∧
    (∀ (em : List Nat) (fm1 : WordFM Nat APInfo),
      show_topN_apinfos gm false N fm = some (em, fm1) →
      em.length ≤ N ∧ em.Nodup ∧ (∀ i ∈ em, i < fm.length) ∧
      em.Pairwise (fun i j => metric_at gm fm j ≤ metric_at gm fm i) ∧
      (∀ i ∈ em, ∀ j, j < fm.length → j ∉ em → metric_at gm fm j ≤ metric_at gm fm i)) := by
  constructor
  · intro hall
    obtain ⟨fm0, h0⟩ := clear_shown_total fm (fun kv hkv => (hall kv hkv).1)
    unfold show_topN_apinfos
    rw [h0]
    apply show_loop_total
    intro j x hx
    rw [(clear_shown_spec fm fm0 h0).2 j] at hx
    cases hj : fm[j]? with
    | none => rw [hj] at hx; simp at hx
    | some kv =>
      rw [hj] at hx
      simp only [Option.map_some', Option.some.injEq] at hx
      rw [← hx]
      exact (hall kv (List.mem_iff_getElem?.2 ⟨j, hj⟩)).2
  · intro em fm1 h
    unfold show_topN_apinfos at h
    cases h0 : clear_shown fm with
    | none => rw [h0] at h; simp at h
    | some fm0 =>
      rw [h0] at h
      simp only at h
      obtain ⟨c1, c2⟩ := clear_shown_spec fm fm0 h0
      have hmet := clear_shown_metric gm hm fm fm0 h0
      obtain ⟨i1, i2, i3, i4, i5, _⟩ := show_loop_desc gm hm N fm0 fm1 em h
      refine ⟨i1, i3, ?_, ?_, ?_⟩
      · intro i hi
        obtain ⟨x, q1, _⟩ := i2 i hi
        by_contra hc
        rw [List.getElem?_eq_none (by omega)] at q1
        exact absurd q1 (by simp)
      · refine i4.imp ?_
        intro a b hab
        rw [hmet a, hmet b] at hab
        exact hab
      · intro i hi j hj hnot
        have hjlt : j < fm0.length := by omega
        have q := i5 i hi j fm0[j] (List.getElem?_eq_getElem hjlt) (by
          have := c2 j
          rw [List.getElem?_eq_getElem hjlt, List.getElem?_eq_getElem hj] at this
          simp only [Option.map_some', Option.some.injEq] at this
          rw [this]) hnot
        rw [hmet i] at q
        have e : metric_at gm fm0 j = gm fm0[j].2 := by
          unfold metric_at
          rw [List.getElem?_eq_getElem hjlt]
        rw [← hmet j, e]
        exact q

theorem show_topN_apinfos_descending_witness :
    three_sites_State.apinfo.map (fun kv => (kv.1, kv.2.max_bytes_live))
      = [(7, 120), (9, 50), (11, 8)] ∧
    (show_topN_apinfos get_metric__max_bytes_live false 2 three_sites_State.apinfo).map
      Prod.fst = some [0, 1] ∧
    (show_topN_apinfos get_metric__max_bytes_live false 50000 three_sites_State.apinfo).map
      Prod.fst = some [0, 1, 2] ∧
    ([0, 1].length ≤ 2 ∧ [0, 1].Nodup ∧ (∀ i ∈ [0, 1], i < three_sites_State.apinfo.length) ∧
      [0, 1].Pairwise (fun i j =>
        metric_at get_metric__max_bytes_live three_sites_State.apinfo j
          ≤ metric_at get_metric__max_bytes_live three_sites_State.apinfo i) ∧
      (∀ i ∈ [0, 1], ∀ j, j < three_sites_State.apinfo.length → j ∉ [0, 1] →
        metric_at get_metric__max_bytes_live three_sites_State.apinfo j
          ≤ metric_at get_metric__max_bytes_live three_sites_State.apinfo i)) :=
  ⟨by decide, by decide, by decide,
    (show_topN_apinfos_descending get_metric__max_bytes_live (fun _ _ => rfl) 2
      three_sites_State.apinfo).2 [0, 1]
      ((show_topN_apinfos get_metric__max_bytes_live false 2
        three_sites_State.apinfo).getD ([], [])).2 (by decide)⟩

/-! ### The whole effect of one event -/

/-- What one event does to the state, in terms of `intro_Block`,
`retire_Block` and `apinfo_change_cur_bytes_live`: nothing (or a clock
tick); an allocation; a death; a resize that succeeds; or the replacement of
one block by a block with the same base, size, site and birth (a read, a
write, a growing resize that the host cannot serve). -/
theorem step_effect (s s1 : State) (e : Event) (hs : step s e = some s1) :
    (s1 = s ∨ ∃ n, e = Event.tick n ∧
      s1 = { s with g_guest_instrs_executed := addU s.g_guest_instrs_executed n }) ∨
    (∃ ec host_p szB l1 l2, e = Event.alloc ec host_p szB ∧ host_p ≠ 0 ∧
      ¬ toLong szB < 0 ∧ s.interval_tree = l1 ++ l2 ∧
      addToFM interval_tree_Cmp s.interval_tree
        (mk_Block host_p (if szB = 0 then 1 else szB) ec s.g_guest_instrs_executed) ()
        = some (l1 ++ (mk_Block host_p (if szB = 0 then 1 else szB) ec
            s.g_guest_instrs_executed, ()) :: l2, false) ∧
      intro_Block
        { s with interval_tree :=
            l1 ++ (mk_Block host_p (if szB = 0 then 1 else szB) ec
              s.g_guest_instrs_executed, ()) :: l2 }
        (mk_Block host_p (if szB = 0 then 1 else szB) ec s.g_guest_instrs_executed)
        = some s1) ∨
    (∃ bk l1 l2 s2, e = Event.free bk.payload ∧ s.interval_tree = l1 ++ (bk, ()) :: l2 ∧
      retire_Block s bk = some s2 ∧ s1 = { s2 with interval_tree := l1 ++ l2 }) ∨
    (∃ host_p szB bk l1 l2 s2 t2, e = Event.resize host_p bk.payload szB ∧ 0 < szB ∧
      s.interval_tree = l1 ++ (bk, ()) :: l2 ∧
      apinfo_change_cur_bytes_live s bk.ap (wrapLong (toLong szB - toLong bk.req_szB))
        = some s2 ∧
      s1 = { s2 with interval_tree := t2 } ∧
      ((szB ≤ bk.req_szB ∧
          t2 = l1 ++ ({ bk with histoB := none, req_szB := szB }, ()) :: l2) ∨
       (bk.req_szB < szB ∧ host_p ≠ 0 ∧ host_p ≠ bk.payload ∧
          addToFM interval_tree_Cmp (l1 ++ l2)
            { bk with histoB := none, payload := host_p, req_szB := szB } ()
            = some (t2, false)))) ∨
    (∃ bk bk2 l1 l2, s.interval_tree = l1 ++ (bk, ()) :: l2 ∧
      s1 = { s with interval_tree := l1 ++ (bk2, ()) :: l2 } ∧
      bk2.payload = bk.payload ∧ bk2.req_szB = bk.req_szB ∧ bk2.ap = bk.ap ∧
      bk2.allocd_at = bk.allocd_at) := by
  cases e with
  | alloc ec host_p szB =>
    simp only [step, Option.map_eq_some', Prod.exists, exists_eq_right] at hs
    obtain ⟨r, hs⟩ := hs
    obtain ⟨_, h1 | ⟨_, hne, hlong, tree, hadd, hintro⟩⟩ := new_block_inv s s1 ec host_p 0 szB r hs
    · exact Or.inl (Or.inl h1.2.1)
    · obtain ⟨l1, l2, e1, e2, _⟩ := addToFM_fresh_split interval_tree_Cmp _ _ _ _ hadd
      subst e2
      exact Or.inr (Or.inl ⟨ec, host_p, szB, l1, l2, rfl, hne, hlong, e1, hadd, hintro⟩)
  | free p =>
    simp only [step] at hs
    rcases die_block_inv s s1 p false hs with h1 | ⟨bk, s2, tree, hf, hp, _, _, hr, hd, rfl⟩
    · exact Or.inl (Or.inl h1.1)
    · obtain ⟨l1, l2, e1, hfound⟩ := find_Block_split _ _ _ hf
      rw [(retire_Block_frame _ _ _ hr).1, e1, hp] at hd
      unfold delete_Block_starting_at at hd
      rw [delFromFM_of_found interval_tree_Cmp l1 l2 _ _ hfound] at hd
      simp only [if_true, Option.some.injEq] at hd
      subst hd
      subst hp
      exact Or.inr (Or.inr (Or.inl ⟨bk, l1, l2, s2, rfl, e1, hr, rfl⟩))
  | resize host_p p szB =>
    simp only [step, Option.map_eq_some', Prod.exists, exists_eq_right] at hs
    obtain ⟨r, hs⟩ := hs
    obtain ⟨hpos, h1 | ⟨bk, hf, hp, hsz, _, hcase⟩⟩ := renew_block_inv s s1 host_p p szB r hs
    · exact Or.inl (Or.inl h1.2.1)
    · obtain ⟨l1, l2, e1, hfound⟩ := find_Block_split _ _ _ hf
      have hmod : ∀ b1 : Block, modifyFM interval_tree_Cmp s.interval_tree (fake_Block p)
          (fun _ => (b1, ())) = l1 ++ (b1, ()) :: l2 := by
        intro b1
        rw [e1]
        exact modifyFM_of_found interval_tree_Cmp l1 l2 _ _ _ hfound
      have hfound1 : FoundAt interval_tree_Cmp l1 ({ bk with histoB := none }, ()) (fake_Block p) :=
        foundAt_congr l1 bk _ _ rfl rfl hfound
      subst hp
      rcases hcase with ⟨hle, _, s2, hch, rfl⟩ | ⟨hlt, h0, _, rfl⟩ |
        ⟨hlt, hne, hne2, _, tree, s2, tree2, hd, hch, hadd, rfl⟩
      · rw [apinfo_change_with_tree] at hch
        cases hc0 : apinfo_change_cur_bytes_live s bk.ap
            (wrapLong (toLong szB - toLong bk.req_szB)) with
        | none => rw [hc0] at hch; simp at hch
        | some s0 =>
          rw [hc0] at hch
          simp only [Option.map_some', Option.some.injEq] at hch
          subst hch
          refine Or.inr (Or.inr (Or.inr (Or.inl ⟨host_p, szB, bk, l1, l2, s0,
            l1 ++ ({ bk with histoB := none, req_szB := szB }, ()) :: l2, rfl, hpos, e1, hc0,
            ?_, Or.inl ⟨hle, rfl⟩⟩)))
          simp only
          rw [hmod, modifyFM_of_found interval_tree_Cmp l1 l2 _ _ _ hfound1]
      · refine Or.inr (Or.inr (Or.inr (Or.inr ⟨bk, { bk with histoB := none }, l1, l2, e1,
          ?_, rfl, rfl, rfl, rfl⟩)))
        rw [hmod]
      · rw [hmod] at hd
        unfold delete_Block_starting_at at hd
        rw [delFromFM_of_found interval_tree_Cmp l1 l2 _ _ hfound1] at hd
        simp only [if_true, Option.some.injEq] at hd
        subst hd
        rw [apinfo_change_with_tree] at hch
        cases hc0 : apinfo_change_cur_bytes_live s bk.ap
            (wrapLong (toLong szB - toLong bk.req_szB)) with
        | none => rw [hc0] at hch; simp at hch
        | some s0 =>
          rw [hc0] at hch
          simp only [Option.map_some', Option.some.injEq] at hch
          subst hch
          simp only at hadd
          exact Or.inr (Or.inr (Or.inr (Or.inl ⟨host_p, szB, bk, l1, l2, s0, tree2, rfl, hpos,
            e1, hc0, rfl, Or.inr ⟨hlt, hne, hne2, hadd⟩⟩)))
  | read addr szB =>
    simp only [step] at hs
    rcases dh_handle_read_inv s s1 addr szB hs with h1 | ⟨bk, bk2, hf, ht, rfl⟩
    · exact Or.inl (Or.inl h1.2)
    · obtain ⟨l1, l2, e1, hfound⟩ := find_Block_split _ _ _ hf
      obtain ⟨hp, hsz, hap, hat⟩ := touch_range_read bk bk2 addr szB ht
      refine Or.inr (Or.inr (Or.inr (Or.inr ⟨bk, bk2, l1, l2, e1, ?_, hp, hsz, hap, hat⟩)))
      rw [e1, modifyFM_of_found interval_tree_Cmp l1 l2 _ _ _ hfound]
  | write addr szB =>
    simp only [step] at hs
    rcases dh_handle_write_inv s s1 addr szB hs with h1 | ⟨bk, bk2, hf, ht, rfl⟩
    · exact Or.inl (Or.inl h1.2)
    · obtain ⟨l1, l2, e1, hfound⟩ := find_Block_split _ _ _ hf
      obtain ⟨hp, hsz, hap, hat⟩ := touch_range_write bk bk2 addr szB ht
      refine Or.inr (Or.inr (Or.inr (Or.inr ⟨bk, bk2, l1, l2, e1, ?_, hp, hsz, hap, hat⟩)))
      rw [e1, modifyFM_of_found interval_tree_Cmp l1 l2 _ _ _ hfound]
  | tick n =>
    simp only [step, Option.some.injEq] at hs
    exact Or.inl (Or.inr ⟨n, rfl, hs.symm⟩)

/-! ### Sums over the interval tree -/

theorem site_bytes_insert (l1 l2 : WordFM Block Unit) (b : Block) (ap : Nat) :
    site_bytes (l1 ++ (b, ()) :: l2) ap =
      site_bytes (l1 ++ l2) ap + (if b.ap = ap then b.req_szB else 0) := by
  unfold site_bytes
  by_cases h : b.ap = ap
  · simp [List.filter_append, List.filter_cons, h]; omega
  · simp [List.filter_append, List.filter_cons, h]

theorem site_blocks_insert (l1 l2 : WordFM Block Unit) (b : Block) (ap : Nat) :
    site_blocks (l1 ++ (b, ()) :: l2) ap =
      site_blocks (l1 ++ l2) ap + (if b.ap = ap then 1 else 0) := by
  unfold site_blocks
  by_cases h : b.ap = ap
  · simp [List.filter_append, List.filter_cons, h]; omega
  · simp [List.filter_append, List.filter_cons, h]

theorem all_bytes_insert (l1 l2 : WordFM Block Unit) (b : Block) :
    all_bytes (l1 ++ (b, ()) :: l2) = all_bytes (l1 ++ l2) + b.req_szB := by
  unfold all_bytes
  simp; omega

theorem length_insert (l1 l2 : WordFM Block Unit) (b : Block) :
    (l1 ++ (b, ()) :: l2).length = (l1 ++ l2).length + 1 := by
  simp; omega

theorem site_bytes_le_all (t : WordFM Block Unit) (ap : Nat) : site_bytes t ap ≤ all_bytes t := by
  induction t with
  | nil => simp [site_bytes, all_bytes]
  | cons x tl ih =>
    obtain ⟨b, u⟩ := x
    have h1 := site_bytes_insert [] tl b ap
    have h2 := all_bytes_insert [] tl b
    simp only [List.nil_append] at h1 h2
    rw [h1, h2]
    split_ifs <;> omega

theorem site_blocks_le_length (t : WordFM Block Unit) (ap : Nat) :
    site_blocks t ap ≤ t.length := by
  unfold site_blocks
  exact List.length_filter_le _ _

theorem site_blocks_le_bytes (t : WordFM Block Unit) (ap : Nat) (hne : NonEmptyBlocks t) :
    site_blocks t ap ≤ site_bytes t ap := by
  induction t with
  | nil => simp [site_bytes, site_blocks]
  | cons x tl ih =>
    obtain ⟨b, u⟩ := x
    have h1 := site_bytes_insert [] tl b ap
    have h2 := site_blocks_insert [] tl b ap
    simp only [List.nil_append] at h1 h2
    rw [h1, h2]
    have hb : 0 < b.req_szB := hne (b, ()) (List.mem_cons_self _ _)
    have := ih (fun y hy => hne y (List.mem_cons_of_mem _ hy))
    split_ifs <;> omega

theorem length_le_all_bytes (t : WordFM Block Unit) (hne : NonEmptyBlocks t) :
    t.length ≤ all_bytes t := by
  induction t with
  | nil => simp [all_bytes]
  | cons x tl ih =>
    obtain ⟨b, u⟩ := x
    have h2 := all_bytes_insert [] tl b
    simp only [List.nil_append] at h2
    rw [h2]
    have hb : 0 < b.req_szB := hne (b, ()) (List.mem_cons_self _ _)
    have := ih (fun y hy => hne y (List.mem_cons_of_mem _ hy))
    simp only [List.length_cons]
    omega

theorem site_blocks_pos_of_mem (t : WordFM Block Unit) (b : Block) (hb : (b, ()) ∈ t) :
    1 ≤ site_blocks t b.ap := by
  obtain ⟨l1, l2, rfl⟩ := List.append_of_mem hb
  rw [site_blocks_insert]
  simp

theorem site_bytes_ge_of_mem (t : WordFM Block Unit) (b : Block) (hb : (b, ()) ∈ t) :
    b.req_szB ≤ site_bytes t b.ap := by
  obtain ⟨l1, l2, rfl⟩ := List.append_of_mem hb
  rw [site_bytes_insert]
  simp

/-- Blocks in address order that do not overlap and end below the top of the
address space fit between the lowest base and the top. -/
theorem all_bytes_bound (t : WordFM Block Unit) (hwf : WellFormed t) (lo : Nat)
    (hlo : lo < WORD) (hall : ∀ y ∈ t, lo ≤ y.1.payload) : lo + all_bytes t < WORD := by
  induction t generalizing lo with
  | nil => simpa [all_bytes] using hlo
  | cons x tl ih =>
    obtain ⟨b, u⟩ := x
    obtain ⟨ho, hne, hno, hnw⟩ := hwf
    have h2 := all_bytes_insert [] tl b
    simp only [List.nil_append] at h2
    rw [h2]
    have hbw : b.payload + b.req_szB < WORD := hnw (b, ()) (List.mem_cons_self _ _)
    have hb : lo ≤ b.payload := hall (b, ()) (List.mem_cons_self _ _)
    unfold AddrOrdered at ho
    unfold NoOverlap at hno
    rw [List.pairwise_cons] at ho hno
    have hwf1 : WellFormed tl :=
      ⟨ho.2, fun y hy => hne y (List.mem_cons_of_mem _ hy), hno.2,
        fun y hy => hnw y (List.mem_cons_of_mem _ hy)⟩
    have := ih hwf1 (b.payload + b.req_szB) hbw (by
      intro y hy
      have h3 := ho.1 y hy
      have h4 := hno.1 y hy
      unfold overlaps at h4
      simp only at h3 h4
      by_contra hc
      exact h4 ⟨by omega, by omega⟩)
    omega

theorem all_bytes_lt (t : WordFM Block Unit) (hwf : WellFormed t) : all_bytes t < WORD := by
  have := all_bytes_bound t hwf 0 (by decide) (fun _ _ => Nat.zero_le _)
  omega

/-! ### The live counters are sums over the interval tree -/

theorem site_bytes_zero (t : WordFM Block Unit) (ap : Nat) (h : site_blocks t ap = 0) :
    site_bytes t ap = 0 := by
  unfold site_blocks at h
  unfold site_bytes
  rw [List.length_eq_zero.mp h]
  rfl

theorem step_sums_core (s s1 : State) (e : Event) (hs : step s e = some s1)
    (hb0 : all_bytes s.interval_tree < WORD)
    (hl0 : s.interval_tree.length ≤ all_bytes s.interval_tree)
    (hb1 : all_bytes s1.interval_tree < WORD)
    (hl1 : s1.interval_tree.length ≤ all_bytes s1.interval_tree)
    (hsite : ∀ ap, (site s ap = none → site_blocks s.interval_tree ap = 0) ∧
      ∀ a, site s ap = some a →
        a.cur_bytes_live = site_bytes s.interval_tree ap ∧
        a.cur_blocks_live = site_blocks s.interval_tree ap)
    (hg : s.g_cur_bytes_live = all_bytes s.interval_tree ∧
      s.g_cur_blocks_live = s.interval_tree.length) :
    (∀ ap, (site s1 ap = none → site_blocks s1.interval_tree ap = 0) ∧
      ∀ a, site s1 ap = some a →
        a.cur_bytes_live = site_bytes s1.interval_tree ap ∧
        a.cur_blocks_live = site_blocks s1.interval_tree ap) ∧
    s1.g_cur_bytes_live = all_bytes s1.interval_tree ∧
    s1.g_cur_blocks_live = s1.interval_tree.length := by
  rcases step_effect s s1 e hs with (rfl | ⟨n, -, rfl⟩) |
    ⟨ec, host_p, szB, l1, l2, -, -, -, e1, -, hintro⟩ |
    ⟨bk, l1, l2, s2, -, e1, hr, rfl⟩ |
    ⟨host_p, szB, bk, l1, l2, s2, t2, rfl, hpos, e1, hch, rfl, ht2⟩ |
    ⟨bk, bk2, l1, l2, e1, rfl, hp, hsz, hap, -⟩
  · exact ⟨hsite, hg⟩
  · exact ⟨hsite, hg⟩
  · -- allocation
    have ht1 := (intro_Block_frame _ _ _ hintro).1
    simp only at ht1
    have hs1 := intro_Block_site _ _ _ hintro
    obtain ⟨api, fm, -, -, -, hst⟩ := intro_Block_inv _ _ _ hintro
    have hgb : s1.g_cur_bytes_live =
        addU s.g_cur_bytes_live (if szB = 0 then 1 else szB) := by rw [hst]; rfl
    have hgn : s1.g_cur_blocks_live = addU s.g_cur_blocks_live 1 := by rw [hst]; rfl
    rw [ht1] at hb1 hl1 ⊢
    rw [all_bytes_insert] at hb1 hl1 ⊢
    rw [length_insert] at hl1 ⊢
    rw [e1] at hsite hg
    simp only [mk_Block] at hb1 hl1
    refine ⟨fun ap => ?_, ?_, ?_⟩
    · have h1 := hs1 ap
      have hsb := site_bytes_le_all (l1 ++ l2) ap
      have hsn := site_blocks_le_length (l1 ++ l2) ap
      rw [site_bytes_insert, site_blocks_insert]
      by_cases hc : ap = ec
      · subst hc
        have h2 : site s1 ap = some (intro_APInfo ((site s ap).getD (new_APInfo ap))
            (if szB = 0 then 1 else szB)) := by
          rw [h1]; simp [mk_Block]; rfl
        have h0 : ((site s ap).getD (new_APInfo ap)).cur_bytes_live = site_bytes (l1 ++ l2) ap ∧
            ((site s ap).getD (new_APInfo ap)).cur_blocks_live = site_blocks (l1 ++ l2) ap := by
          cases hsa : site s ap with
          | none =>
            have := (hsite ap).1 hsa
            simp [new_APInfo, this, site_bytes_zero _ _ this]
          | some a => simpa using (hsite ap).2 a hsa
        refine ⟨fun hn => ?_, fun a ha => ?_⟩
        · rw [h2] at hn; simp at hn
        · rw [h2] at ha
          simp only [Option.some.injEq] at ha
          subst ha
          simp only [intro_APInfo, mk_Block, if_true]
          rw [h0.1, h0.2, addU_small _ _ (by omega), addU_small _ _ (by omega)]
          exact ⟨rfl, rfl⟩
      · have h2 : site s1 ap = site s ap := by
          rw [h1]; simp [mk_Block, hc]; rfl
        rw [h2]
        have : ¬ (mk_Block host_p (if szB = 0 then 1 else szB) ec
            s.g_guest_instrs_executed).ap = ap := fun h => hc h.symm
        simp only [this, if_false, Nat.add_zero]
        exact hsite ap
    · rw [hgb, hg.1, addU_small _ _ (by simpa [mk_Block] using hb1)]
      rfl
    · rw [hgn, hg.2, addU_small _ _ (by omega)]
  · -- death
    obtain ⟨api, api1, api2, hsa, hb, hby, -, hx, hf, hs2⟩ := retire_Block_site _ _ _ hr
    obtain ⟨-, hnb, hcb, -⟩ := retire_counters _ _ _ _ _ hx hf
    obtain ⟨k, api0, api10, api20, -, -, -, -, -, -, -, -, -, -, hst⟩ := retire_Block_inv _ _ _ hr
    have hgb : s2.g_cur_bytes_live = subU s.g_cur_bytes_live bk.req_szB := by rw [hst]
    have hgn : s2.g_cur_blocks_live = subU s.g_cur_blocks_live 1 := by rw [hst]
    rw [e1] at hsite hg hb0
    rw [all_bytes_insert] at hg hb0
    rw [length_insert] at hg
    rw [e1, all_bytes_insert, length_insert] at hl0
    refine ⟨fun ap => ?_, ?_, ?_⟩
    · have h1 : site s2 ap = if ap = bk.ap then some api2 else site s ap := hs2 ap
      have hsb := site_bytes_le_all (l1 ++ (bk, ()) :: l2) ap
      rw [all_bytes_insert] at hsb
      have hsn := site_blocks_le_length (l1 ++ (bk, ()) :: l2) ap
      rw [length_insert] at hsn
      have hi := hsite ap
      rw [site_bytes_insert, site_blocks_insert] at hi
      rw [site_bytes_insert] at hsb
      rw [site_blocks_insert] at hsn
      show (site s2 ap = none → site_blocks (l1 ++ l2) ap = 0) ∧
        ∀ a, site s2 ap = some a →
          a.cur_bytes_live = site_bytes (l1 ++ l2) ap ∧
          a.cur_blocks_live = site_blocks (l1 ++ l2) ap
      by_cases hc : ap = bk.ap
      · subst hc
        rw [h1]
        simp only [if_true] at hi hsb hsn ⊢
        obtain ⟨h3, h4⟩ := hi.2 api hsa
        refine ⟨fun hn => by simp at hn, fun a ha => ?_⟩
        simp only [Option.some.injEq] at ha
        subst ha
        rw [hcb, hnb, h3, h4, subU_of_le _ _ (by omega) (by omega),
          subU_of_le _ _ (by omega) (by omega)]
        omega
      · rw [h1]
        have : ¬ bk.ap = ap := fun h => hc h.symm
        simp only [hc, this, if_false, Nat.add_zero] at hi ⊢
        exact hi
    · show s2.g_cur_bytes_live = all_bytes (l1 ++ l2)
      rw [hgb, hg.1, subU_of_le _ _ (by omega) (by omega)]
      omega
    · show s2.g_cur_blocks_live = (l1 ++ l2).length
      rw [hgn, hg.2, subU_of_le _ _ (by omega) (by omega)]
      omega
  · -- resize
    obtain ⟨api, hsa, -, -, hs2⟩ := apinfo_change_site _ _ _ _ hch
    obtain ⟨k, api0, -, -, -, -, hst⟩ := apinfo_change_inv _ _ _ _ hch
    have hgb : s2.g_cur_bytes_live = addU s.g_cur_bytes_live
        (ofLong (wrapLong (toLong szB - toLong bk.req_szB))) := by rw [hst]
    have hgn : s2.g_cur_blocks_live = s.g_cur_blocks_live := by rw [hst]
    have ht : ∃ m1 m2 bk3, t2 = m1 ++ (bk3, ()) :: m2 ∧ m1 ++ m2 = l1 ++ l2 ∧
        bk3.ap = bk.ap ∧ bk3.req_szB = szB := by
      rcases ht2 with ⟨-, rfl⟩ | ⟨-, -, -, hadd⟩
      · exact ⟨l1, l2, _, rfl, rfl, rfl, rfl⟩
      · obtain ⟨m1, m2, e3, e4, -⟩ := addToFM_fresh_split interval_tree_Cmp _ _ _ _ hadd
        exact ⟨m1, m2, _, e4, e3.symm, rfl, rfl⟩
    obtain ⟨m1, m2, bk3, rfl, em, hap3, hsz3⟩ := ht
    simp only at hb1 hl1
    rw [e1] at hsite hg hb0
    rw [all_bytes_insert] at hg hb0 hb1
    rw [length_insert] at hg
    rw [em] at hb1
    have hszB : szB < WORD := by omega
    have hbkw : bk.req_szB < WORD := by omega
    refine ⟨fun ap => ?_, ?_, ?_⟩
    · have h1 : site s2 ap =
          if ap = bk.ap then some (change_APInfo api
            (wrapLong (toLong szB - toLong bk.req_szB))) else site s ap := hs2 ap
      have hsb := site_bytes_le_all (m1 ++ (bk3, ()) :: m2) ap
      rw [all_bytes_insert, em] at hsb
      have hi := hsite ap
      rw [site_bytes_insert, site_blocks_insert] at hi
      rw [site_bytes_insert] at hsb
      show (site s2 ap = none → site_blocks (m1 ++ (bk3, ()) :: m2) ap = 0) ∧
        ∀ a, site s2 ap = some a →
          a.cur_bytes_live = site_bytes (m1 ++ (bk3, ()) :: m2) ap ∧
          a.cur_blocks_live = site_blocks (m1 ++ (bk3, ()) :: m2) ap
      rw [site_bytes_insert, site_blocks_insert, em, hap3, hsz3]
      rw [em, hap3, hsz3] at hsb
      by_cases hc : ap = bk.ap
      · subst hc
        rw [h1]
        simp only [if_true] at hi hsb ⊢
        obtain ⟨h3, h4⟩ := hi.2 api hsa
        refine ⟨fun hn => by simp at hn, fun a ha => ?_⟩
        simp only [Option.some.injEq] at ha
        subst ha
        have hI := change_cur_bytes_int api.cur_bytes_live szB bk.req_szB hszB hbkw
        refine ⟨?_, h4⟩
        show addU api.cur_bytes_live (ofLong (wrapLong (toLong szB - toLong bk.req_szB))) = _
        simp only [WORD] at hb1 hsb hb0
        omega
      · rw [h1]
        have : ¬ bk.ap = ap := fun h => hc h.symm
        simp only [hc, this, if_false, Nat.add_zero] at hi ⊢
        exact hi
    · show s2.g_cur_bytes_live = all_bytes (m1 ++ (bk3, ()) :: m2)
      rw [all_bytes_insert, em, hsz3, hgb]
      have hI := change_cur_bytes_int s.g_cur_bytes_live szB bk.req_szB hszB hbkw
      rw [hsz3] at hb1
      simp only [WORD] at hb1 hb0
      omega
    · show s2.g_cur_blocks_live = (m1 ++ (bk3, ()) :: m2).length
      rw [length_insert, em, hgn, hg.2]
  · -- replacement in place
    rw [e1] at hsite hg
    refine ⟨fun ap => ?_, ?_, ?_⟩
    · have hi := hsite ap
      rw [site_bytes_insert, site_blocks_insert] at hi
      show (site s ap = none → site_blocks (l1 ++ (bk2, ()) :: l2) ap = 0) ∧
        ∀ a, site s ap = some a →
          a.cur_bytes_live = site_bytes (l1 ++ (bk2, ()) :: l2) ap ∧
          a.cur_blocks_live = site_blocks (l1 ++ (bk2, ()) :: l2) ap
      rw [site_bytes_insert, site_blocks_insert, hap, hsz]
      exact hi
    · show s.g_cur_bytes_live = all_bytes (l1 ++ (bk2, ()) :: l2)
      rw [all_bytes_insert, hsz, hg.1, all_bytes_insert]
    · show s.g_cur_blocks_live = (l1 ++ (bk2, ()) :: l2).length
      rw [length_insert, hg.2, length_insert]

theorem step_sums (s s1 : State) (e : Event) (hs : step s e = some s1)
    (htop : HostBelowTop e) (hwf : WellFormed s.interval_tree)
    (hsite : ∀ ap, (site s ap = none → site_blocks s.interval_tree ap = 0) ∧
      ∀ a, site s ap = some a →
        a.cur_bytes_live = site_bytes s.interval_tree ap ∧
        a.cur_blocks_live = site_blocks s.interval_tree ap)
    (hg : s.g_cur_bytes_live = all_bytes s.interval_tree ∧
      s.g_cur_blocks_live = s.interval_tree.length) :
    (∀ ap, (site s1 ap = none → site_blocks s1.interval_tree ap = 0) ∧
      ∀ a, site s1 ap = some a →
        a.cur_bytes_live = site_bytes s1.interval_tree ap ∧
        a.cur_blocks_live = site_blocks s1.interval_tree ap) ∧
    s1.g_cur_bytes_live = all_bytes s1.interval_tree ∧
    s1.g_cur_blocks_live = s1.interval_tree.length := by
  have hwf1 := step_wellFormed s s1 e hs htop hwf
  exact step_sums_core s s1 e hs (all_bytes_lt _ hwf) (length_le_all_bytes _ hwf.2.1)
    (all_bytes_lt _ hwf1) (length_le_all_bytes _ hwf1.2.1) hsite hg

/-! ### Blocks that do not overlap and lie within the address space -/

/-- The bytes of pairwise non-overlapping blocks are as many as the addresses
they cover. -/
theorem all_bytes_cover (t : WordFM Block Unit) (hno : NoOverlap t) :
    ∃ S : Finset Nat, S.card = all_bytes t ∧
      ∀ a, a ∈ S ↔ ∃ x ∈ t, contains_addr x.1 a := by
  induction t with
  | nil => exact ⟨∅, by simp [all_bytes], by simp⟩
  | cons hd tl ih =>
    obtain ⟨b, u⟩ := hd
    unfold NoOverlap at hno
    rw [List.pairwise_cons] at hno
    obtain ⟨S, hcard, hmem⟩ := ih hno.2
    have hdis : Disjoint (Finset.Ico b.payload (b.payload + b.req_szB)) S := by
      rw [Finset.disjoint_left]
      intro a ha hS
      obtain ⟨y, hy, hc⟩ := (hmem a).1 hS
      rw [Finset.mem_Ico] at ha
      have := hno.1 y hy
      unfold overlaps at this
      unfold contains_addr at hc
      simp only at this
      omega
    refine ⟨Finset.Ico b.payload (b.payload + b.req_szB) ∪ S, ?_, ?_⟩
    · rw [Finset.card_union_of_disjoint hdis, Nat.card_Ico, hcard]
      have h2 := all_bytes_insert [] tl b
      simp only [List.nil_append] at h2
      rw [h2]
      omega
    · intro a
      rw [Finset.mem_union, hmem a, Finset.mem_Ico]
      constructor
      · rintro (h | ⟨y, hy, hc⟩)
        · exact ⟨(b, u), List.mem_cons_self _ _, h⟩
        · exact ⟨y, List.mem_cons_of_mem _ hy, hc⟩
      · rintro ⟨y, hy, hc⟩
        rcases List.mem_cons.1 hy with rfl | hy
        · exact Or.inl hc
        · exact Or.inr ⟨y, hy, hc⟩

theorem all_bytes_lt_of_space (t : WordFM Block Unit) (hno : NoOverlap t)
    (hsp : ∀ x ∈ t, 0 < x.1.payload ∧ x.1.payload + x.1.req_szB ≤ WORD) :
    all_bytes t < WORD := by
  obtain ⟨S, hcard, hmem⟩ := all_bytes_cover t hno
  have hsub : S ⊆ Finset.Ico 1 WORD := by
    intro a ha
    obtain ⟨y, hy, hc⟩ := (hmem a).1 ha
    obtain ⟨h1, h2⟩ := hsp y hy
    unfold contains_addr at hc
    rw [Finset.mem_Ico]
    omega
  have := Finset.card_le_card hsub
  rw [Nat.card_Ico, hcard] at this
  simp only [WORD] at this ⊢
  omega

theorem step_nonEmpty (s s1 : State) (e : Event) (hs : step s e = some s1)
    (hne : NonEmptyBlocks s.interval_tree) : NonEmptyBlocks s1.interval_tree :=
  step_blocks_invariant (fun b => 0 < b.req_szB)
    (by intro p sz ec clk _ hsz _ _; exact hsz)
    (by intro b sz _ hsz _; exact hsz)
    (by intro b p sz _ _ hlt; exact Nat.lt_of_le_of_lt (Nat.zero_le _) hlt)
    (by intro b b2 hP _ hsz _ _ _; rw [hsz]; exact hP)
    s s1 e hs hne

theorem step_space (s s1 : State) (e : Event) (hs : step s e = some s1)
    (hspace : HostInSpace e)
    (hsp : ∀ x ∈ s.interval_tree, 0 < x.1.payload ∧ x.1.payload + x.1.req_szB ≤ WORD) :
    ∀ x ∈ s1.interval_tree, 0 < x.1.payload ∧ x.1.payload + x.1.req_szB ≤ WORD := by
  rcases step_effect s s1 e hs with (rfl | ⟨n, -, rfl⟩) |
    ⟨ec, host_p, szB, l1, l2, rfl, hh, hlong, e1, -, hintro⟩ |
    ⟨bk, l1, l2, s2, -, e1, hr, rfl⟩ |
    ⟨host_p, szB, bk, l1, l2, s2, t2, rfl, hpos, e1, hch, rfl, ht2⟩ |
    ⟨bk, bk2, l1, l2, e1, rfl, hp, hsz, hap, hat⟩
  · exact hsp
  · exact hsp
  · have ht1 := (intro_Block_frame _ _ _ hintro).1
    simp only at ht1
    rw [ht1]
    rw [e1] at hsp
    intro x hx
    rcases List.mem_append.1 hx with hx | hx
    · exact hsp x (List.mem_append_left _ hx)
    · rcases List.mem_cons.1 hx with rfl | hx
      · simp only [HostInSpace] at hspace
        have := hspace hh
        simp only [mk_Block]
        exact ⟨by omega, this⟩
      · exact hsp x (List.mem_append_right _ hx)
  · rw [e1] at hsp
    intro x hx
    rcases List.mem_append.1 hx with hx | hx
    · exact hsp x (List.mem_append_left _ hx)
    · exact hsp x (List.mem_append_right _ (List.mem_cons_of_mem _ hx))
  · rw [e1] at hsp
    obtain ⟨b1, b2⟩ := hsp (bk, ()) (by simp)
    simp only at b1 b2
    have hrest : ∀ x ∈ l1 ++ l2, 0 < x.1.payload ∧ x.1.payload + x.1.req_szB ≤ WORD := by
      intro x hx
      rcases List.mem_append.1 hx with hx | hx
      · exact hsp x (List.mem_append_left _ hx)
      · exact hsp x (List.mem_append_right _ (List.mem_cons_of_mem _ hx))
    rcases ht2 with ⟨hle, rfl⟩ | ⟨-, hh, -, hadd⟩
    · intro x hx
      rcases List.mem_append.1 hx with hx | hx
      · exact hrest x (List.mem_append_left _ hx)
      · rcases List.mem_cons.1 hx with rfl | hx
        · simp only
          exact ⟨b1, by omega⟩
        · exact hrest x (List.mem_append_right _ hx)
    · obtain ⟨m1, m2, e3, e4, -⟩ := addToFM_fresh_split interval_tree_Cmp _ _ _ _ hadd
      simp only [HostInSpace] at hspace
      have := hspace hh
      intro x hx
      simp only at hx
      rw [e4] at hx
      rcases List.mem_append.1 hx with hx | hx
      · exact hrest x (e3 ▸ List.mem_append_left _ hx)
      · rcases List.mem_cons.1 hx with rfl | hx
        · simp only
          exact ⟨by omega, this⟩
        · exact hrest x (e3 ▸ List.mem_append_right _ hx)
  · rw [e1] at hsp
    obtain ⟨b1, b2⟩ := hsp (bk, ()) (by simp)
    intro x hx
    rcases List.mem_append.1 hx with hx | hx
    · exact hsp x (List.mem_append_left _ hx)
    · rcases List.mem_cons.1 hx with rfl | hx
      · simp only [hp, hsz]
        exact ⟨b1, b2⟩
      · exact hsp x (List.mem_append_right _ (List.mem_cons_of_mem _ hx))

theorem run_sums_host (evs : List Event) (s s1 : State) (hr : run s evs = some s1)
    (hhost : HostOKrun s evs) (hspace : ∀ e ∈ evs, HostInSpace e)
    (hno : NoOverlap s.interval_tree) (hne : NonEmptyBlocks s.interval_tree)
    (hsp : ∀ x ∈ s.interval_tree, 0 < x.1.payload ∧ x.1.payload + x.1.req_szB ≤ WORD)
    (hsite : ∀ ap, (site s ap = none → site_blocks s.interval_tree ap = 0) ∧
      ∀ a, site s ap = some a →
        a.cur_bytes_live = site_bytes s.interval_tree ap ∧
        a.cur_blocks_live = site_blocks s.interval_tree ap)
    (hg : s.g_cur_bytes_live = all_bytes s.interval_tree ∧
      s.g_cur_blocks_live = s.interval_tree.length) :
    (∀ ap, (site s1 ap = none → site_blocks s1.interval_tree ap = 0) ∧
      ∀ a, site s1 ap = some a →
        a.cur_bytes_live = site_bytes s1.interval_tree ap ∧
        a.cur_blocks_live = site_blocks s1.interval_tree ap) ∧
    s1.g_cur_bytes_live = all_bytes s1.interval_tree ∧
    s1.g_cur_blocks_live = s1.interval_tree.length := by
  induction evs generalizing s with
  | nil =>
    simp only [run, Option.some.injEq] at hr
    subst hr
    exact ⟨hsite, hg⟩
  | cons e es ih =>
    simp only [run] at hr
    cases hs : step s e with
    | none => rw [hs] at hr; simp at hr
    | some s2 =>
      rw [hs] at hr
      simp only [HostOKrun, hs] at hhost
      have he := hspace e (List.mem_cons_self _ _)
      have hno2 := step_noOverlap s s2 e hno hhost.1 hs
      have hne2 := step_nonEmpty s s2 e hs hne
      have hsp2 := step_space s s2 e hs he hsp
      obtain ⟨h1, h2⟩ := step_sums_core s s2 e hs (all_bytes_lt_of_space _ hno hsp)
        (length_le_all_bytes _ hne) (all_bytes_lt_of_space _ hno2 hsp2)
        (length_le_all_bytes _ hne2) hsite hg
      exact ih s2 hr hhost.2 (fun x hx => hspace x (List.mem_cons_of_mem _ hx))
        hno2 hne2 hsp2 h1 h2

theorem run_sums (evs : List Event) (s s1 : State) (hr : run s evs = some s1)
    (htop : ∀ e ∈ evs, HostBelowTop e) (hwf : WellFormed s.interval_tree)
    (hsite : ∀ ap, (site s ap = none → site_blocks s.interval_tree ap = 0) ∧
      ∀ a, site s ap = some a →
        a.cur_bytes_live = site_bytes s.interval_tree ap ∧
        a.cur_blocks_live = site_blocks s.interval_tree ap)
    (hg : s.g_cur_bytes_live = all_bytes s.interval_tree ∧
      s.g_cur_blocks_live = s.interval_tree.length) :
    (∀ ap, (site s1 ap = none → site_blocks s1.interval_tree ap = 0) ∧
      ∀ a, site s1 ap = some a →
        a.cur_bytes_live = site_bytes s1.interval_tree ap ∧
        a.cur_blocks_live = site_blocks s1.interval_tree ap) ∧
    s1.g_cur_bytes_live = all_bytes s1.interval_tree ∧
    s1.g_cur_blocks_live = s1.interval_tree.length := by
  induction evs generalizing s with
  | nil =>
    simp only [run, Option.some.injEq] at hr
    subst hr
    exact ⟨hsite, hg⟩
  | cons e es ih =>
    simp only [run] at hr
    cases hs : step s e with
    | none => rw [hs] at hr; simp at hr
    | some s2 =>
      rw [hs] at hr
      have he := htop e (List.mem_cons_self _ _)
      obtain ⟨h1, h2⟩ := step_sums s s2 e hs he hwf hsite hg
      exact ih s2 hr (fun x hx => htop x (List.mem_cons_of_mem _ hx))
        (step_wellFormed s s2 e hs he hwf) h1 h2

theorem init_sums :
    (∀ ap, (site init_State ap = none → site_blocks init_State.interval_tree ap = 0) ∧
      ∀ a, site init_State ap = some a →
        a.cur_bytes_live = site_bytes init_State.interval_tree ap ∧
        a.cur_blocks_live = site_blocks init_State.interval_tree ap) ∧
    init_State.g_cur_bytes_live = all_bytes init_State.interval_tree ∧
    init_State.g_cur_blocks_live = init_State.interval_tree.length := by
  refine ⟨fun ap => ⟨fun _ => rfl, fun a ha => ?_⟩, rfl, rfl⟩
  simp [site, lookup_site, init_State, lookupFM] at ha

/-- C35: in every state reached from the initial state by a stream of events
for which the host allocator keeps its contract (the storage it hands out is
disjoint from every block of the index and lies within the address space,
`host_p + size <= 2^64`), the `cur_bytes_live` of every site record is the
sum of `req_szB` over the blocks of the interval tree whose `ap` is that
site and its `cur_blocks_live` is the number of these blocks;
`g_cur_bytes_live` and `g_cur_blocks_live` are the sum of the sizes and the
number of all the blocks of the tree; and every block of the tree has a site
record. -/
theorem live_counters_are_sums (evs : List Event) (s : State)
    (hrun : run init_State evs = some s) (hhost : HostOKrun init_State evs)
    (hspace : ∀ e ∈ evs, HostInSpace e) :
    (∀ ap a, site s ap = some a →
      a.cur_bytes_live = site_bytes s.interval_tree ap ∧
      a.cur_blocks_live = site_blocks s.interval_tree ap) ∧
    s.g_cur_bytes_live = all_bytes s.interval_tree ∧
    s.g_cur_blocks_live = s.interval_tree.length ∧
    ∀ b ∈ live_blocks s, ∃ a, site s b.ap = some a := by
  obtain ⟨h1, h2, h3⟩ := run_sums_host evs init_State s hrun hhost hspace
    (by decide) (by decide) (by intro x hx; simp [init_State] at hx) init_sums.1 init_sums.2
  refine ⟨fun ap a ha => (h1 ap).2 a ha, h2, h3, fun b hb => ?_⟩
  have hmem : (b, ()) ∈ s.interval_tree := by
    unfold live_blocks at hb
    rw [List.mem_map] at hb
    obtain ⟨x, hx, rfl⟩ := hb
    exact hx
  have hpos := site_blocks_pos_of_mem _ _ hmem
  cases hsa : site s b.ap with
  | none =>
    have := (h1 b.ap).1 hsa
    omega
  | some a => exact ⟨a, rfl⟩

theorem live_counters_are_sums_witness :
    run init_State [Event.alloc 7 1000 8, Event.alloc 7 18446744073709551600 16,
      Event.free 1000, Event.alloc 9 3000 4, Event.resize 4000 3000 40] = some
        ((run init_State [Event.alloc 7 1000 8, Event.alloc 7 18446744073709551600 16,
          Event.free 1000, Event.alloc 9 3000 4, Event.resize 4000 3000 40]).getD
            init_State) ∧
    HostOKrun init_State [Event.alloc 7 1000 8, Event.alloc 7 18446744073709551600 16,
      Event.free 1000, Event.alloc 9 3000 4, Event.resize 4000 3000 40] ∧
    (site ((run init_State [Event.alloc 7 1000 8, Event.alloc 7 18446744073709551600 16,
      Event.free 1000, Event.alloc 9 3000 4, Event.resize 4000 3000 40]).getD init_State)
        9).map (fun a => (a.cur_bytes_live, a.cur_blocks_live)) = some (40, 1) ∧
    (∀ ap a, site ((run init_State [Event.alloc 7 1000 8,
          Event.alloc 7 18446744073709551600 16, Event.free 1000, Event.alloc 9 3000 4,
          Event.resize 4000 3000 40]).getD init_State) ap = some a →
      a.cur_bytes_live = site_bytes ((run init_State [Event.alloc 7 1000 8,
          Event.alloc 7 18446744073709551600 16, Event.free 1000, Event.alloc 9 3000 4,
          Event.resize 4000 3000 40]).getD init_State).interval_tree ap ∧
      a.cur_blocks_live = site_blocks ((run init_State [Event.alloc 7 1000 8,
          Event.alloc 7 18446744073709551600 16, Event.free 1000, Event.alloc 9 3000 4,
          Event.resize 4000 3000 40]).getD init_State).interval_tree ap) :=
  ⟨by decide, by decide, by decide,
    (live_counters_are_sums [Event.alloc 7 1000 8, Event.alloc 7 18446744073709551600 16,
      Event.free 1000, Event.alloc 9 3000 4, Event.resize 4000 3000 40] _
      (by decide) (by decide) (by decide)).1⟩

/-! ### The map of allocation points is in key order -/

theorem modifyFM_keys (fm : WordFM Nat APInfo) (k : Nat) (f : Nat × APInfo → Nat × APInfo)
    (hf : ∀ kv, (f kv).1 = kv.1) :
    (modifyFM cmp_unsigned_Words fm k f).map Prod.fst = fm.map Prod.fst := by
  induction fm with
  | nil => rfl
  | cons hd tl ih =>
    obtain ⟨tk, tv⟩ := hd
    rw [modifyFM_apinfo_cons]
    split_ifs
    · rfl
    · simp only [List.map_cons, ih]
    · simp only [List.map_cons, hf]

theorem modifyFM_value_keys (fm : WordFM Nat APInfo) (k : Nat) (w : APInfo) :
    (modifyFM cmp_unsigned_Words fm k (fun kv => (kv.1, w))).map Prod.fst = fm.map Prod.fst :=
  modifyFM_keys fm k _ (fun _ => rfl)

theorem addToFM_words_sorted (fm fm1 : WordFM Nat APInfo) (k : Nat) (v : APInfo)
    (hs : (fm.map Prod.fst).Pairwise (fun a b => a < b))
    (h : addToFM cmp_unsigned_Words fm k v = some (fm1, false)) :
    (fm1.map Prod.fst).Pairwise (fun a b => a < b) ∧
    ∀ x ∈ fm1, x ∈ fm ∨ x = (k, v) := by
  induction fm generalizing fm1 with
  | nil =>
    simp only [addToFM, Option.some.injEq, Prod.mk.injEq, and_true] at h
    subst h
    simp
  | cons hd tl ih =>
    obtain ⟨tk, tv⟩ := hd
    rw [addToFM_apinfo_cons] at h
    simp only [List.map_cons, List.pairwise_cons] at hs
    by_cases h1 : tk > k
    · rw [if_pos h1] at h
      simp only [Option.some.injEq, Prod.mk.injEq, and_true] at h
      subst h
      refine ⟨?_, ?_⟩
      · simp only [List.map_cons, List.pairwise_cons]
        refine ⟨?_, hs⟩
        intro a ha
        rcases List.mem_cons.1 ha with rfl | ha
        · exact h1
        · exact lt_trans h1 (hs.1 a ha)
      · intro x hx
        rcases List.mem_cons.1 hx with rfl | hx
        · exact Or.inr rfl
        · exact Or.inl hx
    · rw [if_neg h1] at h
      by_cases h2 : tk < k
      · rw [if_pos h2] at h
        cases hr : addToFM cmp_unsigned_Words tl k v with
        | none => rw [hr] at h; simp at h
        | some r =>
          obtain ⟨r1, p⟩ := r
          rw [hr] at h
          simp only [Option.some.injEq, Prod.mk.injEq] at h
          obtain ⟨rfl, rfl⟩ := h
          obtain ⟨i1, i2⟩ := ih r1 hs.2 hr
          refine ⟨?_, ?_⟩
          · simp only [List.map_cons, List.pairwise_cons]
            refine ⟨?_, i1⟩
            intro a ha
            rw [List.mem_map] at ha
            obtain ⟨x, hx, rfl⟩ := ha
            rcases i2 x hx with hx | rfl
            · exact hs.1 x.1 (List.mem_map.2 ⟨x, hx, rfl⟩)
            · exact h2
          · intro x hx
            rcases List.mem_cons.1 hx with rfl | hx
            · exact Or.inl (List.mem_cons_self _ _)
            · rcases i2 x hx with hx | rfl
              · exact Or.inl (List.mem_cons_of_mem _ hx)
              · exact Or.inr rfl
      · rw [if_neg h2] at h
        simp at h

theorem intro_lookup_sorted (fm fm1 : WordFM Nat APInfo) (ap : Nat) (api : APInfo)
    (hs : (fm.map Prod.fst).Pairwise (fun a b => a < b))
    (h : intro_lookup fm ap = some (api, fm1)) :
    (fm1.map Prod.fst).Pairwise (fun a b => a < b) := by
  unfold intro_lookup at h
  rw [lookupFM_apinfo_total] at h
  cases hl : lookup_site fm ap with
  | none =>
    simp only [hl, Option.map_none'] at h
    cases ha : addToFM cmp_unsigned_Words fm ap (new_APInfo ap) with
    | none => simp [ha] at h
    | some r =>
      obtain ⟨r1, p⟩ := r
      simp only [ha] at h
      cases p with
      | true => simp at h
      | false =>
        simp only [Bool.false_eq_true, if_false, Option.some.injEq, Prod.mk.injEq] at h
        obtain ⟨-, rfl⟩ := h
        exact (addToFM_words_sorted fm r1 ap _ hs ha).1
  | some a =>
    simp only [hl, Option.map_some', if_true, Option.some.injEq, Prod.mk.injEq] at h
    obtain ⟨-, rfl⟩ := h
    exact hs

theorem lookup_site_of_mem (fm : WordFM Nat APInfo)
    (hs : (fm.map Prod.fst).Pairwise (fun a b => a < b)) (k : Nat) (a : APInfo)
    (h : (k, a) ∈ fm) : lookup_site fm k = some a := by
  induction fm with
  | nil => simp at h
  | cons hd tl ih =>
    obtain ⟨tk, tv⟩ := hd
    simp only [List.map_cons, List.pairwise_cons] at hs
    rw [lookup_site_cons]
    rcases List.mem_cons.1 h with e | h
    · simp only [Prod.mk.injEq] at e
      obtain ⟨rfl, rfl⟩ := e
      simp
    · have := hs.1 k (List.mem_map.2 ⟨(k, a), h, rfl⟩)
      rw [if_neg (by omega), if_pos this]
      exact ih hs.2 h

theorem step_apinfo_sorted (s s1 : State) (e : Event) (hs : step s e = some s1)
    (h : (s.apinfo.map Prod.fst).Pairwise (fun a b => a < b)) :
    (s1.apinfo.map Prod.fst).Pairwise (fun a b => a < b) := by
  rcases step_effect s s1 e hs with (rfl | ⟨n, -, rfl⟩) |
    ⟨ec, host_p, szB, l1, l2, -, -, -, e1, -, hintro⟩ |
    ⟨bk, l1, l2, s2, -, e1, hr, rfl⟩ |
    ⟨host_p, szB, bk, l1, l2, s2, t2, rfl, hpos, e1, hch, rfl, ht2⟩ |
    ⟨bk, bk2, l1, l2, e1, rfl, hp, hsz, hap, -⟩
  · exact h
  · exact h
  · obtain ⟨api, fm, -, hl, -, rfl⟩ := intro_Block_inv _ _ _ hintro
    show ((modifyFM cmp_unsigned_Words fm _ _).map Prod.fst).Pairwise _
    rw [modifyFM_value_keys]
    exact intro_lookup_sorted _ _ _ _ h hl
  · obtain ⟨k, api0, api10, api20, -, -, -, -, -, -, -, -, -, -, rfl⟩ := retire_Block_inv _ _ _ hr
    show ((modifyFM cmp_unsigned_Words s.apinfo _ _).map Prod.fst).Pairwise _
    rw [modifyFM_value_keys]
    exact h
  · obtain ⟨k, api0, -, -, -, -, rfl⟩ := apinfo_change_inv _ _ _ _ hch
    show ((modifyFM cmp_unsigned_Words s.apinfo _ _).map Prod.fst).Pairwise _
    rw [modifyFM_value_keys]
    exact h
  · exact h

theorem run_apinfo_sorted (evs : List Event) (s s1 : State) (hr : run s evs = some s1)
    (h : (s.apinfo.map Prod.fst).Pairwise (fun a b => a < b)) :
    (s1.apinfo.map Prod.fst).Pairwise (fun a b => a < b) := by
  induction evs generalizing s with
  | nil =>
    simp only [run, Option.some.injEq] at hr
    subst hr
    exact h
  | cons e es ih =>
    simp only [run] at hr
    cases hs : step s e with
    | none => rw [hs] at hr; simp at hr
    | some s2 =>
      rw [hs] at hr
      exact ih s2 hr (step_apinfo_sorted s s2 e hs h)

/-- In a reachable state, every record of the map is the record that a
lookup of its key finds. -/
theorem run_site_of_mem (evs : List Event) (s : State) (hrun : run init_State evs = some s)
    (k : Nat) (a : APInfo) (h : (k, a) ∈ s.apinfo) : site s k = some a :=
  lookup_site_of_mem _ (run_apinfo_sorted evs init_State s hrun (by simp [init_State])) k a h

/-! ### The order between the counters of a site record -/

theorem chain_new (ap : Nat) : counters_chain (new_APInfo ap) := by
  unfold counters_chain new_APInfo
  simp

theorem chain_intro (a : APInfo) (sz : Nat) (h : counters_chain a)
    (hb : a.tot_bytes ≤ (intro_APInfo a sz).tot_bytes)
    (hn : a.tot_blocks ≤ (intro_APInfo a sz).tot_blocks) :
    counters_chain (intro_APInfo a sz) := by
  unfold counters_chain at h ⊢
  obtain ⟨h1, h2, h3, h4, h5, h6⟩ := h
  simp only [intro_APInfo, addU, WORD] at hb hn h3 h6 ⊢
  refine ⟨?_, ?_, ?_, ?_, ?_, ?_⟩
  · split_ifs <;> omega
  · split_ifs <;> omega
  · omega
  · omega
  · split_ifs <;> omega
  · omega

theorem chain_retire (a a1 a2 : APInfo) (bk : Block) (clock : Nat) (h : counters_chain a)
    (hblocks : 1 ≤ a.cur_blocks_live) (hbytes : bk.req_szB ≤ a.cur_bytes_live)
    (hx : retire_xsize (retire_APInfo_stats a bk clock) bk = some a1)
    (hf : retire_fold a1 bk = some a2) : counters_chain a2 := by
  obtain ⟨-, c1, c2, c3, c4, c5, c6, -⟩ := retire_counters _ _ _ _ _ hx hf
  unfold counters_chain at h ⊢
  obtain ⟨h1, h2, h3, h4, h5, h6⟩ := h
  rw [c1, c2, c3, c4, c5, c6, subU_of_le _ _ hblocks (by omega),
    subU_of_le _ _ hbytes (by omega)]
  refine ⟨?_, h2, h3, ?_, h5, h6⟩ <;> omega

theorem change_cur_bytes_le (cur : Nat) (d : Int) (hc : cur < WORD) (hd0 : d ≤ 0)
    (hd : -9223372036854775808 ≤ d) (hle : d < 0 → ofLong (-d) ≤ cur) :
    addU cur (ofLong d) ≤ cur := by
  have hI := addU_ofLong cur d
  rcases lt_or_eq_of_le hd0 with hneg | rfl
  · have h1 := (ofLong_of_neg d hneg hd).2
    have h2 := hle hneg
    simp only [WORD] at hc
    omega
  · simp only [WORD] at hc
    omega

theorem chain_change (a : APInfo) (d : Int) (h : counters_chain a)
    (hd : -9223372036854775808 ≤ d ∧ d < 9223372036854775808)
    (hle : d < 0 → ofLong (-d) ≤ a.cur_bytes_live)
    (hb : a.tot_bytes ≤ (change_APInfo a d).tot_bytes) :
    counters_chain (change_APInfo a d) := by
  unfold counters_chain at h ⊢
  obtain ⟨h1, h2, h3, h4, h5, h6⟩ := h
  by_cases hpos : d > 0
  · have ho := ofLong_of_nonneg d (le_of_lt hpos) hd.2
    simp only [change_APInfo, hpos, if_true, true_and] at hb ⊢
    simp only [addU, WORD] at hb h3 ⊢
    refine ⟨?_, ?_, ?_, h4, ?_, h6⟩
    · split_ifs <;> omega
    · split_ifs <;> omega
    · omega
    · split_ifs <;> omega
  · have hc := change_cur_bytes_le a.cur_bytes_live d (by omega) (by omega) hd.1 hle
    simp only [change_APInfo, hpos, if_false, false_and]
    exact ⟨by omega, h2, h3, h4, h5, h6⟩

theorem totals_kept_site (s s1 : State) (h : totals_kept s s1) (ap : Nat)
    (api api1 : APInfo) (h1 : site s ap = some api) (h2 : site s1 ap = some api1) :
    api.tot_bytes ≤ api1.tot_bytes ∧ api.tot_blocks ≤ api1.tot_blocks :=
  h (ap, api) (lookup_site_mem _ _ _ h1) api1 (by simpa using h2)

theorem step_chain (s s1 : State) (e : Event) (hs : step s e = some s1)
    (hk : totals_kept s s1)
    (hinv : ∀ ap a, site s ap = some a → counters_chain a) :
    ∀ ap a, site s1 ap = some a → counters_chain a := by
  intro ap a1 h1
  rcases step_site_cases s s1 e hs ap with h | ⟨sz, h⟩ | ⟨api, bk, x1, x2, h0, hb, hle, hx, hf, h⟩ |
      ⟨api, x, h0, hle, h⟩
  · rw [h] at h1
    exact hinv ap a1 h1
  · rw [h] at h1
    simp only [Option.some.injEq] at h1
    subst h1
    cases h0 : site s ap with
    | none =>
      simp only [Option.getD_none]
      exact chain_intro _ _ (chain_new ap) (Nat.zero_le _) (Nat.zero_le _)
    | some api =>
      have hkept := totals_kept_site s s1 hk ap api _ h0 h
      simp only [h0, Option.getD_some] at hkept ⊢
      exact chain_intro _ _ (hinv ap api h0) hkept.1 hkept.2
  · rw [h] at h1
    simp only [Option.some.injEq] at h1
    subst h1
    exact chain_retire api x1 _ bk _ (hinv ap api h0) hb hle hx hf
  · rw [h] at h1
    simp only [Option.some.injEq] at h1
    subst h1
    have hkept := totals_kept_site s s1 hk ap api _ h0 h
    exact chain_change api _ (hinv ap api h0) (wrapLong_range x) hle hkept.1

theorem run_chain (evs : List Event) (s s1 : State) (hr : run s evs = some s1)
    (hw : NoTotalsWrap s evs)
    (hinv : ∀ ap a, site s ap = some a → counters_chain a) :
    ∀ ap a, site s1 ap = some a → counters_chain a := by
  induction evs generalizing s with
  | nil =>
    simp only [run, Option.some.injEq] at hr
    subst hr
    exact hinv
  | cons e es ih =>
    simp only [run] at hr
    cases hs : step s e with
    | none => rw [hs] at hr; simp at hr
    | some s2 =>
      rw [hs] at hr
      simp only [NoTotalsWrap, hs] at hw
      exact ih s2 hr hw.2 (step_chain s s2 e hs hw.1 hinv)

theorem step_g_cur_le_max (s s1 : State) (e : Event) (hs : step s e = some s1)
    (h : s.g_cur_bytes_live ≤ s.g_max_bytes_live ∧ s.g_max_bytes_live < WORD) :
    s1.g_cur_bytes_live ≤ s1.g_max_bytes_live ∧ s1.g_max_bytes_live < WORD := by
  rcases step_effect s s1 e hs with (rfl | ⟨n, -, rfl⟩) |
    ⟨ec, host_p, szB, l1, l2, -, -, -, e1, -, hintro⟩ |
    ⟨bk, l1, l2, s2, -, e1, hr, rfl⟩ |
    ⟨host_p, szB, bk, l1, l2, s2, t2, rfl, hpos, e1, hch, rfl, ht2⟩ |
    ⟨bk, bk2, l1, l2, e1, rfl, hp, hsz, hap, -⟩
  · exact h
  · exact h
  · obtain ⟨api, fm, -, hl, -, rfl⟩ := intro_Block_inv _ _ _ hintro
    have h2 := h.2
    simp only [intro_globals, addU, WORD] at h2 ⊢
    split_ifs <;> omega
  · obtain ⟨k, api0, api10, api20, -, -, -, -, -, -, -, hle, -, -, rfl⟩ :=
      retire_Block_inv _ _ _ hr
    show subU s.g_cur_bytes_live bk.req_szB ≤ s.g_max_bytes_live ∧ s.g_max_bytes_live < WORD
    rw [subU_of_le _ _ hle (by omega)]
    omega
  · obtain ⟨k, api0, -, -, -, hle, rfl⟩ := apinfo_change_inv _ _ _ _ hch
    have hd := wrapLong_range (toLong szB - toLong bk.req_szB)
    show addU s.g_cur_bytes_live (ofLong (wrapLong (toLong szB - toLong bk.req_szB))) ≤
        (if wrapLong (toLong szB - toLong bk.req_szB) > 0 ∧
            addU s.g_cur_bytes_live (ofLong (wrapLong (toLong szB - toLong bk.req_szB))) >
              s.g_max_bytes_live
          then addU s.g_cur_bytes_live (ofLong (wrapLong (toLong szB - toLong bk.req_szB)))
          else s.g_max_bytes_live) ∧
        (if wrapLong (toLong szB - toLong bk.req_szB) > 0 ∧
            addU s.g_cur_bytes_live (ofLong (wrapLong (toLong szB - toLong bk.req_szB))) >
              s.g_max_bytes_live
          then addU s.g_cur_bytes_live (ofLong (wrapLong (toLong szB - toLong bk.req_szB)))
          else s.g_max_bytes_live) < WORD
    have hlt := addU_lt s.g_cur_bytes_live (ofLong (wrapLong (toLong szB - toLong bk.req_szB)))
    by_cases hpos : wrapLong (toLong szB - toLong bk.req_szB) > 0
    · simp only [hpos, true_and]
      split_ifs <;> omega
    · have hc := change_cur_bytes_le s.g_cur_bytes_live _ (by omega) (by omega) hd.1 hle
      simp only [hpos, false_and, if_false]
      omega
  · exact h

theorem run_g_cur_le_max (evs : List Event) (s s1 : State) (hr : run s evs = some s1)
    (h : s.g_cur_bytes_live ≤ s.g_max_bytes_live ∧ s.g_max_bytes_live < WORD) :
    s1.g_cur_bytes_live ≤ s1.g_max_bytes_live ∧ s1.g_max_bytes_live < WORD := by
  induction evs generalizing s with
  | nil =>
    simp only [run, Option.some.injEq] at hr
    subst hr
    exact h
  | cons e es ih =>
    simp only [run] at hr
    cases hs : step s e with
    | none => rw [hs] at hr; simp at hr
    | some s2 =>
      rw [hs] at hr
      exact ih s2 hr (step_g_cur_le_max s s2 e hs h)

theorem show_APInfo_of_chain (a : APInfo) (h : counters_chain a) : show_APInfo a = some () := by
  unfold counters_chain at h
  unfold show_APInfo
  rw [if_neg (by omega), if_neg (by omega)]

theorem change_cur_bytes_le_any (cur : Nat) (d : Int) (hc : cur < WORD) (hd0 : d ≤ 0)
    (hle : d < 0 → ofLong (-d) ≤ cur) : addU cur (ofLong d) ≤ cur := by
  have hI := addU_ofLong cur d
  rcases lt_or_eq_of_le hd0 with hneg | rfl
  · have h2 := hle hneg
    have h1 : ((ofLong (-d) : Nat) : Int) = (-d) % 18446744073709551616 := by
      unfold ofLong
      exact Int.toNat_of_nonneg (Int.emod_nonneg _ (by decide))
    simp only [WORD] at hc
    omega
  · simp only [WORD] at hc
    omega

theorem run_cur_le_max (evs : List Event) (s : State) (hrun : run init_State evs = some s) :
    ∀ ap a, site s ap = some a →
      a.cur_bytes_live ≤ a.max_bytes_live ∧ a.max_bytes_live < WORD := by
  refine run_site_invariant
    (fun a => a.cur_bytes_live ≤ a.max_bytes_live ∧ a.max_bytes_live < WORD)
    ?_ ?_ ?_ ?_ evs init_State s hrun ?_
  · intro ap
    simp [new_APInfo]
  · intro a sz h
    have h2 := h.2
    simp only [intro_APInfo, addU, WORD] at h2 ⊢
    split_ifs <;> omega
  · intro a bk clock a1 a2 h hb hle hx hf
    obtain ⟨-, -, c2, -, c4, -⟩ := retire_counters _ _ _ _ _ hx hf
    simp only at h ⊢
    rw [c2, c4, subU_of_le _ _ hle (by omega)]
    omega
  · intro a d h hle
    simp only at h ⊢
    have hlt := addU_lt a.cur_bytes_live (ofLong d)
    by_cases hpos : d > 0
    · simp only [change_APInfo, hpos, true_and]
      split_ifs <;> omega
    · have hc := change_cur_bytes_le_any a.cur_bytes_live d (by omega) (by omega) hle
      simp only [change_APInfo, hpos, false_and, if_false]
      omega
  · intro ap a h
    simp [site, init_State, lookup_site_nil] at h

/-- In every state reached from the initial state, every site record has
`cur_bytes_live <= max_bytes_live`, and `g_cur_bytes_live <=
g_max_bytes_live`; and when, along the stream, no event has wrapped the
64-bit `tot_bytes` or `tot_blocks` of a site around, every site record also
has `max_bytes_live <= tot_bytes` and `max_blocks_live <= tot_blocks`, so
that the two assertions at the start of `show_APInfo` hold for it. -/
theorem site_counters_chain (evs : List Event) (s : State)
    (hrun : run init_State evs = some s) :
    (∀ kv ∈ s.apinfo, kv.2.cur_bytes_live ≤ kv.2.max_bytes_live) ∧
    s.g_cur_bytes_live ≤ s.g_max_bytes_live ∧
    (NoTotalsWrap init_State evs → ∀ kv ∈ s.apinfo,
      kv.2.max_bytes_live ≤ kv.2.tot_bytes ∧ kv.2.max_blocks_live ≤ kv.2.tot_blocks ∧
      show_APInfo kv.2 = some ()) := by
  refine ⟨fun kv hkv => ?_, ?_, fun hw kv hkv => ?_⟩
  · exact (run_cur_le_max evs s hrun kv.1 kv.2 (run_site_of_mem evs s hrun kv.1 kv.2 hkv)).1
  · exact (run_g_cur_le_max evs init_State s hrun (by decide)).1
  · have hc := run_chain evs init_State s hrun hw
      (fun ap a h => by simp [site, init_State, lookup_site_nil] at h)
      kv.1 kv.2 (run_site_of_mem evs s hrun kv.1 kv.2 hkv)
    exact ⟨hc.2.1, hc.2.2.2.2.1, show_APInfo_of_chain _ hc⟩

/-- C37 (the code at the failing input): two blocks of `2^63 - 1` bytes are
allocated and freed at site 7, then a block of 2 bytes is allocated there.
The third `tot_bytes += req_szB` of `intro_Block` wraps the 64-bit counter
of the site to 0 while its `max_bytes_live` is `2^63 - 1`: `max_bytes_live
<= tot_bytes` is false for the record, and the second assertion of
`show_APInfo`, `tot_bytes >= max_bytes_live`, fails for it. -/
theorem max_bytes_live_exceeds_wrapped_tot_bytes :
    (run init_State
      [Event.alloc 7 1 9223372036854775807, Event.free 1,
       Event.alloc 7 1 9223372036854775807, Event.free 1,
       Event.alloc 7 1 2]).bind
      (fun s => (site s 7).map
        (fun a => (a.cur_bytes_live, a.max_bytes_live, a.tot_bytes, show_APInfo a))) =
      some (2, 9223372036854775807, 0, none) := by
  decide

/-! ### The peaks of a site record are at least 1 -/

theorem step_peaks (s s1 : State) (e : Event) (hs : step s e = some s1)
    (hsum1 : ∀ ap a, site s1 ap = some a →
      a.cur_bytes_live = site_bytes s1.interval_tree ap ∧
      a.cur_blocks_live = site_blocks s1.interval_tree ap)
    (hne1 : NonEmptyBlocks s1.interval_tree)
    (hinv : ∀ ap a, site s ap = some a → 1 ≤ a.max_bytes_live ∧ 1 ≤ a.max_blocks_live) :
    ∀ ap a, site s1 ap = some a → 1 ≤ a.max_bytes_live ∧ 1 ≤ a.max_blocks_live := by
  intro ap a1 h1
  obtain ⟨hb, hn⟩ := hsum1 ap a1 h1
  have hle := site_blocks_le_bytes s1.interval_tree ap hne1
  cases h0 : site s ap with
  | none =>
    rcases step_site_cases s s1 e hs ap with c | ⟨sz, c⟩ |
        ⟨a0, bk, x1, x2, c0, -⟩ | ⟨a0, x, c0, -⟩
    · rw [c, h0] at h1; simp at h1
    · rw [c, h0] at h1
      simp only [Option.getD_none, Option.some.injEq] at h1
      subst h1
      have e1 : (intro_APInfo (new_APInfo ap) sz).cur_blocks_live = 1 := by
        simp [intro_APInfo, new_APInfo, addU]
      rw [e1] at hn
      have hpos : 0 < (intro_APInfo (new_APInfo ap) sz).cur_bytes_live := by omega
      simp only [intro_APInfo, new_APInfo] at hpos ⊢
      rw [if_pos hpos, if_pos hpos]
      refine ⟨hpos, ?_⟩
      simp [addU]
    · rw [h0] at c0; simp at c0
    · rw [h0] at c0; simp at c0
  | some a =>
    obtain ⟨i1, i2⟩ := hinv ap a h0
    rcases step_site_snapshot s s1 e hs ap a a1 h0 h1 with ⟨c1, c2⟩ | ⟨c1, c2, c3⟩
    · omega
    · refine ⟨by omega, ?_⟩
      rw [c3, hn]
      by_contra hc
      have := site_bytes_zero s1.interval_tree ap (by omega)
      omega

theorem run_peaks (evs : List Event) (s s1 : State) (hr : run s evs = some s1)
    (htop : ∀ e ∈ evs, HostBelowTop e) (hwf : WellFormed s.interval_tree)
    (hsite : ∀ ap, (site s ap = none → site_blocks s.interval_tree ap = 0) ∧
      ∀ a, site s ap = some a →
        a.cur_bytes_live = site_bytes s.interval_tree ap ∧
        a.cur_blocks_live = site_blocks s.interval_tree ap)
    (hg : s.g_cur_bytes_live = all_bytes s.interval_tree ∧
      s.g_cur_blocks_live = s.interval_tree.length)
    (hinv : ∀ ap a, site s ap = some a → 1 ≤ a.max_bytes_live ∧ 1 ≤ a.max_blocks_live) :
    ∀ ap a, site s1 ap = some a → 1 ≤ a.max_bytes_live ∧ 1 ≤ a.max_blocks_live := by
  induction evs generalizing s with
  | nil =>
    simp only [run, Option.some.injEq] at hr
    subst hr
    exact hinv
  | cons e es ih =>
    simp only [run] at hr
    cases hs : step s e with
    | none => rw [hs] at hr; simp at hr
    | some s2 =>
      rw [hs] at hr
      have he := htop e (List.mem_cons_self _ _)
      obtain ⟨h1, h2⟩ := step_sums s s2 e hs he hwf hsite hg
      have hwf2 := step_wellFormed s s2 e hs he hwf
      exact ih s2 hr (fun x hx => htop x (List.mem_cons_of_mem _ hx)) hwf2 h1 h2
        (step_peaks s s2 e hs (fun ap a ha => (h1 ap).2 a ha) hwf2.2.1 hinv)

/-! ### A listing that is long enough lists every position -/

theorem nodup_covers (em : List Nat) (L : Nat) (hnd : em.Nodup) (hlt : ∀ i ∈ em, i < L)
    (hlen : L ≤ em.length) : ∀ j, j < L → j ∈ em := by
  intro j hj
  have hsub : em.toFinset ⊆ Finset.range L := by
    intro i hi
    rw [List.mem_toFinset] at hi
    exact Finset.mem_range.2 (hlt i hi)
  have hcard : (Finset.range L).card ≤ em.toFinset.card := by
    rw [Finset.card_range, List.toFinset_card_of_nodup hnd]
    exact hlen
  have heq := Finset.eq_of_subset_of_card_le hsub hcard
  have : j ∈ em.toFinset := by
    rw [heq]
    exact Finset.mem_range.2 hj
  exact List.mem_toFinset.1 this

/-- In decreasing mode the listing never holds a record whose metric is 0,
and when `N` is at least the number of records it holds every record whose
metric is not 0. -/
theorem show_topN_nonzero (gm : APInfo → Nat)
    (hm : ∀ (api : APInfo) (b : Bool), gm { api with shown := b } = gm api)
    (N : Nat) (fm fm1 : WordFM Nat APInfo) (em : List Nat)
    (h : show_topN_apinfos gm false N fm = some (em, fm1)) :
    em.Nodup ∧ (∀ i ∈ em, i < fm.length ∧ 0 < metric_at gm fm i) ∧
    (fm.length ≤ N → ∀ j, j < fm.length → 0 < metric_at gm fm j → j ∈ em) := by
  unfold show_topN_apinfos at h
  cases h0 : clear_shown fm with
  | none => rw [h0] at h; simp at h
  | some fm0 =>
    rw [h0] at h
    simp only at h
    obtain ⟨c1, c2⟩ := clear_shown_spec fm fm0 h0
    have hmet := clear_shown_metric gm hm fm fm0 h0
    obtain ⟨i1, i2, i3, -, -, i6⟩ := show_loop_desc gm hm N fm0 fm1 em h
    have hrange : ∀ i ∈ em, i < fm.length ∧ 0 < metric_at gm fm i := by
      intro i hi
      obtain ⟨x, q1, -, q3⟩ := i2 i hi
      refine ⟨?_, ?_⟩
      · by_contra hc
        rw [List.getElem?_eq_none (by omega)] at q1
        exact absurd q1 (by simp)
      · rw [← hmet i]
        unfold metric_at
        rw [q1]
        exact q3
    refine ⟨i3, hrange, fun hN j hj hpos => ?_⟩
    by_cases hlen : em.length < N
    · by_contra hc
      have hj0 : j < fm0.length := by omega
      have hx : fm0[j]? = some (fm0[j]) := List.getElem?_eq_getElem hj0
      have hsh : (fm0[j]).2.shown = false := by
        have := c2 j
        rw [hx] at this
        cases hfj : fm[j]? with
        | none => rw [hfj] at this; simp at this
        | some kv =>
          rw [hfj] at this
          simp only [Option.map_some', Option.some.injEq] at this
          rw [this]
      have hz := i6 hlen j _ hx hsh hc
      rw [← hmet j] at hpos
      unfold metric_at at hpos
      rw [hx] at hpos
      simp only at hpos
      omega
    · exact nodup_covers em fm.length i3 (fun i hi => (hrange i hi).1) (by omega) j hj

theorem show_topN_total (gm : APInfo → Nat) (N : Nat) (fm : WordFM Nat APInfo)
    (hall : ∀ kv ∈ fm, kv.2.ap = kv.1 ∧ show_APInfo kv.2 = some ()) :
    ∃ r, show_topN_apinfos gm false N fm = some r := by
  obtain ⟨fm0, h0⟩ := clear_shown_total fm (fun kv hkv => (hall kv hkv).1)
  unfold show_topN_apinfos
  rw [h0]
  apply show_loop_total
  intro j x hx
  rw [(clear_shown_spec fm fm0 h0).2 j] at hx
  cases hj : fm[j]? with
  | none => rw [hj] at hx; simp at hx
  | some kv =>
    rw [hj] at hx
    simp only [Option.map_some', Option.some.injEq] at hx
    rw [← hx]
    exact (hall kv (List.mem_iff_getElem?.2 ⟨j, hj⟩)).2

/-- In decreasing mode `show_topN_apinfos` never lists a record whose
metric is 0 and lists no record twice, and when `N` is at least the number
of records it lists every record whose metric is not 0.  In a state reached
by a stream of events for which the host allocator hands out storage that
ends below the top of the address space and along which no event wraps the
`tot_bytes` or `tot_blocks` of a site around, every site record has
`max_bytes_live >= 1`, `max_blocks_live >= 1` and `tot_bytes >= 1`, so that
for each of the three metrics, when `N` is at least the number of records,
the listing returns and holds every record of the map exactly once. -/
theorem show_topN_apinfos_lists_nonzero_sites (evs : List Event) (s : State) (N : Nat)
    (hrun : run init_State evs = some s) (htop : ∀ e ∈ evs, HostBelowTop e)
    (hwrap : NoTotalsWrap init_State evs) :
    (∀ (gm : APInfo → Nat) (fm fm1 : WordFM Nat APInfo) (em : List Nat),
      (∀ (api : APInfo) (b : Bool), gm { api with shown := b } = gm api) →
      show_topN_apinfos gm false N fm = some (em, fm1) →
      em.Nodup ∧ (∀ i ∈ em, i < fm.length ∧ 0 < metric_at gm fm i) ∧
      (fm.length ≤ N → ∀ j, j < fm.length → 0 < metric_at gm fm j → j ∈ em)) ∧
    (∀ kv ∈ s.apinfo,
      1 ≤ kv.2.max_bytes_live ∧ 1 ≤ kv.2.max_blocks_live ∧ 1 ≤ kv.2.tot_bytes) ∧
    (s.apinfo.length ≤ N → ∀ gm : APInfo → Nat,
      gm = get_metric__max_bytes_live ∨ gm = get_metric__tot_bytes ∨
        gm = get_metric__max_blocks_live →
      ∃ em fm1, show_topN_apinfos gm false N s.apinfo = some (em, fm1) ∧ em.Nodup ∧
        ∀ j, j ∈ em ↔ j < s.apinfo.length) := by
  have hrec : ∀ kv ∈ s.apinfo, kv.2.ap = kv.1 ∧ counters_chain kv.2 ∧
      1 ≤ kv.2.max_bytes_live ∧ 1 ≤ kv.2.max_blocks_live := by
    intro kv hkv
    have hsite := run_site_of_mem evs s hrun kv.1 kv.2 hkv
    refine ⟨run_site_key evs s hrun kv.1 kv.2 hsite, ?_, ?_⟩
    · exact run_chain evs init_State s hrun hwrap
        (fun ap a h => by simp [site, init_State, lookup_site_nil] at h) kv.1 kv.2 hsite
    · exact run_peaks evs init_State s hrun htop wellFormed_init init_sums.1 init_sums.2
        (fun ap a h => by simp [site, init_State, lookup_site_nil] at h) kv.1 kv.2 hsite
  have hbytes : ∀ kv ∈ s.apinfo,
      1 ≤ kv.2.max_bytes_live ∧ 1 ≤ kv.2.max_blocks_live ∧ 1 ≤ kv.2.tot_bytes := by
    intro kv hkv
    obtain ⟨-, hc, h1, h2⟩ := hrec kv hkv
    unfold counters_chain at hc
    exact ⟨h1, h2, by omega⟩
  refine ⟨fun gm fm fm1 em hm h => show_topN_nonzero gm hm N fm fm1 em h, hbytes, ?_⟩
  intro hN gm hgm
  have hm : ∀ (api : APInfo) (b : Bool), gm { api with shown := b } = gm api := by
    rcases hgm with rfl | rfl | rfl <;> intro api b <;> rfl
  obtain ⟨⟨em, fm1⟩, hr⟩ := show_topN_total gm N s.apinfo
    (fun kv hkv => ⟨(hrec kv hkv).1, show_APInfo_of_chain _ (hrec kv hkv).2.1⟩)
  obtain ⟨n1, n2, n3⟩ := show_topN_nonzero gm hm N s.apinfo fm1 em hr
  refine ⟨em, fm1, hr, n1, fun j => ⟨fun hj => (n2 j hj).1, fun hj => n3 hN j hj ?_⟩⟩
  have hx : s.apinfo[j]? = some (s.apinfo[j]) := List.getElem?_eq_getElem hj
  have hmem : s.apinfo[j] ∈ s.apinfo := List.getElem_mem _
  obtain ⟨b1, b2, b3⟩ := hbytes _ hmem
  unfold metric_at
  rw [hx]
  rcases hgm with rfl | rfl | rfl
  · exact b1
  · exact b3
  · exact b2

theorem run_tags (evs : List Event) (s s1 : State) (hr : run s evs = some s1)
    (hinv : ∀ ap a, site s ap = some a →
      (a.xsize_tag = XSizeTag.Unknown → a.xsize = 0 ∧ a.deaths = 0 ∧ a.histo = none) ∧
      (a.xsize_tag ≠ XSizeTag.Unknown → 1 ≤ a.deaths)) :
    ∀ ap a, site s1 ap = some a →
      (a.xsize_tag = XSizeTag.Unknown → a.xsize = 0 ∧ a.deaths = 0 ∧ a.histo = none) ∧
      (a.xsize_tag ≠ XSizeTag.Unknown → 1 ≤ a.deaths) := by
  refine run_site_invariant
    (fun a => (a.xsize_tag = XSizeTag.Unknown → a.xsize = 0 ∧ a.deaths = 0 ∧ a.histo = none) ∧
      (a.xsize_tag ≠ XSizeTag.Unknown → 1 ≤ a.deaths))
    ?_ ?_ ?_ ?_ evs s s1 hr hinv
  · intro ap
    simp [new_APInfo]
  · intro a sz h
    simpa [intro_APInfo] using h
  · intro a bk clock a1 a2 h hb hle hx hf
    have h2 : a1.xsize_tag ≠ XSizeTag.Unknown ∧ 1 ≤ a1.deaths := by
      unfold retire_xsize at hx
      cases ht : a.xsize_tag with
      | Unknown =>
        simp only [retire_APInfo_stats, ht] at hx
        split_ifs at hx with c1 c2 c3
        all_goals
          simp only [Option.some.injEq] at hx
          subst hx
          simp only [ne_eq, not_not] at c2
          refine ⟨by simp, ?_⟩
          show 1 ≤ addU a.deaths 1
          omega
      | Exactly =>
        simp only [retire_APInfo_stats, ht] at hx
        split_ifs at hx with c1 c2
        all_goals
          simp only [Option.some.injEq] at hx
          subst hx
          simp only [not_not] at c1
          refine ⟨by simp, ?_⟩
          show 1 ≤ addU a.deaths 1
          omega
      | Mixed =>
        simp only [retire_APInfo_stats, ht] at hx
        split_ifs at hx with c1
        simp only [Option.some.injEq] at hx
        subst hx
        simp only [not_not] at c1
        refine ⟨by simp, ?_⟩
        show 1 ≤ addU a.deaths 1
        omega
    have h3 : a2.xsize_tag = a1.xsize_tag ∧ a2.deaths = a1.deaths := by
      unfold retire_fold at hf
      split at hf
      · split_ifs at hf
        simp only [Option.some.injEq] at hf
        subst hf
        exact ⟨rfl, rfl⟩
      · simp only [Option.some.injEq] at hf
        subst hf
        exact ⟨rfl, rfl⟩
    show (a2.xsize_tag = XSizeTag.Unknown → a2.xsize = 0 ∧ a2.deaths = 0 ∧ a2.histo = none) ∧
      (a2.xsize_tag ≠ XSizeTag.Unknown → 1 ≤ a2.deaths)
    rw [h3.1, h3.2]
    exact ⟨fun hu => absurd hu h2.1, fun _ => h2.2⟩
  · intro a d h _
    simpa [change_APInfo] using h

theorem step_deaths (s s1 : State) (e : Event) (hs : step s e = some s1) (n : Nat)
    (hinv : ∀ ap a, site s ap = some a → a.deaths ≤ n) :
    ∀ ap a, site s1 ap = some a → a.deaths ≤ n + 1 := by
  intro ap a1 h1
  rcases step_site_cases s s1 e hs ap with c | ⟨sz, c⟩ |
      ⟨a0, bk, x1, x2, c0, -, -, c3, c4, c5⟩ | ⟨a0, x, c0, -, c2⟩
  · rw [c] at h1
    have := hinv ap a1 h1
    omega
  · rw [c] at h1
    simp only [Option.some.injEq] at h1
    subst h1
    cases h0 : site s ap with
    | none => simp [intro_APInfo, new_APInfo]
    | some a0 =>
      have := hinv ap a0 h0
      simp only [Option.getD_some, intro_APInfo]
      omega
  · rw [c5] at h1
    simp only [Option.some.injEq] at h1
    subst h1
    have hd := (retire_counters a0 x1 _ bk _ c3 c4).2.2.2.2.2.2.2.2.1
    have := hinv ap a0 c0
    rw [hd]
    simp only [addU, WORD]
    omega
  · rw [c2] at h1
    simp only [Option.some.injEq] at h1
    subst h1
    have := hinv ap a0 c0
    simp only [change_APInfo]
    omega

theorem run_deaths (evs : List Event) (s s1 : State) (hr : run s evs = some s1) (n : Nat)
    (hinv : ∀ ap a, site s ap = some a → a.deaths ≤ n) :
    ∀ ap a, site s1 ap = some a → a.deaths ≤ n + evs.length := by
  induction evs generalizing s n with
  | nil =>
    simp only [run, Option.some.injEq] at hr
    subst hr
    simpa using hinv
  | cons e es ih =>
    simp only [run] at hr
    cases hs : step s e with
    | none => rw [hs] at hr; simp at hr
    | some s2 =>
      rw [hs] at hr
      intro ap a ha
      have := ih s2 hr (n + 1) (step_deaths s s2 e hs n hinv) ap a ha
      simp only [List.length_cons]
      omega

/-! ### The clock and the birth timestamps -/

theorem step_clock (s s1 : State) (e : Event) (hs : step s e = some s1) :
    s1.g_guest_instrs_executed = addU s.g_guest_instrs_executed (ticks [e]) ∨
    (s1.g_guest_instrs_executed = s.g_guest_instrs_executed ∧ ticks [e] = 0) := by
  cases e with
  | tick n =>
    simp only [step, Option.some.injEq] at hs
    subst hs
    left
    simp [ticks]
  | alloc ec host_p szB =>
    right
    refine ⟨?_, rfl⟩
    rcases step_effect s s1 _ hs with (rfl | ⟨n, h, -⟩) | ⟨ec, host_p, szB, l1, l2, -, -, -, -, -, hintro⟩ |
      ⟨bk, l1, l2, s2, h, -⟩ | ⟨host_p, szB, bk, l1, l2, s2, t2, h, -⟩ |
      ⟨bk, bk2, l1, l2, -, rfl, -⟩
    · rfl
    · exact absurd h (by simp)
    · exact (intro_Block_frame _ _ _ hintro).2
    · exact absurd h (by simp)
    · exact absurd h (by simp)
    · rfl
  | free p =>
    right
    refine ⟨?_, rfl⟩
    rcases step_effect s s1 _ hs with (rfl | ⟨n, h, -⟩) | ⟨ec, host_p, szB, l1, l2, h, -⟩ |
      ⟨bk, l1, l2, s2, -, -, hr, rfl⟩ | ⟨host_p, szB, bk, l1, l2, s2, t2, h, -⟩ |
      ⟨bk, bk2, l1, l2, -, rfl, -⟩
    · rfl
    · exact absurd h (by simp)
    · exact absurd h (by simp)
    · exact (retire_Block_frame _ _ _ hr).2
    · exact absurd h (by simp)
    · rfl
  | resize host_p p szB =>
    right
    refine ⟨?_, rfl⟩
    rcases step_effect s s1 _ hs with (rfl | ⟨n, h, -⟩) | ⟨ec, host_p, szB, l1, l2, h, -⟩ |
      ⟨bk, l1, l2, s2, h, -⟩ | ⟨host_p, szB, bk, l1, l2, s2, t2, -, -, -, hch, rfl, -⟩ |
      ⟨bk, bk2, l1, l2, -, rfl, -⟩
    · rfl
    · exact absurd h (by simp)
    · exact absurd h (by simp)
    · exact absurd h (by simp)
    · obtain ⟨k, api0, -, -, -, -, rfl⟩ := apinfo_change_inv _ _ _ _ hch
      rfl
    · rfl
  | read addr szB =>
    right
    refine ⟨?_, rfl⟩
    rcases step_effect s s1 _ hs with (rfl | ⟨n, h, -⟩) | ⟨ec, host_p, szB, l1, l2, h, -⟩ |
      ⟨bk, l1, l2, s2, h, -⟩ | ⟨host_p, szB, bk, l1, l2, s2, t2, h, -⟩ |
      ⟨bk, bk2, l1, l2, -, rfl, -⟩
    · rfl
    · exact absurd h (by simp)
    · exact absurd h (by simp)
    · exact absurd h (by simp)
    · exact absurd h (by simp)
    · rfl
  | write addr szB =>
    right
    refine ⟨?_, rfl⟩
    rcases step_effect s s1 _ hs with (rfl | ⟨n, h, -⟩) | ⟨ec, host_p, szB, l1, l2, h, -⟩ |
      ⟨bk, l1, l2, s2, h, -⟩ | ⟨host_p, szB, bk, l1, l2, s2, t2, h, -⟩ |
      ⟨bk, bk2, l1, l2, -, rfl, -⟩
    · rfl
    · exact absurd h (by simp)
    · exact absurd h (by simp)
    · exact absurd h (by simp)
    · exact absurd h (by simp)
    · rfl

theorem toLong_nonneg_lt (x : Nat) (hx : x < WORD) (h : ¬ toLong x < 0) :
    x < 9223372036854775808 := by
  unfold toLong at h
  simp only [WORD] at hx h
  split_ifs at h with c
  · omega
  · omega

theorem step_blocks_ok (s s1 : State) (e : Event) (hs : step s e = some s1)
    (hev : EventOK e) (htop : HostBelowTop e)
    (hmono : s.g_guest_instrs_executed ≤ s1.g_guest_instrs_executed)
    (hinv : ∀ x ∈ s.interval_tree, x.1.ap ≠ 0 ∧ x.1.allocd_at ≤ s.g_guest_instrs_executed ∧
      x.1.req_szB < 9223372036854775808) :
    ∀ x ∈ s1.interval_tree, x.1.ap ≠ 0 ∧ x.1.allocd_at ≤ s1.g_guest_instrs_executed ∧
      x.1.req_szB < 9223372036854775808 := by
  have hold : ∀ x ∈ s.interval_tree, x.1.ap ≠ 0 ∧
      x.1.allocd_at ≤ s1.g_guest_instrs_executed ∧ x.1.req_szB < 9223372036854775808 := by
    intro x hx
    obtain ⟨i1, i2, i3⟩ := hinv x hx
    exact ⟨i1, by omega, i3⟩
  rcases step_effect s s1 e hs with (rfl | ⟨n, -, rfl⟩) |
    ⟨ec, host_p, szB, l1, l2, rfl, -, hlong, e1, -, hintro⟩ |
    ⟨bk, l1, l2, s2, -, e1, hr, rfl⟩ |
    ⟨host_p, szB, bk, l1, l2, s2, t2, rfl, hpos, e1, hch, rfl, ht2⟩ |
    ⟨bk, bk2, l1, l2, e1, rfl, hp, hsz, hap, hat⟩
  · exact hinv
  · exact hold
  · have ht1 := (intro_Block_frame _ _ _ hintro).1
    simp only at ht1
    rw [ht1]
    rw [e1] at hold
    intro x hx
    rcases List.mem_append.1 hx with hx | hx
    · exact hold x (List.mem_append_left _ hx)
    · rcases List.mem_cons.1 hx with rfl | hx
      · simp only [EventOK] at hev
        simp only [HostBelowTop] at htop
        refine ⟨hev, hmono, ?_⟩
        have hw : szB < WORD := by
          split_ifs at htop <;> omega
        have := toLong_nonneg_lt szB hw hlong
        simp only [mk_Block]
        split_ifs <;> omega
      · exact hold x (List.mem_append_right _ hx)
  · rw [e1] at hold
    intro x hx
    rcases List.mem_append.1 hx with hx | hx
    · exact hold x (List.mem_append_left _ hx)
    · exact hold x (List.mem_append_right _ (List.mem_cons_of_mem _ hx))
  · rw [e1] at hold
    simp only [EventOK] at hev
    obtain ⟨b1, b2, b3⟩ := hold (bk, ()) (by simp)
    have hrest : ∀ x ∈ l1 ++ l2, x.1.ap ≠ 0 ∧
        x.1.allocd_at ≤ s2.g_guest_instrs_executed ∧ x.1.req_szB < 9223372036854775808 := by
      intro x hx
      rcases List.mem_append.1 hx with hx | hx
      · exact hold x (List.mem_append_left _ hx)
      · exact hold x (List.mem_append_right _ (List.mem_cons_of_mem _ hx))
    have ht : ∃ m1 m2 bk3, t2 = m1 ++ (bk3, ()) :: m2 ∧ m1 ++ m2 = l1 ++ l2 ∧
        bk3.ap = bk.ap ∧ bk3.req_szB = szB ∧ bk3.allocd_at = bk.allocd_at := by
      rcases ht2 with ⟨-, rfl⟩ | ⟨-, -, -, hadd⟩
      · exact ⟨l1, l2, _, rfl, rfl, rfl, rfl, rfl⟩
      · obtain ⟨m1, m2, e3, e4, -⟩ := addToFM_fresh_split interval_tree_Cmp _ _ _ _ hadd
        exact ⟨m1, m2, _, e4, e3.symm, rfl, rfl, rfl⟩
    obtain ⟨m1, m2, bk3, rfl, em, hap3, hsz3, hat3⟩ := ht
    intro x hx
    rcases List.mem_append.1 hx with hx | hx
    · exact hrest x (em ▸ List.mem_append_left _ hx)
    · rcases List.mem_cons.1 hx with rfl | hx
      · simp only [hap3, hsz3, hat3]
        exact ⟨b1, b2, hev.2⟩
      · exact hrest x (em ▸ List.mem_append_right _ hx)
  · rw [e1] at hold
    obtain ⟨b1, b2, b3⟩ := hold (bk, ()) (by simp)
    intro x hx
    rcases List.mem_append.1 hx with hx | hx
    · exact hold x (List.mem_append_left _ hx)
    · rcases List.mem_cons.1 hx with rfl | hx
      · simp only [hap, hsz, hat]
        exact ⟨b1, b2, b3⟩
      · exact hold x (List.mem_append_right _ (List.mem_cons_of_mem _ hx))

theorem ticks_cons (e : Event) (es : List Event) : ticks (e :: es) = ticks [e] + ticks es := by
  cases e <;> simp [ticks]

theorem ticks_append (es fs : List Event) : ticks (es ++ fs) = ticks es + ticks fs := by
  induction es with
  | nil => simp [ticks]
  | cons e es ih =>
    rw [List.cons_append, ticks_cons, ih, ticks_cons e es]
    omega

theorem run_blocks_ok (evs : List Event) (s s1 : State) (hr : run s evs = some s1)
    (hev : ∀ e ∈ evs, EventOK e) (htop : ∀ e ∈ evs, HostBelowTop e)
    (hclk : s.g_guest_instrs_executed + ticks evs < WORD)
    (hinv : ∀ x ∈ s.interval_tree, x.1.ap ≠ 0 ∧ x.1.allocd_at ≤ s.g_guest_instrs_executed ∧
      x.1.req_szB < 9223372036854775808) :
    s1.g_guest_instrs_executed = s.g_guest_instrs_executed + ticks evs ∧
    ∀ x ∈ s1.interval_tree, x.1.ap ≠ 0 ∧ x.1.allocd_at ≤ s1.g_guest_instrs_executed ∧
      x.1.req_szB < 9223372036854775808 := by
  induction evs generalizing s with
  | nil =>
    simp only [run, Option.some.injEq] at hr
    subst hr
    exact ⟨by simp [ticks], hinv⟩
  | cons e es ih =>
    simp only [run] at hr
    cases hs : step s e with
    | none => rw [hs] at hr; simp at hr
    | some s2 =>
      rw [hs] at hr
      rw [ticks_cons] at hclk ⊢
      have hc2 : s2.g_guest_instrs_executed = s.g_guest_instrs_executed + ticks [e] := by
        rcases step_clock s s2 e hs with c | ⟨c, c0⟩
        · rw [c, addU_small _ _ (by omega)]
        · rw [c, c0]; rfl
      have hb2 := step_blocks_ok s s2 e hs (hev e (List.mem_cons_self _ _))
        (htop e (List.mem_cons_self _ _)) (by omega) hinv
      obtain ⟨i1, i2⟩ := ih s2 hr (fun x hx => hev x (List.mem_cons_of_mem _ hx))
        (fun x hx => htop x (List.mem_cons_of_mem _ hx)) (by omega) hb2
      exact ⟨by omega, i2⟩

/-! ### One event cannot fail an assertion in a consistent state -/

theorem apinfo_change_total (s : State) (ec : Nat) (delta : Int) (api : APInfo)
    (hsite : site s ec = some api) (hkey : api.ap = ec)
    (h1 : delta < 0 → ofLong (-delta) ≤ api.cur_bytes_live)
    (h2 : delta < 0 → ofLong (-delta) ≤ s.g_cur_bytes_live) :
    ∃ s1, apinfo_change_cur_bytes_live s ec delta = some s1 := by
  unfold site at hsite
  unfold apinfo_change_cur_bytes_live
  rw [lookupFM_apinfo_total, hsite]
  simp only [Option.map_some']
  rw [if_neg (by simp [hkey]), if_neg (fun h => h.2 (h1 h.1)), if_neg (fun h => h.2 (h2 h.1))]
  exact ⟨_, rfl⟩

theorem renew_block_found_fail (s : State) (bk : Block) (n : Nat)
    (hf : find_Block_containing s.interval_tree bk.payload = some (some bk))
    (hlt : bk.req_szB < n) : ∃ r, renew_block s 0 bk.payload n = some r := by
  obtain ⟨l1, l2, e1, hfound⟩ := find_Block_split _ _ _ hf
  obtain ⟨hc, _, hsz, _, hlt2⟩ := found_contains l1 bk bk.payload hfound
  unfold renew_block
  rw [if_neg (by omega)]
  simp only [hf]
  rw [if_neg (by omega), if_neg (by omega), if_neg (by omega), if_neg (by simp),
    if_neg (by omega), if_pos trivial]
  exact ⟨_, rfl⟩

theorem toLong_of_lt (x : Nat) (h : x < 9223372036854775808) : toLong x = (x : Int) := by
  unfold toLong
  simp only [WORD]
  rw [Nat.mod_eq_of_lt (by omega), if_pos h]

theorem wrapLong_of_range (i : Int) (h0 : -9223372036854775808 ≤ i)
    (h1 : i < 9223372036854775808) : wrapLong i = i := by
  unfold wrapLong toLong ofLong
  simp only [WORD]
  split_ifs <;> omega

theorem all_bytes_ge_of_mem (t : WordFM Block Unit) (b : Block) (hb : (b, ()) ∈ t) :
    b.req_szB ≤ all_bytes t :=
  le_trans (site_bytes_ge_of_mem t b hb) (site_bytes_le_all t b.ap)

theorem step_total (s : State) (e : Event)
    (hwf : WellFormed s.interval_tree)
    (hsite : ∀ ap, (site s ap = none → site_blocks s.interval_tree ap = 0) ∧
      ∀ a, site s ap = some a →
        a.cur_bytes_live = site_bytes s.interval_tree ap ∧
        a.cur_blocks_live = site_blocks s.interval_tree ap)
    (hg : s.g_cur_bytes_live = all_bytes s.interval_tree ∧
      s.g_cur_blocks_live = s.interval_tree.length)
    (hkey : ∀ ap a, site s ap = some a → a.ap = ap)
    (htag : ∀ ap a, site s ap = some a →
      (a.xsize_tag = XSizeTag.Unknown → a.xsize = 0 ∧ a.deaths = 0 ∧ a.histo = none) ∧
      (a.xsize_tag ≠ XSizeTag.Unknown → 1 ≤ a.deaths) ∧ a.deaths + 1 < WORD)
    (hblk : ∀ x ∈ s.interval_tree, x.1.ap ≠ 0 ∧
      x.1.allocd_at ≤ s.g_guest_instrs_executed ∧ x.1.req_szB < 9223372036854775808)
    (hhost : HostOK s e) (hev : EventOK e) :
    ∃ s1, step s e = some s1 := by
  have hne := hwf.2.1
  -- the site record of a live block
  have hrec : ∀ bk : Block, (bk, ()) ∈ s.interval_tree →
      ∃ api, site s bk.ap = some api ∧ api.ap = bk.ap ∧ 1 ≤ api.cur_blocks_live ∧
        bk.req_szB ≤ api.cur_bytes_live := by
    intro bk hm
    have hpos := site_blocks_pos_of_mem _ _ hm
    have hge := site_bytes_ge_of_mem _ _ hm
    cases hsa : site s bk.ap with
    | none =>
      have := (hsite bk.ap).1 hsa
      omega
    | some api =>
      obtain ⟨i1, i2⟩ := (hsite bk.ap).2 api hsa
      exact ⟨api, rfl, hkey _ _ hsa, by omega, by omega⟩
  cases e with
  | alloc ec host_p szB =>
    simp only [step]
    by_cases hlong : toLong szB < 0
    · refine ⟨s, ?_⟩
      simp [new_block, hlong]
    · by_cases hh : host_p = 0
      · refine ⟨s, ?_⟩
        simp [new_block, hlong, hh]
      · simp only [HostOK] at hhost
        simp only [EventOK] at hev
        obtain ⟨s1, l1, l2, h1, -⟩ := new_block_total s ec host_p szB hne hlong hh (hhost hh) hev
          (fun api h => hkey ec api h)
        exact ⟨s1, by rw [h1]; rfl⟩
  | free p =>
    simp only [step]
    obtain ⟨r, hr⟩ := find_Block_total s.interval_tree p hne
    cases r with
    | none =>
      refine ⟨s, ?_⟩
      unfold die_block
      simp only [Bool.false_eq_true, if_false, hr]
    | some bk =>
      obtain ⟨hm, hc, _, hsz, _, hlt⟩ := find_Block_mem _ _ _ hr
      by_cases hbase : bk.payload = p
      · subst hbase
        obtain ⟨l1, l2, e1, hd⟩ := die_block_found s bk hr
        obtain ⟨api, hsa, hk, hb1, hb2⟩ := hrec bk hm
        obtain ⟨t1, t2, t3⟩ := htag _ _ hsa
        obtain ⟨b1, b2, b3⟩ := hblk _ hm
        simp only at b1 b2 b3
        have hlen : 0 < s.interval_tree.length := List.length_pos_of_mem hm
        obtain ⟨s2, hs2⟩ := retire_Block_total s bk api b1 hsa hk hb1 hb2 b2
          (by rw [hg.2]; exact hlen) (by rw [hg.1]; exact all_bytes_ge_of_mem _ _ hm) t3 t1 t2
        rw [hd, hs2]
        exact ⟨_, rfl⟩
      · refine ⟨s, ?_⟩
        unfold die_block
        simp only [Bool.false_eq_true, if_false, hr]
        rw [if_neg (by omega), if_neg (by have := hc.1; omega), if_neg (by omega),
          if_pos hbase]
  | resize host_p p szB =>
    simp only [step]
    simp only [EventOK] at hev
    obtain ⟨hpos, hsmall⟩ := hev
    obtain ⟨r, hr⟩ := find_Block_total s.interval_tree p hne
    cases r with
    | none =>
      refine ⟨s, ?_⟩
      unfold renew_block
      rw [if_neg (by omega)]
      simp only [hr, Option.map_some']
    | some bk =>
      obtain ⟨hm, hc, _, hsz, _, hlt⟩ := find_Block_mem _ _ _ hr
      by_cases hbase : bk.payload = p
      · subst hbase
        obtain ⟨api, hsa, hk, hb1, hb2⟩ := hrec bk hm
        obtain ⟨b1, b2, b3⟩ := hblk _ hm
        have hgb := all_bytes_ge_of_mem _ _ hm
        simp only at b1 b2 b3
        have hdelta : wrapLong (toLong szB - toLong bk.req_szB) = (szB : Int) - bk.req_szB := by
          rw [toLong_of_lt szB hsmall, toLong_of_lt bk.req_szB b3]
          exact wrapLong_of_range _ (by omega) (by omega)
        have hchange : ∃ s2, apinfo_change_cur_bytes_live s bk.ap
            (wrapLong (toLong szB - toLong bk.req_szB)) = some s2 := by
          apply apinfo_change_total s bk.ap _ api hsa hk
          · intro hneg
            rw [hdelta] at hneg ⊢
            have := ofLong_of_nonneg (-((szB : Int) - bk.req_szB)) (by omega) (by omega)
            omega
          · intro hneg
            rw [hdelta] at hneg ⊢
            have := ofLong_of_nonneg (-((szB : Int) - bk.req_szB)) (by omega) (by omega)
            rw [hg.1]
            omega
        obtain ⟨s2, hs2⟩ := hchange
        by_cases hle : szB ≤ bk.req_szB
        · obtain ⟨l1, l2, e1, hd⟩ := renew_block_found_shrink s bk host_p szB hr hpos hle
          rw [hd, hs2]
          exact ⟨_, rfl⟩
        · by_cases hh : host_p = 0
          · subst hh
            obtain ⟨r, hr2⟩ := renew_block_found_fail s bk szB hr (by omega)
            rw [hr2]
            exact ⟨_, rfl⟩
          · simp only [HostOK] at hhost
            have hdis := hhost hh
            have hne2 : host_p ≠ bk.payload := by
              intro hq
              have := hdis (bk, ()) hm
              simp only at this
              omega
            obtain ⟨l1, l2, e1, hd⟩ := renew_block_found_grow s bk host_p szB hr (by omega) hh hne2
            rw [e1] at hdis hne
            obtain ⟨t1, ht1⟩ := addToFM_disjoint (l1 ++ l2)
              { bk with histoB := none, payload := host_p, req_szB := szB }
              (fun y hy => hne y (by
                rcases List.mem_append.1 hy with hy | hy
                · exact List.mem_append_left _ hy
                · exact List.mem_append_right _ (List.mem_cons_of_mem _ hy)))
              hpos
              (fun y hy => hdis y (by
                rcases List.mem_append.1 hy with hy | hy
                · exact List.mem_append_left _ hy
                · exact List.mem_append_right _ (List.mem_cons_of_mem _ hy)))
            rw [hd, hs2]
            simp only [ht1]
            exact ⟨_, rfl⟩
      · refine ⟨s, ?_⟩
        unfold renew_block
        rw [if_neg (by omega)]
        simp only [hr]
        rw [if_neg (by omega), if_neg (by have := hc.1; omega), if_neg (by omega),
          if_pos hbase]
        rfl
  | read addr szB =>
    simp only [step]
    unfold dh_handle_read
    obtain ⟨r, hr⟩ := find_Block_total s.interval_tree addr hne
    rw [hr]
    cases r with
    | none => exact ⟨_, rfl⟩
    | some bk =>
      obtain ⟨hm, hc, _, hsz, hoff, hlt⟩ := find_Block_mem _ _ _ hr
      simp only
      cases hh : bk.histoB with
      | none => exact ⟨_, rfl⟩
      | some h =>
        obtain ⟨h1, e1⟩ := inc_histo_for_block_some
          { bk with n_reads := addU bk.n_reads szB } h addr szB hh hoff
        simp only [Option.isSome_some, if_true]
        rw [hh] at e1
        rw [e1]
        exact ⟨_, rfl⟩
  | write addr szB =>
    simp only [step]
    unfold dh_handle_write
    obtain ⟨r, hr⟩ := find_Block_total s.interval_tree addr hne
    rw [hr]
    cases r with
    | none => exact ⟨_, rfl⟩
    | some bk =>
      obtain ⟨hm, hc, _, hsz, hoff, hlt⟩ := find_Block_mem _ _ _ hr
      simp only
      cases hh : bk.histoB with
      | none => exact ⟨_, rfl⟩
      | some h =>
        obtain ⟨h1, e1⟩ := inc_histo_for_block_some
          { bk with n_writes := addU bk.n_writes szB } h addr szB hh hoff
        simp only [Option.isSome_some, if_true]
        rw [hh] at e1
        rw [e1]
        exact ⟨_, rfl⟩
  | tick n => exact ⟨_, rfl⟩

/-! ### C36: no assertion fails -/

theorem run_append (s : State) (es fs : List Event) :
    run s (es ++ fs) = (run s es).bind (fun s1 => run s1 fs) := by
  induction es generalizing s with
  | nil => rfl
  | cons e es ih =>
    simp only [List.cons_append, run]
    cases step s e with
    | none => rfl
    | some s1 => exact ih s1

theorem hostOKrun_append (s : State) (es fs : List Event) (h : HostOKrun s (es ++ fs)) :
    HostOKrun s es ∧ ∀ s1, run s es = some s1 → HostOKrun s1 fs := by
  induction es generalizing s with
  | nil =>
    refine ⟨trivial, fun s1 h1 => ?_⟩
    simp only [run, Option.some.injEq] at h1
    subst h1
    exact h
  | cons e es ih =>
    simp only [List.cons_append, HostOKrun] at h ⊢
    simp only [run]
    cases hs : step s e with
    | none =>
      exact ⟨⟨h.1, trivial⟩, fun s1 h1 => by simp at h1⟩
    | some s2 =>
      rw [hs] at h
      obtain ⟨i1, i2⟩ := ih s2 h.2
      exact ⟨⟨h.1, i1⟩, i2⟩

/-- The tool fails no assertion on a stream of events, started in the
initial state, when the host allocator hands out storage that is disjoint
from every live block and ends below the top of the address space, every
allocation has a call-site context that is not `NULL`, every resize asks for
a size that is not 0 and is below `2^63`, the 64-bit clock does not wrap and
the stream has fewer than `2^64` events: the run returns a state. -/
theorem profiler_never_aborts (evs : List Event)
    (hhost : HostOKrun init_State evs) (htop : ∀ e ∈ evs, HostBelowTop e)
    (hev : ∀ e ∈ evs, EventOK e) (hclk : ticks evs < WORD) (hlen : evs.length < WORD) :
    ∃ s, run init_State evs = some s := by
  induction evs using List.reverseRecOn with
  | nil => exact ⟨init_State, rfl⟩
  | append_singleton es e ih =>
    have htop0 : ∀ x ∈ es, HostBelowTop x := fun x hx => htop x (List.mem_append_left _ hx)
    have hev0 : ∀ x ∈ es, EventOK x := fun x hx => hev x (List.mem_append_left _ hx)
    rw [ticks_append] at hclk
    rw [List.length_append] at hlen
    simp only [List.length_singleton] at hlen
    obtain ⟨ho1, ho2⟩ := hostOKrun_append init_State es [e] hhost
    obtain ⟨s0, hr0⟩ := ih ho1 htop0 hev0 (by omega) (by omega)
    have hok : HostOK s0 e := by
      have := ho2 s0 hr0
      simp only [HostOKrun] at this
      exact this.1
    have hempty : ∀ (ap : Nat) (a : APInfo), site init_State ap = some a → False := by
      intro ap a h
      simp [site, init_State, lookup_site_nil] at h
    have hwf := run_wellFormed es init_State s0 hr0 htop0 wellFormed_init
    obtain ⟨hs1, hs2, hs3⟩ := run_sums es init_State s0 hr0 htop0 wellFormed_init
      init_sums.1 init_sums.2
    have hkey := run_site_key es s0 hr0
    have htags := run_tags es init_State s0 hr0 (fun ap a h => (hempty ap a h).elim)
    have hdeaths := run_deaths es init_State s0 hr0 0 (fun ap a h => (hempty ap a h).elim)
    obtain ⟨-, hblk⟩ := run_blocks_ok es init_State s0 hr0 hev0 htop0
      (by simp only [init_State]; omega) (fun x hx => by simp [init_State] at hx)
    obtain ⟨s1, hstep⟩ := step_total s0 e hwf hs1 ⟨hs2, hs3⟩ hkey
      (fun ap a h => ⟨(htags ap a h).1, (htags ap a h).2, by
        have := hdeaths ap a h
        omega⟩)
      hblk hok (hev e (by simp))
    refine ⟨s1, ?_⟩
    rw [run_append, hr0]
    show run s0 [e] = some s1
    simp only [run, hstep]

/-- C36 (the code at the failing input): a block of 16 bytes is allocated at
1000 and then resized to `2^63 + 17` bytes, the host allocator answering
5000.  The clock does not move, the storage the host hands out is disjoint
from the live block and ends below the top of the address space, and the
new size is not zero.  `new_block` refuses such a size (`(SSizeT)req_szB <
0`), `renew_block` does not: the size change `(Long)new - (Long)old` is
`-2^63 + 1`, and `apinfo_change_cur_bytes_live` fails its assertion
`cur_bytes_live >= -delta` (the site has 16 live bytes): the run aborts. -/
theorem resize_beyond_long_aborts :
    HostOKrun init_State
      [Event.alloc 7 1000 16, Event.resize 5000 1000 9223372036854775825] ∧
    (∀ e ∈ [Event.alloc 7 1000 16, Event.resize 5000 1000 9223372036854775825],
      HostBelowTop e) ∧
    ticks [Event.alloc 7 1000 16, Event.resize 5000 1000 9223372036854775825] = 0 ∧
    wrapLong (toLong 9223372036854775825 - toLong 16) = -9223372036854775807 ∧
    (run init_State [Event.alloc 7 1000 16]).map
      (fun s => (site s 7).map (fun a => a.cur_bytes_live)) = some (some 16) ∧
    run init_State
      [Event.alloc 7 1000 16, Event.resize 5000 1000 9223372036854775825] = none := by
  refine ⟨by decide, by decide, by decide, by decide, by decide, by decide⟩

/-! ### C10: the read and write byte totals of the block that holds an address -/

/-- C10 (amended): in a well-formed index (blocks in address order, not
empty, not overlapping, each ending below the top of the address space) and
for every access `(addr, szB)` whose address lies in a live block `bk`,
`dh_handle_write` returns, and the block that then holds `addr` has
`n_writes = n_writes + szB` (64-bit addition of the full `szB`), `n_reads`
unchanged and the base and size of `bk`; `dh_handle_read` does the same
with `n_reads` and `n_writes` exchanged; whether or not the block has a
histogram and whatever `szB` is, also when `addr + szB` lies past the end of
the block. -/
theorem handlers_add_full_size (s : State) (addr szB : Nat) (bk : Block)
    (hwf : WellFormed s.interval_tree) (hbk : bk ∈ live_blocks s)
    (hc : contains_addr bk addr) :
    (∃ s1 bk1, dh_handle_write s addr szB = some s1 ∧
      bk1 ∈ live_blocks s1 ∧ contains_addr bk1 addr ∧
      find_Block_containing s1.interval_tree addr = some (some bk1) ∧
      bk1.n_writes = addU bk.n_writes szB ∧ bk1.n_reads = bk.n_reads ∧
      bk1.payload = bk.payload ∧ bk1.req_szB = bk.req_szB) ∧
    (∃ s1 bk1, dh_handle_read s addr szB = some s1 ∧
      bk1 ∈ live_blocks s1 ∧ contains_addr bk1 addr ∧
      find_Block_containing s1.interval_tree addr = some (some bk1) ∧
      bk1.n_reads = addU bk.n_reads szB ∧ bk1.n_writes = bk.n_writes ∧
      bk1.payload = bk.payload ∧ bk1.req_szB = bk.req_szB) := by
  obtain ⟨ho, hne, hno, hnw⟩ := hwf
  have hmem : (bk, ()) ∈ s.interval_tree := (mem_live_blocks s bk).1 hbk
  have hfind : find_Block_containing s.interval_tree addr = some (some bk) :=
    ((find_Block_sound_complete s.interval_tree addr ho hne hno hnw).1 bk).2 ⟨hmem, hc⟩
  obtain ⟨⟨s1, bk1, w1, w2, w3⟩, ⟨s2, bk2, r1, r2, r3⟩⟩ :=
    handlers_add_full_size_found s addr szB bk hfind
  refine ⟨⟨s1, bk1, w1, ?_, ?_, w2, w3⟩, ⟨s2, bk2, r1, ?_, ?_, r2, r3⟩⟩
  · exact (mem_live_blocks s1 bk1).2 (find_Block_mem _ _ _ w2).1
  · exact (find_Block_mem _ _ _ w2).2.1
  · exact (mem_live_blocks s2 bk2).2 (find_Block_mem _ _ _ r2).1
  · exact (find_Block_mem _ _ _ r2).2.1

theorem handlers_add_full_size_witness :
    WellFormed two_block_tree ∧
    mk_Block 2000 8 7 0 ∈ live_blocks { init_State with interval_tree := two_block_tree } ∧
    contains_addr (mk_Block 2000 8 7 0) 2005 ∧
    ((∃ s1 bk1, dh_handle_write { init_State with interval_tree := two_block_tree } 2005 100
        = some s1 ∧
      bk1 ∈ live_blocks s1 ∧ contains_addr bk1 2005 ∧
      find_Block_containing s1.interval_tree 2005 = some (some bk1) ∧
      bk1.n_writes = addU (mk_Block 2000 8 7 0).n_writes 100 ∧
      bk1.n_reads = (mk_Block 2000 8 7 0).n_reads ∧
      bk1.payload = (mk_Block 2000 8 7 0).payload ∧
      bk1.req_szB = (mk_Block 2000 8 7 0).req_szB) ∧
    (∃ s1 bk1, dh_handle_read { init_State with interval_tree := two_block_tree } 2005 100
        = some s1 ∧
      bk1 ∈ live_blocks s1 ∧ contains_addr bk1 2005 ∧
      find_Block_containing s1.interval_tree 2005 = some (some bk1) ∧
      bk1.n_reads = addU (mk_Block 2000 8 7 0).n_reads 100 ∧
      bk1.n_writes = (mk_Block 2000 8 7 0).n_writes ∧
      bk1.payload = (mk_Block 2000 8 7 0).payload ∧
      bk1.req_szB = (mk_Block 2000 8 7 0).req_szB)) :=
  ⟨by decide, by decide, by decide,
    handlers_add_full_size { init_State with interval_tree := two_block_tree } 2005 100
      (mk_Block 2000 8 7 0) (by decide) (by decide) (by decide)⟩

/-- C10 (counterexample): site 7 has allocated a block of 16 bytes at
`2^64 - 16`, which occupies the last 16 bytes of the address space.  The
address `2^64 - 12` lies in this live block, but the end of the block wraps
to 0 in `interval_tree_Cmp`, so `find_Block_containing` finds nothing: a
write and a read of 4 bytes at that address leave the state as it is, and
the block keeps `n_writes = 0` and `n_reads = 0`. -/
theorem handlers_miss_block_at_top :
    run init_State [Event.alloc 7 18446744073709551600 16] = some top_block_State ∧
    mk_Block 18446744073709551600 16 7 0 ∈ live_blocks top_block_State ∧
    contains_addr (mk_Block 18446744073709551600 16 7 0) 18446744073709551604 ∧
    dh_handle_write top_block_State 18446744073709551604 4 = some top_block_State ∧
    dh_handle_read top_block_State 18446744073709551604 4 = some top_block_State ∧
    (live_blocks top_block_State).map (fun b => (b.payload, b.req_szB, b.n_writes, b.n_reads))
      = [(18446744073709551600, 16, 0, 0)] := by
  refine ⟨by decide, by decide, by decide, by decide, by decide, by decide⟩

/-! ### C20: when a site with the tag `Exactly` has a folded histogram -/

theorem retire_fold_isSome (a a1 : APInfo) (bk : Block) (h : retire_fold a bk = some a1) :
    a1.histo.isSome = a.histo.isSome := by
  unfold retire_fold at h
  split at h
  · rename_i hh _
    split_ifs at h
    simp only [Option.some.injEq] at h
    subst h
    simp [hh]
  · simp only [Option.some.injEq] at h
    subst h
    rfl

/-- Where a record with the tag `Exactly` comes from, one event back: from a
record with the tag `Exactly`, the same size and a histogram if and only if
it has one; or from a record with the tag `Unknown` by the death of a block
of the site, whose size it records and whose histogram decides whether it
has one. -/
theorem step_exactly_cases (s s1 : State) (e : Event) (hs : step s e = some s1)
    (ap : Nat) (a1 : APInfo) (h1 : site s1 ap = some a1)
    (htag : a1.xsize_tag = XSizeTag.Exactly) :
    (∃ a, site s ap = some a ∧ a.xsize_tag = XSizeTag.Exactly ∧ a1.xsize = a.xsize ∧
      a1.histo.isSome = a.histo.isSome) ∨
    (∃ a bk, site s ap = some a ∧ a.xsize_tag = XSizeTag.Unknown ∧
      e = Event.free bk.payload ∧ bk ∈ live_blocks s ∧ bk.ap = ap ∧
      a1.xsize = bk.req_szB ∧ a1.histo.isSome = bk.histoB.isSome) := by
  rcases step_effect s s1 e hs with (rfl | ⟨n, -, rfl⟩) |
    ⟨ec, host_p, szB, l1, l2, -, -, -, e1, -, hintro⟩ |
    ⟨bk, l1, l2, s2, he, e1, hr, rfl⟩ |
    ⟨host_p, szB, bk, l1, l2, s2, t2, -, -, e1, hch, rfl, -⟩ |
    ⟨bk, bk2, l1, l2, e1, rfl, -⟩
  · exact Or.inl ⟨a1, h1, htag, rfl, rfl⟩
  · exact Or.inl ⟨a1, h1, htag, rfl, rfl⟩
  · have hs1 := intro_Block_site _ _ _ hintro ap
    by_cases hc : ap = ec
    · subst hc
      have h2 : site s1 ap = some (intro_APInfo ((site s ap).getD (new_APInfo ap))
          (if szB = 0 then 1 else szB)) := by
        rw [hs1]; simp [mk_Block]; rfl
      rw [h1] at h2
      simp only [Option.some.injEq] at h2
      cases h0 : site s ap with
      | none =>
        rw [h0] at h2
        rw [h2] at htag
        simp [intro_APInfo, new_APInfo] at htag
      | some a0 =>
        rw [h0] at h2
        simp only [Option.getD_some] at h2
        subst h2
        exact Or.inl ⟨a0, rfl, htag, rfl, rfl⟩
    · have h2 : site s1 ap = site s ap := by
        rw [hs1]; simp [mk_Block, hc]; rfl
      rw [h2] at h1
      exact Or.inl ⟨a1, h1, htag, rfl, rfl⟩
  · obtain ⟨api, api1, api2, hsa, -, -, -, hx, hf, hs2⟩ := retire_Block_site _ _ _ hr
    have h2 : site s2 ap = if ap = bk.ap then some api2 else site s ap := hs2 ap
    have h1b : site s2 ap = some a1 := h1
    rw [h1b] at h2
    split_ifs at h2 with hc
    · simp only [Option.some.injEq] at h2
      subst h2
      subst hc
      have hfc := retire_fold_counters _ _ _ hf
      have hft : a1.xsize_tag = api1.xsize_tag := hfc.2.2.2.2.2.2.2.2.2.2.2.1
      have hfx : a1.xsize = api1.xsize := hfc.2.2.2.2.2.2.2.2.2.2.2.2
      have hfh := retire_fold_isSome _ _ _ hf
      rcases retire_xsize_tag _ _ _ hx with
        ⟨t0, -, -, t1, t2, t3⟩ | ⟨-, -, t1, -⟩ | ⟨t0, t1, t2⟩ | ⟨t0, t2⟩
      · refine Or.inr ⟨api, bk, hsa, t0, he, ?_, rfl, by rw [hfx, t2], ?_⟩
        · rw [mem_live_blocks, e1]; simp
        · rw [hfh, t3]
          cases bk.histoB <;> simp
      · rw [hft, t1] at htag
        exact absurd htag (by simp)
      · subst t2
        exact Or.inl ⟨api, hsa, t0, hfx, hfh⟩
      · subst t2
        rw [hft] at htag
        have : api.xsize_tag = XSizeTag.Mixed := t0
        rw [show (retire_APInfo_stats api bk s.g_guest_instrs_executed).xsize_tag
          = api.xsize_tag from rfl, this] at htag
        exact absurd htag (by simp)
    · exact Or.inl ⟨a1, h2.symm, htag, rfl, rfl⟩
  · obtain ⟨api, hsa, -, -, hs2⟩ := apinfo_change_site _ _ _ _ hch
    have h2 : site s2 ap = if ap = bk.ap then some (change_APInfo api
        (wrapLong (toLong szB - toLong bk.req_szB))) else site s ap := hs2 ap
    have h1b : site s2 ap = some a1 := h1
    rw [h1b] at h2
    split_ifs at h2 with hc
    · simp only [Option.some.injEq] at h2
      subst h2
      subst hc
      exact Or.inl ⟨api, hsa, htag, rfl, rfl⟩
    · exact Or.inl ⟨a1, h2.symm, htag, rfl, rfl⟩
  · exact Or.inl ⟨a1, h1, htag, rfl, rfl⟩

/-- C20 (amended): in every state reached from the initial one, whenever the
tag of a site is `Exactly(n)`, the tag was set by the death of a block `bk`
of the site, of size `n`, at a point of the stream where the site had the
tag `Unknown` and no death yet (`bk` is the first block of the site to die);
the site has a folded histogram exactly when `bk` carried a histogram when it
died; and a folded histogram that is present has `n` entries. -/
theorem exactly_tag_histogram (evs : List Event) (s : State)
    (hrun : run init_State evs = some s) (ap : Nat) (a : APInfo)
    (hsite : site s ap = some a) (htag : a.xsize_tag = XSizeTag.Exactly) :
    (∀ f, a.histo = some f → f.length = a.xsize) ∧
    ∃ pre post s0 bk a0, evs = pre ++ Event.free bk.payload :: post ∧
      run init_State pre = some s0 ∧ bk ∈ live_blocks s0 ∧ bk.ap = ap ∧
      site s0 ap = some a0 ∧ a0.xsize_tag = XSizeTag.Unknown ∧ a0.deaths = 0 ∧
      a.xsize = bk.req_szB ∧ a.histo.isSome = bk.histoB.isSome := by
  refine ⟨fun f hf => (run_histo_shape evs s hrun ap a hsite f hf).2, ?_⟩
  induction evs using List.reverseRecOn generalizing s a with
  | nil =>
    simp only [run, Option.some.injEq] at hrun
    subst hrun
    simp [site, init_State, lookup_site_nil] at hsite
  | append_singleton es e ih =>
    rw [run_append] at hrun
    cases hr0 : run init_State es with
    | none => rw [hr0] at hrun; simp at hrun
    | some s0 =>
      rw [hr0] at hrun
      have hstep : step s0 e = some s := by
        have hrun2 : run s0 [e] = some s := hrun
        simp only [run] at hrun2
        cases hs : step s0 e with
        | none => rw [hs] at hrun2; simp at hrun2
        | some s2 =>
          rw [hs] at hrun2
          simpa using hrun2
      rcases step_exactly_cases s0 s e hstep ap a hsite htag with
        ⟨a', c1, c2, c3, c4⟩ | ⟨a', bk, c1, c2, c3, c4, c5, c6, c7⟩
      · obtain ⟨pre, post, t0, bk, a0, k1, k2, k3, k4, k5, k6, k7, k8, k9⟩ :=
          ih s0 hr0 a' c1 c2
        refine ⟨pre, post ++ [e], t0, bk, a0, ?_, k2, k3, k4, k5, k6, k7, ?_, ?_⟩
        · rw [k1]; simp
        · rw [c3, k8]
        · rw [c4, k9]
      · have hempty : ∀ (ap : Nat) (a : APInfo), site init_State ap = some a →
            (a.xsize_tag = XSizeTag.Unknown → a.xsize = 0 ∧ a.deaths = 0 ∧ a.histo = none) ∧
            (a.xsize_tag ≠ XSizeTag.Unknown → 1 ≤ a.deaths) := by
          intro ap a h
          simp [site, init_State, lookup_site_nil] at h
        have hd := ((run_tags es init_State s0 hr0 hempty ap a' c1).1 c2).2.1
        exact ⟨es, [], s0, bk, a', by rw [c3], hr0, c4, c5, c1, c2, hd, c6, c7⟩

theorem exactly_tag_histogram_witness :
    run init_State [Event.alloc 7 1000 8, Event.alloc 7 2000 16, Event.free 1000]
      = some one_death_State ∧
    ((site one_death_State 7).map (fun a => (a.xsize_tag, a.xsize, a.histo)))
      = some (XSizeTag.Exactly, 8, some [0, 0, 0, 0, 0, 0, 0, 0]) ∧
    ∃ pre post s0 bk a0,
      [Event.alloc 7 1000 8, Event.alloc 7 2000 16, Event.free 1000]
        = pre ++ Event.free bk.payload :: post ∧
      run init_State pre = some s0 ∧ bk ∈ live_blocks s0 ∧ bk.ap = 7 ∧
      site s0 7 = some a0 ∧ a0.xsize_tag = XSizeTag.Unknown ∧ a0.deaths = 0 ∧
      ((site one_death_State 7).getD (new_APInfo 0)).xsize = bk.req_szB ∧
      ((site one_death_State 7).getD (new_APInfo 0)).histo.isSome = bk.histoB.isSome :=
  ⟨by decide, by decide,
    (exactly_tag_histogram [Event.alloc 7 1000 8, Event.alloc 7 2000 16, Event.free 1000]
      one_death_State (by decide) 7 ((site one_death_State 7).getD (new_APInfo 0))
      (by decide) (by decide)).2⟩

end Dhat
